import Mathlib

/-!
Verification of `pkg/container/pmap.go`: a persistent ordered map implemented
as a randomized treap with two-level reference counting (nodes and shared
payloads) and a client-supplied release callback fired when a payload's
reference count reaches zero.

The development has two layers.

* `PM` is the purely functional shadow of the treap algorithms: the Go
  functions `split`, `merge`, `union`, `Get`, `Delete`, … with all reference
  counting erased.  Trees are inductive values; the random weight drawn by
  `newNodeWithRef` becomes an explicit argument.

* `HM` is a faithful heap model.  Nodes and payloads live in flat stores
  addressed by allocation index, carry integer reference counts, and the
  recursive Go functions become fuel-indexed state transformers that mutate
  the stores exactly where the Go code does (`atomic.Add`, field assignment,
  payload clearing).  The release callback is modelled by an event log: firing
  `release(key, value)` appends `(pid, key, value)`.  Payloads additionally
  carry ghost fields (`key`, `gValue`, `gHadRelease`) recording their creation
  data, and nodes carry a ghost `gSrc` field recording which node they were
  shallow-cloned from; the ghost fields are written at creation and never read
  by the modelled code.

Keys use a linear order, matching a client comparator that is a strict weak
order whose derived equivalence is equality.  Weights are modelled as `Nat`
(the Go code only compares them), and reference counters as `Int` (the Go
`int32` counters never approach overflow while the counting invariant holds).
-/

set_option linter.unusedSectionVars false
set_option linter.unusedVariables false

namespace PM

/-- Purely functional treap: the `mapNode` structure of the source with the
reference counts erased.  `node left key value weight right`. -/
inductive PTree (K V : Type) where
  | nil : PTree K V
  | node (left : PTree K V) (key : K) (value : V) (weight : Nat) (right : PTree K V) : PTree K V
deriving Repr, DecidableEq

variable {K V : Type}

/-- Number of bindings in a tree. -/
def size : PTree K V → Nat
  | .nil => 0
  | .node l _ _ _ r => size l + size r + 1

/-- Height of a tree. -/
def depth : PTree K V → Nat
  | .nil => 0
  | .node l _ _ _ r => max (depth l) (depth r) + 1

variable [LinearOrder K]

/-- The descent of `PMap.Get`: go left when `key.Less(n.key)`, right when
`n.key.Less(key)`, otherwise the entry is found. -/
def lookup : PTree K V → K → Option V
  | .nil, _ => none
  | .node l nk nv _ r, k =>
    if k < nk then lookup l k
    else if nk < k then lookup r k
    else some nv

theorem lookup_node (l : PTree K V) (nk : K) (nv : V) (nw : Nat) (r : PTree K V)
    (k : K) :
    lookup (.node l nk nv nw r) k =
      if k < nk then lookup l k else if nk < k then lookup r k else some nv := rfl

/-- `PMap.Get` itself: on a miss the Go named return values deliver the zero
value of `V` and `false`. -/
def get [Inhabited V] : PTree K V → K → V × Bool
  | .nil, _ => (default, false)
  | .node l nk nv _ r, k =>
    if k < nk then get l k
    else if nk < k then get r k
    else (nv, true)

/-- In-order traversal, the sequence `Range` visits. -/
def toList : PTree K V → List (K × V)
  | .nil => []
  | .node l nk nv _ r => toList l ++ (nk, nv) :: toList r

/-- The `split` of the source with reference counting erased.  The `mid`
result is the content of the cloned middle node (its children are `nil` in the
source as well).  When `requireMid` is set and the key is absent, all three
results are empty (the short-circuit return of the source). -/
def split : PTree K V → K → Bool → PTree K V × Option (K × V × Nat) × PTree K V
  | .nil, _, _ => (.nil, none, .nil)
  | .node tl nk nv nw tr, key, rm =>
    if nk < key then
      let p := split tr key rm
      if rm && p.2.1.isNone then (.nil, none, .nil)
      else (.node tl nk nv nw p.1, p.2.1, p.2.2)
    else if key < nk then
      let p := split tl key rm
      if rm && p.2.1.isNone then (.nil, none, .nil)
      else (p.1, p.2.1, .node p.2.2 nk nv nw tr)
    else (tl, some (nk, nv, nw), tr)

theorem split_size_left (t : PTree K V) (k : K) (rm : Bool) :
    size (split t k rm).1 ≤ size t := by
  induction t with
  | nil => simp [split, size]
  | node tl nk nv nw tr ihl ihr =>
    simp only [split]
    split
    · split
      · simp [size]
      · simp only [size]; omega
    · split
      · split
        · simp [size]
        · dsimp only; simp only [size]; omega
      · simp only [size]; omega

theorem split_size_right (t : PTree K V) (k : K) (rm : Bool) :
    size (split t k rm).2.2 ≤ size t := by
  induction t with
  | nil => simp [split, size]
  | node tl nk nv nw tr ihl ihr =>
    simp only [split]
    split
    · split
      · simp [size]
      · dsimp only; simp only [size]; omega
    · split
      · split
        · simp [size]
        · dsimp only; simp only [size]; omega
      · simp only [size]; omega

theorem split_depth_left (t : PTree K V) (k : K) (rm : Bool) :
    depth (split t k rm).1 ≤ depth t := by
  induction t with
  | nil => simp [split, depth]
  | node tl nk nv nw tr ihl ihr =>
    simp only [split]
    split
    · split
      · simp [depth]
      · simp only [depth]; omega
    · split
      · split
        · simp [depth]
        · dsimp only; simp only [depth]; omega
      · simp only [depth]; omega

theorem split_depth_right (t : PTree K V) (k : K) (rm : Bool) :
    depth (split t k rm).2.2 ≤ depth t := by
  induction t with
  | nil => simp [split, depth]
  | node tl nk nv nw tr ihl ihr =>
    simp only [split]
    split
    · split
      · simp [depth]
      · dsimp only; simp only [depth]; omega
    · split
      · split
        · simp [depth]
        · dsimp only; simp only [depth]; omega
      · simp only [depth]; omega

/-- The `merge` of the source: the heavier root wins, preserving the heap
order on weights. -/
def merge : PTree K V → PTree K V → PTree K V
  | .nil, r => r
  | .node ll lk lv lw lr, .nil => .node ll lk lv lw lr
  | .node ll lk lv lw lr, .node rl rk rv rw rr =>
    if rw < lw then
      .node ll lk lv lw (merge lr (.node rl rk rv rw rr))
    else
      .node (merge (.node ll lk lv lw lr) rl) rk rv rw rr
termination_by l r => size l + size r
decreasing_by
  · simp only [size]; omega
  · simp only [size]; omega

/-- The `union` of the source.  When the first root is lighter the source
swaps the two trees and flips `overwrite`; both symmetric bodies are written
out here because the model has no mutable locals. -/
def union : PTree K V → PTree K V → Bool → PTree K V
  | .nil, second, _ => second
  | .node fl fk fv fw fr, .nil, _ => .node fl fk fv fw fr
  | .node fl fk fv fw fr, .node sl sk sv sw sr, ov =>
    if fw < sw then
      -- swapped: `second` becomes the primary tree and `overwrite` flips
      let p := split (.node fl fk fv fw fr) sk false
      let kv : K × V :=
        match !ov, p.2.1 with
        | true, some (mk, mv, _) => (mk, mv)
        | _, _ => (sk, sv)
      .node (union sl p.1 (!ov)) kv.1 kv.2 sw (union sr p.2.2 (!ov))
    else
      let p := split (.node sl sk sv sw sr) fk false
      let kv : K × V :=
        match ov, p.2.1 with
        | true, some (mk, mv, _) => (mk, mv)
        | _, _ => (fk, fv)
      .node (union fl p.1 ov) kv.1 kv.2 fw (union fr p.2.2 ov)
termination_by f s _ => size f + size s
decreasing_by
  · have h1 := split_size_left (K := K) (V := V) (.node fl fk fv fw fr) sk false
    simp only [size] at h1 ⊢; omega
  · have h1 := split_size_right (K := K) (V := V) (.node fl fk fv fw fr) sk false
    simp only [size] at h1 ⊢; omega
  · have h1 := split_size_left (K := K) (V := V) (.node sl sk sv sw sr) fk false
    simp only [size] at h1 ⊢; omega
  · have h1 := split_size_right (K := K) (V := V) (.node sl sk sv sw sr) fk false
    simp only [size] at h1 ⊢; omega

/-- `Set` / `SetWithRelease`: union of the old root with a fresh singleton,
`overwrite` set.  `w` is the weight `rand.Uint64()` drew for the new node. -/
def set (t : PTree K V) (k : K) (v : V) (w : Nat) : PTree K V :=
  union t (.node .nil k v w .nil) true

/-- `SetAll`: union with the other map's tree, `overwrite` set. -/
def setAll (t other : PTree K V) : PTree K V :=
  union t other true

/-- `Delete`: require-mid split, silently keep the old tree when the key is
absent, otherwise merge the two outer parts. -/
def delete (t : PTree K V) (k : K) : PTree K V :=
  let p := split t k true
  match p.2.1 with
  | none => t
  | some _ => merge p.1 p.2.2

/-- All keys of the tree satisfy `p`. -/
def allKeys (p : K → Prop) : PTree K V → Prop
  | .nil => True
  | .node l k _ _ r => allKeys p l ∧ p k ∧ allKeys p r

/-- The binary-search-tree invariant: left keys below, right keys above. -/
def BST : PTree K V → Prop
  | .nil => True
  | .node l k _ _ r => BST l ∧ BST r ∧ allKeys (· < k) l ∧ allKeys (k < ·) r

/-- All weights of the tree are at most `w`. -/
def wle (w : Nat) : PTree K V → Prop
  | .nil => True
  | .node l _ _ w2 r => w2 ≤ w ∧ wle w l ∧ wle w r

/-- The heap invariant of the treap: each node's weight dominates its
subtrees. -/
def HeapW : PTree K V → Prop
  | .nil => True
  | .node l _ _ w r => HeapW l ∧ HeapW r ∧ wle w l ∧ wle w r

theorem allKeys_mono {p q : K → Prop} (h : ∀ x, p x → q x) :
    ∀ {t : PTree K V}, allKeys p t → allKeys q t
  | .nil, _ => trivial
  | .node l k v w r, ⟨hl, hk, hr⟩ =>
    ⟨allKeys_mono h hl, h k hk, allKeys_mono h hr⟩

theorem wle_mono {w w2 : Nat} (h : w ≤ w2) :
    ∀ {t : PTree K V}, wle w t → wle w2 t
  | .nil, _ => trivial
  | .node l _ _ _ r, ⟨hw, hl, hr⟩ =>
    ⟨le_trans hw h, wle_mono h hl, wle_mono h hr⟩

/-- A key the descent finds satisfies any predicate that all keys satisfy
(the found node's key is equivalent, hence equal, to the searched key). -/
theorem lookup_isSome_imp {p : K → Prop} :
    ∀ {t : PTree K V}, allKeys p t → ∀ {k : K}, (lookup t k).isSome → p k := by
  intro t
  induction t with
  | nil => intro _ k h; simp [lookup] at h
  | node l nk nv nw r ihl ihr =>
    intro hall k h
    simp only [lookup] at h
    rcases hall with ⟨hl, hk, hr⟩
    by_cases h1 : k < nk
    · exact ihl hl (by simpa [h1] using h)
    · by_cases h2 : nk < k
      · exact ihr hr (by simpa [h1, h2] using h)
      · have : k = nk := le_antisymm (not_lt.mp h2) (not_lt.mp h1)
        exact this ▸ hk

theorem lookup_eq_none_of_allKeys {p : K → Prop} {t : PTree K V} {k : K}
    (hall : allKeys p t) (hk : ¬ p k) : lookup t k = none := by
  by_contra h
  exact hk (lookup_isSome_imp hall (Option.isSome_iff_ne_none.mpr h))

theorem split_allKeys {p : K → Prop} {t : PTree K V} (k : K) (rm : Bool)
    (h : allKeys p t) :
    allKeys p (split t k rm).1 ∧ allKeys p (split t k rm).2.2 ∧
      ∀ mk mv mw, (split t k rm).2.1 = some (mk, mv, mw) → p mk := by
  induction t with
  | nil => simp [split, allKeys]
  | node tl nk nv nw tr ihl ihr =>
    rcases h with ⟨hl, hk, hr⟩
    simp only [split]
    split
    · split
      · simp [allKeys]
      · rcases ihr hr with ⟨h1, h2, h3⟩
        exact ⟨⟨hl, hk, h1⟩, h2, h3⟩
    · split
      · split
        · simp [allKeys]
        · rcases ihl hl with ⟨h1, h2, h3⟩
          exact ⟨h1, ⟨h2, hk, hr⟩, h3⟩
      · exact ⟨hl, hr, by intro mk mv mw hm; cases hm; exact hk⟩

theorem split_wle {w : Nat} {t : PTree K V} (k : K) (rm : Bool)
    (h : wle w t) :
    wle w (split t k rm).1 ∧ wle w (split t k rm).2.2 ∧
      ∀ mk mv mw, (split t k rm).2.1 = some (mk, mv, mw) → mw ≤ w := by
  induction t with
  | nil => simp [split, wle]
  | node tl nk nv nw tr ihl ihr =>
    rcases h with ⟨hw, hl, hr⟩
    simp only [split]
    split
    · split
      · simp [wle]
      · rcases ihr hr with ⟨h1, h2, h3⟩
        exact ⟨⟨hw, hl, h1⟩, h2, h3⟩
    · split
      · split
        · simp [wle]
        · rcases ihl hl with ⟨h1, h2, h3⟩
          exact ⟨h1, ⟨hw, h2, hr⟩, h3⟩
      · exact ⟨hl, hr, by intro mk mv mw hm; cases hm; exact hw⟩

theorem split_heapw {t : PTree K V} (k : K) (rm : Bool)
    (h : HeapW t) :
    HeapW (split t k rm).1 ∧ HeapW (split t k rm).2.2 := by
  induction t with
  | nil => simp [split, HeapW]
  | node tl nk nv nw tr ihl ihr =>
    rcases h with ⟨hhl, hhr, hwl, hwr⟩
    simp only [split]
    split
    · split
      · simp [HeapW]
      · rcases ihr hhr with ⟨h1, h2⟩
        exact ⟨⟨hhl, h1, hwl, (split_wle k rm hwr).1⟩, h2⟩
    · split
      · split
        · simp [HeapW]
        · rcases ihl hhl with ⟨h1, h2⟩
          exact ⟨h1, ⟨h2, hhr, (split_wle k rm hwl).2.1, hwr⟩⟩
      · exact ⟨hhl, hhr⟩

theorem split_bounds {t : PTree K V} (k : K) (rm : Bool)
    (h : BST t) :
    allKeys (· < k) (split t k rm).1 ∧ allKeys (k < ·) (split t k rm).2.2 ∧
      ∀ mk mv mw, (split t k rm).2.1 = some (mk, mv, mw) → mk = k := by
  induction t with
  | nil => simp [split, allKeys]
  | node tl nk nv nw tr ihl ihr =>
    rcases h with ⟨hl, hr, hal, har⟩
    simp only [split]
    split
    · rename_i hnk
      split
      · simp [allKeys]
      · rcases ihr hr with ⟨h1, h2, h3⟩
        refine ⟨⟨allKeys_mono (fun x hx => lt_trans hx hnk) hal, hnk, h1⟩, h2, h3⟩
    · rename_i hnk
      split
      · rename_i hk
        split
        · simp [allKeys]
        · rcases ihl hl with ⟨h1, h2, h3⟩
          refine ⟨h1, ⟨h2, hk, allKeys_mono (fun x hx => lt_trans hk hx) har⟩, h3⟩
      · rename_i hk
        have hek : nk = k := le_antisymm (not_lt.mp hk) (not_lt.mp hnk)
        subst hek
        exact ⟨hal, har, by intro mk mv mw hm; cases hm; rfl⟩

theorem split_bst {t : PTree K V} (k : K) (rm : Bool)
    (h : BST t) :
    BST (split t k rm).1 ∧ BST (split t k rm).2.2 := by
  induction t with
  | nil => simp [split, BST]
  | node tl nk nv nw tr ihl ihr =>
    rcases h with ⟨hl, hr, hal, har⟩
    simp only [split]
    split
    · split
      · simp [BST]
      · rcases ihr hr with ⟨h1, h2⟩
        exact ⟨⟨hl, h1, hal, (split_allKeys k rm har).1⟩, h2⟩
    · split
      · split
        · simp [BST]
        · rcases ihl hl with ⟨h1, h2⟩
          exact ⟨h1, ⟨h2, hr, (split_allKeys k rm hal).2.1, har⟩⟩
      · exact ⟨hl, hr⟩

/-- First-some choice on options; the shape `Get` takes after a union. -/
def pick (a b : Option V) : Option V :=
  match a with
  | some v => some v
  | none => b

theorem get_eq_lookup [Inhabited V] (t : PTree K V) (k : K) :
    get t k = match lookup t k with
              | some v => (v, true)
              | none => ((default : V), false) := by
  induction t with
  | nil => simp [get, lookup]
  | node l nk nv nw r ihl ihr =>
    simp only [get, lookup]
    split
    · exact ihl
    · split
      · exact ihr
      · rfl

/-- Without `requireMid`, the middle result is found exactly when the
descent finds the key. -/
theorem split_mid_isSome (t : PTree K V) (k : K) :
    (split t k false).2.1.isSome = (lookup t k).isSome := by
  induction t with
  | nil => simp [split, lookup]
  | node tl nk nv nw tr ihl ihr =>
    simp only [split, lookup, Bool.false_and, if_neg (by simp : ¬(false = true))]
    by_cases h1 : nk < k
    · have h2 : ¬ k < nk := not_lt.mpr (le_of_lt h1)
      simp [h1, h2, ihr]
    · by_cases h2 : k < nk
      · simp [h1, h2, ihl]
      · simp [h1, h2]

theorem split_mid_some (t : PTree K V) (k : K) {mk : K} {mv : V} {mw : Nat}
    (h : (split t k false).2.1 = some (mk, mv, mw)) :
    mk = k ∧ lookup t k = some mv := by
  induction t with
  | nil => simp [split] at h
  | node tl nk nv nw tr ihl ihr =>
    simp only [split, Bool.false_and] at h
    by_cases h1 : nk < k
    · have h2 : ¬ k < nk := not_lt.mpr (le_of_lt h1)
      rw [if_pos h1] at h
      simp only [if_neg (by simp : ¬(false = true))] at h
      rcases ihr h with ⟨ha, hb⟩
      exact ⟨ha, by simp [lookup, h1, h2, hb]⟩
    · by_cases h2 : k < nk
      · rw [if_neg h1, if_pos h2] at h
        simp only [if_neg (by simp : ¬(false = true))] at h
        rcases ihl h with ⟨ha, hb⟩
        exact ⟨ha, by simp [lookup, h1, h2, hb]⟩
      · rw [if_neg h1, if_neg h2] at h
        dsimp only at h
        cases h
        refine ⟨le_antisymm (not_lt.mp h2) (not_lt.mp h1), ?_⟩
        simp [lookup, h1, h2]

/-- When the key is found, the `requireMid` split never short-circuits and
agrees with the plain split. -/
theorem split_true_eq (t : PTree K V) (k : K) (h : (lookup t k).isSome) :
    split t k true = split t k false := by
  induction t with
  | nil => simp [lookup] at h
  | node tl nk nv nw tr ihl ihr =>
    by_cases h1 : nk < k
    · have h2 : ¬ k < nk := not_lt.mpr (le_of_lt h1)
      rw [lookup, if_neg h2, if_pos h1] at h
      have hs : (split tr k false).2.1.isSome := by
        rw [split_mid_isSome]; exact h
      obtain ⟨m, hm⟩ := Option.isSome_iff_exists.mp hs
      simp [split, h1, ihr h, hm]
    · by_cases h2 : k < nk
      · rw [lookup, if_pos h2] at h
        have hs : (split tl k false).2.1.isSome := by
          rw [split_mid_isSome]; exact h
        obtain ⟨m, hm⟩ := Option.isSome_iff_exists.mp hs
        simp [split, h1, h2, ihl h, hm]
      · simp [split, h1, h2]

/-- When the key is absent, the `requireMid` split short-circuits to three
empty results. -/
theorem split_true_none (t : PTree K V) (k : K) (h : lookup t k = none) :
    split t k true = (.nil, none, .nil) := by
  induction t with
  | nil => simp [split]
  | node tl nk nv nw tr ihl ihr =>
    simp only [lookup] at h
    by_cases h1 : nk < k
    · have h2 : ¬ k < nk := not_lt.mpr (le_of_lt h1)
      rw [if_neg h2, if_pos h1] at h
      simp [split, h1, ihr h]
    · by_cases h2 : k < nk
      · rw [if_pos h2] at h
        simp [split, h1, h2, ihl h]
      · rw [if_neg h2, if_neg h1] at h
        simp at h

theorem split_lookup_left {t : PTree K V} (k : K) (hb : BST t) (q : K) :
    lookup (split t k false).1 q = if q < k then lookup t q else none := by
  induction t with
  | nil => simp [split, lookup]
  | node tl nk nv nw tr ihl ihr =>
    rcases hb with ⟨hl, hr, hal, har⟩
    by_cases h1 : nk < k
    · simp only [split, if_pos h1, Bool.false_and, Bool.false_eq_true, if_false]
      simp only [lookup]
      by_cases hq1 : q < nk
      · simp [hq1, lt_trans hq1 h1]
      · by_cases hq2 : nk < q
        · simp [hq1, hq2, ihr hr]
        · have hqe : q = nk := le_antisymm (not_lt.mp hq2) (not_lt.mp hq1)
          subst hqe
          simp [hq1, hq2, h1]
    · by_cases h2 : k < nk
      · simp only [split, if_neg h1, if_pos h2, Bool.false_and, Bool.false_eq_true,
          if_false]
        rw [ihl hl]
        by_cases hq3 : q < k
        · simp [hq3, lookup, lt_trans hq3 h2]
        · simp [hq3]
      · have hke : nk = k := le_antisymm (not_lt.mp h2) (not_lt.mp h1)
        subst hke
        simp only [split, if_neg h1, if_neg h2]
        by_cases hq3 : q < nk
        · simp [hq3, lookup]
        · simp [hq3, lookup_eq_none_of_allKeys hal hq3]

theorem split_lookup_right {t : PTree K V} (k : K) (hb : BST t) (q : K) :
    lookup (split t k false).2.2 q = if k < q then lookup t q else none := by
  induction t with
  | nil => simp [split, lookup]
  | node tl nk nv nw tr ihl ihr =>
    rcases hb with ⟨hl, hr, hal, har⟩
    by_cases h1 : nk < k
    · simp only [split, if_pos h1, Bool.false_and, Bool.false_eq_true, if_false]
      rw [ihr hr]
      by_cases hq3 : k < q
      · have hq1 : ¬ q < nk := not_lt.mpr (le_of_lt (lt_trans h1 hq3))
        simp [hq3, lookup, hq1, lt_trans h1 hq3]
      · simp [hq3]
    · by_cases h2 : k < nk
      · simp only [split, if_neg h1, if_pos h2, Bool.false_and, Bool.false_eq_true,
          if_false]
        simp only [lookup]
        by_cases hq1 : q < nk
        · simp only [if_pos hq1]
          rw [ihl hl]
        · by_cases hq2 : nk < q
          · simp [hq1, hq2, lt_trans h2 hq2, lookup]
          · have hqe : q = nk := le_antisymm (not_lt.mp hq2) (not_lt.mp hq1)
            subst hqe
            simp [hq1, hq2, h2, lookup]
      · have hke : nk = k := le_antisymm (not_lt.mp h2) (not_lt.mp h1)
        subst hke
        simp only [split, if_neg h1, if_neg h2]
        by_cases hq3 : nk < q
        · have hq1 : ¬ q < nk := not_lt.mpr (le_of_lt hq3)
          simp [hq3, lookup, hq1]
        · simp [hq3, lookup_eq_none_of_allKeys har hq3]

theorem pick_none_right (a : Option V) : pick a none = a := by
  cases a <;> rfl

theorem merge_allKeys {p : K → Prop} (l r : PTree K V) :
    allKeys p l → allKeys p r → allKeys p (merge l r) := by
  induction l, r using merge.induct with
  | case1 r => intro _ h; simpa [merge] using h
  | case2 ll lk lv lw lr => intro h _; simpa [merge] using h
  | case3 ll lk lv lw lr rl rk rv rw rr hw ih =>
    intro hl hr
    rw [merge, if_pos hw]
    exact ⟨hl.1, hl.2.1, ih hl.2.2 hr⟩
  | case4 ll lk lv lw lr rl rk rv rw rr hw ih =>
    intro hl hr
    rw [merge, if_neg hw]
    exact ⟨ih hl hr.1, hr.2.1, hr.2.2⟩

theorem merge_wle {w : Nat} (l r : PTree K V) :
    wle w l → wle w r → wle w (merge l r) := by
  induction l, r using merge.induct with
  | case1 r => intro _ h; simpa [merge] using h
  | case2 ll lk lv lw lr => intro h _; simpa [merge] using h
  | case3 ll lk lv lw lr rl rk rv rw rr hw ih =>
    intro hl hr
    rw [merge, if_pos hw]
    exact ⟨hl.1, hl.2.1, ih hl.2.2 hr⟩
  | case4 ll lk lv lw lr rl rk rv rw rr hw ih =>
    intro hl hr
    rw [merge, if_neg hw]
    exact ⟨hr.1, ih hl hr.2.1, hr.2.2⟩

theorem merge_heapw (l r : PTree K V) :
    HeapW l → HeapW r → HeapW (merge l r) := by
  induction l, r using merge.induct with
  | case1 r => intro _ h; simpa [merge] using h
  | case2 ll lk lv lw lr => intro h _; simpa [merge] using h
  | case3 ll lk lv lw lr rl rk rv rw rr hw ih =>
    intro hl hr
    rw [merge, if_pos hw]
    refine ⟨hl.1, ih hl.2.1 hr, hl.2.2.1, ?_⟩
    exact merge_wle _ _ hl.2.2.2 ⟨le_of_lt hw, wle_mono (le_of_lt hw) hr.2.2.1,
      wle_mono (le_of_lt hw) hr.2.2.2⟩
  | case4 ll lk lv lw lr rl rk rv rw rr hw ih =>
    intro hl hr
    rw [merge, if_neg hw]
    refine ⟨ih hl hr.1, hr.2.1, ?_, hr.2.2.2⟩
    exact merge_wle _ _ ⟨not_lt.mp hw, wle_mono (not_lt.mp hw) hl.2.2.1,
      wle_mono (not_lt.mp hw) hl.2.2.2⟩ hr.2.2.1

theorem merge_bst (k0 : K) (l r : PTree K V) :
    BST l → BST r → allKeys (· < k0) l → allKeys (k0 < ·) r →
      BST (merge l r) := by
  induction l, r using merge.induct with
  | case1 r => intro _ h _ _; simpa [merge] using h
  | case2 ll lk lv lw lr => intro h _ _ _; simpa [merge] using h
  | case3 ll lk lv lw lr rl rk rv rw rr hw ih =>
    intro hbl hbr hal har
    rw [merge, if_pos hw]
    refine ⟨hbl.1, ih hbl.2.1 hbr hal.2.2 har, hbl.2.2.1, ?_⟩
    exact merge_allKeys _ _ hbl.2.2.2
      (allKeys_mono (fun x hx => lt_trans hal.2.1 hx) har)
  | case4 ll lk lv lw lr rl rk rv rw rr hw ih =>
    intro hbl hbr hal har
    rw [merge, if_neg hw]
    refine ⟨ih hbl hbr.1 hal har.1, hbr.2.1, ?_, hbr.2.2.2⟩
    exact merge_allKeys _ _
      (allKeys_mono (fun x hx => lt_trans hx har.2.1) hal) hbr.2.2.1

theorem merge_lookup (k0 : K) (q : K) (l r : PTree K V) :
    BST l → BST r → allKeys (· < k0) l → allKeys (k0 < ·) r →
    lookup (merge l r) q =
      if q < k0 then lookup l q else if k0 < q then lookup r q else none := by
  induction l, r using merge.induct with
  | case1 r =>
    intro _ hbr _ har
    rw [merge]
    by_cases hq : q < k0
    · rw [if_pos hq, lookup]
      exact lookup_eq_none_of_allKeys har (fun hc => absurd (lt_trans hc hq) (lt_irrefl k0))
    · by_cases hq2 : k0 < q
      · rw [if_neg hq, if_pos hq2]
      · rw [if_neg hq, if_neg hq2]
        exact lookup_eq_none_of_allKeys har hq2
  | case2 ll lk lv lw lr =>
    intro hbl _ hal _
    rw [merge]
    by_cases hq : q < k0
    · rw [if_pos hq]
    · rw [if_neg hq]
      have h0 : lookup (PTree.node ll lk lv lw lr) q = none :=
        lookup_eq_none_of_allKeys hal hq
      by_cases hq2 : k0 < q
      · rw [if_pos hq2, h0, lookup]
      · rw [if_neg hq2, h0]
  | case3 ll lk lv lw lr rl rk rv rw rr hw ih =>
    intro hbl hbr hal har
    rw [merge, if_pos hw]
    have hlk : lk < k0 := hal.2.1
    simp only [lookup]
    by_cases hq1 : q < lk
    · have hqk : q < k0 := lt_trans hq1 hlk
      simp [hq1, hqk]
    · by_cases hq2 : lk < q
      · rw [if_neg hq1, if_pos hq2, ih hbl.2.1 hbr hal.2.2 har]
        by_cases hqk : q < k0
        · simp [hqk, hq1, hq2]
        · simp [hqk, lookup]
      · have hqe : q = lk := le_antisymm (not_lt.mp hq2) (not_lt.mp hq1)
        subst hqe
        simp [hq1, hq2, hlk]
  | case4 ll lk lv lw lr rl rk rv rw rr hw ih =>
    intro hbl hbr hal har
    rw [merge, if_neg hw]
    have hrk : k0 < rk := har.2.1
    simp only [lookup]
    by_cases hq1 : q < rk
    · rw [if_pos hq1, ih hbl hbr.1 hal har.1]
      by_cases hqk : q < k0
      · simp [hqk, lookup_node]
      · by_cases hqk2 : k0 < q
        · simp [hqk, hqk2, lookup, hq1]
        · simp [hqk, hqk2]
    · by_cases hq2 : rk < q
      · have hqk : ¬ q < k0 := not_lt.mpr (le_of_lt (lt_trans hrk hq2))
        have hqk2 : k0 < q := lt_trans hrk hq2
        simp [hq1, hq2, hqk, hqk2, lookup]
      · have hqe : q = rk := le_antisymm (not_lt.mp hq2) (not_lt.mp hq1)
        subst hqe
        have hqk : ¬ q < k0 := not_lt.mpr (le_of_lt hrk)
        simp [hq1, hq2, hqk, hrk, lookup]

theorem union_allKeys {p : K → Prop} (f s : PTree K V) (ov : Bool) :
    allKeys p f → allKeys p s → allKeys p (union f s ov) := by
  induction f, s, ov using union.induct with
  | case1 s ov => intro _ h; simpa [union] using h
  | case2 fl fk fv fw fr ov => intro h _; simpa [union] using h
  | case3 fl fk fv fw fr sl sk sv sw sr ov hw sp ih1 ih2 =>
    intro hf hs
    unfold sp at ih1 ih2
    rw [union, if_pos hw]
    refine ⟨ih1 hs.1 (split_allKeys sk false hf).1, ?_,
      ih2 hs.2.2 (split_allKeys sk false hf).2.1⟩
    rcases hm : (split (PTree.node fl fk fv fw fr) sk false).2.1 with _ | ⟨mk, mv, mw⟩
    · cases ov <;> simp [hm] <;> exact hs.2.1
    · cases ov <;> simp [hm]
      · exact (split_allKeys sk false hf).2.2 mk mv mw hm
      · exact hs.2.1
  | case4 fl fk fv fw fr sl sk sv sw sr ov hw sp ih1 ih2 =>
    intro hf hs
    unfold sp at ih1 ih2
    rw [union, if_neg hw]
    refine ⟨ih1 hf.1 (split_allKeys fk false hs).1, ?_,
      ih2 hf.2.2 (split_allKeys fk false hs).2.1⟩
    rcases hm : (split (PTree.node sl sk sv sw sr) fk false).2.1 with _ | ⟨mk, mv, mw⟩
    · cases ov <;> simp [hm] <;> exact hf.2.1
    · cases ov <;> simp [hm]
      · exact hf.2.1
      · exact (split_allKeys fk false hs).2.2 mk mv mw hm

theorem union_wle {w : Nat} (f s : PTree K V) (ov : Bool) :
    wle w f → wle w s → wle w (union f s ov) := by
  induction f, s, ov using union.induct with
  | case1 s ov => intro _ h; simpa [union] using h
  | case2 fl fk fv fw fr ov => intro h _; simpa [union] using h
  | case3 fl fk fv fw fr sl sk sv sw sr ov hw sp ih1 ih2 =>
    intro hf hs
    unfold sp at ih1 ih2
    rw [union, if_pos hw]
    exact ⟨hs.1, ih1 hs.2.1 (split_wle sk false hf).1,
      ih2 hs.2.2 (split_wle sk false hf).2.1⟩
  | case4 fl fk fv fw fr sl sk sv sw sr ov hw sp ih1 ih2 =>
    intro hf hs
    unfold sp at ih1 ih2
    rw [union, if_neg hw]
    exact ⟨hf.1, ih1 hf.2.1 (split_wle fk false hs).1,
      ih2 hf.2.2 (split_wle fk false hs).2.1⟩

theorem union_heapw (f s : PTree K V) (ov : Bool) :
    HeapW f → HeapW s → HeapW (union f s ov) := by
  induction f, s, ov using union.induct with
  | case1 s ov => intro _ h; simpa [union] using h
  | case2 fl fk fv fw fr ov => intro h _; simpa [union] using h
  | case3 fl fk fv fw fr sl sk sv sw sr ov hw sp ih1 ih2 =>
    intro hf hs
    unfold sp at ih1 ih2
    rw [union, if_pos hw]
    have hwf : wle sw (PTree.node fl fk fv fw fr) :=
      ⟨le_of_lt hw, wle_mono (le_of_lt hw) hf.2.2.1, wle_mono (le_of_lt hw) hf.2.2.2⟩
    refine ⟨ih1 hs.1 (split_heapw sk false hf).1, ih2 hs.2.1 (split_heapw sk false hf).2,
      ?_, ?_⟩
    · exact union_wle _ _ _ hs.2.2.1 (split_wle sk false hwf).1
    · exact union_wle _ _ _ hs.2.2.2 (split_wle sk false hwf).2.1
  | case4 fl fk fv fw fr sl sk sv sw sr ov hw sp ih1 ih2 =>
    intro hf hs
    unfold sp at ih1 ih2
    rw [union, if_neg hw]
    have hws : wle fw (PTree.node sl sk sv sw sr) :=
      ⟨not_lt.mp hw, wle_mono (not_lt.mp hw) hs.2.2.1, wle_mono (not_lt.mp hw) hs.2.2.2⟩
    refine ⟨ih1 hf.1 (split_heapw fk false hs).1, ih2 hf.2.1 (split_heapw fk false hs).2,
      ?_, ?_⟩
    · exact union_wle _ _ _ hf.2.2.1 (split_wle fk false hws).1
    · exact union_wle _ _ _ hf.2.2.2 (split_wle fk false hws).2.1

theorem union_bst (f s : PTree K V) (ov : Bool) :
    BST f → BST s → BST (union f s ov) := by
  induction f, s, ov using union.induct with
  | case1 s ov => intro _ h; simpa [union] using h
  | case2 fl fk fv fw fr ov => intro h _; simpa [union] using h
  | case3 fl fk fv fw fr sl sk sv sw sr ov hw sp ih1 ih2 =>
    intro hf hs
    unfold sp at ih1 ih2
    rw [union, if_pos hw]
    refine ⟨ih1 hs.1 (split_bst sk false hf).1, ih2 hs.2.1 (split_bst sk false hf).2,
      ?_, ?_⟩
    · rcases hm : (split (PTree.node fl fk fv fw fr) sk false).2.1 with _ | ⟨mk, mv, mw⟩
      · cases ov <;> simp [hm] <;>
          exact union_allKeys _ _ _ hs.2.2.1 (split_bounds sk false hf).1
      · have hmk := (split_bounds sk false hf).2.2 mk mv mw hm
        cases ov <;> simp [hm, hmk] <;>
          exact union_allKeys _ _ _ hs.2.2.1 (split_bounds sk false hf).1
    · rcases hm : (split (PTree.node fl fk fv fw fr) sk false).2.1 with _ | ⟨mk, mv, mw⟩
      · cases ov <;> simp [hm] <;>
          exact union_allKeys _ _ _ hs.2.2.2 (split_bounds sk false hf).2.1
      · have hmk := (split_bounds sk false hf).2.2 mk mv mw hm
        cases ov <;> simp [hm, hmk] <;>
          exact union_allKeys _ _ _ hs.2.2.2 (split_bounds sk false hf).2.1
  | case4 fl fk fv fw fr sl sk sv sw sr ov hw sp ih1 ih2 =>
    intro hf hs
    unfold sp at ih1 ih2
    rw [union, if_neg hw]
    refine ⟨ih1 hf.1 (split_bst fk false hs).1, ih2 hf.2.1 (split_bst fk false hs).2,
      ?_, ?_⟩
    · rcases hm : (split (PTree.node sl sk sv sw sr) fk false).2.1 with _ | ⟨mk, mv, mw⟩
      · cases ov <;> simp [hm] <;>
          exact union_allKeys _ _ _ hf.2.2.1 (split_bounds fk false hs).1
      · have hmk := (split_bounds fk false hs).2.2 mk mv mw hm
        cases ov <;> simp [hm, hmk] <;>
          exact union_allKeys _ _ _ hf.2.2.1 (split_bounds fk false hs).1
    · rcases hm : (split (PTree.node sl sk sv sw sr) fk false).2.1 with _ | ⟨mk, mv, mw⟩
      · cases ov <;> simp [hm] <;>
          exact union_allKeys _ _ _ hf.2.2.2 (split_bounds fk false hs).2.1
      · have hmk := (split_bounds fk false hs).2.2 mk mv mw hm
        cases ov <;> simp [hm, hmk] <;>
          exact union_allKeys _ _ _ hf.2.2.2 (split_bounds fk false hs).2.1

theorem union_depth (f s : PTree K V) (ov : Bool) :
    depth (union f s ov) ≤ depth f + depth s := by
  induction f, s, ov using union.induct with
  | case1 s ov => rw [union]; simp [depth]
  | case2 fl fk fv fw fr ov => rw [union]; simp [depth]
  | case3 fl fk fv fw fr sl sk sv sw sr ov hw sp ih1 ih2 =>
    unfold sp at ih1 ih2
    rw [union, if_pos hw]
    have hdl := split_depth_left (PTree.node fl fk fv fw fr) sk false
    have hdr := split_depth_right (PTree.node fl fk fv fw fr) sk false
    simp only [depth] at ih1 ih2 hdl hdr ⊢
    omega
  | case4 fl fk fv fw fr sl sk sv sw sr ov hw sp ih1 ih2 =>
    unfold sp at ih1 ih2
    rw [union, if_neg hw]
    have hdl := split_depth_left (PTree.node sl sk sv sw sr) fk false
    have hdr := split_depth_right (PTree.node sl sk sv sw sr) fk false
    simp only [depth] at ih1 ih2 hdl hdr ⊢
    omega

/-- Observable effect of `union`: on every key, with `overwrite` set the
second map's binding wins, otherwise the first map's binding wins. -/
theorem union_lookup (q : K) (f s : PTree K V) (ov : Bool) :
    BST f → BST s →
    lookup (union f s ov) q =
      if ov then pick (lookup s q) (lookup f q)
      else pick (lookup f q) (lookup s q) := by
  induction f, s, ov using union.induct with
  | case1 s ov =>
    intro _ _
    rw [union]
    have h0 : lookup (PTree.nil : PTree K V) q = none := rfl
    cases ov <;> cases hx : lookup s q <;> simp [pick, hx, h0]
  | case2 fl fk fv fw fr ov =>
    intro _ _
    rw [union]
    have h0 : lookup (PTree.nil : PTree K V) q = none := rfl
    cases ov <;> cases hx : lookup (PTree.node fl fk fv fw fr) q <;>
      simp [pick, hx, h0]
  | case3 fl fk fv fw fr sl sk sv sw sr ov hw sp ih1 ih2 =>
    intro hf hs
    unfold sp at ih1 ih2
    rw [union, if_pos hw]
    have hL := ih1 hs.1 (split_bst sk false hf).1
    have hR := ih2 hs.2.1 (split_bst sk false hf).2
    have hpl := split_lookup_left (t := PTree.node fl fk fv fw fr) sk hf q
    have hpr := split_lookup_right (t := PTree.node fl fk fv fw fr) sk hf q
    rcases hm : (split (PTree.node fl fk fv fw fr) sk false).2.1 with _ | ⟨mk, mv, mw⟩
    · have hfn : lookup (PTree.node fl fk fv fw fr) sk = none := by
        have hmi := split_mid_isSome (PTree.node fl fk fv fw fr) sk
        rw [hm] at hmi
        cases hx : lookup (PTree.node fl fk fv fw fr) sk
        · rfl
        · rw [hx] at hmi; simp at hmi
      cases ov
      all_goals simp only [hm, Bool.not_false, Bool.not_true] at hL hR ⊢
      all_goals simp only [Bool.false_eq_true, if_false, if_true] at hL hR ⊢
      all_goals rcases lt_trichotomy q sk with hq | hq | hq
      · have hsn : lookup (PTree.node sl sk sv sw sr) q = lookup sl q := by
          rw [lookup_node, if_pos hq]
        rw [lookup_node, if_pos hq, hL, hpl, if_pos hq, hsn]
      · subst hq
        have hsn : lookup (PTree.node sl q sv sw sr) q = some sv := by
          rw [lookup_node, if_neg (lt_irrefl q), if_neg (lt_irrefl q)]
        rw [lookup_node, if_neg (lt_irrefl q), if_neg (lt_irrefl q), hsn, hfn]
        rfl
      · have h1 : ¬ q < sk := not_lt.mpr (le_of_lt hq)
        have hsn : lookup (PTree.node sl sk sv sw sr) q = lookup sr q := by
          rw [lookup_node, if_neg h1, if_pos hq]
        rw [lookup_node, if_neg h1, if_pos hq, hR, hpr, if_pos hq, hsn]
      · have hsn : lookup (PTree.node sl sk sv sw sr) q = lookup sl q := by
          rw [lookup_node, if_pos hq]
        rw [lookup_node, if_pos hq, hL, hpl, if_pos hq, hsn]
      · subst hq
        have hsn : lookup (PTree.node sl q sv sw sr) q = some sv := by
          rw [lookup_node, if_neg (lt_irrefl q), if_neg (lt_irrefl q)]
        rw [lookup_node, if_neg (lt_irrefl q), if_neg (lt_irrefl q), hsn]
        rfl
      · have h1 : ¬ q < sk := not_lt.mpr (le_of_lt hq)
        have hsn : lookup (PTree.node sl sk sv sw sr) q = lookup sr q := by
          rw [lookup_node, if_neg h1, if_pos hq]
        rw [lookup_node, if_neg h1, if_pos hq, hR, hpr, if_pos hq, hsn]
    · have hmk := (split_bounds sk false hf).2.2 mk mv mw hm
      subst hmk
      have hfs : lookup (PTree.node fl fk fv fw fr) mk = some mv :=
        (split_mid_some (PTree.node fl fk fv fw fr) mk hm).2
      cases ov
      all_goals simp only [hm, Bool.not_false, Bool.not_true] at hL hR ⊢
      all_goals simp only [Bool.false_eq_true, if_false, if_true] at hL hR ⊢
      all_goals rcases lt_trichotomy q mk with hq | hq | hq
      · have hsn : lookup (PTree.node sl mk sv sw sr) q = lookup sl q := by
          rw [lookup_node, if_pos hq]
        rw [lookup_node, if_pos hq, hL, hpl, if_pos hq, hsn]
      · subst hq
        rw [lookup_node, if_neg (lt_irrefl q), if_neg (lt_irrefl q), hfs]
        rfl
      · have h1 : ¬ q < mk := not_lt.mpr (le_of_lt hq)
        have hsn : lookup (PTree.node sl mk sv sw sr) q = lookup sr q := by
          rw [lookup_node, if_neg h1, if_pos hq]
        rw [lookup_node, if_neg h1, if_pos hq, hR, hpr, if_pos hq, hsn]
      · have hsn : lookup (PTree.node sl mk sv sw sr) q = lookup sl q := by
          rw [lookup_node, if_pos hq]
        rw [lookup_node, if_pos hq, hL, hpl, if_pos hq, hsn]
      · subst hq
        have hsn : lookup (PTree.node sl q sv sw sr) q = some sv := by
          rw [lookup_node, if_neg (lt_irrefl q), if_neg (lt_irrefl q)]
        rw [lookup_node, if_neg (lt_irrefl q), if_neg (lt_irrefl q), hsn]
        rfl
      · have h1 : ¬ q < mk := not_lt.mpr (le_of_lt hq)
        have hsn : lookup (PTree.node sl mk sv sw sr) q = lookup sr q := by
          rw [lookup_node, if_neg h1, if_pos hq]
        rw [lookup_node, if_neg h1, if_pos hq, hR, hpr, if_pos hq, hsn]
  | case4 fl fk fv fw fr sl sk sv sw sr ov hw sp ih1 ih2 =>
    intro hf hs
    unfold sp at ih1 ih2
    rw [union, if_neg hw]
    have hL := ih1 hf.1 (split_bst fk false hs).1
    have hR := ih2 hf.2.1 (split_bst fk false hs).2
    have hpl := split_lookup_left (t := PTree.node sl sk sv sw sr) fk hs q
    have hpr := split_lookup_right (t := PTree.node sl sk sv sw sr) fk hs q
    rcases hm : (split (PTree.node sl sk sv sw sr) fk false).2.1 with _ | ⟨mk, mv, mw⟩
    · have hsn0 : lookup (PTree.node sl sk sv sw sr) fk = none := by
        have hmi := split_mid_isSome (PTree.node sl sk sv sw sr) fk
        rw [hm] at hmi
        cases hx : lookup (PTree.node sl sk sv sw sr) fk
        · rfl
        · rw [hx] at hmi; simp at hmi
      cases ov
      all_goals simp only [hm, Bool.not_false, Bool.not_true] at hL hR ⊢
      all_goals simp only [Bool.false_eq_true, if_false, if_true] at hL hR ⊢
      all_goals rcases lt_trichotomy q fk with hq | hq | hq
      · have hfn : lookup (PTree.node fl fk fv fw fr) q = lookup fl q := by
          rw [lookup_node, if_pos hq]
        rw [lookup_node, if_pos hq, hL, hpl, if_pos hq, hfn]
      · subst hq
        have hfn : lookup (PTree.node fl q fv fw fr) q = some fv := by
          rw [lookup_node, if_neg (lt_irrefl q), if_neg (lt_irrefl q)]
        rw [lookup_node, if_neg (lt_irrefl q), if_neg (lt_irrefl q), hfn, hsn0]
        rfl
      · have h1 : ¬ q < fk := not_lt.mpr (le_of_lt hq)
        have hfn : lookup (PTree.node fl fk fv fw fr) q = lookup fr q := by
          rw [lookup_node, if_neg h1, if_pos hq]
        rw [lookup_node, if_neg h1, if_pos hq, hR, hpr, if_pos hq, hfn]
      · have hfn : lookup (PTree.node fl fk fv fw fr) q = lookup fl q := by
          rw [lookup_node, if_pos hq]
        rw [lookup_node, if_pos hq, hL, hpl, if_pos hq, hfn]
      · subst hq
        have hfn : lookup (PTree.node fl q fv fw fr) q = some fv := by
          rw [lookup_node, if_neg (lt_irrefl q), if_neg (lt_irrefl q)]
        rw [lookup_node, if_neg (lt_irrefl q), if_neg (lt_irrefl q), hfn, hsn0]
        rfl
      · have h1 : ¬ q < fk := not_lt.mpr (le_of_lt hq)
        have hfn : lookup (PTree.node fl fk fv fw fr) q = lookup fr q := by
          rw [lookup_node, if_neg h1, if_pos hq]
        rw [lookup_node, if_neg h1, if_pos hq, hR, hpr, if_pos hq, hfn]
    · have hmk := (split_bounds fk false hs).2.2 mk mv mw hm
      subst hmk
      have hss : lookup (PTree.node sl sk sv sw sr) mk = some mv :=
        (split_mid_some (PTree.node sl sk sv sw sr) mk hm).2
      cases ov
      all_goals simp only [hm, Bool.not_false, Bool.not_true] at hL hR ⊢
      all_goals simp only [Bool.false_eq_true, if_false, if_true] at hL hR ⊢
      all_goals rcases lt_trichotomy q mk with hq | hq | hq
      · have hfn : lookup (PTree.node fl mk fv fw fr) q = lookup fl q := by
          rw [lookup_node, if_pos hq]
        rw [lookup_node, if_pos hq, hL, hpl, if_pos hq, hfn]
      · subst hq
        have hfn : lookup (PTree.node fl q fv fw fr) q = some fv := by
          rw [lookup_node, if_neg (lt_irrefl q), if_neg (lt_irrefl q)]
        rw [lookup_node, if_neg (lt_irrefl q), if_neg (lt_irrefl q), hfn, hss]
        rfl
      · have h1 : ¬ q < mk := not_lt.mpr (le_of_lt hq)
        have hfn : lookup (PTree.node fl mk fv fw fr) q = lookup fr q := by
          rw [lookup_node, if_neg h1, if_pos hq]
        rw [lookup_node, if_neg h1, if_pos hq, hR, hpr, if_pos hq, hfn]
      · have hfn : lookup (PTree.node fl mk fv fw fr) q = lookup fl q := by
          rw [lookup_node, if_pos hq]
        rw [lookup_node, if_pos hq, hL, hpl, if_pos hq, hfn]
      · subst hq
        rw [lookup_node, if_neg (lt_irrefl q), if_neg (lt_irrefl q), hss]
        rfl
      · have h1 : ¬ q < mk := not_lt.mpr (le_of_lt hq)
        have hfn : lookup (PTree.node fl mk fv fw fr) q = lookup fr q := by
          rw [lookup_node, if_neg h1, if_pos hq]
        rw [lookup_node, if_neg h1, if_pos hq, hR, hpr, if_pos hq, hfn]

theorem merge_depth (l r : PTree K V) :
    depth (merge l r) ≤ depth l + depth r := by
  induction l, r using merge.induct with
  | case1 r => rw [merge]; simp [depth]
  | case2 ll lk lv lw lr => rw [merge]; simp [depth]
  | case3 ll lk lv lw lr rl rk rv rw rr hw ih =>
    rw [merge, if_pos hw]
    simp only [depth] at ih ⊢
    omega
  | case4 ll lk lv lw lr rl rk rv rw rr hw ih =>
    rw [merge, if_neg hw]
    simp only [depth] at ih ⊢
    omega

theorem bst_singleton (k : K) (v : V) (w : Nat) :
    BST (PTree.node .nil k v w .nil : PTree K V) :=
  ⟨trivial, trivial, trivial, trivial⟩

theorem heapw_singleton (k : K) (v : V) (w : Nat) :
    HeapW (PTree.node .nil k v w .nil : PTree K V) :=
  ⟨trivial, trivial, trivial, trivial⟩

theorem bst_set (t : PTree K V) (k : K) (v : V) (w : Nat) (h : BST t) :
    BST (set t k v w) :=
  union_bst _ _ _ h (bst_singleton k v w)

theorem heapw_set (t : PTree K V) (k : K) (v : V) (w : Nat) (h : HeapW t) :
    HeapW (set t k v w) :=
  union_heapw _ _ _ h (heapw_singleton k v w)

/-- `Set(k, v); Get(k)` sees `v`, whatever the previous contents. -/
theorem lookup_set (t : PTree K V) (k : K) (v : V) (w : Nat) (h : BST t) :
    lookup (set t k v w) k = some v := by
  rw [set, union_lookup k t _ true h (bst_singleton k v w)]
  simp [lookup, pick, lt_irrefl]

/-- `Set` leaves all other keys untouched. -/
theorem lookup_set_other (t : PTree K V) (k : K) (v : V) (w : Nat) (q : K)
    (h : BST t) (hne : q ≠ k) :
    lookup (set t k v w) q = lookup t q := by
  rw [set, union_lookup q t _ true h (bst_singleton k v w)]
  rcases lt_trichotomy q k with hq | hq | hq
  · simp [lookup, hq, pick]
  · exact absurd hq hne
  · simp [lookup, hq, not_lt.mpr (le_of_lt hq), pick]

/-- `Delete` of an absent key returns the very same tree. -/
theorem delete_absent (t : PTree K V) (k : K) (h : lookup t k = none) :
    delete t k = t := by
  simp [delete, split_true_none t k h]

/-- After `Delete(k)`, `Get(k)` reports absence. -/
theorem lookup_delete_self (t : PTree K V) (k : K) (h : BST t) :
    lookup (delete t k) k = none := by
  cases hx : lookup t k with
  | none => rw [delete_absent t k hx, hx]
  | some v =>
    have hiso : (lookup t k).isSome := by rw [hx]; rfl
    have hms : (split t k false).2.1.isSome := by rw [split_mid_isSome]; exact hiso
    obtain ⟨⟨mk, mv, mw⟩, hm⟩ := Option.isSome_iff_exists.mp hms
    simp only [delete, split_true_eq t k hiso, hm]
    rw [merge_lookup k k _ _ (split_bst k false h).1 (split_bst k false h).2
        (split_bounds k false h).1 (split_bounds k false h).2.1]
    simp [lt_irrefl]

/-- `Delete(k)` leaves all other keys untouched. -/
theorem lookup_delete_other (t : PTree K V) (k q : K) (h : BST t) (hne : q ≠ k) :
    lookup (delete t k) q = lookup t q := by
  cases hx : lookup t k with
  | none => rw [delete_absent t k hx]
  | some v =>
    have hiso : (lookup t k).isSome := by rw [hx]; rfl
    have hms : (split t k false).2.1.isSome := by rw [split_mid_isSome]; exact hiso
    obtain ⟨⟨mk, mv, mw⟩, hm⟩ := Option.isSome_iff_exists.mp hms
    simp only [delete, split_true_eq t k hiso, hm]
    rw [merge_lookup k q _ _ (split_bst k false h).1 (split_bst k false h).2
        (split_bounds k false h).1 (split_bounds k false h).2.1]
    rcases lt_trichotomy q k with hq | hq | hq
    · rw [if_pos hq, split_lookup_left k h q, if_pos hq]
    · exact absurd hq hne
    · rw [if_neg (not_lt.mpr (le_of_lt hq)), if_pos hq, split_lookup_right k h q,
        if_pos hq]

theorem bst_delete (t : PTree K V) (k : K) (h : BST t) : BST (delete t k) := by
  cases hx : lookup t k with
  | none => rw [delete_absent t k hx]; exact h
  | some v =>
    have hiso : (lookup t k).isSome := by rw [hx]; rfl
    have hms : (split t k false).2.1.isSome := by rw [split_mid_isSome]; exact hiso
    obtain ⟨⟨mk, mv, mw⟩, hm⟩ := Option.isSome_iff_exists.mp hms
    simp only [delete, split_true_eq t k hiso, hm]
    exact merge_bst k _ _ (split_bst k false h).1 (split_bst k false h).2
      (split_bounds k false h).1 (split_bounds k false h).2.1

theorem heapw_delete (t : PTree K V) (k : K) (hh : HeapW t) : HeapW (delete t k) := by
  cases hx : (split t k true).2.1 with
  | none => simpa [delete, hx] using hh
  | some m =>
    simp only [delete, hx]
    exact merge_heapw _ _ (split_heapw k true hh).1 (split_heapw k true hh).2

end PM

namespace HM

/-- Heap image of `mapNode`: `key`, owning payload reference `pid`, random
`weight`, atomic `refCount`, child references.  `gSrc` is a ghost field
recording the node this one was produced from by `shallowCloneWithRef`
(`none` for nodes built by `newNodeWithRef`); the modelled code never reads
it. -/
structure HNode (K : Type) where
  key : K
  pid : Nat
  weight : Nat
  refCount : Int
  left : Option Nat
  right : Option Nat
  gSrc : Option Nat
deriving Repr, DecidableEq

/-- Heap image of `refValue`: atomic `refCount`, the stored value (cleared to
`none` when the count reaches zero), and whether a release callback is still
installed (`release = nil` in Go becomes `false`).  `key`, `gValue` and
`gHadRelease` are ghost creation records never read by the modelled code. -/
structure HPayload (K V : Type) where
  refCount : Int
  value : Option V
  release : Bool
  key : K
  gValue : V
  gHadRelease : Bool
deriving Repr, DecidableEq

/-- The mutable store: flat node and payload arenas addressed by allocation
index, plus the log of release-callback invocations `(pid, key, value)`. -/
structure Heap (K V : Type) where
  nodes : List (HNode K)
  payloads : List (HPayload K V)
  log : List (Nat × K × V)
deriving Repr, DecidableEq

variable {K V : Type}

def setNode (s : Heap K V) (a : Nat) (nd : HNode K) : Heap K V :=
  { s with nodes := s.nodes.set a nd }

def setPayload (s : Heap K V) (p : Nat) (pl : HPayload K V) : Heap K V :=
  { s with payloads := s.payloads.set p pl }

/-- `newNodeWithRef`: fresh payload (count 1) and fresh node (count 1) holding
it.  `w` stands for the `rand.Uint64()` draw. -/
def newNodeWithRef (s : Heap K V) (k : K) (v : V) (rel : Bool) (w : Nat) :
    Heap K V × Nat :=
  let p := s.payloads.length
  let s1 := { s with payloads := s.payloads ++ [(⟨1, some v, rel, k, v, rel⟩ : HPayload K V)] }
  ({ s1 with nodes := s1.nodes ++ [(⟨k, p, w, 1, none, none, none⟩ : HNode K)] },
    s1.nodes.length)

/-- `shallowCloneWithRef`: bump the payload count, allocate a node with the
same key, payload and weight, count 1 and empty children. -/
def shallowCloneWithRef (s : Heap K V) (a : Nat) : Heap K V × Nat :=
  match s.nodes[a]? with
  | none => (s, a)
  | some nd =>
    let s1 :=
      match s.payloads[nd.pid]? with
      | none => s
      | some pl => setPayload s nd.pid { pl with refCount := pl.refCount + 1 }
    ({ s1 with nodes := s1.nodes ++ [(⟨nd.key, nd.pid, nd.weight, 1, none, none, some a⟩ : HNode K)] },
      s1.nodes.length)

/-- `incref`: no-op on nil, otherwise an atomic increment. -/
def incref (s : Heap K V) (r : Option Nat) : Heap K V :=
  match r with
  | none => s
  | some a =>
    match s.nodes[a]? with
    | none => s
    | some nd => setNode s a { nd with refCount := nd.refCount + 1 }

/-- The payload decrement nested inside `mapNode.decref`: when the count hits
zero, fire the release callback (logged as an event) with the dying node's
key and the stored value, then clear both slots. -/
def valueDecref (s : Heap K V) (p : Nat) (k : K) : Heap K V :=
  match s.payloads[p]? with
  | none => s
  | some pl =>
    let rc := pl.refCount - 1
    if rc = 0 then
      let s1 :=
        if pl.release then
          { s with log := s.log ++ [(p, k, pl.value.getD pl.gValue)] }
        else s
      setPayload s1 p
        ⟨rc, none, false, pl.key, pl.gValue, pl.gHadRelease⟩
    else setPayload s p { pl with refCount := rc }

/-- `mapNode.decref`: decrement; on zero, decref the payload, then both
children.  The fuel dominates the recursion depth; every call site passes
enough fuel for the tree hanging off the reference. -/
def decref : Nat → Heap K V → Option Nat → Heap K V
  | _, s, none => s
  | 0, s, some _ => s
  | fuel + 1, s, some a =>
    match s.nodes[a]? with
    | none => s
    | some nd =>
      let rc := nd.refCount - 1
      let s1 := setNode s a { nd with refCount := rc }
      if rc = 0 then
        let s2 := valueDecref s1 nd.pid nd.key
        let s3 := decref fuel s2 nd.left
        decref fuel s3 nd.right
      else s1

def setLeft (s : Heap K V) (a : Nat) (l : Option Nat) : Heap K V :=
  match s.nodes[a]? with
  | none => s
  | some nd => setNode s a { nd with left := l }

def setRight (s : Heap K V) (a : Nat) (r : Option Nat) : Heap K V :=
  match s.nodes[a]? with
  | none => s
  | some nd => setNode s a { nd with right := r }

def setWeight (s : Heap K V) (a : Nat) (w : Nat) : Heap K V :=
  match s.nodes[a]? with
  | none => s
  | some nd => setNode s a { nd with weight := w }

variable [LinearOrder K]

/-- The `split` of the source over the heap: returns the new state and the
three owned references `(left, mid, right)`. -/
def split : Nat → Heap K V → Option Nat → K → Bool →
    Heap K V × Option Nat × Option Nat × Option Nat
  | 0, s, _, _, _ => (s, none, none, none)
  | _ + 1, s, none, _, _ => (s, none, none, none)
  | fuel + 1, s, some a, key, rm =>
      match s.nodes[a]? with
      | none => (s, none, none, none)
      | some nd =>
        if nd.key < key then
          match split fuel s nd.right key rm with
          | (s1, l, m, r) =>
            if rm && m.isNone then (s1, none, none, none)
            else
              match shallowCloneWithRef s1 a with
              | (s2, b) =>
                let s3 := incref s2 nd.left
                let s4 := setLeft s3 b nd.left
                let s5 := setRight s4 b l
                (s5, some b, m, r)
        else if key < nd.key then
          match split fuel s nd.left key rm with
          | (s1, l, m, r) =>
            if rm && m.isNone then (s1, none, none, none)
            else
              match shallowCloneWithRef s1 a with
              | (s2, b) =>
                let s3 := setLeft s2 b r
                let s4 := incref s3 nd.right
                let s5 := setRight s4 b nd.right
                (s5, l, m, some b)
        else
          match shallowCloneWithRef s a with
          | (s1, b) =>
            let s2 := incref s1 nd.left
            let s3 := incref s2 nd.right
            (s3, nd.left, some b, nd.right)

/-- The `merge` of the source over the heap. -/
def merge : Nat → Heap K V → Option Nat → Option Nat → Heap K V × Option Nat
  | 0, s, _, _ => (s, none)
  | _ + 1, s, none, r => (incref s r, r)
  | _ + 1, s, some la, none => (incref s (some la), some la)
  | fuel + 1, s, some la, some ra =>
        match s.nodes[la]?, s.nodes[ra]? with
        | some ndl, some ndr =>
          if ndr.weight < ndl.weight then
            match shallowCloneWithRef s la with
            | (s1, b) =>
              let s2 := incref s1 ndl.left
              let s3 := setLeft s2 b ndl.left
              match merge fuel s3 ndl.right (some ra) with
              | (s4, m) => (setRight s4 b m, some b)
          else
            match shallowCloneWithRef s ra with
            | (s1, b) =>
              match merge fuel s1 (some la) ndr.left with
              | (s2, m) =>
                let s3 := setLeft s2 b m
                let s4 := incref s3 ndr.right
                (setRight s4 b ndr.right, some b)
        | _, _ => (s, none)

/-- The `union` of the source over the heap.  When the first root is lighter
the source swaps the trees and flips `overwrite`; both symmetric bodies are
written out. -/
def union : Nat → Heap K V → Option Nat → Option Nat → Bool →
    Heap K V × Option Nat
  | 0, s, _, _, _ => (s, none)
  | _ + 1, s, none, second, _ => (incref s second, second)
  | _ + 1, s, some fa, none, _ => (incref s (some fa), some fa)
  | fuel + 1, s, some fa, some sa, ov =>
        match s.nodes[fa]?, s.nodes[sa]? with
        | some nf, some ns =>
          if nf.weight < ns.weight then
            match split fuel s (some fa) ns.key false with
            | (s1, l, m, r) =>
              match (match !ov, m with
                     | true, some ma => shallowCloneWithRef s1 ma
                     | _, _ => shallowCloneWithRef s1 sa) with
              | (s2, b) =>
                let s3 := setWeight s2 b ns.weight
                match union fuel s3 ns.left l (!ov) with
                | (s4, ul) =>
                  let s5 := setLeft s4 b ul
                  match union fuel s5 ns.right r (!ov) with
                  | (s6, ur) =>
                    let s7 := setRight s6 b ur
                    let s8 := decref fuel s7 l
                    let s9 := decref fuel s8 m
                    let s10 := decref fuel s9 r
                    (s10, some b)
          else
            match split fuel s (some sa) nf.key false with
            | (s1, l, m, r) =>
              match (match ov, m with
                     | true, some ma => shallowCloneWithRef s1 ma
                     | _, _ => shallowCloneWithRef s1 fa) with
              | (s2, b) =>
                let s3 := setWeight s2 b nf.weight
                match union fuel s3 nf.left l ov with
                | (s4, ul) =>
                  let s5 := setLeft s4 b ul
                  match union fuel s5 nf.right r ov with
                  | (s6, ur) =>
                    let s7 := setRight s6 b ur
                    let s8 := decref fuel s7 l
                    let s9 := decref fuel s8 m
                    let s10 := decref fuel s9 r
                    (s10, some b)
        | _, _ => (s, none)

/-- Fuel bound sufficient for single-tree recursions (`decref`, `split`). -/
def dFuel (s : Heap K V) : Nat := s.nodes.length + 1

/-- Fuel bound sufficient for two-tree recursions (`union`, `merge`). -/
def opFuel (s : Heap K V) : Nat := 2 * s.nodes.length + 4

/-- The descent loop of `PMap.Get`; read-only. -/
def get [Inhabited V] : Nat → Heap K V → Option Nat → K → V × Bool
  | _, _, none, _ => (default, false)
  | 0, _, some _, _ => (default, false)
  | fuel + 1, s, some a, k =>
    match s.nodes[a]? with
    | none => (default, false)
    | some nd =>
      if k < nd.key then get fuel s nd.left k
      else if nd.key < k then get fuel s nd.right k
      else (((s.payloads[nd.pid]?).bind (fun pl => pl.value)).getD default, true)

/-- `PMap.Get`: the method returns its receiver untouched together with the
value and found flag — the source performs no write and touches no
reference count. -/
def Get [Inhabited V] (s : Heap K V) (r : Option Nat) (k : K) :
    Heap K V × V × Bool :=
  (s, get (dFuel s) s r k)

/-- In-order traversal of `Range`. -/
def range [Inhabited V] : Nat → Heap K V → Option Nat → List (K × V)
  | _, _, none => []
  | 0, _, some _ => []
  | fuel + 1, s, some a =>
    match s.nodes[a]? with
    | none => []
    | some nd =>
      range fuel s nd.left ++
        (nd.key, ((s.payloads[nd.pid]?).bind (fun pl => pl.value)).getD default) ::
        range fuel s nd.right

/-- `PMap.SetWithRelease`: fresh singleton, union with overwrite, decref the
old root and the singleton. -/
def SetWithRelease (s : Heap K V) (root : Option Nat) (k : K) (v : V)
    (rel : Bool) (w : Nat) : Heap K V × Option Nat :=
  match newNodeWithRef s k v rel w with
  | (s1, b) =>
    match union (opFuel s1) s1 root (some b) true with
    | (s2, r2) =>
      let s3 := decref (dFuel s2) s2 root
      let s4 := decref (dFuel s3) s3 (some b)
      (s4, r2)

/-- `PMap.Set` delegates to `SetWithRelease` with a nil callback. -/
def Set (s : Heap K V) (root : Option Nat) (k : K) (v : V) (w : Nat) :
    Heap K V × Option Nat :=
  SetWithRelease s root k v false w

/-- `PMap.SetAll`: union with the other root (borrowed, not consumed), decref
only this map's old root. -/
def SetAll (s : Heap K V) (r1 r2 : Option Nat) : Heap K V × Option Nat :=
  match union (opFuel s) s r1 r2 true with
  | (s1, r2') => (decref (dFuel s1) s1 r1, r2')

/-- `PMap.Delete`: require-mid split; on a miss return with the root (and the
state the split left) unchanged, otherwise merge the outer parts and decref
the three split results and the old root. -/
def Delete (s : Heap K V) (root : Option Nat) (k : K) : Heap K V × Option Nat :=
  match split (dFuel s) s root k true with
  | (s1, l, m, r) =>
    match m with
    | none => (s1, root)
    | some _ =>
      match merge (opFuel s1) s1 l r with
      | (s2, nr) =>
        let s3 := decref (dFuel s2) s2 l
        let s4 := decref (dFuel s3) s3 m
        let s5 := decref (dFuel s4) s4 r
        let s6 := decref (dFuel s5) s5 root
        (s6, nr)

/-- `PMap.Clone`: constant time, share the root. -/
def Clone (s : Heap K V) (root : Option Nat) : Heap K V × Option Nat :=
  (incref s root, root)

/-- `PMap.Clear`: drop the root reference. -/
def Clear (s : Heap K V) (root : Option Nat) : Heap K V × Option Nat :=
  (decref (dFuel s) s root, none)

/-- `PMap.Destroy` delegates to `Clear`. -/
def Destroy (s : Heap K V) (root : Option Nat) : Heap K V × Option Nat :=
  Clear s root

/-- `PMap.Empty`. -/
def Empty (root : Option Nat) : Bool := root.isNone

/-- Reified tree hanging off a heap reference: node ids together with the
data `Range`/`Get` observe.  Derivations are by fuel; `treeOf` succeeds only
when every reference chain is intact and every payload still holds a value. -/
inductive ITree (K V : Type) where
  | nil : ITree K V
  | node (nid : Nat) (left : ITree K V) (key : K) (value : V) (weight : Nat)
      (right : ITree K V) : ITree K V
deriving Repr, DecidableEq

/-- Forget the node ids, leaving the functional tree. -/
def erase : ITree K V → PM.PTree K V
  | .nil => .nil
  | .node _ l k v w r => .node (erase l) k v w (erase r)

/-- Read the tree hanging off a reference.  Ignores reference counts: it is a
structural snapshot of the pointer graph. -/
def treeOf : Nat → Heap K V → Option Nat → Option (ITree K V)
  | _, _, none => some .nil
  | 0, _, some _ => none
  | fuel + 1, s, some a =>
    match s.nodes[a]? with
    | none => none
    | some nd =>
      match s.payloads[nd.pid]? with
      | none => none
      | some pl =>
        match pl.value with
        | none => none
        | some v =>
          match treeOf fuel s nd.left, treeOf fuel s nd.right with
          | some tl, some tr => some (.node a tl nd.key v nd.weight tr)
          | _, _ => none

/-- One user-level operation on a family of handles addressed by slot index.
`set` covers both `Set` (`rel = false`) and `SetWithRelease` (`rel = true`);
`w` is the weight the fresh node draws.  Operations naming a missing slot
fail. -/
inductive Op (K V : Type) where
  | newH : Op K V
  | clone (i : Nat) : Op K V
  | destroy (i : Nat) : Op K V
  | clear (i : Nat) : Op K V
  | set (i : Nat) (k : K) (v : V) (rel : Bool) (w : Nat) : Op K V
  | del (i : Nat) (k : K) : Op K V
  | setAll (i j : Nat) : Op K V
deriving Repr, DecidableEq

/-- A heap together with the live handles (each slot holds a root reference,
`none` for an empty map). -/
structure Sys (K V : Type) where
  heap : Heap K V
  handles : List (Option Nat)
deriving Repr, DecidableEq

/-- The empty world: no allocations, no handles. -/
def initSys : Sys K V := ⟨⟨[], [], []⟩, []⟩

def applyOp (st : Sys K V) (op : Op K V) : Option (Sys K V) :=
  match op with
  | .newH => some ⟨st.heap, st.handles ++ [none]⟩
  | .clone i =>
    match st.handles[i]? with
    | none => none
    | some r =>
      match Clone st.heap r with
      | (h, r2) => some ⟨h, st.handles ++ [r2]⟩
  | .destroy i =>
    match st.handles[i]? with
    | none => none
    | some r =>
      match Destroy st.heap r with
      | (h, r2) => some ⟨h, st.handles.set i r2⟩
  | .clear i =>
    match st.handles[i]? with
    | none => none
    | some r =>
      match Clear st.heap r with
      | (h, r2) => some ⟨h, st.handles.set i r2⟩
  | .set i k v rel w =>
    match st.handles[i]? with
    | none => none
    | some r =>
      match SetWithRelease st.heap r k v rel w with
      | (h, r2) => some ⟨h, st.handles.set i r2⟩
  | .del i k =>
    match st.handles[i]? with
    | none => none
    | some r =>
      match Delete st.heap r k with
      | (h, r2) => some ⟨h, st.handles.set i r2⟩
  | .setAll i j =>
    match st.handles[i]?, st.handles[j]? with
    | some r1, some r2 =>
      match SetAll st.heap r1 r2 with
      | (h, r3) => some ⟨h, st.handles.set i r3⟩
    | _, _ => none

def runOps (st : Sys K V) : List (Op K V) → Option (Sys K V)
  | [] => some st
  | op :: ops =>
    match applyOp st op with
    | none => none
    | some st2 => runOps st2 ops

/-- The handle an operation mutates, if any: `newH` and `clone` mutate no
existing handle (`clone` only bumps a shared counter), `setAll i j` reads `j`
but mutates only `i`. -/
def mutTarget : Op K V → Option Nat
  | .newH => none
  | .clone _ => none
  | .destroy i => some i
  | .clear i => some i
  | .set i _ _ _ _ => some i
  | .del i _ => some i
  | .setAll i _ => some i

/-- A `requireMid` split that finds no mid performs no state change at all:
no allocation, no reference-count movement, no payload touch.  Every level of
the recursion checks the recursive mid before acquiring any reference, so the
short-circuit path leaks nothing. -/
theorem split_requireMid_miss (fuel : Nat) (s : Heap K V) (n : Option Nat)
    (key : K) (hm : (split fuel s n key true).2.2.1 = none) :
    split fuel s n key true = (s, none, none, none) := by
  induction fuel generalizing s n with
  | zero => rw [split]
  | succ fuel ih =>
    cases n with
    | none => rfl
    | some a =>
      rw [split] at hm ⊢
      cases hnd : s.nodes[a]? with
      | none => rfl
      | some nd =>
        rw [hnd] at hm
        dsimp only at hm ⊢
        by_cases h1 : nd.key < key
        · rw [if_pos h1] at hm ⊢
          rcases hq : split fuel s nd.right key true with ⟨s1, l1, m1, r1⟩
          cases m1 with
          | none =>
            have hrec := ih s nd.right (by rw [hq])
            rw [hq] at hrec
            simp only [Prod.mk.injEq] at hrec
            simp only [Option.isNone_none, Bool.and_true]
            rw [if_pos trivial, hrec.1]
          | some mm =>
            rw [hq] at hm
            simp only [Option.isNone_some, Bool.and_false, Bool.false_eq_true,
              if_false] at hm
            exact Option.noConfusion hm
        · rw [if_neg h1] at hm ⊢
          by_cases h2 : key < nd.key
          · rw [if_pos h2] at hm ⊢
            rcases hq : split fuel s nd.left key true with ⟨s1, l1, m1, r1⟩
            cases m1 with
            | none =>
              have hrec := ih s nd.left (by rw [hq])
              rw [hq] at hrec
              simp only [Prod.mk.injEq] at hrec
              simp only [Option.isNone_none, Bool.and_true]
              rw [if_pos trivial, hrec.1]
            | some mm =>
              rw [hq] at hm
              simp only [Option.isNone_some, Bool.and_false, Bool.false_eq_true,
                if_false] at hm
              exact Option.noConfusion hm
          · rw [if_neg h2] at hm ⊢
            dsimp only at hm
            exact Option.noConfusion hm

/-- Height of a reified tree; one fuel unit is consumed per level. -/
def tdepth : ITree K V → Nat
  | .nil => 0
  | .node _ l _ _ _ r => max (tdepth l) (tdepth r) + 1

/-- Number of nodes of a reified tree. -/
def tsize : ITree K V → Nat
  | .nil => 0
  | .node _ l _ _ _ r => tsize l + tsize r + 1

theorem erase_depth (t : ITree K V) : PM.depth (erase t) = tdepth t := by
  induction t with
  | nil => rfl
  | node b l k v w r ihl ihr => simp [erase, PM.depth, tdepth, ihl, ihr]

/-- Inversion of a successful non-empty derivation. -/
theorem treeOf_some_node {fuel : Nat} {s : Heap K V} {a : Nat} {t : ITree K V}
    (h : treeOf (fuel + 1) s (some a) = some t) :
    ∃ nd pl v tl tr, s.nodes[a]? = some nd ∧ s.payloads[nd.pid]? = some pl ∧
      pl.value = some v ∧ treeOf fuel s nd.left = some tl ∧
      treeOf fuel s nd.right = some tr ∧ t = .node a tl nd.key v nd.weight tr := by
  rw [treeOf] at h
  cases hnd : s.nodes[a]? with
  | none => simp only [hnd] at h; exact Option.noConfusion h
  | some nd =>
    simp only [hnd] at h
    cases hpl : s.payloads[nd.pid]? with
    | none => simp only [hpl] at h; exact Option.noConfusion h
    | some pl =>
      simp only [hpl] at h
      cases hv : pl.value with
      | none => simp only [hv] at h; exact Option.noConfusion h
      | some v =>
        simp only [hv] at h
        cases htl : treeOf fuel s nd.left with
        | none => simp only [htl] at h; exact Option.noConfusion h
        | some tl =>
          simp only [htl] at h
          cases htr : treeOf fuel s nd.right with
          | none => simp only [htr] at h; exact Option.noConfusion h
          | some tr =>
            simp only [htr] at h
            cases h
            exact ⟨nd, pl, v, tl, tr, rfl, hpl, hv, htl, htr, rfl⟩

/-- Inversion of a successful non-empty derivation, with the fuel given
explicitly. -/
theorem treeOf_node_inv (f : Nat) {s : Heap K V} {a : Nat} {t : ITree K V}
    (h : treeOf (f + 1) s (some a) = some t) :
    ∃ nd pl v tl tr, s.nodes[a]? = some nd ∧ s.payloads[nd.pid]? = some pl ∧
      pl.value = some v ∧ treeOf f s nd.left = some tl ∧
      treeOf f s nd.right = some tr ∧ t = .node a tl nd.key v nd.weight tr :=
  treeOf_some_node h

theorem treeOf_mono {f g : Nat} {s : Heap K V} {r : Option Nat} {t : ITree K V}
    (h : treeOf f s r = some t) (hfg : f ≤ g) : treeOf g s r = some t := by
  induction f generalizing g r t with
  | zero =>
    cases r with
    | none =>
      rw [treeOf] at h
      cases h
      cases g <;> rfl
    | some a => rw [treeOf] at h; exact absurd h (by simp)
  | succ f ih =>
    cases r with
    | none =>
      rw [treeOf] at h
      cases h
      cases g <;> rfl
    | some a =>
      obtain ⟨nd, pl, v, tl, tr, hnd, hpl, hv, htl, htr, ht⟩ := treeOf_some_node h
      cases g with
      | zero => exact absurd hfg (by omega)
      | succ g =>
        have h1 : f ≤ g := by omega
        rw [treeOf]
        simp only [hnd, hpl, hv, ih htl h1, ih htr h1]
        rw [ht]

theorem treeOf_det {f g : Nat} {s : Heap K V} {r : Option Nat} {t u : ITree K V}
    (h1 : treeOf f s r = some t) (h2 : treeOf g s r = some u) : t = u := by
  have ha := treeOf_mono h1 (Nat.le_max_left f g)
  have hb := treeOf_mono h2 (Nat.le_max_right f g)
  rw [ha] at hb
  exact Option.some.injEq .. ▸ (by cases hb; rfl)

/-- Along a successful derivation, node ids never repeat on a path, so the
height of any derivable tree is bounded by the number of allocated nodes. -/
theorem treeOf_depth_aux (t : ITree K V) :
    ∀ (s : Heap K V) (a f : Nat), treeOf f s (some a) = some t →
    ∀ (anc : Finset Nat),
      (∀ x, x ∈ anc → x < s.nodes.length ∧
        ∃ u g, treeOf g s (some x) = some u ∧ tsize t < tsize u) →
      tdepth t + anc.card ≤ s.nodes.length := by
  induction t with
  | nil =>
    intro s a f h anc hanc
    cases f with
    | zero => rw [treeOf] at h; exact absurd h (by simp)
    | succ f =>
      obtain ⟨nd, pl, v, tl, tr, hnd, hpl, hv, htl, htr, ht⟩ := treeOf_some_node h
      exact absurd ht (by simp)
  | node b l k v w r ihl ihr =>
    intro s a f h anc hanc
    cases f with
    | zero => rw [treeOf] at h; exact absurd h (by simp)
    | succ f =>
      obtain ⟨nd, pl, v2, tl, tr, hnd, hpl, hv, htl, htr, ht⟩ := treeOf_some_node h
      cases ht
      have hane : b ∉ anc := by
        intro hmem
        obtain ⟨-, u, g, hu, hlt⟩ := hanc b hmem
        have := treeOf_det h hu
        rw [this] at hlt
        exact absurd hlt (lt_irrefl _)
      have halen : b < s.nodes.length := by
        by_contra hc
        rw [List.getElem?_eq_none (by omega)] at hnd
        exact Option.noConfusion hnd
      have hanc2 : ∀ x, x ∈ insert b anc → x < s.nodes.length ∧
          ∃ u g, treeOf g s (some x) = some u ∧
            tsize (ITree.node b l nd.key v nd.weight r) - 1 < tsize u := by
        intro x hx
        rcases Finset.mem_insert.mp hx with hxa | hxm
        · subst hxa
          exact ⟨halen, ⟨_, f + 1, h, by simp only [tsize]; omega⟩⟩
        · obtain ⟨hlt, u, g, hu, hsz⟩ := hanc x hxm
          exact ⟨hlt, u, g, hu, by omega⟩
      have hcard : (insert b anc).card = anc.card + 1 := Finset.card_insert_of_not_mem hane
      have hbl : tdepth l + (insert b anc).card ≤ s.nodes.length := by
        cases hl0 : nd.left with
        | none =>
          rw [hl0] at htl
          rw [treeOf] at htl
          cases htl
          simp only [tdepth]
          have hsub : insert b anc ⊆ Finset.range s.nodes.length := by
            intro x hx
            rcases Finset.mem_insert.mp hx with hx | hx
            · subst hx; exact Finset.mem_range.mpr halen
            · exact Finset.mem_range.mpr (hanc x hx).1
          have hle : (insert b anc).card ≤ s.nodes.length := by
            have h2 := Finset.card_le_card hsub
            simpa using h2
          omega
        | some c =>
          rw [hl0] at htl
          apply ihl s c f htl (insert b anc)
          intro x hx
          obtain ⟨h1, u, g, hu, hsz⟩ := hanc2 x hx
          refine ⟨h1, u, g, hu, ?_⟩
          simp only [tsize] at hsz ⊢
          omega
      have hbr : tdepth r + (insert b anc).card ≤ s.nodes.length := by
        cases hr0 : nd.right with
        | none =>
          rw [hr0] at htr
          rw [treeOf] at htr
          cases htr
          simp only [tdepth]
          omega
        | some c =>
          rw [hr0] at htr
          apply ihr s c f htr (insert b anc)
          intro x hx
          obtain ⟨h1, u, g, hu, hsz⟩ := hanc2 x hx
          refine ⟨h1, u, g, hu, ?_⟩
          simp only [tsize] at hsz ⊢
          omega
      simp only [tdepth]
      omega

/-- Any derivable tree has height at most the node count of the heap. -/
theorem treeOf_depth_le {f : Nat} {s : Heap K V} {a : Nat} {t : ITree K V}
    (h : treeOf f s (some a) = some t) : tdepth t ≤ s.nodes.length := by
  have := treeOf_depth_aux t s a f h ∅ (by intro x hx; simp at hx)
  simpa using this

/-- The reference count stored at a node address (0 when unallocated). -/
def nodeRC (s : Heap K V) (a : Nat) : Int :=
  match s.nodes[a]? with
  | some nd => nd.refCount
  | none => 0

/-- A node is live while its count is positive; dead nodes are garbage the Go
runtime would reclaim. -/
def isLive (s : Heap K V) (a : Nat) : Prop := 0 < nodeRC s a

/-- How many child slots of `nd` point at `a` (0, 1 or 2). -/
def edgeCnt (nd : HNode K) (a : Nat) : Nat :=
  (if nd.left = some a then 1 else 0) + (if nd.right = some a then 1 else 0)

def nodeContrib (ond : Option (HNode K)) (a : Nat) : Nat :=
  match ond with
  | some nd => if 0 < nd.refCount then edgeCnt nd a else 0
  | none => 0

/-- Number of child references live nodes hold on `a`. -/
def liveEdges (s : Heap K V) (a : Nat) : Nat :=
  ∑ b ∈ Finset.range s.nodes.length, nodeContrib s.nodes[b]? a

/-- Total demand on node `a`: root references held by the mutator (`R`) plus
child references from live nodes. -/
def demand (s : Heap K V) (R : List Nat) (a : Nat) : Nat :=
  R.count a + liveEdges s a

def payRC (s : Heap K V) (p : Nat) : Int :=
  match s.payloads[p]? with
  | some pl => pl.refCount
  | none => 0

def payContrib (ond : Option (HNode K)) (p : Nat) : Nat :=
  match ond with
  | some nd => if 0 < nd.refCount ∧ nd.pid = p then 1 else 0
  | none => 0

/-- Number of live nodes owning payload `p`. -/
def liveOwns (s : Heap K V) (p : Nat) : Nat :=
  ∑ b ∈ Finset.range s.nodes.length, payContrib s.nodes[b]? p

/-- Total demand on payload `p`: slack references held inside a running
`decref` cascade (`P`) plus live owning nodes. -/
def pdemand (s : Heap K V) (P : List Nat) (p : Nat) : Nat :=
  P.count p + liveOwns s p

/-- The heap-consistency invariant, relative to the multiset `R` of node
references and `P` of payload references the mutator currently holds.

* every node's count is exactly the demand on it;
* every payload's count is exactly the demand on it;
* a node's key equals its payload's creation key;
* a payload with a positive count still holds its creation value and its
  creation callback; one that hit zero has been cleared;
* the release log holds exactly one entry for each payload that was created
  with a callback and has died, and nothing else;
* every live node hangs a complete tree (no dangling child or cleared
  payload underneath). -/
structure Inv (s : Heap K V) (R P : List Nat) : Prop where
  nodeCount : ∀ a, nodeRC s a = (demand s R a : Int)
  payCount : ∀ p, payRC s p = (pdemand s P p : Int)
  keyCoh : ∀ (a : Nat) (nd : HNode K), s.nodes[a]? = some nd →
    ∃ pl, s.payloads[nd.pid]? = some pl ∧ nd.key = pl.key
  payLive : ∀ (p : Nat) (pl : HPayload K V), s.payloads[p]? = some pl → 0 < pl.refCount →
    pl.value = some pl.gValue ∧ pl.release = pl.gHadRelease
  payDead : ∀ (p : Nat) (pl : HPayload K V), s.payloads[p]? = some pl → pl.refCount ≤ 0 →
    pl.value = none ∧ pl.release = false
  logCount : ∀ (p : Nat) (pl : HPayload K V), s.payloads[p]? = some pl →
    (s.log.filter (fun e => e.1 = p)).length =
      (if pl.gHadRelease = true ∧ pl.refCount ≤ 0 then 1 else 0)
  logContent : ∀ e ∈ s.log, ∃ pl : HPayload K V, s.payloads[e.1]? = some pl ∧
    e.2.1 = pl.key ∧ e.2.2 = pl.gValue
  liveTree : ∀ a, isLive s a → ∃ f t, treeOf f s (some a) = some t

/-- Field-wise equality of nodes up to the reference count. -/
def sameShape (nd nd2 : HNode K) : Prop :=
  nd2.key = nd.key ∧ nd2.pid = nd.pid ∧ nd2.weight = nd.weight ∧
    nd2.left = nd.left ∧ nd2.right = nd.right ∧ nd2.gSrc = nd.gSrc

/-- What every operation preserves about the pre-state: existing nodes keep
all fields except the count, payloads that are still referenced keep their
content, dead payloads stay dead, stores only grow, and the log only
extends. -/
def Frame (s s2 : Heap K V) : Prop :=
  (∀ (a : Nat) (nd : HNode K), s.nodes[a]? = some nd →
    ∃ nd2, s2.nodes[a]? = some nd2 ∧ sameShape nd nd2) ∧
  (∀ (p : Nat) (pl pl2 : HPayload K V), s.payloads[p]? = some pl →
    s2.payloads[p]? = some pl2 → 0 < pl2.refCount →
      pl2.value = pl.value ∧ pl2.release = pl.release ∧ pl2.key = pl.key ∧
      pl2.gValue = pl.gValue ∧ pl2.gHadRelease = pl.gHadRelease) ∧
  (∀ (p : Nat) (pl pl2 : HPayload K V), s.payloads[p]? = some pl →
    s2.payloads[p]? = some pl2 → pl.refCount ≤ 0 → pl2.refCount ≤ 0) ∧
  s.payloads.length ≤ s2.payloads.length ∧
  (∃ tl, s2.log = s.log ++ tl)

theorem frame_refl (s : Heap K V) : Frame s s := by
  refine ⟨fun a nd h => ⟨nd, h, rfl, rfl, rfl, rfl, rfl, rfl⟩, ?_, ?_, le_refl _,
    [], by simp⟩
  · intro p pl pl2 h1 h2 _
    rw [h1] at h2
    cases h2
    exact ⟨rfl, rfl, rfl, rfl, rfl⟩
  · intro p pl pl2 h1 h2 h3
    rw [h1] at h2
    cases h2
    exact h3

theorem frame_trans {s1 s2 s3 : Heap K V} (h1 : Frame s1 s2) (h2 : Frame s2 s3) :
    Frame s1 s3 := by
  obtain ⟨hn1, hp1, hd1, hl1, tl1, hlog1⟩ := h1
  obtain ⟨hn2, hp2, hd2, hl2, tl2, hlog2⟩ := h2
  have hmid : ∀ p, p < s1.payloads.length → ∃ pl2, s2.payloads[p]? = some pl2 := by
    intro p hp
    have h2 : p < s2.payloads.length := by omega
    exact ⟨s2.payloads[p], List.getElem?_eq_getElem h2⟩
  refine ⟨?_, ?_, ?_, le_trans hl1 hl2, tl1 ++ tl2,
    by rw [hlog2, hlog1, List.append_assoc]⟩
  · intro a nd h
    obtain ⟨nd2, hnd2, hs2⟩ := hn1 a nd h
    obtain ⟨nd3, hnd3, hs3⟩ := hn2 a nd2 hnd2
    refine ⟨nd3, hnd3, ?_⟩
    obtain ⟨e1, e2, e3, e4, e5, e6⟩ := hs2
    obtain ⟨f1, f2, f3, f4, f5, f6⟩ := hs3
    exact ⟨f1.trans e1, f2.trans e2, f3.trans e3, f4.trans e4, f5.trans e5,
      f6.trans e6⟩
  · intro p pl pl3 hpl hpl3 hpos
    have hplen : p < s1.payloads.length := by
      by_contra hc
      rw [List.getElem?_eq_none (by omega)] at hpl
      exact Option.noConfusion hpl
    obtain ⟨pl2, hpl2⟩ := hmid p hplen
    have hpos2 : 0 < pl2.refCount := by
      by_contra hc
      have := hd2 p pl2 pl3 hpl2 hpl3 (by omega)
      omega
    obtain ⟨e1, e2, e3, e4, e5⟩ := hp1 p pl pl2 hpl hpl2 hpos2
    obtain ⟨f1, f2, f3, f4, f5⟩ := hp2 p pl2 pl3 hpl2 hpl3 hpos
    exact ⟨f1.trans e1, f2.trans e2, f3.trans e3, f4.trans e4, f5.trans e5⟩
  · intro p pl pl3 hpl hpl3 hdead
    have hplen : p < s1.payloads.length := by
      by_contra hc
      rw [List.getElem?_eq_none (by omega)] at hpl
      exact Option.noConfusion hpl
    obtain ⟨pl2, hpl2⟩ := hmid p hplen
    exact hd2 p pl2 pl3 hpl2 hpl3 (hd1 p pl pl2 hpl hpl2 hdead)

theorem getElem?_some_lt {α : Type} {l : List α} {i : Nat} {x : α}
    (h : l[i]? = some x) : i < l.length := by
  by_contra hc
  rw [List.getElem?_eq_none (by omega)] at h
  exact Option.noConfusion h

theorem liveEdges_lb {s : Heap K V} {b : Nat} {nd : HNode K}
    (h : s.nodes[b]? = some nd) (hl : 0 < nd.refCount) (a : Nat) :
    edgeCnt nd a ≤ liveEdges s a := by
  have hb : b < s.nodes.length := getElem?_some_lt h
  have hc : nodeContrib s.nodes[b]? a = edgeCnt nd a := by
    rw [h]; simp [nodeContrib, hl]
  rw [← hc]
  exact Finset.single_le_sum (f := fun b => nodeContrib s.nodes[b]? a)
    (fun i _ => Nat.zero_le _) (Finset.mem_range.mpr hb)

theorem liveOwns_lb {s : Heap K V} {b : Nat} {nd : HNode K}
    (h : s.nodes[b]? = some nd) (hl : 0 < nd.refCount) :
    1 ≤ liveOwns s nd.pid := by
  have hb : b < s.nodes.length := getElem?_some_lt h
  have hc : payContrib s.nodes[b]? nd.pid = 1 := by
    rw [h]; simp [payContrib, hl]
  rw [← hc]
  exact Finset.single_le_sum (f := fun b => payContrib s.nodes[b]? nd.pid)
    (fun i _ => Nat.zero_le _) (Finset.mem_range.mpr hb)

theorem isLive_some {s : Heap K V} {a : Nat} (h : isLive s a) :
    ∃ nd, s.nodes[a]? = some nd ∧ 0 < nd.refCount := by
  rw [isLive, nodeRC] at h
  cases hnd : s.nodes[a]? with
  | none => rw [hnd] at h; exact absurd h (by simp)
  | some nd => rw [hnd] at h; exact ⟨nd, rfl, h⟩

theorem child_live {s : Heap K V} {R P : List Nat} (hinv : Inv s R P) {b : Nat}
    {nd : HNode K} (h : s.nodes[b]? = some nd) (hl : 0 < nd.refCount) {c : Nat}
    (hc : nd.left = some c ∨ nd.right = some c) : isLive s c := by
  have h1 : 1 ≤ edgeCnt nd c := by
    rcases hc with hc | hc <;> simp [edgeCnt, hc] <;> omega
  have h2 := liveEdges_lb h hl c
  have h3 := hinv.nodeCount c
  rw [isLive, h3]
  have : 1 ≤ demand s R c := by
    rw [demand]; omega
  exact_mod_cast this

theorem pay_live {s : Heap K V} {R P : List Nat} (hinv : Inv s R P) {b : Nat}
    {nd : HNode K} (h : s.nodes[b]? = some nd) (hl : 0 < nd.refCount) :
    ∃ pl, s.payloads[nd.pid]? = some pl ∧ 0 < pl.refCount := by
  have h1 := liveOwns_lb h hl
  have h2 := hinv.payCount nd.pid
  have h3 : 1 ≤ pdemand s P nd.pid := by rw [pdemand]; omega
  have h4 : 0 < payRC s nd.pid := by rw [h2]; exact_mod_cast h3
  rw [payRC] at h4
  cases hpl : s.payloads[nd.pid]? with
  | none => rw [hpl] at h4; exact absurd h4 (by simp)
  | some pl => rw [hpl] at h4; exact ⟨pl, rfl, h4⟩

/-- All nodes inside the tree of a live root are live. -/
def tids : ITree K V → List Nat
  | .nil => []
  | .node b l _ _ _ r => b :: (tids l ++ tids r)

theorem tree_live {s : Heap K V} {R P : List Nat} (hinv : Inv s R P) :
    ∀ (t : ITree K V) (f : Nat) (a : Nat), treeOf f s (some a) = some t →
      isLive s a → ∀ x, x ∈ tids t → isLive s x := by
  intro t
  induction t with
  | nil =>
    intro f a h hl x hx
    simp [tids] at hx
  | node b l k v w r ihl ihr =>
    intro f a h hl x hx
    cases f with
    | zero => rw [treeOf] at h; exact absurd h (by simp)
    | succ f =>
      obtain ⟨nd, pl, v2, tl, tr, hnd, hpl, hv, htl, htr, ht⟩ := treeOf_some_node h
      cases ht
      obtain ⟨nd2, hnd2, hrc⟩ := isLive_some hl
      rw [hnd] at hnd2
      cases hnd2
      simp only [tids, List.mem_cons, List.mem_append] at hx
      rcases hx with hx | hx | hx
      · subst hx; exact hl
      · cases hl0 : nd.left with
        | none => rw [hl0] at htl; rw [treeOf] at htl; cases htl; simp [tids] at hx
        | some c =>
          rw [hl0] at htl
          exact ihl f c htl (child_live hinv hnd hrc (Or.inl hl0)) x hx
      · cases hr0 : nd.right with
        | none => rw [hr0] at htr; rw [treeOf] at htr; cases htr; simp [tids] at hx
        | some c =>
          rw [hr0] at htr
          exact ihr f c htr (child_live hinv hnd hrc (Or.inr hr0)) x hx

/-- Trees of live roots survive any operation: the frame keeps node shapes,
and the counting invariant of the post-state keeps every needed payload
alive and intact. -/
theorem treeOf_frame {s s2 : Heap K V} {R P : List Nat} (hinv2 : Inv s2 R P)
    (hf : Frame s s2) :
    ∀ (f : Nat) (x : Option Nat) (t : ITree K V),
      (x = none ∨ ∃ a, x = some a ∧ isLive s2 a) →
      treeOf f s x = some t → treeOf f s2 x = some t := by
  intro f
  induction f with
  | zero =>
    intro x t hx h
    cases x with
    | none => rw [treeOf] at h ⊢; exact h
    | some a => rw [treeOf] at h; exact absurd h (by simp)
  | succ f ih =>
    intro x t hx h
    cases x with
    | none => rw [treeOf] at h ⊢; exact h
    | some a =>
      rcases hx with hx | ⟨a2, ha2, hlive⟩
      · exact Option.noConfusion hx
      · cases ha2
        obtain ⟨nd, pl, v, tl, tr, hnd, hpl, hv, htl, htr, ht⟩ := treeOf_some_node h
        obtain ⟨nd2, hnd2, hsh⟩ := hf.1 a nd hnd
        obtain ⟨e1, e2, e3, e4, e5, e6⟩ := hsh
        have hrc2 : 0 < nd2.refCount := by
          obtain ⟨nd3, hnd3, h3⟩ := isLive_some hlive
          rw [hnd2] at hnd3
          cases hnd3
          exact h3
        obtain ⟨pl2, hpl2, hplrc⟩ := pay_live hinv2 hnd2 hrc2
        rw [e2] at hpl2
        obtain ⟨f1, f2, f3, f4, f5⟩ := hf.2.1 nd.pid pl pl2 hpl hpl2 hplrc
        have hch : ∀ c, nd.left = some c ∨ nd.right = some c → isLive s2 c := by
          intro c hc
          apply child_live hinv2 hnd2 hrc2
          rcases hc with hc | hc
          · exact Or.inl (by rw [e4, hc])
          · exact Or.inr (by rw [e5, hc])
        have htl2 : treeOf f s2 nd.left = some tl := by
          cases hl0 : nd.left with
          | none => rw [hl0] at htl; rw [treeOf] at htl ⊢; exact htl
          | some c =>
            rw [hl0] at htl
            exact ih (some c) tl (Or.inr ⟨c, rfl, hch c (Or.inl hl0)⟩) htl
        have htr2 : treeOf f s2 nd.right = some tr := by
          cases hr0 : nd.right with
          | none => rw [hr0] at htr; rw [treeOf] at htr ⊢; exact htr
          | some c =>
            rw [hr0] at htr
            exact ih (some c) tr (Or.inr ⟨c, rfl, hch c (Or.inr hr0)⟩) htr
        rw [treeOf]
        simp only [hnd2, e2, hpl2, f1, hv, e4, e5, htl2, htr2]
        rw [ht, e1, e3]

theorem sum_shift {n : Nat} {f g : Nat → Nat} {i : Nat} (hi : i < n)
    (hfg : ∀ b, b ≠ i → f b = g b) :
    (∑ b ∈ Finset.range n, f b) + g i = (∑ b ∈ Finset.range n, g b) + f i := by
  have h1 : ∑ b ∈ (Finset.range n).erase i, f b =
      ∑ b ∈ (Finset.range n).erase i, g b :=
    Finset.sum_congr rfl (fun b hb => hfg b (Finset.ne_of_mem_erase hb))
  have h2 := Finset.sum_erase_add (Finset.range n) f (Finset.mem_range.mpr hi)
  have h3 := Finset.sum_erase_add (Finset.range n) g (Finset.mem_range.mpr hi)
  omega

theorem get_set_self {α : Type} {l : List α} {i : Nat} {x : α} (h : i < l.length) :
    (l.set i x)[i]? = some x := List.getElem?_set_eq h

theorem get_set_ne {α : Type} {l : List α} {i j : Nat} {x : α} (h : i ≠ j) :
    (l.set i x)[j]? = l[j]? := List.getElem?_set_ne h

theorem get_append_lt {α : Type} {l l2 : List α} {i : Nat} (h : i < l.length) :
    (l ++ l2)[i]? = l[i]? := by rw [List.getElem?_append, if_pos h]

/-- States equal up to reference counts: all observations `treeOf`, `get` and
`range` make coincide. -/
def ObsEq (s s2 : Heap K V) : Prop :=
  (∀ b : Nat,
    (s2.nodes[b]?).map (fun nd => (nd.key, nd.pid, nd.weight, nd.left, nd.right)) =
      (s.nodes[b]?).map (fun nd => (nd.key, nd.pid, nd.weight, nd.left, nd.right))) ∧
  (∀ p : Nat, (s2.payloads[p]?).map (fun pl => pl.value) =
    (s.payloads[p]?).map (fun pl => pl.value))

theorem treeOf_obsEq {s s2 : Heap K V} (h : ObsEq s s2) :
    ∀ (f : Nat) (x : Option Nat), treeOf f s2 x = treeOf f s x := by
  intro f
  induction f with
  | zero =>
    intro x
    cases x <;> rfl
  | succ f ih =>
    intro x
    cases x with
    | none => rfl
    | some a =>
      have h1 := h.1 a
      cases hnd : s.nodes[a]? with
      | none =>
        rw [hnd] at h1
        simp only [Option.map_none'] at h1
        have h3 := Option.map_eq_none'.mp h1
        rw [treeOf, treeOf]
        simp only [hnd, h3]
      | some nd =>
        rw [hnd] at h1
        simp only [Option.map_some'] at h1
        obtain ⟨nd2, hnd2, htup⟩ := Option.map_eq_some'.mp h1
        simp only [Prod.mk.injEq] at htup
        obtain ⟨e1, e2, e3, e4, e5⟩ := htup
        have h2 := h.2 nd.pid
        rw [treeOf, treeOf]
        cases hpl : s.payloads[nd.pid]? with
        | none =>
          rw [hpl] at h2
          simp only [Option.map_none'] at h2
          have h3 := Option.map_eq_none'.mp h2
          simp only [hnd, hnd2, e2, h3, hpl]
        | some pl =>
          rw [hpl] at h2
          simp only [Option.map_some'] at h2
          obtain ⟨pl2, hpl2, hve⟩ := Option.map_eq_some'.mp h2
          simp only [hnd, hnd2, e2, hpl, hpl2, hve, e1, e3, e4, e5, ih]

theorem liveEdges_set {s : Heap K V} {i : Nat} (nd2 : HNode K)
    (hi : i < s.nodes.length) (a : Nat) :
    liveEdges (setNode s i nd2) a + nodeContrib s.nodes[i]? a =
      liveEdges s a + nodeContrib (some nd2) a := by
  have hlen : (setNode s i nd2).nodes.length = s.nodes.length := by
    simp [setNode]
  unfold liveEdges
  rw [hlen]
  have hset : (setNode s i nd2).nodes[i]? = some nd2 := by
    simp [setNode]
    exact get_set_self hi
  have hfg : ∀ b, b ≠ i →
      nodeContrib (setNode s i nd2).nodes[b]? a = nodeContrib s.nodes[b]? a := by
    intro b hb
    simp only [setNode]
    rw [get_set_ne (Ne.symm hb)]
  have h := sum_shift (f := fun b => nodeContrib (setNode s i nd2).nodes[b]? a)
    (g := fun b => nodeContrib s.nodes[b]? a) hi hfg
  dsimp only at h
  rw [hset] at h
  exact h

theorem liveOwns_set {s : Heap K V} {i : Nat} (nd2 : HNode K)
    (hi : i < s.nodes.length) (p : Nat) :
    liveOwns (setNode s i nd2) p + payContrib s.nodes[i]? p =
      liveOwns s p + payContrib (some nd2) p := by
  have hlen : (setNode s i nd2).nodes.length = s.nodes.length := by
    simp [setNode]
  unfold liveOwns
  rw [hlen]
  have hset : (setNode s i nd2).nodes[i]? = some nd2 := by
    simp [setNode]
    exact get_set_self hi
  have hfg : ∀ b, b ≠ i →
      payContrib (setNode s i nd2).nodes[b]? p = payContrib s.nodes[b]? p := by
    intro b hb
    simp only [setNode]
    rw [get_set_ne (Ne.symm hb)]
  have h := sum_shift (f := fun b => payContrib (setNode s i nd2).nodes[b]? p)
    (g := fun b => payContrib s.nodes[b]? p) hi hfg
  dsimp only at h
  rw [hset] at h
  exact h

theorem liveEdges_append {s : Heap K V} (nd2 : HNode K) (a : Nat) :
    liveEdges { s with nodes := s.nodes ++ [nd2] } a =
      liveEdges s a + nodeContrib (some nd2) a := by
  unfold liveEdges
  have hlen : (s.nodes ++ [nd2]).length = s.nodes.length + 1 := by simp
  simp only [hlen]
  rw [Finset.sum_range_succ]
  have h1 : (s.nodes ++ [nd2])[s.nodes.length]? = some nd2 := by
    rw [List.getElem?_append_right (le_refl _)]
    simp
  rw [h1]
  congr 1
  apply Finset.sum_congr rfl
  intro b hb
  rw [get_append_lt (Finset.mem_range.mp hb)]

theorem liveOwns_append {s : Heap K V} (nd2 : HNode K) (p : Nat) :
    liveOwns { s with nodes := s.nodes ++ [nd2] } p =
      liveOwns s p + payContrib (some nd2) p := by
  unfold liveOwns
  have hlen : (s.nodes ++ [nd2]).length = s.nodes.length + 1 := by simp
  simp only [hlen]
  rw [Finset.sum_range_succ]
  have h1 : (s.nodes ++ [nd2])[s.nodes.length]? = some nd2 := by
    rw [List.getElem?_append_right (le_refl _)]
    simp
  rw [h1]
  congr 1
  apply Finset.sum_congr rfl
  intro b hb
  rw [get_append_lt (Finset.mem_range.mp hb)]

theorem liveEdges_payloads {s : Heap K V} {pls : List (HPayload K V)} (a : Nat) :
    liveEdges { s with payloads := pls } a = liveEdges s a := rfl

theorem liveOwns_payloads {s : Heap K V} {pls : List (HPayload K V)} (p : Nat) :
    liveOwns { s with payloads := pls } p = liveOwns s p := rfl

theorem liveEdges_log {s : Heap K V} {lg : List (Nat × K × V)} (a : Nat) :
    liveEdges { s with log := lg } a = liveEdges s a := rfl

theorem liveOwns_log {s : Heap K V} {lg : List (Nat × K × V)} (p : Nat) :
    liveOwns { s with log := lg } p = liveOwns s p := rfl

theorem obsEq_refl (s : Heap K V) : ObsEq s s := ⟨fun _ => rfl, fun _ => rfl⟩

theorem setNode_get_self {s : Heap K V} {a : Nat} {nd2 : HNode K}
    (h : a < s.nodes.length) : (setNode s a nd2).nodes[a]? = some nd2 :=
  get_set_self h

theorem setNode_get_ne {s : Heap K V} {a b : Nat} {nd2 : HNode K} (h : b ≠ a) :
    (setNode s a nd2).nodes[b]? = s.nodes[b]? := get_set_ne (Ne.symm h)

theorem setPayload_get_self {s : Heap K V} {p : Nat} {pl2 : HPayload K V}
    (h : p < s.payloads.length) : (setPayload s p pl2).payloads[p]? = some pl2 :=
  get_set_self h

theorem setPayload_get_ne {s : Heap K V} {p q : Nat} {pl2 : HPayload K V}
    (h : q ≠ p) : (setPayload s p pl2).payloads[q]? = s.payloads[q]? :=
  get_set_ne (Ne.symm h)

/-- The payload- and log-related invariant fields only look at payload
contents, the log, and node key/pid fields; they transport along any state
change that fixes those. -/
theorem inv_aux {s : Heap K V} (s2 : Heap K V) {R P : List Nat} (hinv : Inv s R P)
    (hpay : s2.payloads = s.payloads) (hlog : s2.log = s.log)
    (hnodes : ∀ (a : Nat) (nd2 : HNode K), s2.nodes[a]? = some nd2 →
      ∃ nd, s.nodes[a]? = some nd ∧ nd2.key = nd.key ∧ nd2.pid = nd.pid) :
    (∀ (a : Nat) (nd : HNode K), s2.nodes[a]? = some nd →
      ∃ pl, s2.payloads[nd.pid]? = some pl ∧ nd.key = pl.key) ∧
    (∀ (p : Nat) (pl : HPayload K V), s2.payloads[p]? = some pl → 0 < pl.refCount →
      pl.value = some pl.gValue ∧ pl.release = pl.gHadRelease) ∧
    (∀ (p : Nat) (pl : HPayload K V), s2.payloads[p]? = some pl → pl.refCount ≤ 0 →
      pl.value = none ∧ pl.release = false) ∧
    (∀ (p : Nat) (pl : HPayload K V), s2.payloads[p]? = some pl →
      (s2.log.filter (fun e => e.1 = p)).length =
        (if pl.gHadRelease = true ∧ pl.refCount ≤ 0 then 1 else 0)) ∧
    (∀ e ∈ s2.log, ∃ pl : HPayload K V, s2.payloads[e.1]? = some pl ∧
      e.2.1 = pl.key ∧ e.2.2 = pl.gValue) := by
  refine ⟨?_, ?_, ?_, ?_, ?_⟩
  · intro a nd2 h
    obtain ⟨nd, hnd, hk, hp⟩ := hnodes a nd2 h
    obtain ⟨pl, hpl, hke⟩ := hinv.keyCoh a nd hnd
    exact ⟨pl, by rw [hpay, hp]; exact hpl, by rw [hk, hke]⟩
  · intro p pl h
    rw [hpay] at h
    exact hinv.payLive p pl h
  · intro p pl h
    rw [hpay] at h
    exact hinv.payDead p pl h
  · intro p pl h
    rw [hpay] at h
    rw [hlog]
    exact hinv.logCount p pl h
  · intro e he
    rw [hlog] at he
    obtain ⟨pl, hpl, h1, h2⟩ := hinv.logContent e he
    exact ⟨pl, by rw [hpay]; exact hpl, h1, h2⟩

/-- `incref` on a live (or nil) reference: the counting invariant gains one
root reference, and nothing observable changes. -/
theorem incref_spec {s : Heap K V} {R P : List Nat} (hinv : Inv s R P)
    {r : Option Nat} (hr : r = none ∨ ∃ a, r = some a ∧ isLive s a) :
    Inv (incref s r) (R ++ r.toList) P ∧ Frame s (incref s r) ∧
    ObsEq s (incref s r) ∧
    (incref s r).nodes.length = s.nodes.length ∧
    (incref s r).payloads = s.payloads ∧
    (incref s r).log = s.log ∧
    (∀ x, isLive s x → isLive (incref s r) x) ∧
    (∀ x, r ≠ some x → (incref s r).nodes[x]? = s.nodes[x]?) := by
  rcases hr with hr | ⟨a, hr, hlive⟩
  · subst hr
    have he : R ++ (Option.toList (none : Option Nat)) = R := by simp
    rw [he]
    exact ⟨hinv, frame_refl s, obsEq_refl s, rfl, rfl, rfl, fun x h => h,
      fun x h => rfl⟩
  · subst hr
    obtain ⟨nd, hnd, hrc⟩ := isLive_some hlive
    have ha : a < s.nodes.length := getElem?_some_lt hnd
    have hs2 : incref s (some a) = setNode s a { nd with refCount := nd.refCount + 1 } := by
      rw [incref, hnd]
    rw [hs2]
    have hget : ∀ b, b ≠ a → (setNode s a { nd with refCount := nd.refCount + 1 }).nodes[b]? = s.nodes[b]? :=
      fun b hb => setNode_get_ne hb
    have hgeta : (setNode s a { nd with refCount := nd.refCount + 1 }).nodes[a]? =
        some { nd with refCount := nd.refCount + 1 } := setNode_get_self ha
    have hedge : ∀ x, liveEdges (setNode s a { nd with refCount := nd.refCount + 1 }) x = liveEdges s x := by
      intro x
      have h := liveEdges_set { nd with refCount := nd.refCount + 1 } ha x
      rw [hnd] at h
      have hc1 : nodeContrib (some nd) x = edgeCnt nd x := by
        simp [nodeContrib, hrc]
      have hc2 : nodeContrib (some { nd with refCount := nd.refCount + 1 }) x = edgeCnt nd x := by
        simp only [nodeContrib]
        rw [if_pos (by omega)]
        rfl
      rw [hc1, hc2] at h
      omega
    have howns : ∀ p, liveOwns (setNode s a { nd with refCount := nd.refCount + 1 }) p = liveOwns s p := by
      intro p
      have h := liveOwns_set { nd with refCount := nd.refCount + 1 } ha p
      rw [hnd] at h
      have hc1 : payContrib (some nd) p = if nd.pid = p then 1 else 0 := by
        simp [payContrib, hrc]
      have hc2 : payContrib (some { nd with refCount := nd.refCount + 1 }) p =
          if nd.pid = p then 1 else 0 := by
        simp only [payContrib]
        by_cases hp : nd.pid = p
        · rw [if_pos ⟨by omega, hp⟩, if_pos hp]
        · rw [if_neg (by simp [hp]), if_neg hp]
      rw [hc1, hc2] at h
      omega
    have hlivepres : ∀ x, isLive s x → isLive (setNode s a { nd with refCount := nd.refCount + 1 }) x := by
      intro x hx
      rw [isLive, nodeRC]
      by_cases hb : x = a
      · subst hb
        rw [hgeta]
        dsimp only
        omega
      · rw [hget x hb]
        exact hx
    obtain ⟨hkc, hplv, hpld, hlc, hlcn⟩ := inv_aux
        (setNode s a { nd with refCount := nd.refCount + 1 }) hinv rfl rfl (by
      intro b nd2 h
      by_cases hb : b = a
      · subst hb
        rw [hgeta] at h
        cases h
        exact ⟨nd, hnd, rfl, rfl⟩
      · rw [hget b hb] at h
        exact ⟨nd2, h, rfl, rfl⟩)
    refine ⟨⟨?_, ?_, hkc, hplv, hpld, hlc, hlcn, ?_⟩, ⟨?_, ?_, ?_, le_refl _, [], by simp [setNode]⟩, ?_, by simp [setNode], rfl, rfl, hlivepres,
      fun x hx => hget x (fun he => hx (by rw [he]))⟩
    · intro x
      rw [demand, hedge x]
      have hcnt : (R ++ (Option.toList (some a))).count x =
          R.count x + (if x = a then 1 else 0) := by
        simp only [Option.toList, List.count_append, List.count_cons, List.count_nil]
        by_cases hb : x = a
        · subst hb; simp
        · simp [hb]
          omega
      rw [hcnt]
      have h0 := hinv.nodeCount x
      rw [demand] at h0
      by_cases hb : x = a
      · subst hb
        rw [nodeRC, hgeta]
        rw [nodeRC, hnd] at h0
        dsimp only at h0 ⊢
        rw [if_pos rfl]
        push_cast
        omega
      · rw [nodeRC, hget x hb]
        rw [nodeRC] at h0
        rw [if_neg hb]
        push_cast at h0 ⊢
        omega
    · intro p
      rw [pdemand, howns p]
      have h0 := hinv.payCount p
      rw [pdemand] at h0
      exact h0
    · intro x hx
      have hx2 : isLive s x := by
        rw [isLive, nodeRC] at hx
        by_cases hb : x = a
        · subst hb; exact hlive
        · rw [hget x hb] at hx
          rw [isLive, nodeRC]
          exact hx
      obtain ⟨f, t, ht⟩ := hinv.liveTree x hx2
      refine ⟨f, t, ?_⟩
      rw [treeOf_obsEq ?_ f (some x)]
      · exact ht
      · constructor
        · intro b
          by_cases hb : b = a
          · subst hb
            rw [hgeta, hnd]
            rfl
          · rw [hget b hb]
        · intro p
          rfl
    · intro b nd0 h
      by_cases hb : b = a
      · subst hb
        rw [hnd] at h
        cases h
        exact ⟨_, hgeta, rfl, rfl, rfl, rfl, rfl, rfl⟩
      · exact ⟨nd0, by rw [hget b hb]; exact h, rfl, rfl, rfl, rfl, rfl, rfl⟩
    · intro p pl pl2 h1 h2 _
      have h2a : s.payloads[p]? = some pl2 := h2
      rw [h1] at h2a
      cases h2a
      exact ⟨rfl, rfl, rfl, rfl, rfl⟩
    · intro p pl pl2 h1 h2 h3
      have h2a : s.payloads[p]? = some pl2 := h2
      rw [h1] at h2a
      cases h2a
      exact h3
    · constructor
      · intro b
        by_cases hb : b = a
        · subst hb
          rw [hgeta, hnd]
          rfl
        · rw [hget b hb]
      · intro p
        rfl

/-- `Inv` depends on the reference multisets only through their counts, so any
count-preserving rearrangement may be substituted. -/
theorem inv_perm {s : Heap K V} {R P R2 P2 : List Nat} (hinv : Inv s R P)
    (hR : ∀ x, R2.count x = R.count x) (hP : ∀ p, P2.count p = P.count p) :
    Inv s R2 P2 := by
  refine ⟨?_, ?_, hinv.keyCoh, hinv.payLive, hinv.payDead, hinv.logCount,
    hinv.logContent, hinv.liveTree⟩
  · intro a
    have h := hinv.nodeCount a
    rw [demand] at h
    rw [demand, hR a]
    exact h
  · intro p
    have h := hinv.payCount p
    rw [pdemand] at h
    rw [pdemand, hP p]
    exact h

/-- A derivation can be replayed at any fuel at least the tree height. -/
theorem treeOf_min {f : Nat} {s : Heap K V} {r : Option Nat} {t : ITree K V}
    (h : treeOf f s r = some t) : ∀ {g : Nat}, tdepth t ≤ g →
    treeOf g s r = some t := by
  induction f generalizing r t with
  | zero =>
    intro g hg
    cases r with
    | none => rw [treeOf] at h; cases h; cases g <;> rfl
    | some a => rw [treeOf] at h; exact absurd h (by simp)
  | succ f ih =>
    intro g hg
    cases r with
    | none => rw [treeOf] at h; cases h; cases g <;> rfl
    | some a =>
      obtain ⟨nd, pl, v, tl, tr, hnd, hpl, hv, htl, htr, ht⟩ := treeOf_some_node h
      subst ht
      simp only [tdepth] at hg
      cases g with
      | zero => omega
      | succ g =>
        have h1 : treeOf g s nd.left = some tl := ih htl (by omega)
        have h2 : treeOf g s nd.right = some tr := ih htr (by omega)
        rw [treeOf]
        simp only [hnd, hpl, hv, h1, h2]

/-- Assemble a one-step derivation from derivations for the children. -/
theorem treeOf_node_build {s : Heap K V} {b : Nat} {nd : HNode K}
    {pl : HPayload K V} {v : V} {tl tr : ITree K V} {f1 f2 : Nat}
    (hnd : s.nodes[b]? = some nd) (hpl : s.payloads[nd.pid]? = some pl)
    (hv : pl.value = some v) (htl : treeOf f1 s nd.left = some tl)
    (htr : treeOf f2 s nd.right = some tr) :
    treeOf (max f1 f2 + 1) s (some b) =
      some (.node b tl nd.key v nd.weight tr) := by
  rw [treeOf]
  simp only [hnd, hpl, hv, treeOf_mono htl (le_max_left f1 f2),
    treeOf_mono htr (le_max_right f1 f2)]

/-- Every node id of a derivable tree addresses an allocated slot. -/
theorem treeOf_ids_lt {f : Nat} {s : Heap K V} {r : Option Nat} {t : ITree K V}
    (h : treeOf f s r = some t) : ∀ x ∈ tids t, x < s.nodes.length := by
  induction f generalizing r t with
  | zero =>
    cases r with
    | none => rw [treeOf] at h; cases h; intro x hx; simp [tids] at hx
    | some a => rw [treeOf] at h; exact absurd h (by simp)
  | succ f ih =>
    cases r with
    | none => rw [treeOf] at h; cases h; intro x hx; simp [tids] at hx
    | some a =>
      obtain ⟨nd, pl, v, tl, tr, hnd, hpl, hv, htl, htr, ht⟩ := treeOf_some_node h
      subst ht
      intro x hx
      simp only [tids, List.mem_cons, List.mem_append] at hx
      rcases hx with hx | hx | hx
      · subst hx; exact getElem?_some_lt hnd
      · exact ih htl x hx
      · exact ih htr x hx

/-- The root id of a non-empty derivation is among the tree's node ids. -/
theorem treeOf_head_mem {f : Nat} {s : Heap K V} {a : Nat} {t : ITree K V}
    (h : treeOf f s (some a) = some t) : a ∈ tids t := by
  cases f with
  | zero => rw [treeOf] at h; exact absurd h (by simp)
  | succ f =>
    obtain ⟨nd, pl, v, tl, tr, hnd, hpl, hv, htl, htr, ht⟩ := treeOf_some_node h
    subst ht
    simp [tids]

/-- A derivation only reads the node slots of its own tree and their payload
slots, so it survives any mutation elsewhere. -/
theorem treeOf_local {s s2 : Heap K V} {f : Nat} {r : Option Nat} {t : ITree K V}
    (h : treeOf f s r = some t)
    (hn : ∀ x ∈ tids t, s2.nodes[x]? = s.nodes[x]?)
    (hp : ∀ x ∈ tids t, ∀ nd : HNode K, s.nodes[x]? = some nd →
      ∀ pl : HPayload K V, s.payloads[nd.pid]? = some pl →
      ∃ pl2 : HPayload K V, s2.payloads[nd.pid]? = some pl2 ∧
        pl2.value = pl.value) :
    treeOf f s2 r = some t := by
  induction f generalizing r t with
  | zero =>
    cases r with
    | none => rw [treeOf] at h; cases h; rfl
    | some a => rw [treeOf] at h; exact absurd h (by simp)
  | succ f ih =>
    cases r with
    | none => rw [treeOf] at h; cases h; rfl
    | some a =>
      obtain ⟨nd, pl, v, tl, tr, hnd, hpl, hv, htl, htr, ht⟩ := treeOf_some_node h
      subst ht
      have hmem : a ∈ tids (ITree.node a tl nd.key v nd.weight tr) := by simp [tids]
      have hsubl : ∀ x ∈ tids tl, x ∈ tids (ITree.node a tl nd.key v nd.weight tr) := by
        intro x hx; simp [tids, hx]
      have hsubr : ∀ x ∈ tids tr, x ∈ tids (ITree.node a tl nd.key v nd.weight tr) := by
        intro x hx; simp [tids, hx]
      have htl2 := ih htl (fun x hx => hn x (hsubl x hx))
        (fun x hx => hp x (hsubl x hx))
      have htr2 := ih htr (fun x hx => hn x (hsubr x hx))
        (fun x hx => hp x (hsubr x hx))
      obtain ⟨pl2, hpl2, hveq⟩ := hp a hmem nd hnd pl hpl
      rw [treeOf]
      simp only [hn a hmem, hnd, hpl2, hveq, hpl, hv, htl2, htr2]

/-- Children of tree nodes are again tree nodes. -/
theorem tids_child {f : Nat} {s : Heap K V} {r : Option Nat} {t : ITree K V}
    (h : treeOf f s r = some t) : ∀ x ∈ tids t, ∀ nd : HNode K,
      s.nodes[x]? = some nd →
      (∀ c, nd.left = some c → c ∈ tids t) ∧
      (∀ c, nd.right = some c → c ∈ tids t) := by
  induction f generalizing r t with
  | zero =>
    cases r with
    | none => rw [treeOf] at h; cases h; intro x hx; simp [tids] at hx
    | some a => rw [treeOf] at h; exact absurd h (by simp)
  | succ f ih =>
    cases r with
    | none => rw [treeOf] at h; cases h; intro x hx; simp [tids] at hx
    | some a =>
      obtain ⟨nd, pl, v, tl, tr, hnd, hpl, hv, htl, htr, ht⟩ := treeOf_some_node h
      subst ht
      intro x hx nd0 hnd0
      simp only [tids, List.mem_cons, List.mem_append] at hx
      rcases hx with hx | hx | hx
      · subst hx
        rw [hnd] at hnd0
        cases hnd0
        constructor
        · intro c hc
          rw [hc] at htl
          have := treeOf_head_mem htl
          simp [tids, this]
        · intro c hc
          rw [hc] at htr
          have := treeOf_head_mem htr
          simp [tids, this]
      · obtain ⟨h1, h2⟩ := ih htl x hx nd0 hnd0
        exact ⟨fun c hc => by simp [tids, h1 c hc],
          fun c hc => by simp [tids, h2 c hc]⟩
      · obtain ⟨h1, h2⟩ := ih htr x hx nd0 hnd0
        exact ⟨fun c hc => by simp [tids, h1 c hc],
          fun c hc => by simp [tids, h2 c hc]⟩

/-- A node is rooted when it lies in the tree of a reference the mutator
holds.  Rooted nodes survive every operation that keeps the holder's
reference, which is how liveness of borrowed subtrees is threaded through
`union`'s internal `decref`s. -/
def Rooted (s : Heap K V) (R : List Nat) (x : Nat) : Prop :=
  ∃ r, 1 ≤ R.count r ∧ ∃ f t, treeOf f s (some r) = some t ∧ x ∈ tids t

theorem rooted_live {s : Heap K V} {R P : List Nat} (hinv : Inv s R P) {x : Nat}
    (h : Rooted s R x) : isLive s x := by
  obtain ⟨r, hr, f, t, ht, hx⟩ := h
  have hlive : isLive s r := by
    rw [isLive, hinv.nodeCount r]
    have : 1 ≤ demand s R r := by rw [demand]; omega
    exact_mod_cast this
  exact tree_live hinv t f r ht hlive x hx

theorem rooted_of_mem {s : Heap K V} {R P : List Nat} (hinv : Inv s R P) {x : Nat}
    (hx : 1 ≤ R.count x) : Rooted s R x := by
  have hlive : isLive s x := by
    rw [isLive, hinv.nodeCount x]
    have : 1 ≤ demand s R x := by rw [demand]; omega
    exact_mod_cast this
  obtain ⟨f, t, ht⟩ := hinv.liveTree x hlive
  exact ⟨x, hx, f, t, ht, treeOf_head_mem ht⟩

theorem rooted_mono {s s2 : Heap K V} {R R2 : List Nat} {x : Nat}
    (h : Rooted s R x) (hcnt : ∀ r, R.count r ≤ R2.count r)
    (htree : ∀ (r f : Nat) (t : ITree K V), 1 ≤ R.count r →
      treeOf f s (some r) = some t → treeOf f s2 (some r) = some t) :
    Rooted s2 R2 x := by
  obtain ⟨r, hr, f, t, ht, hx⟩ := h
  exact ⟨r, le_trans hr (hcnt r), f, t, htree r f t hr ht, hx⟩

/-- A framed state change that keeps (at least) the old references keeps every
rooted node rooted. -/
theorem rooted_frame {s s2 : Heap K V} {R R2 P2 : List Nat} {x : Nat}
    (hinv2 : Inv s2 R2 P2) (hf : Frame s s2)
    (hcnt : ∀ r, R.count r ≤ R2.count r) (h : Rooted s R x) :
    Rooted s2 R2 x := by
  refine rooted_mono h hcnt ?_
  intro r f t hr ht
  have hlive2 : isLive s2 r := by
    rw [isLive, hinv2.nodeCount r]
    have h2 : 1 ≤ R2.count r := le_trans hr (hcnt r)
    have : 1 ≤ demand s2 R2 r := by rw [demand]; omega
    exact_mod_cast this
  exact treeOf_frame hinv2 hf f (some r) t (Or.inr ⟨r, rfl, hlive2⟩) ht

theorem rooted_child {s : Heap K V} {R : List Nat} {x : Nat} (h : Rooted s R x)
    {nd : HNode K} (hnd : s.nodes[x]? = some nd) :
    (∀ c, nd.left = some c → Rooted s R c) ∧
    (∀ c, nd.right = some c → Rooted s R c) := by
  obtain ⟨r, hr, f, t, ht, hx⟩ := h
  obtain ⟨h1, h2⟩ := tids_child ht x hx nd hnd
  exact ⟨fun c hc => ⟨r, hr, f, t, ht, h1 c hc⟩,
    fun c hc => ⟨r, hr, f, t, ht, h2 c hc⟩⟩

/-- The log holds no entry for a slot beyond the allocated payloads. -/
theorem log_fresh {s : Heap K V} {R P : List Nat} (hinv : Inv s R P) {p : Nat}
    (hp : s.payloads.length ≤ p) :
    (s.log.filter (fun e => e.1 = p)).length = 0 := by
  rw [List.length_eq_zero, List.filter_eq_nil_iff]
  intro e he
  obtain ⟨pl, hpl, -, -⟩ := hinv.logContent e he
  have := getElem?_some_lt hpl
  simp only [decide_eq_true_eq]
  omega

theorem getElem?_concat_self {α : Type} (l : List α) (x : α) :
    (l ++ [x])[l.length]? = some x := by
  rw [List.getElem?_append_right (le_refl _)]
  simp

theorem getElem?_concat_ne {α : Type} {l : List α} {x : α} {a : Nat}
    (h : a ≠ l.length) : (l ++ [x])[a]? = l[a]? := by
  rcases Nat.lt_or_ge a l.length with h1 | h1
  · exact get_append_lt h1
  · rw [List.getElem?_eq_none
      (by simp only [List.length_append, List.length_singleton]; omega),
      List.getElem?_eq_none (by omega)]

/-- An unallocated node slot carries no demand. -/
theorem demand_unalloc {s : Heap K V} {R P : List Nat} (hinv : Inv s R P)
    {a : Nat} (ha : s.nodes.length ≤ a) :
    R.count a = 0 ∧ liveEdges s a = 0 := by
  have h := hinv.nodeCount a
  rw [nodeRC] at h
  rw [List.getElem?_eq_none ha] at h
  rw [demand] at h
  dsimp only at h
  have h2 : R.count a + liveEdges s a = 0 := by exact_mod_cast h.symm
  omega

/-- An unallocated payload slot carries no demand. -/
theorem pdemand_unalloc {s : Heap K V} {R P : List Nat} (hinv : Inv s R P)
    {p : Nat} (hp : s.payloads.length ≤ p) :
    P.count p = 0 ∧ liveOwns s p = 0 := by
  have h := hinv.payCount p
  rw [payRC] at h
  rw [List.getElem?_eq_none hp] at h
  rw [pdemand] at h
  dsimp only at h
  have h2 : P.count p + liveOwns s p = 0 := by exact_mod_cast h.symm
  omega

/-- `newNodeWithRef`: allocates one payload (count 1) and one node (count 1)
holding it; the counting invariant gains a root reference to the fresh
node. -/
theorem newNodeWithRef_spec {s s2 : Heap K V} {R P : List Nat} {b : Nat}
    (hinv : Inv s R P) {k : K} {v : V} {rel : Bool} {w : Nat}
    (h : newNodeWithRef s k v rel w = (s2, b)) :
    Inv s2 (R ++ [b]) P ∧ Frame s s2 ∧ b = s.nodes.length ∧
    s2.nodes.length = s.nodes.length + 1 ∧
    s2.nodes[b]? = some (⟨k, s.payloads.length, w, 1, none, none, none⟩ : HNode K) ∧
    s2.payloads.length = s.payloads.length + 1 ∧ s2.log = s.log ∧
    (∀ x, x ≠ b → s2.nodes[x]? = s.nodes[x]?) ∧
    (∀ p, p ≠ s.payloads.length → s2.payloads[p]? = s.payloads[p]?) ∧
    s2.payloads[s.payloads.length]? =
      some (⟨1, some v, rel, k, v, rel⟩ : HPayload K V) ∧
    treeOf 1 s2 (some b) = some (.node b .nil k v w .nil) := by
  have hs2 : s2 = { s with
      nodes := s.nodes ++ [(⟨k, s.payloads.length, w, 1, none, none, none⟩ : HNode K)],
      payloads := s.payloads ++ [(⟨1, some v, rel, k, v, rel⟩ : HPayload K V)] } :=
    congrArg Prod.fst h.symm
  have hbv : b = s.nodes.length := congrArg Prod.snd h.symm
  subst hs2
  subst hbv
  have hnne : ∀ x, x ≠ s.nodes.length →
      (s.nodes ++ [(⟨k, s.payloads.length, w, 1, none, none, none⟩ : HNode K)])[x]? =
        s.nodes[x]? := fun x hx => getElem?_concat_ne hx
  have hnself :
      (s.nodes ++ [(⟨k, s.payloads.length, w, 1, none, none, none⟩ : HNode K)])[s.nodes.length]? =
        some (⟨k, s.payloads.length, w, 1, none, none, none⟩ : HNode K) :=
    getElem?_concat_self _ _
  have hpne : ∀ p, p ≠ s.payloads.length →
      (s.payloads ++ [(⟨1, some v, rel, k, v, rel⟩ : HPayload K V)])[p]? =
        s.payloads[p]? := fun p hp => getElem?_concat_ne hp
  have hpself :
      (s.payloads ++ [(⟨1, some v, rel, k, v, rel⟩ : HPayload K V)])[s.payloads.length]? =
        some (⟨1, some v, rel, k, v, rel⟩ : HPayload K V) :=
    getElem?_concat_self _ _
  have hz := demand_unalloc hinv (le_refl s.nodes.length)
  have hpz := pdemand_unalloc hinv (le_refl s.payloads.length)
  have hedge : ∀ x, liveEdges { s with
      nodes := s.nodes ++ [(⟨k, s.payloads.length, w, 1, none, none, none⟩ : HNode K)],
      payloads := s.payloads ++ [(⟨1, some v, rel, k, v, rel⟩ : HPayload K V)] } x =
      liveEdges s x := by
    intro x
    have h1 : liveEdges { s with
        nodes := s.nodes ++ [(⟨k, s.payloads.length, w, 1, none, none, none⟩ : HNode K)],
        payloads := s.payloads ++ [(⟨1, some v, rel, k, v, rel⟩ : HPayload K V)] } x =
        liveEdges { s with
          nodes := s.nodes ++ [(⟨k, s.payloads.length, w, 1, none, none, none⟩ : HNode K)] } x := rfl
    rw [h1, liveEdges_append]
    simp [nodeContrib, edgeCnt]
  have howns : ∀ p, liveOwns { s with
      nodes := s.nodes ++ [(⟨k, s.payloads.length, w, 1, none, none, none⟩ : HNode K)],
      payloads := s.payloads ++ [(⟨1, some v, rel, k, v, rel⟩ : HPayload K V)] } p =
      liveOwns s p + (if p = s.payloads.length then 1 else 0) := by
    intro p
    have h1 : liveOwns { s with
        nodes := s.nodes ++ [(⟨k, s.payloads.length, w, 1, none, none, none⟩ : HNode K)],
        payloads := s.payloads ++ [(⟨1, some v, rel, k, v, rel⟩ : HPayload K V)] } p =
        liveOwns { s with
          nodes := s.nodes ++ [(⟨k, s.payloads.length, w, 1, none, none, none⟩ : HNode K)] } p := rfl
    rw [h1, liveOwns_append]
    by_cases hp : p = s.payloads.length
    · subst hp; simp [payContrib]
    · rw [if_neg hp]
      have h2 : payContrib
          (some (⟨k, s.payloads.length, w, 1, none, none, none⟩ : HNode K)) p = 0 := by
        simp only [payContrib]
        rw [if_neg]
        intro hc
        exact hp hc.2.symm
      rw [h2]
  have htree : treeOf 1 { s with
      nodes := s.nodes ++ [(⟨k, s.payloads.length, w, 1, none, none, none⟩ : HNode K)],
      payloads := s.payloads ++ [(⟨1, some v, rel, k, v, rel⟩ : HPayload K V)] }
      (some s.nodes.length) =
      some (.node s.nodes.length .nil k v w .nil) := by
    rw [treeOf]
    simp only [hnself, hpself]
    rfl
  refine ⟨?_, ?_, rfl, by simp, hnself, by simp, rfl, hnne, hpne, hpself, htree⟩
  · refine ⟨?_, ?_, ?_, ?_, ?_, ?_, ?_, ?_⟩
    · intro x
      rw [demand, hedge x]
      by_cases hx : x = s.nodes.length
      · subst hx
        rw [nodeRC]
        rw [hnself]
        have hc : (R ++ [s.nodes.length]).count s.nodes.length =
            R.count s.nodes.length + 1 := by simp
        rw [hc]
        push_cast
        omega
      · rw [nodeRC, hnne x hx]
        have h0 := hinv.nodeCount x
        rw [nodeRC, demand] at h0
        have hm : List.count x [s.nodes.length] = 0 :=
          List.count_eq_zero_of_not_mem (by simp only [List.mem_singleton]; exact hx)
        have hc : (R ++ [s.nodes.length]).count x = R.count x := by
          rw [List.count_append, hm]
          omega
        rw [hc]
        push_cast at h0 ⊢
        omega
    · intro p
      rw [pdemand, howns p]
      by_cases hp : p = s.payloads.length
      · subst hp
        rw [payRC]
        rw [hpself]
        rw [if_pos rfl]
        push_cast
        omega
      · rw [payRC, hpne p hp]
        have h0 := hinv.payCount p
        rw [payRC, pdemand] at h0
        rw [if_neg hp]
        push_cast at h0 ⊢
        omega
    · intro a nd hnd
      by_cases ha : a = s.nodes.length
      · subst ha
        rw [hnself] at hnd
        cases hnd
        exact ⟨_, hpself, rfl⟩
      · rw [hnne a ha] at hnd
        obtain ⟨pl, hpl, hk⟩ := hinv.keyCoh a nd hnd
        have hlt := getElem?_some_lt hpl
        exact ⟨pl, by rw [hpne nd.pid (by omega)]; exact hpl, hk⟩
    · intro p pl hpl hpos
      by_cases hp : p = s.payloads.length
      · subst hp
        rw [hpself] at hpl
        cases hpl
        exact ⟨rfl, rfl⟩
      · rw [hpne p hp] at hpl
        exact hinv.payLive p pl hpl hpos
    · intro p pl hpl hneg
      by_cases hp : p = s.payloads.length
      · subst hp
        rw [hpself] at hpl
        cases hpl
        exact absurd hneg (by norm_num)
      · rw [hpne p hp] at hpl
        exact hinv.payDead p pl hpl hneg
    · intro p pl hpl
      by_cases hp : p = s.payloads.length
      · subst hp
        rw [hpself] at hpl
        cases hpl
        rw [if_neg (by norm_num)]
        exact log_fresh hinv (le_refl _)
      · rw [hpne p hp] at hpl
        exact hinv.logCount p pl hpl
    · intro e he
      obtain ⟨pl, hpl, h1, h2⟩ := hinv.logContent e he
      have hlt := getElem?_some_lt hpl
      exact ⟨pl, by rw [hpne e.1 (by omega)]; exact hpl, h1, h2⟩
    · intro x hx
      by_cases hxx : x = s.nodes.length
      · subst hxx
        exact ⟨1, _, htree⟩
      · have hlx : isLive s x := by
          rw [isLive, nodeRC] at hx ⊢
          rw [hnne x hxx] at hx
          exact hx
        obtain ⟨f, t, ht⟩ := hinv.liveTree x hlx
        refine ⟨f, t, treeOf_local ht ?_ ?_⟩
        · intro y hy
          exact hnne y (by have := treeOf_ids_lt ht y hy; omega)
        · intro y hy nd hnd pl hpl
          have hlt := getElem?_some_lt hpl
          exact ⟨pl, by rw [hpne nd.pid (by omega)]; exact hpl, rfl⟩
  · refine ⟨?_, ?_, ?_, by simp, [], by simp⟩
    · intro a nd hnd
      have hlt := getElem?_some_lt hnd
      exact ⟨nd, by rw [hnne a (by omega)]; exact hnd, rfl, rfl, rfl, rfl, rfl, rfl⟩
    · intro p pl pl2 hpl hpl2 hpos
      have hlt := getElem?_some_lt hpl
      rw [hpne p (by omega)] at hpl2
      rw [hpl] at hpl2
      cases hpl2
      exact ⟨rfl, rfl, rfl, rfl, rfl⟩
    · intro p pl pl2 hpl hpl2 hneg
      have hlt := getElem?_some_lt hpl
      rw [hpne p (by omega)] at hpl2
      rw [hpl] at hpl2
      cases hpl2
      exact hneg

/-- `shallowCloneWithRef`: bumps the payload count and allocates a fresh node
(count 1) sharing key, payload and weight with the source node; the counting
invariant gains a root reference to the clone. -/
theorem shallowCloneWithRef_spec {s s2 : Heap K V} {R P : List Nat} {a b : Nat}
    (hinv : Inv s R P) {nd : HNode K} (hnd : s.nodes[a]? = some nd)
    (hrc : 0 < nd.refCount) (h : shallowCloneWithRef s a = (s2, b)) :
    Inv s2 (R ++ [b]) P ∧ Frame s s2 ∧ b = s.nodes.length ∧
    s2.nodes.length = s.nodes.length + 1 ∧
    s2.nodes[b]? = some (⟨nd.key, nd.pid, nd.weight, 1, none, none, some a⟩ : HNode K) ∧
    s2.payloads.length = s.payloads.length ∧ s2.log = s.log ∧
    (∀ x, x ≠ b → s2.nodes[x]? = s.nodes[x]?) ∧
    (∀ q, q ≠ nd.pid → s2.payloads[q]? = s.payloads[q]?) ∧
    (∃ pl : HPayload K V, s.payloads[nd.pid]? = some pl ∧ 0 < pl.refCount ∧
      s2.payloads[nd.pid]? = some { pl with refCount := pl.refCount + 1 } ∧
      treeOf 1 s2 (some b) =
        some (.node b .nil nd.key pl.gValue nd.weight .nil)) ∧
    (∀ x, isLive s x → isLive s2 x) := by
  obtain ⟨pl, hpl, hplrc⟩ := pay_live hinv hnd hrc
  have hplen : nd.pid < s.payloads.length := getElem?_some_lt hpl
  have hstep : shallowCloneWithRef s a =
      ({ setPayload s nd.pid { pl with refCount := pl.refCount + 1 } with
          nodes := s.nodes ++
            [(⟨nd.key, nd.pid, nd.weight, 1, none, none, some a⟩ : HNode K)] },
        s.nodes.length) := by
    simp only [shallowCloneWithRef, hnd, hpl]
    rfl
  rw [hstep] at h
  have hs2 : s2 = { setPayload s nd.pid { pl with refCount := pl.refCount + 1 } with
      nodes := s.nodes ++
        [(⟨nd.key, nd.pid, nd.weight, 1, none, none, some a⟩ : HNode K)] } :=
    (congrArg Prod.fst h).symm
  have hbv : b = s.nodes.length := (congrArg Prod.snd h).symm
  subst hs2
  subst hbv
  have hvall := hinv.payLive nd.pid pl hpl hplrc
  have hnne : ∀ x, x ≠ s.nodes.length →
      (s.nodes ++ [(⟨nd.key, nd.pid, nd.weight, 1, none, none, some a⟩ : HNode K)])[x]? =
        s.nodes[x]? := fun x hx => getElem?_concat_ne hx
  have hnself :
      (s.nodes ++ [(⟨nd.key, nd.pid, nd.weight, 1, none, none, some a⟩ : HNode K)])[s.nodes.length]? =
        some (⟨nd.key, nd.pid, nd.weight, 1, none, none, some a⟩ : HNode K) :=
    getElem?_concat_self _ _
  have hpne : ∀ q, q ≠ nd.pid →
      (setPayload s nd.pid { pl with refCount := pl.refCount + 1 }).payloads[q]? =
        s.payloads[q]? := fun q hq => setPayload_get_ne hq
  have hpself :
      (setPayload s nd.pid { pl with refCount := pl.refCount + 1 }).payloads[nd.pid]? =
        some { pl with refCount := pl.refCount + 1 } := setPayload_get_self hplen
  have hz := demand_unalloc hinv (le_refl s.nodes.length)
  have hedge : ∀ x, liveEdges { setPayload s nd.pid { pl with refCount := pl.refCount + 1 } with
      nodes := s.nodes ++ [(⟨nd.key, nd.pid, nd.weight, 1, none, none, some a⟩ : HNode K)] } x =
      liveEdges s x := by
    intro x
    have h1 : liveEdges { setPayload s nd.pid { pl with refCount := pl.refCount + 1 } with
        nodes := s.nodes ++ [(⟨nd.key, nd.pid, nd.weight, 1, none, none, some a⟩ : HNode K)] } x =
        liveEdges { s with
          nodes := s.nodes ++ [(⟨nd.key, nd.pid, nd.weight, 1, none, none, some a⟩ : HNode K)] } x := rfl
    rw [h1, liveEdges_append]
    simp [nodeContrib, edgeCnt]
  have howns : ∀ q, liveOwns { setPayload s nd.pid { pl with refCount := pl.refCount + 1 } with
      nodes := s.nodes ++ [(⟨nd.key, nd.pid, nd.weight, 1, none, none, some a⟩ : HNode K)] } q =
      liveOwns s q + (if q = nd.pid then 1 else 0) := by
    intro q
    have h1 : liveOwns { setPayload s nd.pid { pl with refCount := pl.refCount + 1 } with
        nodes := s.nodes ++ [(⟨nd.key, nd.pid, nd.weight, 1, none, none, some a⟩ : HNode K)] } q =
        liveOwns { s with
          nodes := s.nodes ++ [(⟨nd.key, nd.pid, nd.weight, 1, none, none, some a⟩ : HNode K)] } q := rfl
    rw [h1, liveOwns_append]
    by_cases hq : q = nd.pid
    · subst hq; simp [payContrib]
    · rw [if_neg hq]
      have h2 : payContrib
          (some (⟨nd.key, nd.pid, nd.weight, 1, none, none, some a⟩ : HNode K)) q = 0 := by
        simp only [payContrib]
        rw [if_neg]
        intro hc
        exact hq hc.2.symm
      rw [h2]
  have htree : treeOf 1 { setPayload s nd.pid { pl with refCount := pl.refCount + 1 } with
      nodes := s.nodes ++ [(⟨nd.key, nd.pid, nd.weight, 1, none, none, some a⟩ : HNode K)] }
      (some s.nodes.length) =
      some (.node s.nodes.length .nil nd.key pl.gValue nd.weight .nil) := by
    rw [treeOf]
    simp only [hnself, hpself]
    rw [hvall.1]
    rfl
  refine ⟨?_, ?_, rfl, by simp, hnself, by simp [setPayload], rfl, hnne, hpne,
    ⟨pl, hpl, hplrc, hpself, htree⟩, ?_⟩
  · refine ⟨?_, ?_, ?_, ?_, ?_, ?_, ?_, ?_⟩
    · intro x
      rw [demand, hedge x]
      by_cases hx : x = s.nodes.length
      · subst hx
        rw [nodeRC]
        rw [hnself]
        have hc : (R ++ [s.nodes.length]).count s.nodes.length =
            R.count s.nodes.length + 1 := by simp
        rw [hc]
        push_cast
        omega
      · rw [nodeRC, hnne x hx]
        have h0 := hinv.nodeCount x
        rw [nodeRC, demand] at h0
        have hm : List.count x [s.nodes.length] = 0 :=
          List.count_eq_zero_of_not_mem (by simp only [List.mem_singleton]; exact hx)
        have hc : (R ++ [s.nodes.length]).count x = R.count x := by
          rw [List.count_append, hm]
          omega
        rw [hc]
        push_cast at h0 ⊢
        omega
    · intro q
      rw [pdemand, howns q]
      by_cases hq : q = nd.pid
      · subst hq
        rw [payRC]
        rw [hpself]
        rw [if_pos rfl]
        have h0 := hinv.payCount nd.pid
        rw [payRC, hpl, pdemand] at h0
        dsimp only at h0 ⊢
        push_cast at h0 ⊢
        omega
      · rw [payRC, hpne q hq]
        have h0 := hinv.payCount q
        rw [payRC, pdemand] at h0
        rw [if_neg hq]
        push_cast at h0 ⊢
        omega
    · intro x nd1 hnd1
      by_cases hx : x = s.nodes.length
      · subst hx
        rw [hnself] at hnd1
        cases hnd1
        obtain ⟨pl0, hpl0, hk0⟩ := hinv.keyCoh a nd hnd
        rw [hpl] at hpl0
        cases hpl0
        exact ⟨{ pl with refCount := pl.refCount + 1 }, hpself, hk0⟩
      · rw [hnne x hx] at hnd1
        obtain ⟨pl1, hpl1, hk1⟩ := hinv.keyCoh x nd1 hnd1
        by_cases hq : nd1.pid = nd.pid
        · rw [hq] at hpl1 ⊢
          rw [hpl] at hpl1
          cases hpl1
          exact ⟨{ pl with refCount := pl.refCount + 1 }, hpself, hk1⟩
        · exact ⟨pl1, by rw [hpne nd1.pid hq]; exact hpl1, hk1⟩
    · intro q pl1 hpl1 hpos
      by_cases hq : q = nd.pid
      · subst hq
        rw [hpself] at hpl1
        cases hpl1
        exact hvall
      · rw [hpne q hq] at hpl1
        exact hinv.payLive q pl1 hpl1 hpos
    · intro q pl1 hpl1 hneg
      by_cases hq : q = nd.pid
      · subst hq
        rw [hpself] at hpl1
        cases hpl1
        exact absurd hneg (by dsimp only; omega)
      · rw [hpne q hq] at hpl1
        exact hinv.payDead q pl1 hpl1 hneg
    · intro q pl1 hpl1
      by_cases hq : q = nd.pid
      · subst hq
        rw [hpself] at hpl1
        cases hpl1
        have h0 := hinv.logCount nd.pid pl hpl
        rw [if_neg (by intro hc; omega)] at h0
        rw [if_neg (by intro hc; dsimp only at hc; omega)]
        exact h0
      · rw [hpne q hq] at hpl1
        exact hinv.logCount q pl1 hpl1
    · intro e he
      obtain ⟨pl1, hpl1, h1, h2⟩ := hinv.logContent e he
      by_cases hq : e.1 = nd.pid
      · rw [hq] at hpl1 ⊢
        rw [hpl] at hpl1
        cases hpl1
        exact ⟨{ pl with refCount := pl.refCount + 1 }, hpself, h1, h2⟩
      · exact ⟨pl1, by rw [hpne e.1 hq]; exact hpl1, h1, h2⟩
    · intro x hx
      by_cases hxx : x = s.nodes.length
      · subst hxx
        exact ⟨1, _, htree⟩
      · have hlx : isLive s x := by
          rw [isLive, nodeRC] at hx ⊢
          rw [hnne x hxx] at hx
          exact hx
        obtain ⟨f, t, ht⟩ := hinv.liveTree x hlx
        refine ⟨f, t, treeOf_local ht ?_ ?_⟩
        · intro y hy
          exact hnne y (by have := treeOf_ids_lt ht y hy; omega)
        · intro y hy nd1 hnd1 pl1 hpl1
          by_cases hq : nd1.pid = nd.pid
          · rw [hq] at hpl1 ⊢
            rw [hpl] at hpl1
            cases hpl1
            exact ⟨{ pl with refCount := pl.refCount + 1 }, hpself, rfl⟩
          · exact ⟨pl1, by rw [hpne nd1.pid hq]; exact hpl1, rfl⟩
  · refine ⟨?_, ?_, ?_, by simp [setPayload], [], by simp [setPayload]⟩
    · intro x nd1 hnd1
      have hlt := getElem?_some_lt hnd1
      exact ⟨nd1, by rw [hnne x (by omega)]; exact hnd1, rfl, rfl, rfl, rfl, rfl, rfl⟩
    · intro q pl1 pl2 hpl1 hpl2 hpos
      by_cases hq : q = nd.pid
      · subst hq
        rw [hpl] at hpl1
        cases hpl1
        rw [hpself] at hpl2
        cases hpl2
        exact ⟨rfl, rfl, rfl, rfl, rfl⟩
      · rw [hpne q hq] at hpl2
        rw [hpl1] at hpl2
        cases hpl2
        exact ⟨rfl, rfl, rfl, rfl, rfl⟩
    · intro q pl1 pl2 hpl1 hpl2 hneg
      by_cases hq : q = nd.pid
      · subst hq
        rw [hpl] at hpl1
        cases hpl1
        omega
      · rw [hpne q hq] at hpl2
        rw [hpl1] at hpl2
        cases hpl2
        exact hneg
  · intro x hx
    have hlt : x < s.nodes.length := by
      obtain ⟨nd1, hnd1, -⟩ := isLive_some hx
      exact getElem?_some_lt hnd1
    rw [isLive, nodeRC] at hx ⊢
    rw [hnne x (by omega)]
    exact hx

/-- Frame restricted to node slots below `n`: used for the mutations the
treap operations perform on their freshly allocated (hence invisible to the
pre-state) nodes. -/
def FrameN (n : Nat) (s s2 : Heap K V) : Prop :=
  (∀ a, a < n → ∀ nd : HNode K, s.nodes[a]? = some nd →
    ∃ nd2, s2.nodes[a]? = some nd2 ∧ sameShape nd nd2) ∧
  (∀ (p : Nat) (pl pl2 : HPayload K V), s.payloads[p]? = some pl →
    s2.payloads[p]? = some pl2 → 0 < pl2.refCount →
      pl2.value = pl.value ∧ pl2.release = pl.release ∧ pl2.key = pl.key ∧
      pl2.gValue = pl.gValue ∧ pl2.gHadRelease = pl.gHadRelease) ∧
  (∀ (p : Nat) (pl pl2 : HPayload K V), s.payloads[p]? = some pl →
    s2.payloads[p]? = some pl2 → pl.refCount ≤ 0 → pl2.refCount ≤ 0) ∧
  s.payloads.length ≤ s2.payloads.length ∧
  (∃ tl, s2.log = s.log ++ tl)

theorem frameN_of_frame {s s2 : Heap K V} (h : Frame s s2) (n : Nat) :
    FrameN n s s2 :=
  ⟨fun a _ nd hnd => h.1 a nd hnd, h.2.1, h.2.2.1, h.2.2.2.1, h.2.2.2.2⟩

theorem frame_of_frameN {s s2 : Heap K V} (h : FrameN s.nodes.length s s2) :
    Frame s s2 :=
  ⟨fun a nd hnd => h.1 a (getElem?_some_lt hnd) nd hnd, h.2.1, h.2.2.1,
    h.2.2.2.1, h.2.2.2.2⟩

theorem frameN_trans {n m : Nat} {s1 s2 s3 : Heap K V} (h1 : FrameN n s1 s2)
    (h2 : FrameN m s2 s3) (hnm : n ≤ m) : FrameN n s1 s3 := by
  obtain ⟨hn1, hp1, hd1, hl1, tl1, hlog1⟩ := h1
  obtain ⟨hn2, hp2, hd2, hl2, tl2, hlog2⟩ := h2
  have hmid : ∀ p, p < s1.payloads.length → ∃ pl2, s2.payloads[p]? = some pl2 := by
    intro p hp
    have h2 : p < s2.payloads.length := by omega
    exact ⟨s2.payloads[p], List.getElem?_eq_getElem h2⟩
  refine ⟨?_, ?_, ?_, le_trans hl1 hl2, tl1 ++ tl2,
    by rw [hlog2, hlog1, List.append_assoc]⟩
  · intro a ha nd h
    obtain ⟨nd2, hnd2, hs2⟩ := hn1 a ha nd h
    obtain ⟨nd3, hnd3, hs3⟩ := hn2 a (by omega) nd2 hnd2
    refine ⟨nd3, hnd3, ?_⟩
    obtain ⟨e1, e2, e3, e4, e5, e6⟩ := hs2
    obtain ⟨f1, f2, f3, f4, f5, f6⟩ := hs3
    exact ⟨f1.trans e1, f2.trans e2, f3.trans e3, f4.trans e4, f5.trans e5,
      f6.trans e6⟩
  · intro p pl pl3 hpl hpl3 hpos
    have hplen : p < s1.payloads.length := getElem?_some_lt hpl
    obtain ⟨pl2, hpl2⟩ := hmid p hplen
    have hpos2 : 0 < pl2.refCount := by
      by_contra hc
      have := hd2 p pl2 pl3 hpl2 hpl3 (by omega)
      omega
    obtain ⟨e1, e2, e3, e4, e5⟩ := hp1 p pl pl2 hpl hpl2 hpos2
    obtain ⟨f1, f2, f3, f4, f5⟩ := hp2 p pl2 pl3 hpl2 hpl3 hpos
    exact ⟨f1.trans e1, f2.trans e2, f3.trans e3, f4.trans e4, f5.trans e5⟩
  · intro p pl pl3 hpl hpl3 hdead
    have hplen : p < s1.payloads.length := getElem?_some_lt hpl
    obtain ⟨pl2, hpl2⟩ := hmid p hplen
    exact hd2 p pl2 pl3 hpl2 hpl3 (hd1 p pl pl2 hpl hpl2 hdead)

/-- Every non-root member of a derivable tree has a parent in the tree. -/
theorem tids_parent {f : Nat} {s : Heap K V} {r : Option Nat} {t : ITree K V}
    (h : treeOf f s r = some t) {b : Nat} (hb : b ∈ tids t) :
    r = some b ∨ ∃ (y : Nat) (nd : HNode K), y ∈ tids t ∧
      s.nodes[y]? = some nd ∧ (nd.left = some b ∨ nd.right = some b) := by
  induction f generalizing r t with
  | zero =>
    cases r with
    | none => rw [treeOf] at h; cases h; simp [tids] at hb
    | some a => rw [treeOf] at h; exact absurd h (by simp)
  | succ f ih =>
    cases r with
    | none => rw [treeOf] at h; cases h; simp [tids] at hb
    | some a =>
      obtain ⟨nd, pl, v, tl, tr, hnd, hpl, hv, htl, htr, ht⟩ := treeOf_some_node h
      subst ht
      simp only [tids, List.mem_cons, List.mem_append] at hb
      have hmem : a ∈ tids (ITree.node a tl nd.key v nd.weight tr) := by simp [tids]
      rcases hb with hb | hb | hb
      · subst hb; exact Or.inl rfl
      · rcases ih htl hb with hc | ⟨y, nd1, hy, hnd1, hch⟩
        · refine Or.inr ⟨a, nd, hmem, hnd, Or.inl ?_⟩
          rw [hc]
        · exact Or.inr ⟨y, nd1, by simp [tids, hy], hnd1, hch⟩
      · rcases ih htr hb with hc | ⟨y, nd1, hy, hnd1, hch⟩
        · refine Or.inr ⟨a, nd, hmem, hnd, Or.inr ?_⟩
          rw [hc]
        · exact Or.inr ⟨y, nd1, by simp [tids, hy], hnd1, hch⟩

/-- A node no live node points at lies in no live tree but its own. -/
theorem tree_avoid {s : Heap K V} {R P : List Nat} (hinv : Inv s R P)
    {f x : Nat} {t : ITree K V} (ht : treeOf f s (some x) = some t)
    (hlive : isLive s x) {b : Nat} (hedge : liveEdges s b = 0) (hbx : b ≠ x) :
    b ∉ tids t := by
  intro hb
  rcases tids_parent ht hb with hx | ⟨y, nd, hy, hnd, hch⟩
  · exact hbx (Option.some.inj hx).symm
  · have hylive := tree_live hinv t f x ht hlive y hy
    obtain ⟨nd2, hnd2, hrc2⟩ := isLive_some hylive
    rw [hnd] at hnd2
    cases hnd2
    have h1 : 1 ≤ edgeCnt nd b := by
      rcases hch with h | h <;> simp [edgeCnt, h]
    have h2 := liveEdges_lb hnd hrc2 b
    omega

/-- `newN.left = l` on a fresh node whose `left` slot is empty and at which no
live node points: one mutator-held reference moves into the new edge. -/
theorem setLeft_spec {s : Heap K V} {R P : List Nat} {b : Nat} {c : Option Nat}
    (hinv : Inv s (R ++ c.toList) P) {nd : HNode K}
    (hnd : s.nodes[b]? = some nd) (hrc : 0 < nd.refCount) (hl : nd.left = none)
    (hcb : ∀ cc, c = some cc → cc ≠ b) (hedge0 : liveEdges s b = 0) :
    Inv (setLeft s b c) R P ∧ FrameN b s (setLeft s b c) ∧
    (setLeft s b c).nodes.length = s.nodes.length ∧
    (setLeft s b c).payloads = s.payloads ∧ (setLeft s b c).log = s.log ∧
    (∀ x, x ≠ b → (setLeft s b c).nodes[x]? = s.nodes[x]?) ∧
    (setLeft s b c).nodes[b]? = some { nd with left := c } ∧
    (∀ x, nodeRC (setLeft s b c) x = nodeRC s x) := by
  have hb : b < s.nodes.length := getElem?_some_lt hnd
  have hs2 : setLeft s b c = setNode s b { nd with left := c } := by
    rw [setLeft, hnd]
  rw [hs2]
  have hget : ∀ x, x ≠ b →
      (setNode s b { nd with left := c }).nodes[x]? = s.nodes[x]? :=
    fun x hx => setNode_get_ne hx
  have hgetb : (setNode s b { nd with left := c }).nodes[b]? =
      some { nd with left := c } := setNode_get_self hb
  have hrcpres : ∀ x, nodeRC (setNode s b { nd with left := c }) x = nodeRC s x := by
    intro x
    by_cases hx : x = b
    · subst hx
      rw [nodeRC, hgetb, nodeRC, hnd]
    · rw [nodeRC, hget x hx, nodeRC]
  have hedge : ∀ x, liveEdges (setNode s b { nd with left := c }) x =
      liveEdges s x + (if c = some x then 1 else 0) := by
    intro x
    have h := liveEdges_set { nd with left := c } hb x
    rw [hnd] at h
    have hc1 : nodeContrib (some nd) x = if nd.right = some x then 1 else 0 := by
      simp only [nodeContrib, edgeCnt]
      rw [if_pos hrc, hl]
      simp
    have hc2 : nodeContrib (some { nd with left := c }) x =
        (if c = some x then 1 else 0) + (if nd.right = some x then 1 else 0) := by
      simp only [nodeContrib, edgeCnt]
      rw [if_pos hrc]
    rw [hc1, hc2] at h
    omega
  have howns : ∀ p, liveOwns (setNode s b { nd with left := c }) p = liveOwns s p := by
    intro p
    have h := liveOwns_set { nd with left := c } hb p
    rw [hnd] at h
    have hc1 : payContrib (some nd) p = if nd.pid = p then 1 else 0 := by
      simp [payContrib, hrc]
    have hc2 : payContrib (some { nd with left := c }) p =
        if nd.pid = p then 1 else 0 := by
      simp [payContrib, hrc]
    rw [hc1, hc2] at h
    omega
  have hcc : ∀ x, (R ++ c.toList).count x =
      R.count x + (if c = some x then 1 else 0) := by
    intro x
    cases c with
    | none => simp
    | some cc =>
      by_cases hx : cc = x
      · subst hx
        simp
      · have h1 : List.count x [cc] = 0 :=
          List.count_eq_zero_of_not_mem
            (by simp only [List.mem_singleton]; intro hh; exact hx hh.symm)
        have h2 : (if (some cc : Option Nat) = some x then 1 else 0) = 0 := by
          rw [if_neg]
          intro hh
          exact hx (Option.some.inj hh)
        simp only [Option.toList, List.count_append, h1, h2]
  obtain ⟨hkc, hplv, hpld, hlc, hlcn⟩ := inv_aux
      (setNode s b { nd with left := c }) hinv rfl rfl (by
    intro x nd2 h
    by_cases hx : x = b
    · subst hx
      rw [hgetb] at h
      cases h
      exact ⟨nd, hnd, rfl, rfl⟩
    · rw [hget x hx] at h
      exact ⟨nd2, h, rfl, rfl⟩)
  have htrans : ∀ x, x ≠ b → isLive s x →
      ∃ f t, treeOf f (setNode s b { nd with left := c }) (some x) = some t := by
    intro x hxb hx0
    obtain ⟨f, t, ht⟩ := hinv.liveTree x hx0
    have havoid := tree_avoid hinv ht hx0 hedge0 (Ne.symm hxb)
    exact ⟨f, t, treeOf_local ht
      (fun y hy => hget y (fun he => havoid (he ▸ hy)))
      (fun y hy nd1 hnd1 pl1 hpl1 => ⟨pl1, hpl1, rfl⟩)⟩
  refine ⟨⟨?_, ?_, hkc, hplv, hpld, hlc, hlcn, ?_⟩, ?_, by simp [setNode], rfl,
    rfl, hget, hgetb, hrcpres⟩
  · intro x
    have h0 := hinv.nodeCount x
    rw [demand, hcc x] at h0
    rw [demand, hrcpres x, hedge x]
    push_cast at h0 ⊢
    omega
  · intro p
    have h0 := hinv.payCount p
    rw [pdemand] at h0
    rw [pdemand, howns p]
    exact h0
  · intro x hx
    have hx0 : isLive s x := by
      rw [isLive, hrcpres x] at hx
      exact hx
    by_cases hxb : x = b
    · subst hxb
      obtain ⟨pl, hpl, hplrc⟩ := pay_live hinv hnd hrc
      have hval := (hinv.payLive _ pl hpl hplrc).1
      have hcl : ∃ fc tc, treeOf fc (setNode s x { nd with left := c }) c = some tc := by
        cases c with
        | none => exact ⟨0, .nil, rfl⟩
        | some cc =>
          have hccb : cc ≠ x := hcb cc rfl
          have hclive : isLive s cc := by
            rw [isLive, hinv.nodeCount cc, demand, hcc cc]
            have h2 : (if (some cc : Option Nat) = some cc then 1 else 0) = 1 :=
              if_pos rfl
            rw [h2]
            push_cast
            omega
          obtain ⟨fc, tc, htc⟩ := htrans cc hccb hclive
          exact ⟨fc, tc, htc⟩
      have hcr : ∃ fr tr0,
          treeOf fr (setNode s x { nd with left := c }) nd.right = some tr0 := by
        cases hr0 : nd.right with
        | none => exact ⟨0, .nil, rfl⟩
        | some rr =>
          have hrlive : isLive s rr := child_live hinv hnd hrc (Or.inr hr0)
          have hrrb : rr ≠ x := by
            intro he
            subst he
            have h1 : 1 ≤ edgeCnt nd rr := by simp [edgeCnt, hr0]
            have h2 := liveEdges_lb hnd hrc rr
            omega
          have hres := htrans rr hrrb hrlive
          rw [hr0] at hres
          exact hres
      obtain ⟨fc, tc, htc⟩ := hcl
      obtain ⟨fr, tr0, htr0⟩ := hcr
      exact ⟨max fc fr + 1, _, treeOf_node_build hgetb hpl hval htc htr0⟩
    · exact htrans x hxb hx0
  · refine ⟨?_, ?_, ?_, le_refl _, [], by simp [setNode]⟩
    · intro a ha nd1 hnd1
      exact ⟨nd1, by rw [hget a (by omega)]; exact hnd1, rfl, rfl, rfl, rfl, rfl,
        rfl⟩
    · intro p pl1 pl2 hpl1 hpl2 hpos
      have h2 : s.payloads[p]? = some pl2 := hpl2
      rw [hpl1] at h2
      cases h2
      exact ⟨rfl, rfl, rfl, rfl, rfl⟩
    · intro p pl1 pl2 hpl1 hpl2 hneg
      have h2 : s.payloads[p]? = some pl2 := hpl2
      rw [hpl1] at h2
      cases h2
      exact hneg

/-- `newN.right = r` on a fresh node whose `right` slot is empty and at which
no live node points. -/
theorem setRight_spec {s : Heap K V} {R P : List Nat} {b : Nat} {c : Option Nat}
    (hinv : Inv s (R ++ c.toList) P) {nd : HNode K}
    (hnd : s.nodes[b]? = some nd) (hrc : 0 < nd.refCount) (hr : nd.right = none)
    (hcb : ∀ cc, c = some cc → cc ≠ b) (hedge0 : liveEdges s b = 0) :
    Inv (setRight s b c) R P ∧ FrameN b s (setRight s b c) ∧
    (setRight s b c).nodes.length = s.nodes.length ∧
    (setRight s b c).payloads = s.payloads ∧ (setRight s b c).log = s.log ∧
    (∀ x, x ≠ b → (setRight s b c).nodes[x]? = s.nodes[x]?) ∧
    (setRight s b c).nodes[b]? = some { nd with right := c } ∧
    (∀ x, nodeRC (setRight s b c) x = nodeRC s x) := by
  have hb : b < s.nodes.length := getElem?_some_lt hnd
  have hs2 : setRight s b c = setNode s b { nd with right := c } := by
    rw [setRight, hnd]
  rw [hs2]
  have hget : ∀ x, x ≠ b →
      (setNode s b { nd with right := c }).nodes[x]? = s.nodes[x]? :=
    fun x hx => setNode_get_ne hx
  have hgetb : (setNode s b { nd with right := c }).nodes[b]? =
      some { nd with right := c } := setNode_get_self hb
  have hrcpres : ∀ x, nodeRC (setNode s b { nd with right := c }) x = nodeRC s x := by
    intro x
    by_cases hx : x = b
    · subst hx
      rw [nodeRC, hgetb, nodeRC, hnd]
    · rw [nodeRC, hget x hx, nodeRC]
  have hedge : ∀ x, liveEdges (setNode s b { nd with right := c }) x =
      liveEdges s x + (if c = some x then 1 else 0) := by
    intro x
    have h := liveEdges_set { nd with right := c } hb x
    rw [hnd] at h
    have hc1 : nodeContrib (some nd) x = if nd.left = some x then 1 else 0 := by
      simp only [nodeContrib, edgeCnt]
      rw [if_pos hrc, hr]
      simp
    have hc2 : nodeContrib (some { nd with right := c }) x =
        (if nd.left = some x then 1 else 0) + (if c = some x then 1 else 0) := by
      simp only [nodeContrib, edgeCnt]
      rw [if_pos hrc]
    rw [hc1, hc2] at h
    omega
  have howns : ∀ p, liveOwns (setNode s b { nd with right := c }) p = liveOwns s p := by
    intro p
    have h := liveOwns_set { nd with right := c } hb p
    rw [hnd] at h
    have hc1 : payContrib (some nd) p = if nd.pid = p then 1 else 0 := by
      simp [payContrib, hrc]
    have hc2 : payContrib (some { nd with right := c }) p =
        if nd.pid = p then 1 else 0 := by
      simp [payContrib, hrc]
    rw [hc1, hc2] at h
    omega
  have hcc : ∀ x, (R ++ c.toList).count x =
      R.count x + (if c = some x then 1 else 0) := by
    intro x
    cases c with
    | none => simp
    | some cc =>
      by_cases hx : cc = x
      · subst hx
        simp
      · have h1 : List.count x [cc] = 0 :=
          List.count_eq_zero_of_not_mem
            (by simp only [List.mem_singleton]; intro hh; exact hx hh.symm)
        have h2 : (if (some cc : Option Nat) = some x then 1 else 0) = 0 := by
          rw [if_neg]
          intro hh
          exact hx (Option.some.inj hh)
        simp only [Option.toList, List.count_append, h1, h2]
  obtain ⟨hkc, hplv, hpld, hlc, hlcn⟩ := inv_aux
      (setNode s b { nd with right := c }) hinv rfl rfl (by
    intro x nd2 h
    by_cases hx : x = b
    · subst hx
      rw [hgetb] at h
      cases h
      exact ⟨nd, hnd, rfl, rfl⟩
    · rw [hget x hx] at h
      exact ⟨nd2, h, rfl, rfl⟩)
  have htrans : ∀ x, x ≠ b → isLive s x →
      ∃ f t, treeOf f (setNode s b { nd with right := c }) (some x) = some t := by
    intro x hxb hx0
    obtain ⟨f, t, ht⟩ := hinv.liveTree x hx0
    have havoid := tree_avoid hinv ht hx0 hedge0 (Ne.symm hxb)
    exact ⟨f, t, treeOf_local ht
      (fun y hy => hget y (fun he => havoid (he ▸ hy)))
      (fun y hy nd1 hnd1 pl1 hpl1 => ⟨pl1, hpl1, rfl⟩)⟩
  refine ⟨⟨?_, ?_, hkc, hplv, hpld, hlc, hlcn, ?_⟩, ?_, by simp [setNode], rfl,
    rfl, hget, hgetb, hrcpres⟩
  · intro x
    have h0 := hinv.nodeCount x
    rw [demand, hcc x] at h0
    rw [demand, hrcpres x, hedge x]
    push_cast at h0 ⊢
    omega
  · intro p
    have h0 := hinv.payCount p
    rw [pdemand] at h0
    rw [pdemand, howns p]
    exact h0
  · intro x hx
    have hx0 : isLive s x := by
      rw [isLive, hrcpres x] at hx
      exact hx
    by_cases hxb : x = b
    · subst hxb
      obtain ⟨pl, hpl, hplrc⟩ := pay_live hinv hnd hrc
      have hval := (hinv.payLive _ pl hpl hplrc).1
      have hcl : ∃ fc tc,
          treeOf fc (setNode s x { nd with right := c }) nd.left = some tc := by
        cases hl0 : nd.left with
        | none => exact ⟨0, .nil, rfl⟩
        | some ll =>
          have hllive : isLive s ll := child_live hinv hnd hrc (Or.inl hl0)
          have hllb : ll ≠ x := by
            intro he
            subst he
            have h1 : 1 ≤ edgeCnt nd ll := by simp [edgeCnt, hl0]
            have h2 := liveEdges_lb hnd hrc ll
            omega
          have hres := htrans ll hllb hllive
          rw [hl0] at hres
          exact hres
      have hcr : ∃ fr tr0,
          treeOf fr (setNode s x { nd with right := c }) c = some tr0 := by
        cases c with
        | none => exact ⟨0, .nil, rfl⟩
        | some cc =>
          have hccb : cc ≠ x := hcb cc rfl
          have hclive : isLive s cc := by
            rw [isLive, hinv.nodeCount cc, demand, hcc cc]
            have h2 : (if (some cc : Option Nat) = some cc then 1 else 0) = 1 :=
              if_pos rfl
            rw [h2]
            push_cast
            omega
          exact htrans cc hccb hclive
      obtain ⟨fc, tc, htc⟩ := hcl
      obtain ⟨fr, tr0, htr0⟩ := hcr
      exact ⟨max fc fr + 1, _, treeOf_node_build hgetb hpl hval htc htr0⟩
    · exact htrans x hxb hx0
  · refine ⟨?_, ?_, ?_, le_refl _, [], by simp [setNode]⟩
    · intro a ha nd1 hnd1
      exact ⟨nd1, by rw [hget a (by omega)]; exact hnd1, rfl, rfl, rfl, rfl, rfl,
        rfl⟩
    · intro p pl1 pl2 hpl1 hpl2 hpos
      have h2 : s.payloads[p]? = some pl2 := hpl2
      rw [hpl1] at h2
      cases h2
      exact ⟨rfl, rfl, rfl, rfl, rfl⟩
    · intro p pl1 pl2 hpl1 hpl2 hneg
      have h2 : s.payloads[p]? = some pl2 := hpl2
      rw [hpl1] at h2
      cases h2
      exact hneg

/-- `result.weight = first.weight` on a fresh childless node at which no live
node points (the only weight write the source ever performs after node
creation). -/
theorem setWeight_spec {s : Heap K V} {R P : List Nat} {b w : Nat}
    (hinv : Inv s R P) {nd : HNode K}
    (hnd : s.nodes[b]? = some nd) (hrc : 0 < nd.refCount)
    (hl : nd.left = none) (hr : nd.right = none) (hedge0 : liveEdges s b = 0) :
    Inv (setWeight s b w) R P ∧ FrameN b s (setWeight s b w) ∧
    (setWeight s b w).nodes.length = s.nodes.length ∧
    (setWeight s b w).payloads = s.payloads ∧ (setWeight s b w).log = s.log ∧
    (∀ x, x ≠ b → (setWeight s b w).nodes[x]? = s.nodes[x]?) ∧
    (setWeight s b w).nodes[b]? = some { nd with weight := w } ∧
    (∀ x, nodeRC (setWeight s b w) x = nodeRC s x) := by
  have hb : b < s.nodes.length := getElem?_some_lt hnd
  have hs2 : setWeight s b w = setNode s b { nd with weight := w } := by
    rw [setWeight, hnd]
  rw [hs2]
  have hget : ∀ x, x ≠ b →
      (setNode s b { nd with weight := w }).nodes[x]? = s.nodes[x]? :=
    fun x hx => setNode_get_ne hx
  have hgetb : (setNode s b { nd with weight := w }).nodes[b]? =
      some { nd with weight := w } := setNode_get_self hb
  have hrcpres : ∀ x, nodeRC (setNode s b { nd with weight := w }) x = nodeRC s x := by
    intro x
    by_cases hx : x = b
    · subst hx
      rw [nodeRC, hgetb, nodeRC, hnd]
    · rw [nodeRC, hget x hx, nodeRC]
  have hedge : ∀ x, liveEdges (setNode s b { nd with weight := w }) x =
      liveEdges s x := by
    intro x
    have h := liveEdges_set { nd with weight := w } hb x
    rw [hnd] at h
    have hc1 : nodeContrib (some nd) x = edgeCnt nd x := by
      simp [nodeContrib, hrc]
    have hc2 : nodeContrib (some { nd with weight := w }) x = edgeCnt nd x := by
      simp only [nodeContrib]
      rw [if_pos hrc]
      rfl
    rw [hc1, hc2] at h
    omega
  have howns : ∀ p, liveOwns (setNode s b { nd with weight := w }) p = liveOwns s p := by
    intro p
    have h := liveOwns_set { nd with weight := w } hb p
    rw [hnd] at h
    have hc1 : payContrib (some nd) p = if nd.pid = p then 1 else 0 := by
      simp [payContrib, hrc]
    have hc2 : payContrib (some { nd with weight := w }) p =
        if nd.pid = p then 1 else 0 := by
      simp [payContrib, hrc]
    rw [hc1, hc2] at h
    omega
  obtain ⟨hkc, hplv, hpld, hlc, hlcn⟩ := inv_aux
      (setNode s b { nd with weight := w }) hinv rfl rfl (by
    intro x nd2 h
    by_cases hx : x = b
    · subst hx
      rw [hgetb] at h
      cases h
      exact ⟨nd, hnd, rfl, rfl⟩
    · rw [hget x hx] at h
      exact ⟨nd2, h, rfl, rfl⟩)
  have htrans : ∀ x, x ≠ b → isLive s x →
      ∃ f t, treeOf f (setNode s b { nd with weight := w }) (some x) = some t := by
    intro x hxb hx0
    obtain ⟨f, t, ht⟩ := hinv.liveTree x hx0
    have havoid := tree_avoid hinv ht hx0 hedge0 (Ne.symm hxb)
    exact ⟨f, t, treeOf_local ht
      (fun y hy => hget y (fun he => havoid (he ▸ hy)))
      (fun y hy nd1 hnd1 pl1 hpl1 => ⟨pl1, hpl1, rfl⟩)⟩
  refine ⟨⟨?_, ?_, hkc, hplv, hpld, hlc, hlcn, ?_⟩, ?_, by simp [setNode], rfl,
    rfl, hget, hgetb, hrcpres⟩
  · intro x
    have h0 := hinv.nodeCount x
    rw [demand] at h0
    rw [demand, hrcpres x, hedge x]
    exact h0
  · intro p
    have h0 := hinv.payCount p
    rw [pdemand] at h0
    rw [pdemand, howns p]
    exact h0
  · intro x hx
    have hx0 : isLive s x := by
      rw [isLive, hrcpres x] at hx
      exact hx
    by_cases hxb : x = b
    · subst hxb
      obtain ⟨pl, hpl, hplrc⟩ := pay_live hinv hnd hrc
      have hval := (hinv.payLive _ pl hpl hplrc).1
      have htl : treeOf 0 (setNode s x { nd with weight := w })
          ({ nd with weight := w } : HNode K).left = some .nil := by
        show treeOf 0 _ nd.left = some .nil
        rw [hl]
        rfl
      have htr : treeOf 0 (setNode s x { nd with weight := w })
          ({ nd with weight := w } : HNode K).right = some .nil := by
        show treeOf 0 _ nd.right = some .nil
        rw [hr]
        rfl
      exact ⟨1, _, treeOf_node_build hgetb hpl hval htl htr⟩
    · exact htrans x hxb hx0
  · refine ⟨?_, ?_, ?_, le_refl _, [], by simp [setNode]⟩
    · intro a ha nd1 hnd1
      exact ⟨nd1, by rw [hget a (by omega)]; exact hnd1, rfl, rfl, rfl, rfl, rfl,
        rfl⟩
    · intro p pl1 pl2 hpl1 hpl2 hpos
      have h2 : s.payloads[p]? = some pl2 := hpl2
      rw [hpl1] at h2
      cases h2
      exact ⟨rfl, rfl, rfl, rfl, rfl⟩
    · intro p pl1 pl2 hpl1 hpl2 hneg
      have h2 : s.payloads[p]? = some pl2 := hpl2
      rw [hpl1] at h2
      cases h2
      exact hneg

/-- The payload decrement inside `decref`, holding one payload reference from
the slack list: on the last reference the callback fires (exactly when the
payload was created with one) and the slots are cleared. -/
theorem valueDecref_spec {s : Heap K V} {R P : List Nat} {p : Nat} {k : K}
    (hinv : Inv s R (P ++ [p])) {pl : HPayload K V}
    (hpl : s.payloads[p]? = some pl) (hk : k = pl.key) :
    Inv (valueDecref s p k) R P ∧ Frame s (valueDecref s p k) ∧
    (valueDecref s p k).nodes = s.nodes ∧
    (valueDecref s p k).payloads.length = s.payloads.length := by
  have hplen : p < s.payloads.length := getElem?_some_lt hpl
  have hcntp : (P ++ [p]).count p = P.count p + 1 := by simp
  have hcntq : ∀ q, q ≠ p → (P ++ [p]).count q = P.count q := by
    intro q hq
    have h1 : List.count q [p] = 0 := List.count_eq_zero_of_not_mem
      (by simp only [List.mem_singleton]; exact hq)
    rw [List.count_append, h1]
    omega
  have h0p := hinv.payCount p
  rw [payRC, hpl, pdemand, hcntp] at h0p
  have hrc1 : 1 ≤ pl.refCount := by
    push_cast at h0p
    omega
  have hvall := hinv.payLive p pl hpl (by omega)
  by_cases hone : pl.refCount - 1 = 0
  · -- the payload dies
    have hz : P.count p = 0 ∧ liveOwns s p = 0 := by
      push_cast at h0p
      omega
    have main : ∀ lg : List (Nat × K × V),
        (∀ e ∈ lg, e.1 = p ∧ e.2.1 = pl.key ∧ e.2.2 = pl.gValue) →
        lg.length = (if pl.gHadRelease = true then 1 else 0) →
        Inv (setPayload { s with log := s.log ++ lg } p
          (⟨0, none, false, pl.key, pl.gValue, pl.gHadRelease⟩ : HPayload K V)) R P ∧
        Frame s (setPayload { s with log := s.log ++ lg } p
          (⟨0, none, false, pl.key, pl.gValue, pl.gHadRelease⟩ : HPayload K V)) ∧
        (setPayload { s with log := s.log ++ lg } p
          (⟨0, none, false, pl.key, pl.gValue, pl.gHadRelease⟩ : HPayload K V)).nodes =
          s.nodes ∧
        (setPayload { s with log := s.log ++ lg } p
          (⟨0, none, false, pl.key, pl.gValue, pl.gHadRelease⟩ : HPayload K V)).payloads.length =
          s.payloads.length := by
      intro lg hlg1 hlg2
      have hpself : (setPayload { s with log := s.log ++ lg } p
          (⟨0, none, false, pl.key, pl.gValue, pl.gHadRelease⟩ : HPayload K V)).payloads[p]? =
          some (⟨0, none, false, pl.key, pl.gValue, pl.gHadRelease⟩ : HPayload K V) :=
        setPayload_get_self hplen
      have hpne : ∀ q, q ≠ p → (setPayload { s with log := s.log ++ lg } p
          (⟨0, none, false, pl.key, pl.gValue, pl.gHadRelease⟩ : HPayload K V)).payloads[q]? =
          s.payloads[q]? := fun q hq => setPayload_get_ne hq
      refine ⟨⟨?_, ?_, ?_, ?_, ?_, ?_, ?_, ?_⟩, ?_, rfl, by simp [setPayload]⟩
      · intro x
        exact hinv.nodeCount x
      · intro q
        by_cases hq : q = p
        · subst hq
          rw [payRC, hpself, pdemand]
          have : liveOwns (setPayload { s with log := s.log ++ lg } q
              (⟨0, none, false, pl.key, pl.gValue, pl.gHadRelease⟩ : HPayload K V)) q =
              liveOwns s q := rfl
          rw [this]
          rw [hz.1, hz.2]
          rfl
        · rw [payRC, hpne q hq]
          have h0 := hinv.payCount q
          rw [payRC, pdemand, hcntq q hq] at h0
          rw [pdemand]
          exact h0
      · intro x nd hnd
        obtain ⟨pl1, hpl1, hke⟩ := hinv.keyCoh x nd hnd
        by_cases hq : nd.pid = p
        · rw [hq] at hpl1 ⊢
          rw [hpl] at hpl1
          cases hpl1
          exact ⟨_, hpself, hke⟩
        · exact ⟨pl1, by rw [hpne nd.pid hq]; exact hpl1, hke⟩
      · intro q pl1 hpl1 hpos
        by_cases hq : q = p
        · subst hq
          rw [hpself] at hpl1
          cases hpl1
          exact absurd hpos (by norm_num)
        · rw [hpne q hq] at hpl1
          exact hinv.payLive q pl1 hpl1 hpos
      · intro q pl1 hpl1 hneg
        by_cases hq : q = p
        · subst hq
          rw [hpself] at hpl1
          cases hpl1
          exact ⟨rfl, rfl⟩
        · rw [hpne q hq] at hpl1
          exact hinv.payDead q pl1 hpl1 hneg
      · intro q pl1 hpl1
        have hlog : (setPayload { s with log := s.log ++ lg } p
            (⟨0, none, false, pl.key, pl.gValue, pl.gHadRelease⟩ : HPayload K V)).log =
            s.log ++ lg := rfl
        rw [hlog]
        by_cases hq : q = p
        · subst hq
          rw [hpself] at hpl1
          cases hpl1
          rw [List.filter_append, List.length_append]
          have h1 := hinv.logCount q pl hpl
          rw [if_neg (by intro hc; omega)] at h1
          have h2 : (lg.filter (fun e => e.1 = q)).length = lg.length := by
            congr 1
            apply List.filter_eq_self.mpr
            intro e he
            simp only [decide_eq_true_eq]
            exact (hlg1 e he).1
          rw [h1, h2, hlg2]
          dsimp only
          by_cases hgh : pl.gHadRelease = true
          · rw [if_pos hgh, if_pos ⟨hgh, by norm_num⟩]
          · rw [if_neg hgh, if_neg (by intro hc; exact hgh hc.1)]
        · rw [hpne q hq] at hpl1
          rw [List.filter_append, List.length_append]
          have h1 := hinv.logCount q pl1 hpl1
          have h2 : (lg.filter (fun e => e.1 = q)).length = 0 := by
            rw [List.length_eq_zero, List.filter_eq_nil_iff]
            intro e he
            simp only [decide_eq_true_eq]
            rw [(hlg1 e he).1]
            exact fun hc => hq hc.symm
          rw [h1, h2]
          omega
      · intro e he
        have hlog : (setPayload { s with log := s.log ++ lg } p
            (⟨0, none, false, pl.key, pl.gValue, pl.gHadRelease⟩ : HPayload K V)).log =
            s.log ++ lg := rfl
        rw [hlog] at he
        rcases List.mem_append.mp he with he | he
        · obtain ⟨pl1, hpl1, h1, h2⟩ := hinv.logContent e he
          by_cases hq : e.1 = p
          · rw [hq] at hpl1 ⊢
            rw [hpl] at hpl1
            cases hpl1
            exact ⟨_, hpself, h1, h2⟩
          · exact ⟨pl1, by rw [hpne e.1 hq]; exact hpl1, h1, h2⟩
        · obtain ⟨h1, h2, h3⟩ := hlg1 e he
          rw [h1]
          exact ⟨_, hpself, by rw [h2], by rw [h3]⟩
      · intro x hx
        have hx0 : isLive s x := hx
        obtain ⟨f, t, ht⟩ := hinv.liveTree x hx0
        refine ⟨f, t, treeOf_local ht (fun y hy => rfl) ?_⟩
        intro y hy nd1 hnd1 pl1 hpl1
        have hylive := tree_live hinv t f x ht hx0 y hy
        obtain ⟨nd2, hnd2, hrc2⟩ := isLive_some hylive
        rw [hnd1] at hnd2
        cases hnd2
        have hq : nd1.pid ≠ p := by
          intro hq
          have := liveOwns_lb hnd1 hrc2
          rw [hq] at this
          omega
        exact ⟨pl1, by rw [hpne nd1.pid hq]; exact hpl1, rfl⟩
      · refine ⟨?_, ?_, ?_, by simp [setPayload], lg, rfl⟩
        · intro a nd1 hnd1
          exact ⟨nd1, hnd1, rfl, rfl, rfl, rfl, rfl, rfl⟩
        · intro q pl1 pl2 hpl1 hpl2 hpos
          by_cases hq : q = p
          · subst hq
            rw [hpself] at hpl2
            cases hpl2
            exact absurd hpos (by norm_num)
          · rw [hpne q hq] at hpl2
            rw [hpl1] at hpl2
            cases hpl2
            exact ⟨rfl, rfl, rfl, rfl, rfl⟩
        · intro q pl1 pl2 hpl1 hpl2 hneg
          by_cases hq : q = p
          · subst hq
            rw [hpself] at hpl2
            cases hpl2
            norm_num
          · rw [hpne q hq] at hpl2
            rw [hpl1] at hpl2
            cases hpl2
            exact hneg
    cases hrel : pl.release with
    | true =>
      have hstep : valueDecref s p k = setPayload { s with
          log := s.log ++ [(p, k, pl.value.getD pl.gValue)] } p
          (⟨0, none, false, pl.key, pl.gValue, pl.gHadRelease⟩ : HPayload K V) := by
        rw [valueDecref, hpl]
        dsimp only
        rw [if_pos hone, hrel]
        rw [hone]
        rfl
      rw [hstep]
      refine main [(p, k, pl.value.getD pl.gValue)] ?_ ?_
      · intro e he
        rw [List.mem_singleton] at he
        subst he
        refine ⟨rfl, hk, ?_⟩
        rw [hvall.1]
        rfl
      · rw [if_pos (by rw [← hvall.2, hrel])]
        rfl
    | false =>
      have hstep : valueDecref s p k = setPayload s p
          (⟨0, none, false, pl.key, pl.gValue, pl.gHadRelease⟩ : HPayload K V) := by
        rw [valueDecref, hpl]
        dsimp only
        rw [if_pos hone, hrel]
        rw [hone]
        simp only [Bool.false_eq_true, if_false]
      rw [hstep]
      have hm := main [] (by intro e he; simp at he)
        (by rw [if_neg (by rw [← hvall.2, hrel]; exact Bool.false_ne_true)]; rfl)
      rw [List.append_nil] at hm
      exact hm
  · -- the payload survives with one reference fewer
    have hstep : valueDecref s p k = setPayload s p
        { pl with refCount := pl.refCount - 1 } := by
      rw [valueDecref, hpl]
      dsimp only
      rw [if_neg hone]
    rw [hstep]
    have hpself : (setPayload s p { pl with refCount := pl.refCount - 1 }).payloads[p]? =
        some { pl with refCount := pl.refCount - 1 } := setPayload_get_self hplen
    have hpne : ∀ q, q ≠ p →
        (setPayload s p { pl with refCount := pl.refCount - 1 }).payloads[q]? =
          s.payloads[q]? := fun q hq => setPayload_get_ne hq
    refine ⟨⟨?_, ?_, ?_, ?_, ?_, ?_, ?_, ?_⟩, ?_, rfl, by simp [setPayload]⟩
    · intro x
      exact hinv.nodeCount x
    · intro q
      by_cases hq : q = p
      · subst hq
        rw [payRC, hpself, pdemand]
        have hlo : liveOwns (setPayload s q { pl with refCount := pl.refCount - 1 }) q =
            liveOwns s q := rfl
        rw [hlo]
        push_cast at h0p ⊢
        omega
      · rw [payRC, hpne q hq]
        have h0 := hinv.payCount q
        rw [payRC, pdemand, hcntq q hq] at h0
        rw [pdemand]
        exact h0
    · intro x nd hnd
      obtain ⟨pl1, hpl1, hke⟩ := hinv.keyCoh x nd hnd
      by_cases hq : nd.pid = p
      · rw [hq] at hpl1 ⊢
        rw [hpl] at hpl1
        cases hpl1
        exact ⟨_, hpself, hke⟩
      · exact ⟨pl1, by rw [hpne nd.pid hq]; exact hpl1, hke⟩
    · intro q pl1 hpl1 hpos
      by_cases hq : q = p
      · subst hq
        rw [hpself] at hpl1
        cases hpl1
        exact hvall
      · rw [hpne q hq] at hpl1
        exact hinv.payLive q pl1 hpl1 hpos
    · intro q pl1 hpl1 hneg
      by_cases hq : q = p
      · subst hq
        rw [hpself] at hpl1
        cases hpl1
        exact absurd hneg (by dsimp only; omega)
      · rw [hpne q hq] at hpl1
        exact hinv.payDead q pl1 hpl1 hneg
    · intro q pl1 hpl1
      by_cases hq : q = p
      · subst hq
        rw [hpself] at hpl1
        cases hpl1
        have h1 := hinv.logCount q pl hpl
        rw [if_neg (by intro hc; omega)] at h1
        rw [if_neg (by intro hc; dsimp only at hc; omega)]
        exact h1
      · rw [hpne q hq] at hpl1
        exact hinv.logCount q pl1 hpl1
    · intro e he
      obtain ⟨pl1, hpl1, h1, h2⟩ := hinv.logContent e he
      by_cases hq : e.1 = p
      · rw [hq] at hpl1 ⊢
        rw [hpl] at hpl1
        cases hpl1
        exact ⟨_, hpself, h1, h2⟩
      · exact ⟨pl1, by rw [hpne e.1 hq]; exact hpl1, h1, h2⟩
    · intro x hx
      have hx0 : isLive s x := hx
      obtain ⟨f, t, ht⟩ := hinv.liveTree x hx0
      refine ⟨f, t, treeOf_local ht (fun y hy => rfl) ?_⟩
      intro y hy nd1 hnd1 pl1 hpl1
      by_cases hq : nd1.pid = p
      · rw [hq] at hpl1 ⊢
        rw [hpl] at hpl1
        cases hpl1
        exact ⟨{ pl with refCount := pl.refCount - 1 }, hpself, rfl⟩
      · exact ⟨pl1, by rw [hpne nd1.pid hq]; exact hpl1, rfl⟩
    · refine ⟨?_, ?_, ?_, by simp [setPayload], [], by simp [setPayload]⟩
      · intro a nd1 hnd1
        exact ⟨nd1, hnd1, rfl, rfl, rfl, rfl, rfl, rfl⟩
      · intro q pl1 pl2 hpl1 hpl2 hpos
        by_cases hq : q = p
        · subst hq
          rw [hpl] at hpl1
          cases hpl1
          rw [hpself] at hpl2
          cases hpl2
          exact ⟨rfl, rfl, rfl, rfl, rfl⟩
        · rw [hpne q hq] at hpl2
          rw [hpl1] at hpl2
          cases hpl2
          exact ⟨rfl, rfl, rfl, rfl, rfl⟩
      · intro q pl1 pl2 hpl1 hpl2 hneg
        by_cases hq : q = p
        · subst hq
          rw [hpl] at hpl1
          cases hpl1
          omega
        · rw [hpne q hq] at hpl2
          rw [hpl1] at hpl2
          cases hpl2
          exact hneg

theorem count_toList (c : Option Nat) (x : Nat) :
    List.count x c.toList = if c = some x then 1 else 0 := by
  cases c with
  | none => simp
  | some cc =>
    by_cases hx : cc = x
    · subst hx; simp
    · rw [if_neg (fun hh => hx (Option.some.inj hh))]
      exact List.count_eq_zero_of_not_mem
        (by simp only [Option.toList, List.mem_singleton]; intro hh; exact hx hh.symm)

theorem treeOf_some_pos {f : Nat} {s : Heap K V} {a : Nat} {t : ITree K V}
    (h : treeOf f s (some a) = some t) : 1 ≤ tdepth t := by
  cases f with
  | zero => rw [treeOf] at h; exact absurd h (by simp)
  | succ f =>
    obtain ⟨nd, pl, v, tl, tr, hnd, hpl, hv, htl, htr, ht⟩ := treeOf_some_node h
    subst ht
    simp only [tdepth]
    omega

theorem nodeRC_eq {s : Heap K V} {a : Nat} {nd : HNode K}
    (h : s.nodes[a]? = some nd) : nodeRC s a = nd.refCount := by
  rw [nodeRC, h]

theorem payRC_eq {s : Heap K V} {p : Nat} {pl : HPayload K V}
    (h : s.payloads[p]? = some pl) : payRC s p = pl.refCount := by
  rw [payRC, h]

theorem nodeRC_congr {s s2 : Heap K V} {x : Nat}
    (h : s2.nodes[x]? = s.nodes[x]?) : nodeRC s2 x = nodeRC s x := by
  rw [nodeRC, h, nodeRC]

/-- `mapNode.decref` holding one node reference from the slack list: the
reference is surrendered; on the last reference the node dies, its payload
reference is surrendered and the children cascade. -/
theorem decref_none (fuel : Nat) (s : Heap K V) : decref fuel s none = s := by
  cases fuel <;> rfl

theorem decref_spec (fuel : Nat) : ∀ {s : Heap K V} {R P : List Nat}
    {a : Option Nat}, Inv s (R ++ a.toList) P →
    (a = none ∨ ∃ aa f t, a = some aa ∧ treeOf f s (some aa) = some t ∧
      tdepth t ≤ fuel) →
    Inv (decref fuel s a) R P ∧ Frame s (decref fuel s a) ∧
    (decref fuel s a).nodes.length = s.nodes.length ∧
    (decref fuel s a).payloads.length = s.payloads.length ∧
    (∀ (aa2 f2 : Nat) (t2 : ITree K V) (x : Nat), a = some aa2 →
      treeOf f2 s (some aa2) = some t2 → x ∉ tids t2 →
      (decref fuel s a).nodes[x]? = s.nodes[x]?) := by
  induction fuel with
  | zero =>
    intro s R P a hinv ha
    rcases ha with rfl | ⟨aa, f, t, rfl, ht, hd⟩
    · have he : R ++ (Option.toList (none : Option Nat)) = R := by simp
      rw [he] at hinv
      exact ⟨hinv, frame_refl s, rfl, rfl,
        fun aa2 f2 t2 x haa2 => Option.noConfusion haa2⟩
    · have := treeOf_some_pos ht
      omega
  | succ fuel ih =>
    intro s R P a hinv ha
    rcases ha with rfl | ⟨aa, f, t, rfl, ht, hd⟩
    · have he : R ++ (Option.toList (none : Option Nat)) = R := by simp
      rw [he] at hinv
      exact ⟨hinv, frame_refl s, rfl, rfl,
        fun aa2 f2 t2 x haa2 => Option.noConfusion haa2⟩
    · have hcnta : (R ++ (Option.toList (some aa))).count aa = R.count aa + 1 := by
        simp
      have hcntq : ∀ x, x ≠ aa →
          (R ++ (Option.toList (some aa))).count x = R.count x := by
        intro x hx
        have h1 : List.count x [aa] = 0 := List.count_eq_zero_of_not_mem
          (by simp only [List.mem_singleton]; exact hx)
        rw [Option.toList, List.count_append, h1]
        omega
      obtain ⟨nd, pl, v, tl0, tr0, hnd, hpl, hv, htl0, htr0, htt⟩ :=
        treeOf_node_inv (f - 1) (by
          cases f with
          | zero => rw [treeOf] at ht; exact absurd ht (by simp)
          | succ f => exact ht)
      have hlen : aa < s.nodes.length := getElem?_some_lt hnd
      have hrcd : nd.refCount =
          ((R ++ (Option.toList (some aa))).count aa + liveEdges s aa : Nat) := by
        have h0 := hinv.nodeCount aa
        rw [nodeRC_eq hnd, demand] at h0
        exact h0
      rw [hcnta] at hrcd
      have hrc : 1 ≤ nd.refCount := by
        push_cast at hrcd
        omega
      have hstep : decref (fuel + 1) s (some aa) =
          (let s1 := setNode s aa { nd with refCount := nd.refCount - 1 };
           if nd.refCount - 1 = 0 then
             let s2 := valueDecref s1 nd.pid nd.key
             let s3 := decref fuel s2 nd.left
             decref fuel s3 nd.right
           else s1) := by
        rw [decref, hnd]
      rw [hstep]
      by_cases hzero : nd.refCount - 1 = 0
      · -- the node dies
        rw [if_pos hzero]
        dsimp only
        have hz : R.count aa = 0 ∧ liveEdges s aa = 0 := by
          have h2 : (nd.refCount : Int) =
              ((List.count aa R + 1 + liveEdges s aa : Nat) : Int) := by
            exact_mod_cast hrcd
          push_cast at h2
          omega
        have hedgeCntA : edgeCnt nd aa = 0 := by
          have := liveEdges_lb hnd (by omega) aa
          omega
        have hget : ∀ x, x ≠ aa →
            (setNode s aa { nd with refCount := nd.refCount - 1 }).nodes[x]? =
              s.nodes[x]? := fun x hx => setNode_get_ne hx
        have hgeta : (setNode s aa { nd with refCount := nd.refCount - 1 }).nodes[aa]? =
            some { nd with refCount := nd.refCount - 1 } := setNode_get_self hlen
        have hedge : ∀ x,
            liveEdges (setNode s aa { nd with refCount := nd.refCount - 1 }) x +
              edgeCnt nd x = liveEdges s x := by
          intro x
          have h := liveEdges_set { nd with refCount := nd.refCount - 1 } hlen x
          rw [hnd] at h
          have hc1 : nodeContrib (some nd) x = edgeCnt nd x := by
            simp only [nodeContrib]
            rw [if_pos (by omega)]
          have hc2 : nodeContrib
              (some { nd with refCount := nd.refCount - 1 }) x = 0 := by
            simp only [nodeContrib]
            rw [if_neg (by omega)]
          rw [hc1, hc2] at h
          omega
        have howns : ∀ q,
            liveOwns (setNode s aa { nd with refCount := nd.refCount - 1 }) q +
              (if nd.pid = q then 1 else 0) = liveOwns s q := by
          intro q
          have h := liveOwns_set { nd with refCount := nd.refCount - 1 } hlen q
          rw [hnd] at h
          have hc1 : payContrib (some nd) q = if nd.pid = q then 1 else 0 := by
            simp only [payContrib]
            by_cases hq : nd.pid = q
            · rw [if_pos ⟨by omega, hq⟩, if_pos hq]
            · rw [if_neg (by intro hc; exact hq hc.2), if_neg hq]
          have hc2 : payContrib
              (some { nd with refCount := nd.refCount - 1 }) q = 0 := by
            simp only [payContrib]
            rw [if_neg (by intro hc; have h2 := hc.1; omega)]
          rw [hc1, hc2] at h
          omega
        have hobs : ObsEq s (setNode s aa { nd with refCount := nd.refCount - 1 }) := by
          constructor
          · intro x
            by_cases hx : x = aa
            · subst hx
              rw [hgeta, hnd]
              rfl
            · rw [hget x hx]
          · intro q
            rfl
        obtain ⟨hkc, hplv, hpld, hlc, hlcn⟩ := inv_aux
            (setNode s aa { nd with refCount := nd.refCount - 1 }) hinv rfl rfl (by
          intro x nd2 h
          by_cases hx : x = aa
          · subst hx
            rw [hgeta] at h
            cases h
            exact ⟨nd, hnd, rfl, rfl⟩
          · rw [hget x hx] at h
            exact ⟨nd2, h, rfl, rfl⟩)
        have hinv1 : Inv (setNode s aa { nd with refCount := nd.refCount - 1 })
            (R ++ nd.left.toList ++ nd.right.toList) (P ++ [nd.pid]) := by
          refine ⟨?_, ?_, hkc, hplv, hpld, hlc, hlcn, ?_⟩
          · intro x
            rw [demand]
            have hccl := count_toList nd.left x
            have hccr := count_toList nd.right x
            have hE : edgeCnt nd x =
                (if nd.left = some x then 1 else 0) +
                  (if nd.right = some x then 1 else 0) := rfl
            have hcnt2 : (R ++ nd.left.toList ++ nd.right.toList).count x =
                R.count x + (if nd.left = some x then 1 else 0) +
                  (if nd.right = some x then 1 else 0) := by
              rw [List.count_append, List.count_append, hccl, hccr]
            rw [hcnt2]
            have hE2 := hedge x
            by_cases hx : x = aa
            · subst hx
              rw [nodeRC_eq hgeta]
              have hproj : ({ nd with refCount := nd.refCount - 1 } : HNode K).refCount =
                  nd.refCount - 1 := rfl
              rw [hproj]
              conv_lhs => rw [hzero]
              have hgoal : 0 = R.count x + (if nd.left = some x then 1 else 0) +
                  (if nd.right = some x then 1 else 0) +
                  liveEdges (setNode s x { nd with refCount := nd.refCount - 1 }) x := by
                omega
              exact_mod_cast hgoal
            · rw [nodeRC_congr (hget x hx)]
              have h0 : nodeRC s x = ((R ++ (Option.toList (some aa))).count x +
                  liveEdges s x : Nat) := by
                rw [hinv.nodeCount x, demand]
              rw [hcntq x hx] at h0
              rw [h0]
              have hgoal : R.count x + liveEdges s x =
                  R.count x + (if nd.left = some x then 1 else 0) +
                  (if nd.right = some x then 1 else 0) +
                  liveEdges (setNode s aa { nd with refCount := nd.refCount - 1 }) x := by
                omega
              exact_mod_cast hgoal
          · intro q
            rw [pdemand]
            have hpq : (setNode s aa { nd with refCount := nd.refCount - 1 }).payloads[q]? =
                s.payloads[q]? := rfl
            have h0 : payRC s q = (P.count q + liveOwns s q : Nat) := by
              rw [hinv.payCount q, pdemand]
            have hO := howns q
            have hcnt2 : (P ++ [nd.pid]).count q =
                P.count q + (if nd.pid = q then 1 else 0) := by
              rw [List.count_append]
              have hto := count_toList (some nd.pid) q
              rw [Option.toList] at hto
              rw [hto]
              by_cases hq : nd.pid = q
              · rw [if_pos (by rw [hq]), if_pos hq]
              · rw [if_neg (by intro hc; exact hq (Option.some.inj hc)),
                  if_neg hq]
            rw [hcnt2]
            have hpc : payRC (setNode s aa { nd with refCount := nd.refCount - 1 }) q =
                payRC s q := by
              rw [payRC, hpq, payRC]
            rw [hpc, h0]
            have hgoal : P.count q + liveOwns s q =
                P.count q + (if nd.pid = q then 1 else 0) +
                liveOwns (setNode s aa { nd with refCount := nd.refCount - 1 }) q := by
              omega
            exact_mod_cast hgoal
          · intro x hx
            have hxa : x ≠ aa := by
              intro he
              subst he
              rw [isLive, nodeRC, hgeta] at hx
              dsimp only at hx
              omega
            have hx0 : isLive s x := by
              rw [isLive, nodeRC, hget x hxa] at hx
              rw [isLive, nodeRC]
              exact hx
            obtain ⟨f1, t1, ht1⟩ := hinv.liveTree x hx0
            exact ⟨f1, t1, by rw [treeOf_obsEq hobs]; exact ht1⟩
        have hframe1 : Frame s (setNode s aa { nd with refCount := nd.refCount - 1 }) := by
          refine ⟨?_, ?_, ?_, le_refl _, [], by simp [setNode]⟩
          · intro x nd1 hnd1
            by_cases hx : x = aa
            · subst hx
              rw [hnd] at hnd1
              cases hnd1
              exact ⟨_, hgeta, rfl, rfl, rfl, rfl, rfl, rfl⟩
            · exact ⟨nd1, by rw [hget x hx]; exact hnd1, rfl, rfl, rfl, rfl, rfl, rfl⟩
          · intro q pl1 pl2 hpl1 hpl2 hpos
            have h2 : s.payloads[q]? = some pl2 := hpl2
            rw [hpl1] at h2
            cases h2
            exact ⟨rfl, rfl, rfl, rfl, rfl⟩
          · intro q pl1 pl2 hpl1 hpl2 hneg
            have h2 : s.payloads[q]? = some pl2 := hpl2
            rw [hpl1] at h2
            cases h2
            exact hneg
        -- payload decrement
        have hkey : nd.key = pl.key := by
          obtain ⟨pl0, hpl0, hk0⟩ := hinv.keyCoh aa nd hnd
          rw [hpl] at hpl0
          cases hpl0
          exact hk0
        have hpl1 : (setNode s aa { nd with refCount := nd.refCount - 1 }).payloads[nd.pid]? =
            some pl := hpl
        obtain ⟨hinv2, hframe2, hnodes2, hplen2⟩ :=
          valueDecref_spec hinv1 hpl1 hkey
        have hframe02 := frame_trans hframe1 hframe2
        -- left child
        have hlcnt : ∀ x, ((R ++ nd.right.toList) ++ nd.left.toList).count x =
            (R ++ nd.left.toList ++ nd.right.toList).count x := by
          intro x
          simp only [List.count_append]
          omega
        have hinv2l : Inv (valueDecref (setNode s aa { nd with refCount := nd.refCount - 1 })
            nd.pid nd.key) ((R ++ nd.right.toList) ++ nd.left.toList) P :=
          inv_perm hinv2 hlcnt (fun q => rfl)
        have hdepth : tdepth tl0 ≤ fuel ∧ tdepth tr0 ≤ fuel := by
          subst htt
          simp only [tdepth] at hd
          omega
        have htalD : ∀ ll, nd.left = some ll →
            treeOf (f - 1) (valueDecref (setNode s aa
              { nd with refCount := nd.refCount - 1 }) nd.pid nd.key)
              (some ll) = some tl0 := by
          intro ll hl0
          have hlllive : isLive (valueDecref (setNode s aa
              { nd with refCount := nd.refCount - 1 }) nd.pid nd.key) ll := by
            rw [isLive, hinv2.nodeCount ll]
            have h1 : 1 ≤ (R ++ nd.left.toList ++ nd.right.toList).count ll := by
              rw [hl0]
              have h2 : List.count ll (Option.toList (some ll)) = 1 := by simp
              simp only [List.count_append]
              omega
            rw [demand]
            have : (0:Int) < ((R ++ nd.left.toList ++ nd.right.toList).count ll +
                liveEdges (valueDecref (setNode s aa
                  { nd with refCount := nd.refCount - 1 }) nd.pid nd.key) ll : Nat) := by
              push_cast
              omega
            exact this
          have htl0c := htl0
          rw [hl0] at htl0c
          exact treeOf_frame hinv2 hframe02 (f - 1) (some ll) tl0
            (Or.inr ⟨ll, rfl, hlllive⟩) htl0c
        have htal : nd.left = none ∨ ∃ cc f2 t2, nd.left = some cc ∧
            treeOf f2 (valueDecref (setNode s aa { nd with refCount := nd.refCount - 1 })
              nd.pid nd.key) (some cc) = some t2 ∧ tdepth t2 ≤ fuel := by
          cases hl0 : nd.left with
          | none => exact Or.inl rfl
          | some ll =>
            have hres := htalD ll hl0
            rw [hl0] at hres
            exact Or.inr ⟨ll, f - 1, tl0, rfl, hres, hdepth.1⟩
        obtain ⟨hinv3, hframe23, hn3, hp3, hu3⟩ := ih hinv2l htal
        have hframe03 := frame_trans hframe02 hframe23
        -- right child
        have htarD : ∀ rr, nd.right = some rr →
            treeOf (f - 1) (decref fuel (valueDecref (setNode s aa
              { nd with refCount := nd.refCount - 1 }) nd.pid nd.key) nd.left)
              (some rr) = some tr0 := by
          intro rr hr0
          have hrrlive : isLive (decref fuel (valueDecref (setNode s aa
              { nd with refCount := nd.refCount - 1 }) nd.pid nd.key) nd.left) rr := by
            rw [isLive, hinv3.nodeCount rr]
            have h1 : 1 ≤ (R ++ nd.right.toList).count rr := by
              rw [hr0]
              simp
            rw [demand]
            have : (0:Int) < ((R ++ nd.right.toList).count rr +
                liveEdges (decref fuel (valueDecref (setNode s aa
                  { nd with refCount := nd.refCount - 1 }) nd.pid nd.key) nd.left)
                  rr : Nat) := by
              push_cast
              omega
            exact this
          have htr0c := htr0
          rw [hr0] at htr0c
          exact treeOf_frame hinv3 hframe03 (f - 1) (some rr) tr0
            (Or.inr ⟨rr, rfl, hrrlive⟩) htr0c
        have htar : nd.right = none ∨ ∃ cc f2 t2, nd.right = some cc ∧
            treeOf f2 (decref fuel (valueDecref (setNode s aa
              { nd with refCount := nd.refCount - 1 }) nd.pid nd.key) nd.left)
              (some cc) = some t2 ∧ tdepth t2 ≤ fuel := by
          cases hr0 : nd.right with
          | none => exact Or.inl rfl
          | some rr =>
            have hres := htarD rr hr0
            rw [hr0] at hres
            exact Or.inr ⟨rr, f - 1, tr0, rfl, hres, hdepth.2⟩
        obtain ⟨hinv4, hframe34, hn4, hp4, hu4⟩ := ih hinv3 htar
        refine ⟨hinv4, frame_trans hframe03 hframe34, ?_, ?_, ?_⟩
        · rw [hn4, hn3]
          have h1 : (valueDecref (setNode s aa { nd with refCount := nd.refCount - 1 })
              nd.pid nd.key).nodes = (setNode s aa
              { nd with refCount := nd.refCount - 1 }).nodes := hnodes2
          rw [h1]
          simp [setNode]
        · rw [hp4, hp3, hplen2]
          simp [setNode]
        · intro aa2 f2 t2 x haa2 ht2 hx
          cases haa2
          have hteq : t2 = t := treeOf_det ht2 ht
          subst hteq
          rw [htt] at hx
          simp only [tids, List.mem_cons, List.mem_append] at hx
          push_neg at hx
          obtain ⟨hxa, hxl, hxr⟩ := hx
          have hu3x : (decref fuel (valueDecref (setNode s aa
              { nd with refCount := nd.refCount - 1 }) nd.pid nd.key)
              nd.left).nodes[x]? =
              (valueDecref (setNode s aa { nd with refCount := nd.refCount - 1 })
                nd.pid nd.key).nodes[x]? := by
            cases hl0 : nd.left with
            | none => rw [decref_none]
            | some ll =>
              have hres := hu3 ll (f - 1) tl0 x hl0 (htalD ll hl0) hxl
              rw [hl0] at hres
              exact hres
          have hu4x : (decref fuel (decref fuel (valueDecref (setNode s aa
              { nd with refCount := nd.refCount - 1 }) nd.pid nd.key) nd.left)
              nd.right).nodes[x]? =
              (decref fuel (valueDecref (setNode s aa
                { nd with refCount := nd.refCount - 1 }) nd.pid nd.key)
                nd.left).nodes[x]? := by
            cases hr0 : nd.right with
            | none => rw [decref_none]
            | some rr =>
              have hres := hu4 rr (f - 1) tr0 x hr0 (htarD rr hr0) hxr
              rw [hr0] at hres
              exact hres
          rw [hu4x, hu3x, hnodes2]
          exact hget x hxa
      · -- the node survives with one reference fewer
        rw [if_neg hzero]
        have hget : ∀ x, x ≠ aa →
            (setNode s aa { nd with refCount := nd.refCount - 1 }).nodes[x]? =
              s.nodes[x]? := fun x hx => setNode_get_ne hx
        have hgeta : (setNode s aa { nd with refCount := nd.refCount - 1 }).nodes[aa]? =
            some { nd with refCount := nd.refCount - 1 } := setNode_get_self hlen
        have hedge : ∀ x,
            liveEdges (setNode s aa { nd with refCount := nd.refCount - 1 }) x =
              liveEdges s x := by
          intro x
          have h := liveEdges_set { nd with refCount := nd.refCount - 1 } hlen x
          rw [hnd] at h
          have hc1 : nodeContrib (some nd) x = edgeCnt nd x := by
            simp [nodeContrib, hrc]
            omega
          have hc2 : nodeContrib
              (some { nd with refCount := nd.refCount - 1 }) x = edgeCnt nd x := by
            simp only [nodeContrib]
            rw [if_pos (by omega)]
            rfl
          rw [hc1, hc2] at h
          omega
        have howns : ∀ q,
            liveOwns (setNode s aa { nd with refCount := nd.refCount - 1 }) q =
              liveOwns s q := by
          intro q
          have h := liveOwns_set { nd with refCount := nd.refCount - 1 } hlen q
          rw [hnd] at h
          have hc1 : payContrib (some nd) q = if nd.pid = q then 1 else 0 := by
            simp only [payContrib]
            by_cases hq : nd.pid = q
            · rw [if_pos ⟨by omega, hq⟩, if_pos hq]
            · rw [if_neg (by intro hc; exact hq hc.2), if_neg hq]
          have hc2 : payContrib
              (some { nd with refCount := nd.refCount - 1 }) q =
              if nd.pid = q then 1 else 0 := by
            simp only [payContrib]
            by_cases hq : nd.pid = q
            · rw [if_pos ⟨by omega, hq⟩, if_pos hq]
            · rw [if_neg (by intro hc; exact hq hc.2), if_neg hq]
          rw [hc1, hc2] at h
          omega
        have hobs : ObsEq s (setNode s aa { nd with refCount := nd.refCount - 1 }) := by
          constructor
          · intro x
            by_cases hx : x = aa
            · subst hx
              rw [hgeta, hnd]
              rfl
            · rw [hget x hx]
          · intro q
            rfl
        obtain ⟨hkc, hplv, hpld, hlc, hlcn⟩ := inv_aux
            (setNode s aa { nd with refCount := nd.refCount - 1 }) hinv rfl rfl (by
          intro x nd2 h
          by_cases hx : x = aa
          · subst hx
            rw [hgeta] at h
            cases h
            exact ⟨nd, hnd, rfl, rfl⟩
          · rw [hget x hx] at h
            exact ⟨nd2, h, rfl, rfl⟩)
        refine ⟨⟨?_, ?_, hkc, hplv, hpld, hlc, hlcn, ?_⟩, ?_, by simp [setNode], rfl,
          ?_⟩
        · intro x
          rw [demand, hedge x]
          by_cases hx : x = aa
          · subst hx
            rw [nodeRC_eq hgeta]
            have hproj : ({ nd with refCount := nd.refCount - 1 } : HNode K).refCount =
                nd.refCount - 1 := rfl
            rw [hproj]
            push_cast at hrcd ⊢
            omega
          · rw [nodeRC_congr (hget x hx)]
            have h0 : nodeRC s x = ((R ++ (Option.toList (some aa))).count x +
                liveEdges s x : Nat) := by
              rw [hinv.nodeCount x, demand]
            rw [hcntq x hx] at h0
            exact h0
        · intro q
          rw [pdemand, howns q]
          have h0 := hinv.payCount q
          rw [pdemand] at h0
          exact h0
        · intro x hx
          have hx0 : isLive s x := by
            rw [isLive, nodeRC] at hx ⊢
            by_cases hxa : x = aa
            · subst hxa
              rw [hnd]
              rw [hgeta] at hx
              dsimp only at hx ⊢
              omega
            · rw [hget x hxa] at hx
              exact hx
          obtain ⟨f1, t1, ht1⟩ := hinv.liveTree x hx0
          exact ⟨f1, t1, by rw [treeOf_obsEq hobs]; exact ht1⟩
        · refine ⟨?_, ?_, ?_, le_refl _, [], by simp [setNode]⟩
          · intro x nd1 hnd1
            by_cases hx : x = aa
            · subst hx
              rw [hnd] at hnd1
              cases hnd1
              exact ⟨_, hgeta, rfl, rfl, rfl, rfl, rfl, rfl⟩
            · exact ⟨nd1, by rw [hget x hx]; exact hnd1, rfl, rfl, rfl, rfl, rfl,
                rfl⟩
          · intro q pl1 pl2 hpl1 hpl2 hpos
            have h2 : s.payloads[q]? = some pl2 := hpl2
            rw [hpl1] at h2
            cases h2
            exact ⟨rfl, rfl, rfl, rfl, rfl⟩
          · intro q pl1 pl2 hpl1 hpl2 hneg
            have h2 : s.payloads[q]? = some pl2 := hpl2
            rw [hpl1] at h2
            cases h2
            exact hneg
        · intro aa2 f2 t2 x haa2 ht2 hx
          cases haa2
          have hteq : t2 = t := treeOf_det ht2 ht
          subst hteq
          rw [htt] at hx
          simp only [tids, List.mem_cons, List.mem_append] at hx
          push_neg at hx
          exact hget x hx.1

theorem live_of_count {s : Heap K V} {R P : List Nat} (hinv : Inv s R P) {x : Nat}
    (hx : 1 ≤ R.count x) : isLive s x := by
  rw [isLive, hinv.nodeCount x]
  have h : 1 ≤ demand s R x := by rw [demand]; omega
  exact_mod_cast h

theorem no_edges_of_rc {s : Heap K V} {Rl P : List Nat} (hinv : Inv s Rl P)
    {b : Nat} {nd : HNode K} (hnd : s.nodes[b]? = some nd)
    (hrc : nd.refCount = 1) (hcnt : 1 ≤ Rl.count b) : liveEdges s b = 0 := by
  have h0 := hinv.nodeCount b
  rw [nodeRC_eq hnd, hrc, demand] at h0
  have h2 : Rl.count b + liveEdges s b = 1 := by exact_mod_cast h0.symm
  omega

/-- Children of an allocated live node are allocated. -/
theorem child_lt {s : Heap K V} {R P : List Nat} (hinv : Inv s R P) {b : Nat}
    {nd : HNode K} (h : s.nodes[b]? = some nd) (hl : 0 < nd.refCount) {c : Nat}
    (hc : nd.left = some c ∨ nd.right = some c) : c < s.nodes.length := by
  have hlive := child_live hinv h hl hc
  obtain ⟨nd2, hnd2, -⟩ := isLive_some hlive
  exact getElem?_some_lt hnd2

/-- The heap `split` against its functional shadow: the state stays framed,
the counting invariant absorbs the three returned references, and the three
results reify to exactly the trees `PM.split` computes. -/
theorem split_spec (fuel : Nat) : ∀ {s s2 : Heap K V} {R P : List Nat}
    {n l m r : Option Nat} {key : K} {rm : Bool} {f0 : Nat} {t : ITree K V},
    Inv s R P → (n = none ∨ ∃ a, n = some a ∧ isLive s a) →
    treeOf f0 s n = some t → tdepth t ≤ fuel →
    split fuel s n key rm = (s2, l, m, r) →
    Inv s2 (R ++ l.toList ++ m.toList ++ r.toList) P ∧ Frame s s2 ∧
    s.nodes.length ≤ s2.nodes.length ∧
    (∀ x, isLive s x → isLive s2 x) ∧
    (∀ x, x < s.nodes.length → x ∉ tids t → s2.nodes[x]? = s.nodes[x]?) ∧
    (∃ tl2 tr2, treeOf (dFuel s2) s2 l = some tl2 ∧
      treeOf (dFuel s2) s2 r = some tr2 ∧
      erase tl2 = (PM.split (erase t) key rm).1 ∧
      erase tr2 = (PM.split (erase t) key rm).2.2 ∧
      (∀ x, x ∈ tids tl2 → x ∈ tids t ∨ s.nodes.length ≤ x) ∧
      (∀ x, x ∈ tids tr2 → x ∈ tids t ∨ s.nodes.length ≤ x) ∧
      ((PM.split (erase t) key rm).2.1 = none ∧ m = none ∨
        (∃ mk mv mw b, (PM.split (erase t) key rm).2.1 = some (mk, mv, mw) ∧
          m = some b ∧ s.nodes.length ≤ b ∧ treeOf (dFuel s2) s2 (some b) =
            some (.node b .nil mk mv mw .nil)))) := by
  induction fuel with
  | zero =>
    intro s s2 R P n l m r key rm f0 t hinv hn ht hd h
    cases n with
    | some a =>
      have := treeOf_some_pos ht
      omega
    | none =>
      rw [split] at h
      rw [treeOf] at ht
      cases ht
      injection h with h1 h2
      injection h2 with h2 h3
      injection h3 with h3 h4
      subst h1; subst h2; subst h3; subst h4
      refine ⟨by simpa using hinv, frame_refl s, le_refl _, fun x hx => hx,
        fun x h1 h2 => rfl,
        .nil, .nil, rfl, rfl, rfl, rfl, fun x hx => absurd hx (by simp [tids]),
        fun x hx => absurd hx (by simp [tids]), Or.inl ⟨rfl, rfl⟩⟩
  | succ fuel ih =>
    intro s s2 R P n l m r key rm f0 t hinv hn ht hd h
    cases n with
    | none =>
      rw [split] at h
      rw [treeOf] at ht
      cases ht
      injection h with h1 h2
      injection h2 with h2 h3
      injection h3 with h3 h4
      subst h1; subst h2; subst h3; subst h4
      refine ⟨by simpa using hinv, frame_refl s, le_refl _, fun x hx => hx,
        fun x h1 h2 => rfl,
        .nil, .nil, rfl, rfl, rfl, rfl, fun x hx => absurd hx (by simp [tids]),
        fun x hx => absurd hx (by simp [tids]), Or.inl ⟨rfl, rfl⟩⟩
    | some a =>
      rcases hn with hn | ⟨a0, ha0, hlive⟩
      · exact Option.noConfusion hn
      cases ha0
      obtain ⟨nd, pl, v, tl0, tr0, hnd, hpl, hv, htl0, htr0, htt⟩ :=
        treeOf_node_inv (f0 - 1) (by
          cases f0 with
          | zero => rw [treeOf] at ht; exact absurd ht (by simp)
          | succ f0 => exact ht)
      have hrcA : 0 < nd.refCount := by
        obtain ⟨nd2, hnd2, hp2⟩ := isLive_some hlive
        rw [hnd] at hnd2
        cases hnd2
        exact hp2
      have hdepthc : tdepth tl0 ≤ fuel ∧ tdepth tr0 ≤ fuel := by
        subst htt
        simp only [tdepth] at hd
        omega
      have heraset : erase t =
          .node (erase tl0) nd.key v nd.weight (erase tr0) := by
        rw [htt]
        rfl
      rw [split] at h
      rw [hnd] at h
      dsimp only at h
      by_cases h1 : nd.key < key
      · -- descend right
        rw [if_pos h1] at h
        rcases hq : split fuel s nd.right key rm with ⟨s1, l1, m1, r1⟩
        rw [hq] at h
        dsimp only at h
        have hrlive : nd.right = none ∨ ∃ c, nd.right = some c ∧ isLive s c := by
          cases hr0 : nd.right with
          | none => exact Or.inl rfl
          | some c => exact Or.inr ⟨c, rfl, child_live hinv hnd hrcA (Or.inr hr0)⟩
        obtain ⟨hinv1, hfr1, hlen1, hlp1, hu1, tlr, trr, htlr, htrr, herl, herr,
          horl, horr, hmid1⟩ := ih hinv hrlive htr0 hdepthc.2 hq
        by_cases hsc : (rm && m1.isNone) = true
        · -- short circuit
          rw [if_pos hsc] at h
          injection h with hA hB
          injection hB with hB hC
          injection hC with hC hD
          rw [Bool.and_eq_true] at hsc
          have hrm : rm = true := hsc.1
          have hm1 : m1 = none := by
            cases m1 with
            | none => rfl
            | some x => simp at hsc
          have hmiss : split fuel s nd.right key true = (s, none, none, none) := by
            apply split_requireMid_miss
            rw [← hrm, hq, hm1]
          rw [← hrm, hq, hm1] at hmiss
          injection hmiss with hA2 hB2
          injection hB2 with hB2 hC2
          injection hC2 with hC2 hD2
          subst hA2
          have hqmid : (PM.split (erase tr0) key rm).2.1 = none := by
            rcases hmid1 with ⟨hx, -⟩ | ⟨mk, mv, mw, bm, hx, hmm, -, -⟩
            · exact hx
            · rw [hm1] at hmm
              exact Option.noConfusion hmm
          have hPM : PM.split (erase t) key rm = (.nil, none, .nil) := by
            rw [heraset]
            rw [PM.split]
            rw [if_pos h1]
            dsimp only
            rw [hqmid]
            rw [hrm]
            rfl
          subst hA
          rw [← hB, ← hC, ← hD]
          rw [hPM]
          refine ⟨by simpa using hinv, frame_refl _, le_refl _, fun x hx => hx,
            fun x h1 h2 => rfl,
            .nil, .nil, rfl, rfl, rfl, rfl, fun x hx => absurd hx (by simp [tids]),
            fun x hx => absurd hx (by simp [tids]), Or.inl ⟨rfl, rfl⟩⟩
        · -- build the left result
          rw [if_neg hsc] at h
          rcases hcl : shallowCloneWithRef s1 a with ⟨s2c, b⟩
          rw [hcl] at h
          dsimp only at h
          -- node of a in s1
          obtain ⟨nd1, hnd1, hsh1⟩ := hfr1.1 a nd hnd
          obtain ⟨e1, e2, e3, e4, e5, e6⟩ := hsh1
          have hlive1 : isLive s1 a := hlp1 a hlive
          have hrc1 : 0 < nd1.refCount := by
            obtain ⟨nd2, hnd2, hp2⟩ := isLive_some hlive1
            rw [hnd1] at hnd2
            cases hnd2
            exact hp2
          obtain ⟨hinv2, hfr2, hbv, hlen2, hb2, hplen2, hlog2, hnne2, hpne2,
            ⟨plm, hplm, hplmrc, hplm2, htreeb2⟩, hlp2⟩ :=
            shallowCloneWithRef_spec hinv1 hnd1 hrc1 hcl
          rw [e1, e2, e3] at hb2
          -- incref nd.left
          have hllive2 : nd.left = none ∨ ∃ c, nd.left = some c ∧ isLive s2c c := by
            cases hl0 : nd.left with
            | none => exact Or.inl rfl
            | some c =>
              exact Or.inr ⟨c, rfl, hlp2 _ (hlp1 _
                (child_live hinv hnd hrcA (Or.inl hl0)))⟩
          obtain ⟨hinv3, hfr3, hobs3, hlen3, hpay3, hlog3, hlp3, hnn3⟩ :=
            incref_spec hinv2 hllive2
          -- setLeft
          have hlneb : ∀ cc, nd.left = some cc → cc ≠ b := by
            intro cc hcc he
            have := child_lt hinv hnd hrcA (Or.inl hcc)
            omega
          have hb3 : (incref s2c nd.left).nodes[b]? =
              some (⟨nd.key, nd.pid, nd.weight, 1, none, none, some a⟩ : HNode K) := by
            rw [hnn3 b ?_]
            · exact hb2
            · intro he
              cases hl0 : nd.left with
              | none => rw [hl0] at he; exact Option.noConfusion he
              | some cc =>
                rw [hl0] at he
                exact hlneb cc hl0 (Option.some.inj he)
          have hcntb3 : 1 ≤ ((R ++ l1.toList ++ m1.toList ++ r1.toList ++ [b]) ++
              nd.left.toList).count b := by
            have hone : List.count b [b] = 1 := by simp
            simp only [List.count_append, hone]
            omega
          have hedge3 : liveEdges (incref s2c nd.left) b = 0 :=
            no_edges_of_rc hinv3 hb3 rfl hcntb3
          obtain ⟨hinv4, hfrN4, hlen4, hpay4, hlog4, hnne4, hb4, hrc4⟩ :=
            setLeft_spec hinv3 hb3 (by norm_num) rfl hlneb hedge3
          -- setRight
          have hperm4 : Inv (setLeft (incref s2c nd.left) b nd.left)
              ((R ++ m1.toList ++ r1.toList ++ [b]) ++ l1.toList) P := by
            refine inv_perm hinv4 ?_ (fun q => rfl)
            intro x
            simp only [List.count_append]
            omega
          have hl1neb : ∀ cc, l1 = some cc → cc ≠ b := by
            intro cc hcc he
            subst he
            have hccl : isLive s1 cc := live_of_count hinv1 (by
              rw [hcc]
              have hone : List.count cc (Option.toList (some cc)) = 1 := by simp
              simp only [List.count_append, hone]
              omega)
            obtain ⟨nd2, hnd2, -⟩ := isLive_some hccl
            have := getElem?_some_lt hnd2
            omega
          have hcntb4 : 1 ≤ ((R ++ m1.toList ++ r1.toList ++ [b]) ++
              l1.toList).count b := by
            have hone : List.count b [b] = 1 := by simp
            simp only [List.count_append, hone]
            omega
          have hedge4 : liveEdges (setLeft (incref s2c nd.left) b nd.left) b = 0 :=
            no_edges_of_rc hperm4 hb4 rfl hcntb4
          obtain ⟨hinv5, hfrN5, hlen5, hpay5, hlog5, hnne5, hb5, hrc5⟩ :=
            setRight_spec hperm4 hb4 (by norm_num) rfl hl1neb hedge4
          injection h with hA hB
          injection hB with hB hC
          injection hC with hC hD
          subst hA
          subst hC
          subst hD
          subst hB
          set S5 := setRight (setLeft (incref s2c nd.left) b nd.left) b l1 with hS5
          have hinvFinal : Inv S5
              (R ++ (Option.toList (some b)) ++ m1.toList ++ r1.toList) P := by
            refine inv_perm hinv5 ?_ (fun q => rfl)
            intro x
            simp only [List.count_append, Option.toList]
            omega
          have hF03 : Frame s (incref s2c nd.left) :=
            frame_trans (frame_trans hfr1 hfr2) hfr3
          have hble : s.nodes.length ≤ b := by omega
          have hF45 : FrameN b (incref s2c nd.left)
              S5 :=
            frameN_trans hfrN4 hfrN5 (le_refl b)
          have hFrameFinal : Frame s
              S5 :=
            frame_of_frameN (frameN_trans (frameN_of_frame hF03 s.nodes.length)
              hF45 hble)
          have hF15 : Frame s1
              S5 := by
            have h13 : Frame s1 (incref s2c nd.left) := frame_trans hfr2 hfr3
            exact frame_of_frameN (frameN_trans
              (frameN_of_frame h13 s1.nodes.length) hF45 (by omega))
          have hlpFinal : ∀ x, isLive s x →
              isLive S5 x := by
            intro x hx
            have h3 := hlp3 x (hlp2 x (hlp1 x hx))
            rw [isLive, hrc5 x, hrc4 x]
            exact h3
          have hlenFinal : s.nodes.length ≤
              S5.nodes.length := by
            rw [hlen5, hlen4, hlen3, hlen2]
            omega
          -- the functional image
          have hscPM : (rm && (PM.split (erase tr0) key rm).2.1.isNone) = false := by
            rcases hmid1 with ⟨hqm, hm1n⟩ | ⟨mk, mv, mw, bm, hqm, hmm, -, -⟩
            · rw [hqm]
              cases rm with
              | false => rfl
              | true =>
                exfalso
                apply hsc
                rw [hm1n]
                rfl
            · rw [hqm]
              simp
          have hPM : PM.split (erase t) key rm =
              (.node (erase tl0) nd.key v nd.weight (PM.split (erase tr0) key rm).1,
               (PM.split (erase tr0) key rm).2.1,
               (PM.split (erase tr0) key rm).2.2) := by
            rw [heraset]
            rw [PM.split]
            rw [if_pos h1]
            dsimp only
            rw [hscPM]
            simp only [Bool.false_eq_true, if_false]
          -- trees of the outputs
          have hbrc : (0:Int) < 1 := by norm_num
          have hlive5b : isLive S5 b :=
            live_of_count hinvFinal (by
              have hone : List.count b (Option.toList (some b)) = 1 := by simp
              simp only [List.count_append, hone]
              omega)
          have hb5' : S5.nodes[b]? =
              some (⟨nd.key, nd.pid, nd.weight, 1, nd.left, l1, some a⟩ : HNode K) := hb5
          have hrcb5 : (0:Int) <
              ((⟨nd.key, nd.pid, nd.weight, 1, nd.left, l1, some a⟩ : HNode K)).refCount := by
            norm_num
          have htl5 : treeOf (f0 - 1) S5 nd.left = some tl0 := by
            refine treeOf_frame hinvFinal hFrameFinal (f0 - 1) nd.left tl0 ?_ htl0
            cases hl0 : nd.left with
            | none => exact Or.inl rfl
            | some ll =>
              exact Or.inr ⟨ll, rfl, child_live hinvFinal hb5' hrcb5 (Or.inl hl0)⟩
          have htlr5 : treeOf (dFuel s1) S5 l1 = some tlr := by
            refine treeOf_frame hinvFinal hF15 (dFuel s1) l1 tlr ?_ htlr
            cases hl1 : l1 with
            | none => exact Or.inl rfl
            | some la =>
              exact Or.inr ⟨la, rfl, child_live hinvFinal hb5' hrcb5 (Or.inr hl1)⟩
          obtain ⟨pl5, hpl5, hpl5rc⟩ := pay_live hinvFinal hb5' hrcb5
          have hpl5' : S5.payloads[nd.pid]? =
              some pl5 := hpl5
          have hv5 : pl5.value = some v := by
            have hc := (hFrameFinal.2.1 nd.pid pl pl5 hpl hpl5' hpl5rc).1
            rw [hc, hv]
          have hTb0 := treeOf_node_build hb5' hpl5 hv5 htl5 htlr5
          have hTb : treeOf (max (f0 - 1) (dFuel s1) + 1) S5 (some b) =
              some (.node b tl0 nd.key v nd.weight tlr) := hTb0
          have hdle : tdepth (ITree.node b tl0 nd.key v nd.weight tlr) ≤
              dFuel S5 := by
            have := treeOf_depth_le hTb
            rw [dFuel]
            omega
          have hTb2 : treeOf (dFuel S5)
              S5 (some b) =
              some (.node b tl0 nd.key v nd.weight tlr) := treeOf_min hTb hdle
          have hdmono : dFuel s1 ≤
              dFuel S5 := by
            rw [dFuel, dFuel, hlen5, hlen4, hlen3, hlen2]
            omega
          have htrr5 : treeOf (dFuel S5) S5 r1 = some trr := by
            refine treeOf_mono (treeOf_frame hinvFinal hF15 (dFuel s1) r1 trr ?_ htrr)
              hdmono
            cases hr1 : r1 with
            | none => exact Or.inl rfl
            | some ra =>
              refine Or.inr ⟨ra, rfl, live_of_count hinvFinal ?_⟩
              rw [hr1]
              have hone : List.count ra (Option.toList (some ra)) = 1 := by simp
              simp only [List.count_append, hone]
              omega
          have hUnt : ∀ x, x < s.nodes.length → x ∉ tids t →
              S5.nodes[x]? = s.nodes[x]? := by
            intro x hxlt hxt
            rw [htt] at hxt
            simp only [tids, List.mem_cons, List.mem_append] at hxt
            push_neg at hxt
            obtain ⟨hxa, hxl, hxr⟩ := hxt
            have hxb : x ≠ b := by omega
            have hlnex : nd.left ≠ some x := by
              intro he
              have htl0c := htl0
              rw [he] at htl0c
              exact hxl (treeOf_head_mem htl0c)
            rw [hnne5 x hxb, hnne4 x hxb, hnn3 x hlnex, hnne2 x hxb,
              hu1 x hxlt hxr]
          have hOrL : ∀ x, x ∈ tids (ITree.node b tl0 nd.key v nd.weight tlr) →
              x ∈ tids t ∨ s.nodes.length ≤ x := by
            intro x hx
            simp only [tids, List.mem_cons, List.mem_append] at hx
            rcases hx with hx | hx | hx
            · subst hx
              right
              omega
            · left
              rw [htt]
              simp only [tids, List.mem_cons, List.mem_append]
              right
              left
              exact hx
            · rcases horl x hx with h | h
              · left
                rw [htt]
                simp only [tids, List.mem_cons, List.mem_append]
                right
                right
                exact h
              · right
                omega
          have hOrR : ∀ x, x ∈ tids trr → x ∈ tids t ∨ s.nodes.length ≤ x := by
            intro x hx
            rcases horr x hx with h | h
            · left
              rw [htt]
              simp only [tids, List.mem_cons, List.mem_append]
              right
              right
              exact h
            · right
              omega
          refine ⟨hinvFinal, hFrameFinal, hlenFinal, hlpFinal, hUnt,
            .node b tl0 nd.key v nd.weight tlr, trr, hTb2, htrr5, ?_, ?_,
            hOrL, hOrR, ?_⟩
          · rw [hPM]
            simp only [erase]
            rw [herl]
          · rw [hPM]
            exact herr
          · rcases hmid1 with ⟨hqm, hmn⟩ | ⟨mk, mv, mw, bm, hqm, hmm, hbmf, htbm⟩
            · exact Or.inl ⟨by rw [hPM]; exact hqm, hmn⟩
            · refine Or.inr ⟨mk, mv, mw, bm, by rw [hPM]; exact hqm, hmm,
                by omega, ?_⟩
              subst hmm
              have hbml : isLive S5 bm :=
                live_of_count hinvFinal (by
                  have hone : List.count bm (Option.toList (some bm)) = 1 := by simp
                  simp only [List.count_append, hone]
                  omega)
              exact treeOf_mono (treeOf_frame hinvFinal hF15 (dFuel s1) (some bm)
                (.node bm .nil mk mv mw .nil) (Or.inr ⟨bm, rfl, hbml⟩) htbm) hdmono
      · -- key not above the node key
        rw [if_neg h1] at h
        by_cases h2 : key < nd.key
        · -- descend left
          rw [if_pos h2] at h
          rcases hq : split fuel s nd.left key rm with ⟨s1, l1, m1, r1⟩
          rw [hq] at h
          dsimp only at h
          have hllive : nd.left = none ∨ ∃ c, nd.left = some c ∧ isLive s c := by
            cases hl0 : nd.left with
            | none => exact Or.inl rfl
            | some c => exact Or.inr ⟨c, rfl, child_live hinv hnd hrcA (Or.inl hl0)⟩
          obtain ⟨hinv1, hfr1, hlen1, hlp1, hu1, tlr, trr, htlr, htrr, herl, herr,
            horl, horr, hmid1⟩ := ih hinv hllive htl0 hdepthc.1 hq
          by_cases hsc : (rm && m1.isNone) = true
          · rw [if_pos hsc] at h
            injection h with hA hB
            injection hB with hB hC
            injection hC with hC hD
            rw [Bool.and_eq_true] at hsc
            have hrm : rm = true := hsc.1
            have hm1 : m1 = none := by
              cases m1 with
              | none => rfl
              | some x => simp at hsc
            have hmiss : split fuel s nd.left key true = (s, none, none, none) := by
              apply split_requireMid_miss
              rw [← hrm, hq, hm1]
            rw [← hrm, hq, hm1] at hmiss
            injection hmiss with hA2 hB2
            subst hA2
            have hqmid : (PM.split (erase tl0) key rm).2.1 = none := by
              rcases hmid1 with ⟨hx, -⟩ | ⟨mk, mv, mw, bm, hx, hmm, -, -⟩
              · exact hx
              · rw [hm1] at hmm
                exact Option.noConfusion hmm
            have hPM : PM.split (erase t) key rm = (.nil, none, .nil) := by
              rw [heraset]
              rw [PM.split]
              rw [if_neg h1, if_pos h2]
              dsimp only
              rw [hqmid]
              rw [hrm]
              rfl
            subst hA
            rw [← hB, ← hC, ← hD]
            rw [hPM]
            refine ⟨by simpa using hinv, frame_refl _, le_refl _, fun x hx => hx,
              fun x h1 h2 => rfl,
              .nil, .nil, rfl, rfl, rfl, rfl,
              fun x hx => absurd hx (by simp [tids]),
              fun x hx => absurd hx (by simp [tids]), Or.inl ⟨rfl, rfl⟩⟩
          · rw [if_neg hsc] at h
            rcases hcl : shallowCloneWithRef s1 a with ⟨s2c, b⟩
            rw [hcl] at h
            dsimp only at h
            obtain ⟨nd1, hnd1, hsh1⟩ := hfr1.1 a nd hnd
            obtain ⟨e1, e2, e3, e4, e5, e6⟩ := hsh1
            have hlive1 : isLive s1 a := hlp1 a hlive
            have hrc1 : 0 < nd1.refCount := by
              obtain ⟨nd2, hnd2, hp2⟩ := isLive_some hlive1
              rw [hnd1] at hnd2
              cases hnd2
              exact hp2
            obtain ⟨hinv2, hfr2, hbv, hlen2, hb2, hplen2, hlog2, hnne2, hpne2,
              ⟨plm, hplm, hplmrc, hplm2, htreeb2⟩, hlp2⟩ :=
              shallowCloneWithRef_spec hinv1 hnd1 hrc1 hcl
            rw [e1, e2, e3] at hb2
            -- setLeft with the recursive right part
            have hr1neb : ∀ cc, r1 = some cc → cc ≠ b := by
              intro cc hcc he
              subst he
              have hccl : isLive s1 cc := live_of_count hinv1 (by
                rw [hcc]
                have hone : List.count cc (Option.toList (some cc)) = 1 := by simp
                simp only [List.count_append, hone]
                omega)
              obtain ⟨nd2, hnd2, -⟩ := isLive_some hccl
              have := getElem?_some_lt hnd2
              omega
            have hperm2 : Inv s2c
                ((R ++ l1.toList ++ m1.toList ++ [b]) ++ r1.toList) P := by
              refine inv_perm hinv2 ?_ (fun q => rfl)
              intro x
              simp only [List.count_append]
              omega
            have hcntb2 : 1 ≤ ((R ++ l1.toList ++ m1.toList ++ [b]) ++
                r1.toList).count b := by
              have hone : List.count b [b] = 1 := by simp
              simp only [List.count_append, hone]
              omega
            have hedge2 : liveEdges s2c b = 0 :=
              no_edges_of_rc hperm2 hb2 rfl hcntb2
            obtain ⟨hinv3, hfrN3, hlen3, hpay3, hlog3, hnne3, hb3, hrc3⟩ :=
              setLeft_spec hperm2 hb2 (by norm_num) rfl hr1neb hedge2
            -- incref nd.right
            have hrlive3 : nd.right = none ∨ ∃ c, nd.right = some c ∧
                isLive (setLeft s2c b r1) c := by
              cases hr0 : nd.right with
              | none => exact Or.inl rfl
              | some c =>
                refine Or.inr ⟨c, rfl, ?_⟩
                rw [isLive, hrc3 c]
                exact hlp2 _ (hlp1 _ (child_live hinv hnd hrcA (Or.inr hr0)))
            obtain ⟨hinv4, hfr4, hobs4, hlen4, hpay4, hlog4, hlp4, hnn4⟩ :=
              incref_spec hinv3 hrlive3
            have hrneb : ∀ cc, nd.right = some cc → cc ≠ b := by
              intro cc hcc he
              have := child_lt hinv hnd hrcA (Or.inr hcc)
              omega
            have hb4 : (incref (setLeft s2c b r1) nd.right).nodes[b]? =
                some ({ (⟨nd.key, nd.pid, nd.weight, 1, none, none, some a⟩ : HNode K)
                  with left := r1 }) := by
              rw [hnn4 b ?_]
              · exact hb3
              · intro he
                cases hr0 : nd.right with
                | none => rw [hr0] at he; exact Option.noConfusion he
                | some cc =>
                  rw [hr0] at he
                  exact hrneb cc hr0 (Option.some.inj he)
            have hcntb4 : 1 ≤ ((R ++ l1.toList ++ m1.toList ++ [b]) ++
                nd.right.toList).count b := by
              have hone : List.count b [b] = 1 := by simp
              simp only [List.count_append, hone]
              omega
            have hedge4 : liveEdges (incref (setLeft s2c b r1) nd.right) b = 0 :=
              no_edges_of_rc hinv4 hb4 rfl hcntb4
            obtain ⟨hinv5, hfrN5, hlen5, hpay5, hlog5, hnne5, hb5, hrc5⟩ :=
              setRight_spec hinv4 hb4 (by norm_num) rfl hrneb hedge4
            injection h with hA hB
            injection hB with hB hC
            injection hC with hC hD
            subst hA
            subst hB
            subst hC
            subst hD
            set S5 := setRight (incref (setLeft s2c b r1) nd.right) b nd.right
              with hS5
            have hinvFinal : Inv S5
                (R ++ l1.toList ++ m1.toList ++ (Option.toList (some b))) P := by
              refine inv_perm hinv5 ?_ (fun q => rfl)
              intro x
              simp only [List.count_append, Option.toList]
            have hF23 : FrameN b s2c S5 :=
              frameN_trans hfrN3 (frameN_trans (frameN_of_frame hfr4 b) hfrN5
                (le_refl b)) (le_refl b)
            have hF12 : Frame s1 s2c := hfr2
            have hble : s.nodes.length ≤ b := by omega
            have hFrameFinal : Frame s S5 :=
              frame_of_frameN (frameN_trans
                (frameN_of_frame (frame_trans hfr1 hfr2) s.nodes.length)
                hF23 (by omega))
            have hF15 : Frame s1 S5 :=
              frame_of_frameN (frameN_trans (frameN_of_frame hfr2 s1.nodes.length)
                hF23 (by omega))
            have hlpFinal : ∀ x, isLive s x → isLive S5 x := by
              intro x hx
              have h3 := hlp4 x (by
                rw [isLive, hrc3 x]
                exact hlp2 x (hlp1 x hx))
              rw [isLive, hrc5 x]
              exact h3
            have hlenFinal : s.nodes.length ≤ S5.nodes.length := by
              rw [hS5]
              show s.nodes.length ≤
                (setRight (incref (setLeft s2c b r1) nd.right) b nd.right).nodes.length
              rw [hlen5, hlen4, hlen3, hlen2]
              omega
            have hscPM : (rm && (PM.split (erase tl0) key rm).2.1.isNone) = false := by
              rcases hmid1 with ⟨hqm, hm1n⟩ | ⟨mk, mv, mw, bm, hqm, hmm, -, -⟩
              · rw [hqm]
                cases rm with
                | false => rfl
                | true =>
                  exfalso
                  apply hsc
                  rw [hm1n]
                  rfl
              · rw [hqm]
                simp
            have hPM : PM.split (erase t) key rm =
                ((PM.split (erase tl0) key rm).1,
                 (PM.split (erase tl0) key rm).2.1,
                 .node (PM.split (erase tl0) key rm).2.2 nd.key v nd.weight
                   (erase tr0)) := by
              rw [heraset]
              rw [PM.split]
              rw [if_neg h1, if_pos h2]
              dsimp only
              rw [hscPM]
              simp only [Bool.false_eq_true, if_false]
            have hb5' : S5.nodes[b]? =
                some (⟨nd.key, nd.pid, nd.weight, 1, r1, nd.right, some a⟩ : HNode K) :=
              hb5
            have hrcb5 : (0:Int) <
                ((⟨nd.key, nd.pid, nd.weight, 1, r1, nd.right, some a⟩ : HNode K)).refCount := by
              norm_num
            have hlive5b : isLive S5 b :=
              live_of_count hinvFinal (by
                have hone : List.count b (Option.toList (some b)) = 1 := by simp
                simp only [List.count_append, hone]
                omega)
            have htr5 : treeOf (f0 - 1) S5 nd.right = some tr0 := by
              refine treeOf_frame hinvFinal hFrameFinal (f0 - 1) nd.right tr0 ?_ htr0
              cases hr0 : nd.right with
              | none => exact Or.inl rfl
              | some cc =>
                exact Or.inr ⟨cc, rfl, child_live hinvFinal hb5' hrcb5 (Or.inr hr0)⟩
            have htrr5 : treeOf (dFuel s1) S5 r1 = some trr := by
              refine treeOf_frame hinvFinal hF15 (dFuel s1) r1 trr ?_ htrr
              cases hr1c : r1 with
              | none => exact Or.inl rfl
              | some ra =>
                exact Or.inr ⟨ra, rfl, child_live hinvFinal hb5' hrcb5 (Or.inl hr1c)⟩
            obtain ⟨pl5, hpl5, hpl5rc⟩ := pay_live hinvFinal hb5' hrcb5
            have hv5 : pl5.value = some v := by
              have hc := (hFrameFinal.2.1 nd.pid pl pl5 hpl hpl5 hpl5rc).1
              rw [hc, hv]
            have hTb0 := treeOf_node_build hb5' hpl5 hv5 htrr5 htr5
            have hTb : treeOf (max (dFuel s1) (f0 - 1) + 1) S5 (some b) =
                some (.node b trr nd.key v nd.weight tr0) := hTb0
            have hdle : tdepth (ITree.node b trr nd.key v nd.weight tr0) ≤
                dFuel S5 := by
              have := treeOf_depth_le hTb
              rw [dFuel]
              omega
            have hTb2 : treeOf (dFuel S5) S5 (some b) =
                some (.node b trr nd.key v nd.weight tr0) := treeOf_min hTb hdle
            have hdmono : dFuel s1 ≤ dFuel S5 := by
              rw [hS5]
              show dFuel s1 ≤
                dFuel (setRight (incref (setLeft s2c b r1) nd.right) b nd.right)
              rw [dFuel, dFuel, hlen5, hlen4, hlen3, hlen2]
              omega
            have htlr5 : treeOf (dFuel S5) S5 l1 = some tlr := by
              refine treeOf_mono (treeOf_frame hinvFinal hF15 (dFuel s1) l1 tlr ?_
                htlr) hdmono
              cases hl1c : l1 with
              | none => exact Or.inl rfl
              | some la =>
                refine Or.inr ⟨la, rfl, live_of_count hinvFinal ?_⟩
                rw [hl1c]
                have hone : List.count la (Option.toList (some la)) = 1 := by simp
                simp only [List.count_append, hone]
                omega
            have hUnt : ∀ x, x < s.nodes.length → x ∉ tids t →
                S5.nodes[x]? = s.nodes[x]? := by
              intro x hxlt hxt
              rw [htt] at hxt
              simp only [tids, List.mem_cons, List.mem_append] at hxt
              push_neg at hxt
              obtain ⟨hxa, hxl, hxr⟩ := hxt
              have hxb : x ≠ b := by omega
              have hrnex : nd.right ≠ some x := by
                intro he
                have htr0c := htr0
                rw [he] at htr0c
                exact hxr (treeOf_head_mem htr0c)
              rw [hnne5 x hxb, hnn4 x hrnex, hnne3 x hxb, hnne2 x hxb,
                hu1 x hxlt hxl]
            have hOrL : ∀ x, x ∈ tids tlr → x ∈ tids t ∨ s.nodes.length ≤ x := by
              intro x hx
              rcases horl x hx with h | h
              · left
                rw [htt]
                simp only [tids, List.mem_cons, List.mem_append]
                right
                left
                exact h
              · right
                omega
            have hOrR : ∀ x, x ∈ tids (ITree.node b trr nd.key v nd.weight tr0) →
                x ∈ tids t ∨ s.nodes.length ≤ x := by
              intro x hx
              simp only [tids, List.mem_cons, List.mem_append] at hx
              rcases hx with hx | hx | hx
              · subst hx
                right
                omega
              · rcases horr x hx with h | h
                · left
                  rw [htt]
                  simp only [tids, List.mem_cons, List.mem_append]
                  right
                  left
                  exact h
                · right
                  omega
              · left
                rw [htt]
                simp only [tids, List.mem_cons, List.mem_append]
                right
                right
                exact hx
            refine ⟨hinvFinal, hFrameFinal, hlenFinal, hlpFinal, hUnt,
              tlr, .node b trr nd.key v nd.weight tr0, htlr5, hTb2, ?_, ?_,
              hOrL, hOrR, ?_⟩
            · rw [hPM]
              exact herl
            · rw [hPM]
              simp only [erase]
              rw [herr]
            · rcases hmid1 with ⟨hqm, hmn⟩ | ⟨mk, mv, mw, bm, hqm, hmm, hbmf, htbm⟩
              · exact Or.inl ⟨by rw [hPM]; exact hqm, hmn⟩
              · refine Or.inr ⟨mk, mv, mw, bm, by rw [hPM]; exact hqm, hmm,
                  by omega, ?_⟩
                subst hmm
                have hbml : isLive S5 bm :=
                  live_of_count hinvFinal (by
                    have hone : List.count bm (Option.toList (some bm)) = 1 := by
                      simp
                    simp only [List.count_append, hone]
                    omega)
                exact treeOf_mono (treeOf_frame hinvFinal hF15 (dFuel s1) (some bm)
                  (.node bm .nil mk mv mw .nil) (Or.inr ⟨bm, rfl, hbml⟩) htbm)
                  hdmono
        · -- the keys are equal: build the middle clone
          rw [if_neg h2] at h
          rcases hcl : shallowCloneWithRef s a with ⟨s1c, b⟩
          rw [hcl] at h
          dsimp only at h
          obtain ⟨hinv1, hfr1, hbv, hlen1, hb1, hplen1, hlog1, hnne1, hpne1,
            ⟨pl1, hpl1, hpl1rc, hpl1b, htreeb1⟩, hlp1⟩ :=
            shallowCloneWithRef_spec hinv hnd hrcA hcl
          have he2 : pl1 = pl := by
            have h3 : s.payloads[nd.pid]? = some pl1 := hpl1
            rw [hpl] at h3
            exact (Option.some.inj h3).symm
          subst he2
          have hveq : pl1.gValue = v := by
            have hvl := (hinv.payLive nd.pid pl1 hpl hpl1rc).1
            rw [hv] at hvl
            exact (Option.some.inj hvl).symm
          have hllive1 : nd.left = none ∨ ∃ c, nd.left = some c ∧ isLive s1c c := by
            cases hl0 : nd.left with
            | none => exact Or.inl rfl
            | some c =>
              exact Or.inr ⟨c, rfl, hlp1 _ (child_live hinv hnd hrcA (Or.inl hl0))⟩
          obtain ⟨hinv2, hfr2, hobs2, hlen2, hpay2, hlog2, hlp2, hnn2⟩ :=
            incref_spec hinv1 hllive1
          have hrlive2 : nd.right = none ∨ ∃ c, nd.right = some c ∧
              isLive (incref s1c nd.left) c := by
            cases hr0 : nd.right with
            | none => exact Or.inl rfl
            | some c =>
              exact Or.inr ⟨c, rfl, hlp2 _ (hlp1 _
                (child_live hinv hnd hrcA (Or.inr hr0)))⟩
          obtain ⟨hinv3, hfr3, hobs3, hlen3, hpay3, hlog3, hlp3, hnn3⟩ :=
            incref_spec hinv2 hrlive2
          injection h with hA hB
          injection hB with hB hC
          injection hC with hC hD
          subst hA
          subst hB
          subst hC
          subst hD
          set S3 := incref (incref s1c nd.left) nd.right with hS3
          have hinvFinal : Inv S3
              (R ++ nd.left.toList ++ (Option.toList (some b)) ++ nd.right.toList)
              P := by
            refine inv_perm hinv3 ?_ (fun q => rfl)
            intro x
            simp only [List.count_append, Option.toList]
            omega
          have hFrameFinal : Frame s S3 :=
            frame_trans hfr1 (frame_trans hfr2 hfr3)
          have hlpFinal : ∀ x, isLive s x → isLive S3 x :=
            fun x hx => hlp3 x (hlp2 x (hlp1 x hx))
          have hlenFinal : s.nodes.length ≤ S3.nodes.length := by
            rw [hS3]
            show s.nodes.length ≤
              (incref (incref s1c nd.left) nd.right).nodes.length
            rw [hlen3, hlen2, hlen1]
            omega
          have hPM : PM.split (erase t) key rm =
              (erase tl0, some (nd.key, v, nd.weight), erase tr0) := by
            rw [heraset]
            rw [PM.split]
            rw [if_neg h1, if_neg h2]
          have htl3 : treeOf (f0 - 1) S3 nd.left = some tl0 := by
            refine treeOf_frame hinvFinal hFrameFinal (f0 - 1) nd.left tl0 ?_ htl0
            cases hl0 : nd.left with
            | none => exact Or.inl rfl
            | some c =>
              refine Or.inr ⟨c, rfl, live_of_count hinvFinal ?_⟩
              rw [hl0]
              have hone : List.count c (Option.toList (some c)) = 1 := by simp
              simp only [List.count_append, hone]
              omega
          have htr3 : treeOf (f0 - 1) S3 nd.right = some tr0 := by
            refine treeOf_frame hinvFinal hFrameFinal (f0 - 1) nd.right tr0 ?_ htr0
            cases hr0 : nd.right with
            | none => exact Or.inl rfl
            | some c =>
              refine Or.inr ⟨c, rfl, live_of_count hinvFinal ?_⟩
              rw [hr0]
              have hone : List.count c (Option.toList (some c)) = 1 := by simp
              simp only [List.count_append, hone]
              omega
          have hb3live : isLive S3 b :=
            live_of_count hinvFinal (by
              have hone : List.count b (Option.toList (some b)) = 1 := by simp
              simp only [List.count_append, hone]
              omega)
          have hF13 : Frame s1c S3 := frame_trans hfr2 hfr3
          have htreeb3 : treeOf (dFuel S3) S3 (some b) =
              some (.node b .nil nd.key v nd.weight .nil) := by
            have hstep := treeOf_frame hinvFinal hF13 1 (some b)
              (.node b .nil nd.key pl1.gValue nd.weight .nil)
              (Or.inr ⟨b, rfl, hb3live⟩) htreeb1
            rw [hveq] at hstep
            exact treeOf_min hstep (by
              rw [dFuel]
              simp only [tdepth]
              omega)
          have htl3d : treeOf (dFuel S3) S3 nd.left = some tl0 := by
            refine treeOf_min htl3 ?_
            cases hl0 : nd.left with
            | none =>
              rw [hl0] at htl3
              rw [treeOf] at htl3
              cases htl3
              rw [dFuel]
              simp only [tdepth]
              omega
            | some c =>
              rw [hl0] at htl3
              have := treeOf_depth_le htl3
              rw [dFuel]
              omega
          have htr3d : treeOf (dFuel S3) S3 nd.right = some tr0 := by
            refine treeOf_min htr3 ?_
            cases hr0 : nd.right with
            | none =>
              rw [hr0] at htr3
              rw [treeOf] at htr3
              cases htr3
              rw [dFuel]
              simp only [tdepth]
              omega
            | some c =>
              rw [hr0] at htr3
              have := treeOf_depth_le htr3
              rw [dFuel]
              omega
          have hUnt : ∀ x, x < s.nodes.length → x ∉ tids t →
              S3.nodes[x]? = s.nodes[x]? := by
            intro x hxlt hxt
            rw [htt] at hxt
            simp only [tids, List.mem_cons, List.mem_append] at hxt
            push_neg at hxt
            obtain ⟨hxa, hxl, hxr⟩ := hxt
            have hxb : x ≠ b := by omega
            have hlnex : nd.left ≠ some x := by
              intro he
              have htl0c := htl0
              rw [he] at htl0c
              exact hxl (treeOf_head_mem htl0c)
            have hrnex : nd.right ≠ some x := by
              intro he
              have htr0c := htr0
              rw [he] at htr0c
              exact hxr (treeOf_head_mem htr0c)
            rw [hnn3 x hrnex, hnn2 x hlnex, hnne1 x hxb]
          have hOrL : ∀ x, x ∈ tids tl0 → x ∈ tids t ∨ s.nodes.length ≤ x := by
            intro x hx
            left
            rw [htt]
            simp only [tids, List.mem_cons, List.mem_append]
            right
            left
            exact hx
          have hOrR : ∀ x, x ∈ tids tr0 → x ∈ tids t ∨ s.nodes.length ≤ x := by
            intro x hx
            left
            rw [htt]
            simp only [tids, List.mem_cons, List.mem_append]
            right
            right
            exact hx
          refine ⟨hinvFinal, hFrameFinal, hlenFinal, hlpFinal, hUnt,
            tl0, tr0, htl3d, htr3d, ?_, ?_, hOrL, hOrR, ?_⟩
          · rw [hPM]
          · rw [hPM]
          · exact Or.inr ⟨nd.key, v, nd.weight, b, by rw [hPM], rfl, by omega,
              htreeb3⟩

/-- `Rooted` is carried through a framed step that keeps (at least) the held
references, without changing the reference list it is stated against. -/
theorem rooted_keep {s s2 : Heap K V} {R R2 P2 : List Nat} {x : Nat}
    (hinv2 : Inv s2 R2 P2) (hf : Frame s s2)
    (hcnt : ∀ r : Nat, R.count r ≤ R2.count r) (h : Rooted s R x) :
    Rooted s2 R x := by
  refine rooted_mono h (fun r => le_refl _) ?_
  intro rr f t hr ht
  have hlive2 : isLive s2 rr := by
    rw [isLive, hinv2.nodeCount rr]
    have h2 : 1 ≤ R2.count rr := le_trans hr (hcnt rr)
    have : 1 ≤ demand s2 R2 rr := by rw [demand]; omega
    exact_mod_cast this
  exact treeOf_frame hinv2 hf f (some rr) t (Or.inr ⟨rr, rfl, hlive2⟩) ht

/-- `Rooted` survives a mutation of a single fresh, childless node that no
live node points at: every rooted tree avoids the mutated slot. -/
theorem rooted_off {s s2 : Heap K V} {R RI Pb : List Nat} {b x : Nat}
    (hinv : Inv s RI Pb) (hcnt : ∀ r : Nat, R.count r ≤ RI.count r)
    (hnb : ∀ y : Nat, y ≠ b → s2.nodes[y]? = s.nodes[y]?)
    (hpay : ∀ q : Nat, s2.payloads[q]? = s.payloads[q]?)
    (hedge0 : liveEdges s b = 0)
    (hch : ∀ nd : HNode K, s.nodes[b]? = some nd →
      nd.left = none ∧ nd.right = none)
    (hxb : x ≠ b) (h : Rooted s R x) : Rooted s2 R x := by
  obtain ⟨rr, hcnt2, f, t, ht, hx⟩ := h
  by_cases hrb : rr = b
  · subst hrb
    obtain ⟨nd, pl, v, tl, tr, hnd, hpl, hv, htl, htr, htt⟩ :=
      treeOf_node_inv (f - 1) (by
        cases f with
        | zero => rw [treeOf] at ht; exact absurd ht (by simp)
        | succ f2 => exact ht)
    obtain ⟨hl0, hr0⟩ := hch nd hnd
    rw [hl0] at htl
    rw [hr0] at htr
    rw [treeOf] at htl
    rw [treeOf] at htr
    cases htl
    cases htr
    rw [htt] at hx
    simp only [tids, List.mem_cons, List.mem_append] at hx
    rcases hx with hx | hx | hx
    · exact absurd hx hxb
    · simp [tids] at hx
    · simp [tids] at hx
  · have hrrlive : isLive s rr := by
      rw [isLive, hinv.nodeCount rr]
      have h2 : 1 ≤ RI.count rr := le_trans hcnt2 (hcnt rr)
      have : 1 ≤ demand s RI rr := by rw [demand]; omega
      exact_mod_cast this
    have hbavoid : b ∉ tids t :=
      tree_avoid hinv ht hrrlive hedge0 (fun he => hrb he.symm)
    refine ⟨rr, hcnt2, f, t, ?_, hx⟩
    refine treeOf_local ht (fun y hy => hnb y (fun he => hbavoid (he ▸ hy))) ?_
    intro y hy nd hnd pl hpl
    refine ⟨pl, ?_, rfl⟩
    rw [hpay nd.pid]
    exact hpl

/-- Transport a derivation through a framed step whose reference list keeps a
count on the root. -/
theorem treeOf_count {s s2 : Heap K V} {R P : List Nat} (hinv2 : Inv s2 R P)
    (hf : Frame s s2) {f : Nat} {x : Option Nat} {t : ITree K V}
    (hcnt : ∀ a, x = some a → 1 ≤ R.count a)
    (h : treeOf f s x = some t) : treeOf f s2 x = some t := by
  refine treeOf_frame hinv2 hf f x t ?_ h
  rcases Option.eq_none_or_eq_some x with h0 | ⟨a, h0⟩
  · exact Or.inl h0
  · exact Or.inr ⟨a, h0, live_of_count hinv2 (hcnt a h0)⟩

/-- Transport a derivation through a mutation of one slot the tree avoids. -/
theorem treeOf_offb {s s2 : Heap K V} {b : Nat} {f : Nat} {x : Option Nat}
    {t : ITree K V}
    (hnb : ∀ y : Nat, y ≠ b → s2.nodes[y]? = s.nodes[y]?)
    (hpay : ∀ q : Nat, s2.payloads[q]? = s.payloads[q]?)
    (hbt : b ∉ tids t)
    (h : treeOf f s x = some t) : treeOf f s2 x = some t := by
  refine treeOf_local h (fun y hy => hnb y (fun he => hbt (he ▸ hy))) ?_
  intro y hy nd hnd pl hpl
  refine ⟨pl, ?_, rfl⟩
  rw [hpay nd.pid]
  exact hpl

/-- Transport a derivation through a framed step that keeps the root live. -/
theorem treeOf_live {s s2 : Heap K V} {R P : List Nat} (hinv2 : Inv s2 R P)
    (hf : Frame s s2) {f : Nat} {x : Option Nat} {t : ITree K V}
    (hlv : ∀ a, x = some a → isLive s2 a)
    (h : treeOf f s x = some t) : treeOf f s2 x = some t := by
  refine treeOf_frame hinv2 hf f x t ?_ h
  rcases Option.eq_none_or_eq_some x with h0 | ⟨a, h0⟩
  · exact Or.inl h0
  · exact Or.inr ⟨a, h0, hlv a h0⟩

/-- The key/value the union root keeps: the mid entry when `overwrite` is
set and the key collides, the primary root's own entry otherwise. -/
def pmKV (ov : Bool) (mid : Option (K × V × Nat)) (dk : K) (dv : V) : K × V :=
  match ov, mid with
  | true, some (mk, mv, _) => (mk, mv)
  | _, _ => (dk, dv)

theorem pmUnion_nil_left (ts : PM.PTree K V) (ov : Bool) :
    PM.union PM.PTree.nil ts ov = ts := by
  rw [PM.union]

theorem pmUnion_nil_right (fl : PM.PTree K V) (fk : K) (fv : V) (fw : Nat)
    (fr : PM.PTree K V) (ov : Bool) :
    PM.union (PM.PTree.node fl fk fv fw fr) PM.PTree.nil ov =
      PM.PTree.node fl fk fv fw fr := by
  rw [PM.union]

/-- Unfolding of `PM.union` when the first root is lighter: the source swaps
the trees and flips `overwrite`. -/
theorem pmUnion_swap (fl : PM.PTree K V) (fk : K) (fv : V) (fw : Nat)
    (fr sl : PM.PTree K V) (sk : K) (sv : V) (sw : Nat) (sr : PM.PTree K V)
    (ov : Bool) (hw : fw < sw) :
    PM.union (.node fl fk fv fw fr) (.node sl sk sv sw sr) ov =
      .node (PM.union sl (PM.split (.node fl fk fv fw fr) sk false).1 (!ov))
        (pmKV (!ov) (PM.split (.node fl fk fv fw fr) sk false).2.1 sk sv).1
        (pmKV (!ov) (PM.split (.node fl fk fv fw fr) sk false).2.1 sk sv).2
        sw
        (PM.union sr (PM.split (.node fl fk fv fw fr) sk false).2.2 (!ov)) := by
  rw [PM.union]
  rw [if_pos hw]
  rfl

/-- Unfolding of `PM.union` when the first root is at least as heavy. -/
theorem pmUnion_keep (fl : PM.PTree K V) (fk : K) (fv : V) (fw : Nat)
    (fr sl : PM.PTree K V) (sk : K) (sv : V) (sw : Nat) (sr : PM.PTree K V)
    (ov : Bool) (hw : ¬ fw < sw) :
    PM.union (.node fl fk fv fw fr) (.node sl sk sv sw sr) ov =
      .node (PM.union fl (PM.split (.node sl sk sv sw sr) fk false).1 ov)
        (pmKV ov (PM.split (.node sl sk sv sw sr) fk false).2.1 fk fv).1
        (pmKV ov (PM.split (.node sl sk sv sw sr) fk false).2.1 fk fv).2
        fw
        (PM.union fr (PM.split (.node sl sk sv sw sr) fk false).2.2 ov) := by
  rw [PM.union]
  rw [if_neg hw]
  rfl

/-- The heap `merge` against its functional shadow: the counting invariant
absorbs the returned reference, the state stays framed, nodes outside both
argument trees are untouched, and the result reifies to `PM.merge`. -/
theorem merge_spec (fuel : Nat) : ∀ {s s2 : Heap K V} {R P : List Nat}
    {l r out : Option Nat} {f1 f2 : Nat} {tl tr : ITree K V},
    Inv s R P →
    (l = none ∨ ∃ a, l = some a ∧ isLive s a) →
    (r = none ∨ ∃ a, r = some a ∧ isLive s a) →
    treeOf f1 s l = some tl → treeOf f2 s r = some tr →
    tdepth tl + tdepth tr + 1 ≤ fuel →
    merge fuel s l r = (s2, out) →
    Inv s2 (R ++ out.toList) P ∧ Frame s s2 ∧
    s.nodes.length ≤ s2.nodes.length ∧
    (∀ x, isLive s x → isLive s2 x) ∧
    (∀ x, x < s.nodes.length → x ∉ tids tl → x ∉ tids tr →
      s2.nodes[x]? = s.nodes[x]?) ∧
    (∃ tm, treeOf (dFuel s2) s2 out = some tm ∧
      erase tm = PM.merge (erase tl) (erase tr) ∧
      (∀ x, x ∈ tids tm → x ∈ tids tl ∨ x ∈ tids tr ∨ s.nodes.length ≤ x)) := by
  induction fuel with
  | zero =>
    intro s s2 R P l r out f1 f2 tl tr hinv hlo hro htl htr hd h
    omega
  | succ fuel ih =>
    intro s s2 R P l r out f1 f2 tl tr hinv hlo hro htl htr hd h
    cases l with
    | none =>
      rw [merge] at h
      injection h with hA hB
      subst hA
      subst hB
      rw [treeOf] at htl
      cases htl
      obtain ⟨hinv2, hfr2, hobs2, hlen2, hpay2, hlog2, hlp2, hnn2⟩ :=
        incref_spec hinv hro
      refine ⟨hinv2, hfr2, by omega, hlp2, ?_, tr, ?_, ?_,
        fun x hx => Or.inr (Or.inl hx)⟩
      · intro x hxlt hxl hxr
        rcases hro with hr0 | ⟨ra, hr0, -⟩
        · rw [hr0]
          rfl
        · refine hnn2 x ?_
          intro he
          have htrc := htr
          rw [hr0] at htrc
          rw [hr0] at he
          have he2 : ra = x := Option.some.inj he
          subst he2
          exact hxr (treeOf_head_mem htrc)
      · have h1 : treeOf f2 (incref s r) r = some tr := by
          rw [treeOf_obsEq hobs2]
          exact htr
        refine treeOf_min h1 ?_
        rcases hro with hr0 | ⟨ra, hr0, -⟩
        · rw [hr0] at htr
          rw [treeOf] at htr
          cases htr
          rw [dFuel]
          simp only [tdepth]
          omega
        · have htrc := htr
          rw [hr0] at htrc
          have := treeOf_depth_le htrc
          rw [dFuel, hlen2]
          omega
      · simp only [erase]
        rw [PM.merge]
    | some la =>
      rcases hlo with h0 | ⟨la0, hla0, hllive⟩
      · exact Option.noConfusion h0
      cases hla0
      obtain ⟨ndl, pll, vl, tll, tlr, hndl, hpll, hvl, htll, htlr, httl⟩ :=
        treeOf_node_inv (f1 - 1) (by
          cases f1 with
          | zero => rw [treeOf] at htl; exact absurd htl (by simp)
          | succ f1 => exact htl)
      have hrcl : 0 < ndl.refCount := by
        obtain ⟨nd2, hnd2, hp2⟩ := isLive_some hllive
        rw [hndl] at hnd2
        cases hnd2
        exact hp2
      have heral : erase tl =
          .node (erase tll) ndl.key vl ndl.weight (erase tlr) := by
        rw [httl]
        rfl
      cases r with
      | none =>
        rw [merge] at h
        injection h with hA hB
        subst hA
        subst hB
        rw [treeOf] at htr
        cases htr
        obtain ⟨hinv2, hfr2, hobs2, hlen2, hpay2, hlog2, hlp2, hnn2⟩ :=
          incref_spec hinv (Or.inr ⟨la, rfl, hllive⟩)
        refine ⟨hinv2, hfr2, by omega, hlp2, ?_, tl, ?_, ?_,
          fun x hx => Or.inl hx⟩
        · intro x hxlt hxl hxr
          refine hnn2 x ?_
          intro he
          have he2 : la = x := Option.some.inj he
          subst he2
          exact hxl (treeOf_head_mem htl)
        · have h1 : treeOf f1 (incref s (some la)) (some la) = some tl := by
            rw [treeOf_obsEq hobs2]
            exact htl
          refine treeOf_min h1 ?_
          have := treeOf_depth_le htl
          rw [dFuel, hlen2]
          omega
        · rw [heral]
          simp only [erase]
          rw [PM.merge]
      | some ra =>
        rcases hro with h0 | ⟨ra0, hra0, hrlive⟩
        · exact Option.noConfusion h0
        cases hra0
        obtain ⟨ndr, plr, vr, trl, trr, hndr, hplr, hvr, htrl, htrr, httr⟩ :=
          treeOf_node_inv (f2 - 1) (by
            cases f2 with
            | zero => rw [treeOf] at htr; exact absurd htr (by simp)
            | succ f2 => exact htr)
        have hrcr : 0 < ndr.refCount := by
          obtain ⟨nd2, hnd2, hp2⟩ := isLive_some hrlive
          rw [hndr] at hnd2
          cases hnd2
          exact hp2
        have herar : erase tr =
            .node (erase trl) ndr.key vr ndr.weight (erase trr) := by
          rw [httr]
          rfl
        by_cases hw : ndr.weight < ndl.weight
        · -- the left root is heavier and becomes the new root
          have hstep : merge (fuel + 1) s (some la) (some ra) =
              (match shallowCloneWithRef s la with
               | (s1, b) =>
                 let s2 := incref s1 ndl.left
                 let s3 := setLeft s2 b ndl.left
                 match merge fuel s3 ndl.right (some ra) with
                 | (s4, m) => (setRight s4 b m, some b)) := by
            simp only [merge, hndl, hndr]
            rw [if_pos hw]
          rw [hstep] at h
          rcases hcl : shallowCloneWithRef s la with ⟨s1, b⟩
          rw [hcl] at h
          dsimp only at h
          obtain ⟨hinv1, hfr1, hbv, hlen1, hb1, hplen1, hlog1, hnne1, hpne1,
            ⟨plm, hplm, hplmrc, hplm2, htreeb1⟩, hlp1⟩ :=
            shallowCloneWithRef_spec hinv hndl hrcl hcl
          have hllive1 : ndl.left = none ∨ ∃ c, ndl.left = some c ∧
              isLive s1 c := by
            cases hl0 : ndl.left with
            | none => exact Or.inl rfl
            | some c =>
              exact Or.inr ⟨c, rfl, hlp1 _
                (child_live hinv hndl hrcl (Or.inl hl0))⟩
          obtain ⟨hinv2, hfr2, hobs2, hlen2, hpay2, hlog2, hlp2, hnn2⟩ :=
            incref_spec hinv1 hllive1
          have hlneb : ∀ cc, ndl.left = some cc → cc ≠ b := by
            intro cc hcc he
            have := child_lt hinv hndl hrcl (Or.inl hcc)
            omega
          have hb2 : (incref s1 ndl.left).nodes[b]? =
              some (⟨ndl.key, ndl.pid, ndl.weight, 1, none, none,
                some la⟩ : HNode K) := by
            rw [hnn2 b ?_]
            · exact hb1
            · intro he
              cases hl0 : ndl.left with
              | none => rw [hl0] at he; exact Option.noConfusion he
              | some cc =>
                rw [hl0] at he
                exact hlneb cc hl0 (Option.some.inj he)
          have honeb : List.count b [b] = 1 := by simp
          have hcntb2 : 1 ≤ ((R ++ [b]) ++ ndl.left.toList).count b := by
            simp only [List.count_append, honeb]
            omega
          have hedge2 : liveEdges (incref s1 ndl.left) b = 0 :=
            no_edges_of_rc hinv2 hb2 rfl hcntb2
          obtain ⟨hinv3, hfrN3, hlen3, hpay3, hlog3, hnne3, hb3, hrc3⟩ :=
            setLeft_spec hinv2 hb2 (by norm_num) rfl hlneb hedge2
          have hfr03 : Frame s (setLeft (incref s1 ndl.left) b ndl.left) := by
            have h02 : Frame s (incref s1 ndl.left) := frame_trans hfr1 hfr2
            exact frame_of_frameN (frameN_trans
              (frameN_of_frame h02 s.nodes.length) hfrN3 (by omega))
          have hrlive3 : ndl.right = none ∨ ∃ c, ndl.right = some c ∧
              isLive (setLeft (incref s1 ndl.left) b ndl.left) c := by
            cases hr0 : ndl.right with
            | none => exact Or.inl rfl
            | some c =>
              refine Or.inr ⟨c, rfl, ?_⟩
              rw [isLive, hrc3 c]
              exact hlp2 _ (hlp1 _ (child_live hinv hndl hrcl (Or.inr hr0)))
          have hralive3 : isLive (setLeft (incref s1 ndl.left) b ndl.left) ra := by
            rw [isLive, hrc3 ra]
            exact hlp2 _ (hlp1 _ hrlive)
          have htlr3 : treeOf (f1 - 1) (setLeft (incref s1 ndl.left) b ndl.left)
              ndl.right = some tlr := by
            refine treeOf_frame hinv3 hfr03 (f1 - 1) ndl.right tlr ?_ htlr
            cases hr0 : ndl.right with
            | none => exact Or.inl rfl
            | some c =>
              refine Or.inr ⟨c, rfl, ?_⟩
              rw [isLive, hrc3 c]
              exact hlp2 _ (hlp1 _ (child_live hinv hndl hrcl (Or.inr hr0)))
          have htr3 : treeOf f2 (setLeft (incref s1 ndl.left) b ndl.left)
              (some ra) = some tr :=
            treeOf_frame hinv3 hfr03 f2 (some ra) tr
              (Or.inr ⟨ra, rfl, hralive3⟩) htr
          have hdrec : tdepth tlr + tdepth tr + 1 ≤ fuel := by
            rw [httl] at hd
            simp only [tdepth] at hd
            omega
          rcases hm : merge fuel (setLeft (incref s1 ndl.left) b ndl.left)
              ndl.right (some ra) with ⟨s4, m⟩
          rw [hm] at h
          dsimp only at h
          obtain ⟨hinv4, hfr34, hlen34, hlp34, hu34, tm, htm4, hermm, horm⟩ :=
            ih hinv3 hrlive3 (Or.inr ⟨ra, rfl, hralive3⟩) htlr3 htr3 hdrec hm
          have hblt3 : b < (setLeft (incref s1 ndl.left) b ndl.left).nodes.length := by
            rw [hlen3, hlen2, hlen1]
            omega
          have hbtlr : b ∉ tids tlr := by
            intro hbt
            have := treeOf_ids_lt htlr b hbt
            omega
          have hbtr : b ∉ tids tr := by
            intro hbt
            have := treeOf_ids_lt htr b hbt
            omega
          have hb4 : s4.nodes[b]? =
              some ({ (⟨ndl.key, ndl.pid, ndl.weight, 1, none, none,
                some la⟩ : HNode K) with left := ndl.left }) := by
            rw [hu34 b hblt3 hbtlr hbtr]
            exact hb3
          have hrcb4 : ({ (⟨ndl.key, ndl.pid, ndl.weight, 1, none, none,
              some la⟩ : HNode K) with left := ndl.left }).refCount = (1:Int) := rfl
          have hc0 := hinv4.nodeCount b
          rw [nodeRC_eq hb4, hrcb4, demand] at hc0
          have hc1 : ((R ++ [b]) ++ m.toList).count b + liveEdges s4 b = 1 := by
            exact_mod_cast hc0.symm
          have hedge4 : liveEdges s4 b = 0 := by
            simp only [List.count_append, honeb] at hc1
            omega
          have hmneb : ∀ cc, m = some cc → cc ≠ b := by
            intro cc hcc he
            rw [he] at hcc
            have h2 : List.count b m.toList = 1 := by rw [hcc]; simp
            simp only [List.count_append, honeb, h2] at hc1
            omega
          obtain ⟨hinv5, hfrN5, hlen5, hpay5, hlog5, hnne5, hb5, hrc5⟩ :=
            setRight_spec hinv4 hb4 (by norm_num) rfl hmneb hedge4
          injection h with hA hB
          subst hA
          subst hB
          have hinvFinal : Inv (setRight s4 b m)
              (R ++ (Option.toList (some b))) P := by
            refine inv_perm hinv5 ?_ (fun q => rfl)
            intro x
            simp only [List.count_append, Option.toList]
          have hfr04 : Frame s s4 := frame_trans hfr03 hfr34
          have hFrameFinal : Frame s (setRight s4 b m) :=
            frame_of_frameN (frameN_trans (frameN_of_frame hfr04 s.nodes.length)
              hfrN5 (by omega))
          have hlenFinal : s.nodes.length ≤ (setRight s4 b m).nodes.length := by
            rw [hlen5]
            omega
          have hlpFinal : ∀ x, isLive s x → isLive (setRight s4 b m) x := by
            intro x hx
            rw [isLive, hrc5 x]
            refine hlp34 x ?_
            rw [isLive, hrc3 x]
            exact hlp2 x (hlp1 x hx)
          have hUnt : ∀ x, x < s.nodes.length → x ∉ tids tl → x ∉ tids tr →
              (setRight s4 b m).nodes[x]? = s.nodes[x]? := by
            intro x hxlt hxl hxr
            rw [httl] at hxl
            simp only [tids, List.mem_cons, List.mem_append] at hxl
            push_neg at hxl
            obtain ⟨hxla, hxll, hxlr⟩ := hxl
            have hxb : x ≠ b := by omega
            have hlnex : ndl.left ≠ some x := by
              intro he
              have htllc := htll
              rw [he] at htllc
              exact hxll (treeOf_head_mem htllc)
            rw [hnne5 x hxb, hu34 x (by omega) hxlr hxr, hnne3 x hxb,
              hnn2 x hlnex, hnne1 x hxb]
          have hb5' : (setRight s4 b m).nodes[b]? =
              some (⟨ndl.key, ndl.pid, ndl.weight, 1, ndl.left, m,
                some la⟩ : HNode K) := hb5
          have hrcb5 : (0:Int) < ((⟨ndl.key, ndl.pid, ndl.weight, 1, ndl.left, m,
              some la⟩ : HNode K)).refCount := by norm_num
          have htll5 : treeOf (f1 - 1) (setRight s4 b m) ndl.left = some tll := by
            refine treeOf_frame hinvFinal hFrameFinal (f1 - 1) ndl.left tll ?_ htll
            cases hl0 : ndl.left with
            | none => exact Or.inl rfl
            | some c =>
              exact Or.inr ⟨c, rfl, child_live hinvFinal hb5' hrcb5 (Or.inl hl0)⟩
          have hbtm : b ∉ tids tm := by
            intro hbt
            rcases horm b hbt with h2 | h2 | h2
            · exact hbtlr h2
            · exact hbtr h2
            · rw [hlen3, hlen2, hlen1] at h2
              omega
          have htm5 : treeOf (dFuel s4) (setRight s4 b m) m = some tm := by
            refine treeOf_local htm4 ?_ ?_
            · intro y hy
              refine hnne5 y ?_
              intro he
              subst he
              exact hbtm hy
            · intro y hy nd hnd pl hpl
              refine ⟨pl, ?_, rfl⟩
              rw [hpay5]
              exact hpl
          obtain ⟨pl5, hpl5, hpl5rc⟩ := pay_live hinvFinal hb5' hrcb5
          have hv5 : pl5.value = some vl := by
            have hc := (hFrameFinal.2.1 ndl.pid pll pl5 hpll hpl5 hpl5rc).1
            rw [hc, hvl]
          have hTb0 := treeOf_node_build hb5' hpl5 hv5 htll5 htm5
          have hTb : treeOf (max (f1 - 1) (dFuel s4) + 1) (setRight s4 b m)
              (some b) = some (.node b tll ndl.key vl ndl.weight tm) := hTb0
          have hdle : tdepth (ITree.node b tll ndl.key vl ndl.weight tm) ≤
              dFuel (setRight s4 b m) := by
            have := treeOf_depth_le hTb
            rw [dFuel]
            omega
          have hTb2 : treeOf (dFuel (setRight s4 b m)) (setRight s4 b m)
              (some b) = some (.node b tll ndl.key vl ndl.weight tm) :=
            treeOf_min hTb hdle
          have hPM : PM.merge (erase tl) (erase tr) =
              .node (erase tll) ndl.key vl ndl.weight
                (PM.merge (erase tlr) (erase tr)) := by
            rw [heral, herar]
            rw [PM.merge]
            rw [if_pos hw]
          refine ⟨hinvFinal, hFrameFinal, hlenFinal, hlpFinal, hUnt,
            .node b tll ndl.key vl ndl.weight tm, hTb2, ?_, ?_⟩
          · simp only [erase]
            rw [hermm, hPM]
          · intro x hx
            simp only [tids, List.mem_cons, List.mem_append] at hx
            rcases hx with hx | hx | hx
            · subst hx
              right
              right
              omega
            · left
              rw [httl]
              simp only [tids, List.mem_cons, List.mem_append]
              right
              left
              exact hx
            · rcases horm x hx with h2 | h2 | h2
              · left
                rw [httl]
                simp only [tids, List.mem_cons, List.mem_append]
                right
                right
                exact h2
              · right
                left
                exact h2
              · rw [hlen3, hlen2, hlen1] at h2
                right
                right
                omega
        · -- the right root wins
          have hstep : merge (fuel + 1) s (some la) (some ra) =
              (match shallowCloneWithRef s ra with
               | (s1, b) =>
                 match merge fuel s1 (some la) ndr.left with
                 | (s2, m) =>
                   let s3 := setLeft s2 b m
                   let s4 := incref s3 ndr.right
                   (setRight s4 b ndr.right, some b)) := by
            simp only [merge, hndl, hndr]
            rw [if_neg hw]
          rw [hstep] at h
          rcases hcl : shallowCloneWithRef s ra with ⟨s1, b⟩
          rw [hcl] at h
          dsimp only at h
          obtain ⟨hinv1, hfr1, hbv, hlen1, hb1, hplen1, hlog1, hnne1, hpne1,
            ⟨plm, hplm, hplmrc, hplm2, htreeb1⟩, hlp1⟩ :=
            shallowCloneWithRef_spec hinv hndr hrcr hcl
          have hlrlive1 : ndr.left = none ∨ ∃ c, ndr.left = some c ∧
              isLive s1 c := by
            cases hl0 : ndr.left with
            | none => exact Or.inl rfl
            | some c =>
              exact Or.inr ⟨c, rfl, hlp1 _
                (child_live hinv hndr hrcr (Or.inl hl0))⟩
          have htl1 : treeOf f1 s1 (some la) = some tl :=
            treeOf_frame hinv1 hfr1 f1 (some la) tl
              (Or.inr ⟨la, rfl, hlp1 la hllive⟩) htl
          have htrl1 : treeOf (f2 - 1) s1 ndr.left = some trl := by
            refine treeOf_frame hinv1 hfr1 (f2 - 1) ndr.left trl ?_ htrl
            cases hl0 : ndr.left with
            | none => exact Or.inl rfl
            | some c =>
              exact Or.inr ⟨c, rfl, hlp1 _
                (child_live hinv hndr hrcr (Or.inl hl0))⟩
          have hdrec : tdepth tl + tdepth trl + 1 ≤ fuel := by
            rw [httr] at hd
            simp only [tdepth] at hd
            omega
          rcases hm : merge fuel s1 (some la) ndr.left with ⟨s2m, m⟩
          rw [hm] at h
          dsimp only at h
          obtain ⟨hinv2m, hfr12m, hlen12m, hlp12m, hu12m, tm, htm2, hermm, horm⟩ :=
            ih hinv1 (Or.inr ⟨la, rfl, hlp1 la hllive⟩) hlrlive1 htl1 htrl1
              hdrec hm
          have hbtl : b ∉ tids tl := by
            intro hbt
            have := treeOf_ids_lt htl b hbt
            omega
          have hbtrl : b ∉ tids trl := by
            intro hbt
            have := treeOf_ids_lt htrl b hbt
            omega
          have hbtr : b ∉ tids tr := by
            intro hbt
            have := treeOf_ids_lt htr b hbt
            omega
          have hb2m : s2m.nodes[b]? =
              some (⟨ndr.key, ndr.pid, ndr.weight, 1, none, none,
                some ra⟩ : HNode K) := by
            rw [hu12m b (by omega) hbtl hbtrl]
            exact hb1
          have hrcb2m : ((⟨ndr.key, ndr.pid, ndr.weight, 1, none, none,
              some ra⟩ : HNode K)).refCount = (1:Int) := rfl
          have honeb : List.count b [b] = 1 := by simp
          have hc0 := hinv2m.nodeCount b
          rw [nodeRC_eq hb2m, hrcb2m, demand] at hc0
          have hc1 : ((R ++ [b]) ++ m.toList).count b + liveEdges s2m b = 1 := by
            exact_mod_cast hc0.symm
          have hedge2m : liveEdges s2m b = 0 := by
            simp only [List.count_append, honeb] at hc1
            omega
          have hmneb : ∀ cc, m = some cc → cc ≠ b := by
            intro cc hcc he
            rw [he] at hcc
            have h2 : List.count b m.toList = 1 := by rw [hcc]; simp
            simp only [List.count_append, honeb, h2] at hc1
            omega
          obtain ⟨hinv3, hfrN3, hlen3, hpay3, hlog3, hnne3, hb3, hrc3⟩ :=
            setLeft_spec hinv2m hb2m (by norm_num) rfl hmneb hedge2m
          have hrlive3 : ndr.right = none ∨ ∃ c, ndr.right = some c ∧
              isLive (setLeft s2m b m) c := by
            cases hr0 : ndr.right with
            | none => exact Or.inl rfl
            | some c =>
              refine Or.inr ⟨c, rfl, ?_⟩
              rw [isLive, hrc3 c]
              exact hlp12m _ (hlp1 _ (child_live hinv hndr hrcr (Or.inr hr0)))
          obtain ⟨hinv4, hfr4, hobs4, hlen4, hpay4, hlog4, hlp4, hnn4⟩ :=
            incref_spec hinv3 hrlive3
          have hrneb : ∀ cc, ndr.right = some cc → cc ≠ b := by
            intro cc hcc he
            have := child_lt hinv hndr hrcr (Or.inr hcc)
            omega
          have hb4 : (incref (setLeft s2m b m) ndr.right).nodes[b]? =
              some ({ (⟨ndr.key, ndr.pid, ndr.weight, 1, none, none,
                some ra⟩ : HNode K) with left := m }) := by
            rw [hnn4 b ?_]
            · exact hb3
            · intro he
              cases hr0 : ndr.right with
              | none => rw [hr0] at he; exact Option.noConfusion he
              | some cc =>
                rw [hr0] at he
                exact hrneb cc hr0 (Option.some.inj he)
          have hcntb4 : 1 ≤ ((R ++ [b]) ++ ndr.right.toList).count b := by
            simp only [List.count_append, honeb]
            omega
          have hedge4 : liveEdges (incref (setLeft s2m b m) ndr.right) b = 0 :=
            no_edges_of_rc hinv4 hb4 rfl hcntb4
          obtain ⟨hinv5, hfrN5, hlen5, hpay5, hlog5, hnne5, hb5, hrc5⟩ :=
            setRight_spec hinv4 hb4 (by norm_num) rfl hrneb hedge4
          injection h with hA hB
          subst hA
          subst hB
          have hinvFinal : Inv (setRight (incref (setLeft s2m b m) ndr.right) b
              ndr.right) (R ++ (Option.toList (some b))) P := by
            refine inv_perm hinv5 ?_ (fun q => rfl)
            intro x
            simp only [List.count_append, Option.toList]
          have hF25 : FrameN b s2m
              (setRight (incref (setLeft s2m b m) ndr.right) b ndr.right) :=
            frameN_trans hfrN3 (frameN_trans (frameN_of_frame hfr4 b) hfrN5
              (le_refl b)) (le_refl b)
          have hFrameFinal : Frame s
              (setRight (incref (setLeft s2m b m) ndr.right) b ndr.right) :=
            frame_of_frameN (frameN_trans
              (frameN_of_frame (frame_trans hfr1 hfr12m) s.nodes.length)
              hF25 (by omega))
          have hlenFinal : s.nodes.length ≤
              (setRight (incref (setLeft s2m b m) ndr.right) b
                ndr.right).nodes.length := by
            rw [hlen5, hlen4, hlen3]
            omega
          have hlpFinal : ∀ x, isLive s x →
              isLive (setRight (incref (setLeft s2m b m) ndr.right) b
                ndr.right) x := by
            intro x hx
            rw [isLive, hrc5 x]
            refine hlp4 x ?_
            rw [isLive, hrc3 x]
            exact hlp12m x (hlp1 x hx)
          have hUnt : ∀ x, x < s.nodes.length → x ∉ tids tl → x ∉ tids tr →
              (setRight (incref (setLeft s2m b m) ndr.right) b
                ndr.right).nodes[x]? = s.nodes[x]? := by
            intro x hxlt hxl hxr
            rw [httr] at hxr
            simp only [tids, List.mem_cons, List.mem_append] at hxr
            push_neg at hxr
            obtain ⟨hxra, hxrl, hxrr⟩ := hxr
            have hxb : x ≠ b := by omega
            have hrnex : ndr.right ≠ some x := by
              intro he
              have htrrc := htrr
              rw [he] at htrrc
              exact hxrr (treeOf_head_mem htrrc)
            rw [hnne5 x hxb, hnn4 x hrnex, hnne3 x hxb,
              hu12m x (by omega) hxl hxrl, hnne1 x hxb]
          have hb5' : (setRight (incref (setLeft s2m b m) ndr.right) b
              ndr.right).nodes[b]? =
              some (⟨ndr.key, ndr.pid, ndr.weight, 1, m, ndr.right,
                some ra⟩ : HNode K) := hb5
          have hrcb5 : (0:Int) < ((⟨ndr.key, ndr.pid, ndr.weight, 1, m,
              ndr.right, some ra⟩ : HNode K)).refCount := by norm_num
          have hbtm : b ∉ tids tm := by
            intro hbt
            rcases horm b hbt with h2 | h2 | h2
            · exact hbtl h2
            · exact hbtrl h2
            · omega
          have htm3 : treeOf (dFuel s2m) (setLeft s2m b m) m = some tm := by
            refine treeOf_local htm2 ?_ ?_
            · intro y hy
              refine hnne3 y ?_
              intro he
              subst he
              exact hbtm hy
            · intro y hy nd hnd pl hpl
              refine ⟨pl, ?_, rfl⟩
              rw [hpay3]
              exact hpl
          have htm4 : treeOf (dFuel s2m) (incref (setLeft s2m b m) ndr.right)
              m = some tm := by
            rw [treeOf_obsEq hobs4]
            exact htm3
          have htm5 : treeOf (dFuel s2m)
              (setRight (incref (setLeft s2m b m) ndr.right) b ndr.right)
              m = some tm := by
            refine treeOf_local htm4 ?_ ?_
            · intro y hy
              refine hnne5 y ?_
              intro he
              subst he
              exact hbtm hy
            · intro y hy nd hnd pl hpl
              refine ⟨pl, ?_, rfl⟩
              rw [hpay5]
              exact hpl
          have htrr5 : treeOf (f2 - 1)
              (setRight (incref (setLeft s2m b m) ndr.right) b ndr.right)
              ndr.right = some trr := by
            refine treeOf_frame hinvFinal hFrameFinal (f2 - 1) ndr.right trr
              ?_ htrr
            rcases Option.eq_none_or_eq_some ndr.right with hr0 | ⟨c, hr0⟩
            · exact Or.inl hr0
            · exact Or.inr ⟨c, hr0, child_live hinvFinal hb5' hrcb5 (Or.inr hr0)⟩
          obtain ⟨pl5, hpl5, hpl5rc⟩ := pay_live hinvFinal hb5' hrcb5
          have hv5 : pl5.value = some vr := by
            have hc := (hFrameFinal.2.1 ndr.pid plr pl5 hplr hpl5 hpl5rc).1
            rw [hc, hvr]
          have hTb0 := treeOf_node_build hb5' hpl5 hv5 htm5 htrr5
          have hTb : treeOf (max (dFuel s2m) (f2 - 1) + 1)
              (setRight (incref (setLeft s2m b m) ndr.right) b ndr.right)
              (some b) = some (.node b tm ndr.key vr ndr.weight trr) := hTb0
          have hdle : tdepth (ITree.node b tm ndr.key vr ndr.weight trr) ≤
              dFuel (setRight (incref (setLeft s2m b m) ndr.right) b
                ndr.right) := by
            have := treeOf_depth_le hTb
            rw [dFuel]
            omega
          have hTb2 : treeOf (dFuel (setRight (incref (setLeft s2m b m)
              ndr.right) b ndr.right))
              (setRight (incref (setLeft s2m b m) ndr.right) b ndr.right)
              (some b) = some (.node b tm ndr.key vr ndr.weight trr) :=
            treeOf_min hTb hdle
          have hPM : PM.merge (erase tl) (erase tr) =
              .node (PM.merge (erase tl) (erase trl)) ndr.key vr ndr.weight
                (erase trr) := by
            rw [heral, herar]
            rw [PM.merge]
            rw [if_neg hw]
          refine ⟨hinvFinal, hFrameFinal, hlenFinal, hlpFinal, hUnt,
            .node b tm ndr.key vr ndr.weight trr, hTb2, ?_, ?_⟩
          · simp only [erase]
            rw [hermm, hPM]
          · intro x hx
            simp only [tids, List.mem_cons, List.mem_append] at hx
            rcases hx with hx | hx | hx
            · subst hx
              right
              right
              omega
            · rcases horm x hx with h2 | h2 | h2
              · left
                exact h2
              · right
                left
                rw [httr]
                simp only [tids, List.mem_cons, List.mem_append]
                right
                left
                exact h2
              · right
                right
                omega
            · right
              left
              rw [httr]
              simp only [tids, List.mem_cons, List.mem_append]
              right
              right
              exact hx

/-- The common body of the two weight branches of `union`: split the borrowed
tree `tp` at the primary root's key, clone the mid (or the primary root
`qa`), overwrite the clone's weight with the primary's, union the primary's
children against the outer split parts, then drop the three split
references.  The recursion hypothesis `ih` is the statement of `union_spec`
at the smaller fuel. -/
theorem union_core (fuel : Nat)
    (ih : ∀ (s s2 : Heap K V) (R P : List Nat) (fo so out : Option Nat)
      (ov : Bool) (g1 g2 : Nat) (tf ts : ITree K V),
      Inv s R P →
      (∀ a, fo = some a → Rooted s R a) →
      (∀ a, so = some a → Rooted s R a) →
      treeOf g1 s fo = some tf → treeOf g2 s so = some ts →
      tdepth tf + tdepth ts + 1 ≤ fuel →
      union fuel s fo so ov = (s2, out) →
      Inv s2 (R ++ out.toList) P ∧ Frame s s2 ∧
      s.nodes.length ≤ s2.nodes.length ∧
      (∀ x, x < s.nodes.length → x ∉ tids tf → x ∉ tids ts →
        s2.nodes[x]? = s.nodes[x]?) ∧
      (∃ tu, treeOf (dFuel s2) s2 out = some tu ∧
        erase tu = PM.union (erase tf) (erase ts) ov ∧
        (∀ x, x ∈ tids tu → x ∈ tids tf ∨ x ∈ tids ts ∨ s.nodes.length ≤ x)))
    {s s2 : Heap K V} {R P : List Nat} {pa qa : Nat} {ovx : Bool}
    {out : Option Nat} {gp gq : Nat} {tp tql tqr : ITree K V}
    {ndq : HNode K} {plq : HPayload K V} {vq : V}
    (hinv : Inv s R P)
    (hrp : Rooted s R pa) (hrq : Rooted s R qa)
    (htp : treeOf gp s (some pa) = some tp)
    (hndq : s.nodes[qa]? = some ndq) (hrcq : 0 < ndq.refCount)
    (hplq : s.payloads[ndq.pid]? = some plq) (hvq : plq.value = some vq)
    (htql : treeOf gq s ndq.left = some tql)
    (htqr : treeOf gq s ndq.right = some tqr)
    (hdp : tdepth tp ≤ fuel)
    (hdl : tdepth tql + tdepth tp + 1 ≤ fuel)
    (hdr : tdepth tqr + tdepth tp + 1 ≤ fuel)
    (h : (match split fuel s (some pa) ndq.key false with
          | (s1, l, m, r) =>
            match (match ovx, m with
                   | true, some ma => shallowCloneWithRef s1 ma
                   | _, _ => shallowCloneWithRef s1 qa) with
            | (s2c, b) =>
              let s3 := setWeight s2c b ndq.weight
              match union fuel s3 ndq.left l ovx with
              | (s4, ul) =>
                let s5 := setLeft s4 b ul
                match union fuel s5 ndq.right r ovx with
                | (s6, ur) =>
                  let s7 := setRight s6 b ur
                  let s8 := decref fuel s7 l
                  let s9 := decref fuel s8 m
                  let s10 := decref fuel s9 r
                  (s10, some b)) = (s2, out)) :
    Inv s2 (R ++ out.toList) P ∧ Frame s s2 ∧
    s.nodes.length ≤ s2.nodes.length ∧
    (∀ x, x < s.nodes.length → x ∉ tids tp → x ≠ qa → x ∉ tids tql →
      x ∉ tids tqr → s2.nodes[x]? = s.nodes[x]?) ∧
    (∃ tu, treeOf (dFuel s2) s2 out = some tu ∧
      erase tu = PM.PTree.node
        (PM.union (erase tql) (PM.split (erase tp) ndq.key false).1 ovx)
        (pmKV ovx (PM.split (erase tp) ndq.key false).2.1 ndq.key vq).1
        (pmKV ovx (PM.split (erase tp) ndq.key false).2.1 ndq.key vq).2
        ndq.weight
        (PM.union (erase tqr) (PM.split (erase tp) ndq.key false).2.2 ovx) ∧
      (∀ x, x ∈ tids tu → x ∈ tids tp ∨ x ∈ tids tql ∨ x ∈ tids tqr ∨
        s.nodes.length ≤ x)) := by
  rcases hsp : split fuel s (some pa) ndq.key false with ⟨s1, l, m, r⟩
  rw [hsp] at h
  dsimp only at h
  have hpalive : isLive s pa := rooted_live hinv hrp
  obtain ⟨hinv1, hfr1, hlen1, hlp1, hu1, tl2, tr2, htl2, htr2, herl2, herr2,
    horl2, horr2, hmid2⟩ :=
    split_spec fuel hinv (Or.inr ⟨pa, rfl, hpalive⟩) htp hdp hsp
  rcases hclm : (match ovx, m with
                 | true, some ma => shallowCloneWithRef s1 ma
                 | _, _ => shallowCloneWithRef s1 qa) with ⟨s2c, b⟩
  rw [hclm] at h
  dsimp only at h
  -- the clone, uniformly over the two possible targets
  have hqaclone : shallowCloneWithRef s1 qa = (s2c, b) →
      Inv s2c ((R ++ l.toList ++ m.toList ++ r.toList) ++ [b]) P ∧
      Frame s1 s2c ∧ b = s1.nodes.length ∧
      s2c.nodes.length = s1.nodes.length + 1 ∧
      s2c.payloads.length = s1.payloads.length ∧
      (∀ x : Nat, x ≠ b → s2c.nodes[x]? = s1.nodes[x]?) ∧
      (∀ x, isLive s1 x → isLive s2c x) ∧
      (∃ cw0 csrc, s2c.nodes[b]? =
        some (⟨ndq.key, ndq.pid, cw0, 1, none, none, csrc⟩ : HNode K)) ∧
      (∃ plc : HPayload K V, s2c.payloads[ndq.pid]? = some plc ∧
        0 < plc.refCount ∧ plc.value = some vq) := by
    intro hcl
    obtain ⟨ndq1, hndq1, hsh1⟩ := hfr1.1 qa ndq hndq
    obtain ⟨e1, e2, e3, e4, e5, e6⟩ := hsh1
    have hlive1 : isLive s1 qa := hlp1 qa (rooted_live hinv hrq)
    have hrc1 : 0 < ndq1.refCount := by
      obtain ⟨nd2, hnd2, hp2⟩ := isLive_some hlive1
      rw [hndq1] at hnd2
      cases hnd2
      exact hp2
    obtain ⟨hinv2, hfr2, hbv, hlen2, hb2, hplen2, hlog2, hnne2, hpne2,
      ⟨plm, hplm, hplmrc, hplm2, htreeb2⟩, hlp2⟩ :=
      shallowCloneWithRef_spec hinv1 hndq1 hrc1 hcl
    rw [e1, e2, e3] at hb2
    have hplm' : s1.payloads[ndq.pid]? = some plm := by
      rw [← e2]
      exact hplm
    have hvplm : plm.value = some vq := by
      have hc := (hfr1.2.1 ndq.pid plq plm hplq hplm' hplmrc).1
      rw [hc, hvq]
    refine ⟨hinv2, hfr2, hbv, hlen2, hplen2, hnne2, hlp2,
      ⟨ndq.weight, some qa, hb2⟩, ?_⟩
    refine ⟨{ plm with refCount := plm.refCount + 1 }, ?_, ?_, ?_⟩
    · rw [← e2]
      exact hplm2
    · dsimp only
      omega
    · show plm.value = some vq
      exact hvplm
  have hclpack : ∃ ck cv cpid,
      Inv s2c ((R ++ l.toList ++ m.toList ++ r.toList) ++ [b]) P ∧
      Frame s1 s2c ∧ b = s1.nodes.length ∧
      s2c.nodes.length = s1.nodes.length + 1 ∧
      s2c.payloads.length = s1.payloads.length ∧
      (∀ x : Nat, x ≠ b → s2c.nodes[x]? = s1.nodes[x]?) ∧
      (∀ x, isLive s1 x → isLive s2c x) ∧
      (∃ cw0 csrc, s2c.nodes[b]? =
        some (⟨ck, cpid, cw0, 1, none, none, csrc⟩ : HNode K)) ∧
      (∃ plc : HPayload K V, s2c.payloads[cpid]? = some plc ∧
        0 < plc.refCount ∧ plc.value = some cv) ∧
      pmKV ovx (PM.split (erase tp) ndq.key false).2.1 ndq.key vq =
        (ck, cv) := by
    cases hov : ovx with
    | false =>
      have hcl : shallowCloneWithRef s1 qa = (s2c, b) := by
        rw [hov] at hclm
        cases m with
        | none => exact hclm
        | some ma => exact hclm
      obtain ⟨p1, p2, p3, p4, p5, p6, p7, p8, p9⟩ := hqaclone hcl
      refine ⟨ndq.key, vq, ndq.pid, p1, p2, p3, p4, p5, p6, p7, p8, p9, ?_⟩
      cases hq : (PM.split (erase tp) ndq.key false).2.1 with
      | none => rfl
      | some p =>
        rcases p with ⟨mk0, mv0, mw0⟩
        rfl
    | true =>
      rcases Option.eq_none_or_eq_some m with hm | ⟨ma, hm⟩
      · have hcl : shallowCloneWithRef s1 qa = (s2c, b) := by
          rw [hov, hm] at hclm
          exact hclm
        obtain ⟨p1, p2, p3, p4, p5, p6, p7, p8, p9⟩ := hqaclone hcl
        refine ⟨ndq.key, vq, ndq.pid, p1, p2, p3, p4, p5, p6, p7, p8, p9, ?_⟩
        rcases hmid2 with ⟨hpmq, hmn⟩ | ⟨mk0, mv0, mw0, bm, hpmq, hmm, hbmf, htbm⟩
        · rw [hpmq]
          rfl
        · rw [hm] at hmm
          exact absurd hmm (by simp)
      · rcases hmid2 with ⟨hpmq, hmn⟩ | ⟨mk0, mv0, mw0, bm, hpmq, hmm, hbmf, htbm⟩
        · rw [hm] at hmn
          exact absurd hmn (by simp)
        · rw [hm] at hmm
          have hmb : ma = bm := Option.some.inj hmm
          subst hmb
          have hcl : shallowCloneWithRef s1 ma = (s2c, b) := by
            rw [hov, hm] at hclm
            exact hclm
          have htbm' : treeOf (s1.nodes.length + 1) s1 (some ma) =
              some (.node ma .nil mk0 mv0 mw0 .nil) := by
            rw [dFuel] at htbm
            exact htbm
          obtain ⟨ndm, plm0, vm0, tml, tmr, hndm, hplm0, hvm0, html, htmr,
            htmeq⟩ := treeOf_node_inv s1.nodes.length htbm'
          injection htmeq with hA1 hA2 hA3 hA4 hA5 hA6
          have hmalive : isLive s1 ma := live_of_count hinv1 (by
            have h2 : List.count ma m.toList = 1 := by rw [hm]; simp
            simp only [List.count_append]
            omega)
          have hrcm : 0 < ndm.refCount := by
            obtain ⟨nd2, hnd2, hp2⟩ := isLive_some hmalive
            rw [hndm] at hnd2
            cases hnd2
            exact hp2
          obtain ⟨hinv2, hfr2, hbv, hlen2, hb2, hplen2, hlog2, hnne2, hpne2,
            ⟨plm, hplm, hplmrc, hplm2, htreeb2⟩, hlp2⟩ :=
            shallowCloneWithRef_spec hinv1 hndm hrcm hcl
          have hpe : plm = plm0 := by
            rw [hplm0] at hplm
            exact (Option.some.inj hplm).symm
          refine ⟨ndm.key, vm0, ndm.pid, hinv2, hfr2, hbv, hlen2, hplen2,
            hnne2, hlp2, ⟨ndm.weight, some ma, hb2⟩, ?_, ?_⟩
          · refine ⟨{ plm with refCount := plm.refCount + 1 }, hplm2, ?_, ?_⟩
            · dsimp only
              omega
            · show plm.value = some vm0
              rw [hpe]
              exact hvm0
          · rw [hpmq]
            show (mk0, mv0) = (ndm.key, vm0)
            rw [hA3, hA4]
  obtain ⟨ck, cv, cpid, hinv2, hfr12, hbv, hlen2, hplen2, hnne2, hlp2,
    ⟨cw0, csrc, hb2⟩, ⟨plc, hplc, hplcrc, hplcv⟩, hkv⟩ := hclpack
  -- overwrite the weight
  have honeb : List.count b [b] = 1 := by simp
  have hcnt2b : 1 ≤ ((R ++ l.toList ++ m.toList ++ r.toList) ++ [b]).count b := by
    simp only [List.count_append, honeb]
    omega
  have hedge2 : liveEdges s2c b = 0 := no_edges_of_rc hinv2 hb2 rfl hcnt2b
  obtain ⟨hinv3, hfrN3, hlen3, hpay3, hlog3, hnne3, hb3, hrc3⟩ :=
    setWeight_spec hinv2 hb2 (by norm_num) rfl rfl hedge2
  have hchb2 : ∀ nd : HNode K, s2c.nodes[b]? = some nd →
      nd.left = none ∧ nd.right = none := by
    intro nd hnd
    rw [hb2] at hnd
    cases hnd
    exact ⟨rfl, rfl⟩
  have hpay3' : ∀ q : Nat, (setWeight s2c b ndq.weight).payloads[q]? =
      s2c.payloads[q]? := by
    intro q
    rw [hpay3]
  -- rooted transports to the post-weight state
  have hcntR1 : ∀ rr : Nat, R.count rr ≤
      (R ++ l.toList ++ m.toList ++ r.toList).count rr := by
    intro rr
    simp only [List.count_append]
    omega
  have hcntR1b : ∀ rr : Nat, R.count rr ≤
      ((R ++ l.toList ++ m.toList ++ r.toList) ++ [b]).count rr := by
    intro rr
    simp only [List.count_append]
    omega
  have hkeep3 : ∀ c : Nat, c < s.nodes.length → Rooted s R c →
      Rooted (setWeight s2c b ndq.weight) R c := by
    intro c hc hr0
    have h1 : Rooted s1 R c := rooted_keep hinv1 hfr1 hcntR1 hr0
    have h2 : Rooted s2c R c := rooted_keep hinv2 hfr12 hcntR1b h1
    exact rooted_off hinv2 hcntR1b hnne3 hpay3' hedge2 hchb2 (by omega) h2
  have hrch := rooted_child hrq hndq
  have hroUp3 : ∀ c, Rooted (setWeight s2c b ndq.weight) R c →
      Rooted (setWeight s2c b ndq.weight)
        ((R ++ l.toList ++ m.toList ++ r.toList) ++ [b]) c :=
    fun c hc => rooted_mono hc hcntR1b (fun rr f t hr ht => ht)
  have hro1L : ∀ a, ndq.left = some a →
      Rooted (setWeight s2c b ndq.weight)
        ((R ++ l.toList ++ m.toList ++ r.toList) ++ [b]) a := by
    intro a ha
    have hclt : a < s.nodes.length := child_lt hinv hndq hrcq (Or.inl ha)
    exact hroUp3 a (hkeep3 a hclt (hrch.1 a ha))
  have hro1R : ∀ a, l = some a →
      Rooted (setWeight s2c b ndq.weight)
        ((R ++ l.toList ++ m.toList ++ r.toList) ++ [b]) a := by
    intro a ha
    refine rooted_of_mem hinv3 ?_
    have h2 : List.count a l.toList = 1 := by rw [ha]; simp
    simp only [List.count_append]
    omega
  -- argument trees at the post-weight state
  have hbql : b ∉ tids tql := by
    intro hbt
    have := treeOf_ids_lt htql b hbt
    omega
  have hbqr : b ∉ tids tqr := by
    intro hbt
    have := treeOf_ids_lt htqr b hbt
    omega
  have hbtl2 : b ∉ tids tl2 := by
    intro hbt
    have := treeOf_ids_lt htl2 b hbt
    omega
  have hbtr2 : b ∉ tids tr2 := by
    intro hbt
    have := treeOf_ids_lt htr2 b hbt
    omega
  have htql3 : treeOf gq (setWeight s2c b ndq.weight) ndq.left = some tql :=
    treeOf_offb hnne3 hpay3' hbql
      (treeOf_live hinv2 hfr12 (fun a ha =>
        hlp2 _ (hlp1 _ (child_live hinv hndq hrcq (Or.inl ha))))
        (treeOf_live hinv1 hfr1 (fun a ha =>
          hlp1 _ (child_live hinv hndq hrcq (Or.inl ha))) htql))
  have hcntl : ∀ a, l = some a →
      1 ≤ ((R ++ l.toList ++ m.toList ++ r.toList) ++ [b]).count a := by
    intro a ha
    have h2 : List.count a l.toList = 1 := by rw [ha]; simp
    simp only [List.count_append]
    omega
  have htl23 : treeOf (dFuel s1) (setWeight s2c b ndq.weight) l = some tl2 :=
    treeOf_offb hnne3 hpay3' hbtl2 (treeOf_count hinv2 hfr12 hcntl htl2)
  have hdtl2 : tdepth tl2 ≤ tdepth tp := by
    have h1 := PM.split_depth_left (erase tp) ndq.key false
    rw [← herl2] at h1
    rw [erase_depth, erase_depth] at h1
    exact h1
  have hdrec1 : tdepth tql + tdepth tl2 + 1 ≤ fuel := by omega
  rcases hun1 : union fuel (setWeight s2c b ndq.weight) ndq.left l ovx
    with ⟨s4, ul⟩
  rw [hun1] at h
  dsimp only at h
  obtain ⟨hinv4, hfr34, hlen34, hu34, tul, htul4, herul, horul⟩ :=
    ih _ _ _ _ _ _ _ _ _ _ _ _ hinv3 hro1L hro1R htql3 htl23 hdrec1 hun1
  -- the fresh root survives the first recursive union
  have hblt3 : b < (setWeight s2c b ndq.weight).nodes.length := by
    rw [hlen3]
    omega
  have hb4 : s4.nodes[b]? =
      some ({ (⟨ck, cpid, cw0, 1, none, none, csrc⟩ : HNode K) with
        weight := ndq.weight }) := by
    rw [hu34 b hblt3 hbql hbtl2]
    exact hb3
  -- attach the left result
  have hrcb4 : ({ (⟨ck, cpid, cw0, 1, none, none, csrc⟩ : HNode K) with
      weight := ndq.weight }).refCount = (1:Int) := rfl
  have hc04 := hinv4.nodeCount b
  rw [nodeRC_eq hb4, hrcb4, demand] at hc04
  have hc14 : ((((R ++ l.toList ++ m.toList ++ r.toList) ++ [b]) ++
      ul.toList)).count b + liveEdges s4 b = 1 := by
    exact_mod_cast hc04.symm
  have hedge4 : liveEdges s4 b = 0 := by
    simp only [List.count_append, honeb] at hc14
    omega
  have hulneb : ∀ cc, ul = some cc → cc ≠ b := by
    intro cc hcc he
    rw [he] at hcc
    have h2 : List.count b ul.toList = 1 := by rw [hcc]; simp
    simp only [List.count_append, honeb, h2] at hc14
    omega
  obtain ⟨hinv5, hfrN5, hlen5, hpay5, hlog5, hnne5, hb5, hrc5⟩ :=
    setLeft_spec hinv4 hb4 (by norm_num) rfl hulneb hedge4
  have hpay5' : ∀ q : Nat, (setLeft s4 b ul).payloads[q]? = s4.payloads[q]? := by
    intro q
    rw [hpay5]
  have hchb4 : ∀ nd : HNode K, s4.nodes[b]? = some nd →
      nd.left = none ∧ nd.right = none := by
    intro nd hnd
    rw [hb4] at hnd
    cases hnd
    exact ⟨rfl, rfl⟩
  have hcntR4 : ∀ rr : Nat, R.count rr ≤
      ((((R ++ l.toList ++ m.toList ++ r.toList) ++ [b]) ++
        ul.toList)).count rr := by
    intro rr
    simp only [List.count_append]
    omega
  have hkeep5 : ∀ c : Nat, c < s.nodes.length → Rooted s R c →
      Rooted (setLeft s4 b ul) R c := by
    intro c hc hr0
    have h3 : Rooted (setWeight s2c b ndq.weight) R c := hkeep3 c hc hr0
    have h4 : Rooted s4 R c := rooted_keep hinv4 hfr34 hcntR4 h3
    exact rooted_off hinv4 hcntR4 hnne5 hpay5' hedge4 hchb4 (by omega) h4
  have hroUp5 : ∀ c, Rooted (setLeft s4 b ul) R c →
      Rooted (setLeft s4 b ul)
        ((R ++ l.toList ++ m.toList ++ r.toList) ++ [b]) c :=
    fun c hc => rooted_mono hc hcntR1b (fun rr f t hr ht => ht)
  have hro2L : ∀ a, ndq.right = some a →
      Rooted (setLeft s4 b ul)
        ((R ++ l.toList ++ m.toList ++ r.toList) ++ [b]) a := by
    intro a ha
    have hclt : a < s.nodes.length := child_lt hinv hndq hrcq (Or.inr ha)
    exact hroUp5 a (hkeep5 a hclt (hrch.2 a ha))
  have hro2R : ∀ a, r = some a →
      Rooted (setLeft s4 b ul)
        ((R ++ l.toList ++ m.toList ++ r.toList) ++ [b]) a := by
    intro a ha
    refine rooted_of_mem hinv5 ?_
    have h2 : List.count a r.toList = 1 := by rw [ha]; simp
    simp only [List.count_append]
    omega
  have htqr5 : treeOf gq (setLeft s4 b ul) ndq.right = some tqr := by
    have h3 : treeOf gq (setWeight s2c b ndq.weight) ndq.right = some tqr :=
      treeOf_offb hnne3 hpay3' hbqr
        (treeOf_live hinv2 hfr12 (fun a ha =>
          hlp2 _ (hlp1 _ (child_live hinv hndq hrcq (Or.inr ha))))
          (treeOf_live hinv1 hfr1 (fun a ha =>
            hlp1 _ (child_live hinv hndq hrcq (Or.inr ha))) htqr))
    have h4 : treeOf gq s4 ndq.right = some tqr := by
      refine treeOf_live hinv4 hfr34 ?_ h3
      intro a ha
      have hclt : a < s.nodes.length := child_lt hinv hndq hrcq (Or.inr ha)
      have h5 : Rooted s4 R a :=
        rooted_keep hinv4 hfr34 hcntR4 (hkeep3 a hclt (hrch.2 a ha))
      exact rooted_live hinv4 (rooted_mono h5 hcntR4 (fun rr f t hr ht => ht))
    exact treeOf_offb hnne5 hpay5' hbqr h4
  have hcntr : ∀ a, r = some a →
      1 ≤ ((R ++ l.toList ++ m.toList ++ r.toList) ++ [b]).count a := by
    intro a ha
    have h2 : List.count a r.toList = 1 := by rw [ha]; simp
    simp only [List.count_append]
    omega
  have hcntr4 : ∀ a, r = some a →
      1 ≤ ((((R ++ l.toList ++ m.toList ++ r.toList) ++ [b]) ++
        ul.toList)).count a := by
    intro a ha
    have h2 : List.count a r.toList = 1 := by rw [ha]; simp
    simp only [List.count_append]
    omega
  have htr25 : treeOf (dFuel s1) (setLeft s4 b ul) r = some tr2 := by
    have h3 : treeOf (dFuel s1) (setWeight s2c b ndq.weight) r = some tr2 :=
      treeOf_offb hnne3 hpay3' hbtr2 (treeOf_count hinv2 hfr12 hcntr htr2)
    have h4 : treeOf (dFuel s1) s4 r = some tr2 :=
      treeOf_count hinv4 hfr34 hcntr4 h3
    exact treeOf_offb hnne5 hpay5' hbtr2 h4
  have hdtr2 : tdepth tr2 ≤ tdepth tp := by
    have h1 := PM.split_depth_right (erase tp) ndq.key false
    rw [← herr2] at h1
    rw [erase_depth, erase_depth] at h1
    exact h1
  have hdrec2 : tdepth tqr + tdepth tr2 + 1 ≤ fuel := by omega
  rcases hun2 : union fuel (setLeft s4 b ul) ndq.right r ovx with ⟨s6, ur⟩
  rw [hun2] at h
  dsimp only at h
  obtain ⟨hinv6, hfr56, hlen56, hu56, tur, htur6, herur, horur⟩ :=
    ih _ _ _ _ _ _ _ _ _ _ _ _ hinv5 hro2L hro2R htqr5 htr25 hdrec2 hun2
  -- the fresh root survives the second recursive union
  have hblt5 : b < (setLeft s4 b ul).nodes.length := by
    rw [hlen5]
    omega
  have hb6 : s6.nodes[b]? =
      some ({ { (⟨ck, cpid, cw0, 1, none, none, csrc⟩ : HNode K) with
        weight := ndq.weight } with left := ul }) := by
    rw [hu56 b hblt5 hbqr hbtr2]
    exact hb5
  -- attach the right result
  have hrcb6 : ({ { (⟨ck, cpid, cw0, 1, none, none, csrc⟩ : HNode K) with
      weight := ndq.weight } with left := ul }).refCount = (1:Int) := rfl
  have hc06 := hinv6.nodeCount b
  rw [nodeRC_eq hb6, hrcb6, demand] at hc06
  have hc16 : ((((R ++ l.toList ++ m.toList ++ r.toList) ++ [b]) ++
      ur.toList)).count b + liveEdges s6 b = 1 := by
    exact_mod_cast hc06.symm
  have hedge6 : liveEdges s6 b = 0 := by
    simp only [List.count_append, honeb] at hc16
    omega
  have hurneb : ∀ cc, ur = some cc → cc ≠ b := by
    intro cc hcc he
    rw [he] at hcc
    have h2 : List.count b ur.toList = 1 := by rw [hcc]; simp
    simp only [List.count_append, honeb, h2] at hc16
    omega
  obtain ⟨hinv7, hfrN7, hlen7, hpay7, hlog7, hnne7, hb7, hrc7⟩ :=
    setRight_spec hinv6 hb6 (by norm_num) rfl hurneb hedge6
  have hpay7' : ∀ q : Nat, (setRight s6 b ur).payloads[q]? =
      s6.payloads[q]? := by
    intro q
    rw [hpay7]
  -- split-output trees at the fully built state
  have hcntl6 : ∀ a, l = some a →
      1 ≤ ((((R ++ l.toList ++ m.toList ++ r.toList) ++ [b]) ++
        ur.toList)).count a := by
    intro a ha
    have h2 : List.count a l.toList = 1 := by rw [ha]; simp
    simp only [List.count_append]
    omega
  have hcntl4 : ∀ a, l = some a →
      1 ≤ ((((R ++ l.toList ++ m.toList ++ r.toList) ++ [b]) ++
        ul.toList)).count a := by
    intro a ha
    have h2 : List.count a l.toList = 1 := by rw [ha]; simp
    simp only [List.count_append]
    omega
  have htl27 : treeOf (dFuel s1) (setRight s6 b ur) l = some tl2 := by
    refine treeOf_offb hnne7 hpay7' hbtl2 ?_
    refine treeOf_count hinv6 hfr56 hcntl6 ?_
    refine treeOf_offb hnne5 hpay5' hbtl2 ?_
    exact treeOf_count hinv4 hfr34 hcntl4 htl23
  have hcntr6 : ∀ a, r = some a →
      1 ≤ ((((R ++ l.toList ++ m.toList ++ r.toList) ++ [b]) ++
        ur.toList)).count a := by
    intro a ha
    have h2 : List.count a r.toList = 1 := by rw [ha]; simp
    simp only [List.count_append]
    omega
  have htr27 : treeOf (dFuel s1) (setRight s6 b ur) r = some tr2 := by
    refine treeOf_offb hnne7 hpay7' hbtr2 ?_
    exact treeOf_count hinv6 hfr56 hcntr6 htr25
  -- release the three split references
  have hinv7p : Inv (setRight s6 b ur)
      ((R ++ m.toList ++ r.toList ++ [b]) ++ l.toList) P := by
    refine inv_perm hinv7 ?_ (fun q => rfl)
    intro x
    simp only [List.count_append]
    omega
  have hdECl : l = none ∨ ∃ aa f t, l = some aa ∧
      treeOf f (setRight s6 b ur) (some aa) = some t ∧ tdepth t ≤ fuel := by
    rcases Option.eq_none_or_eq_some l with h0 | ⟨la2, h0⟩
    · exact Or.inl h0
    · refine Or.inr ⟨la2, dFuel s1, tl2, h0, ?_, by omega⟩
      have hres := htl27
      rw [h0] at hres
      exact hres
  obtain ⟨hinv8, hfr78, hn8, hp8, hu78⟩ := decref_spec fuel hinv7p hdECl
  have hinv8p : Inv (decref fuel (setRight s6 b ur) l)
      ((R ++ r.toList ++ [b]) ++ m.toList) P := by
    refine inv_perm hinv8 ?_ (fun q => rfl)
    intro x
    simp only [List.count_append]
    omega
  have hbsing : ∀ mk0 mv0 mw0 bm, m = some bm →
      b ∉ tids (ITree.node bm ITree.nil mk0 mv0 mw0 ITree.nil : ITree K V) := by
    intro mk0 mv0 mw0 bm hmm hc
    have hcm : 1 ≤ ((R ++ l.toList ++ m.toList ++ r.toList) ++ [b]).count bm := by
      have h2 : List.count bm m.toList = 1 := by rw [hmm]; simp
      simp only [List.count_append]
      omega
    have hbmlt : bm < s1.nodes.length := by
      have hlv : isLive s1 bm := live_of_count hinv1 (by
        have h2 : List.count bm m.toList = 1 := by rw [hmm]; simp
        simp only [List.count_append]
        omega)
      obtain ⟨nd2, hnd2, -⟩ := isLive_some hlv
      exact getElem?_some_lt hnd2
    simp only [tids, List.mem_cons, List.mem_append] at hc
    rcases hc with hc | hc | hc
    · omega
    · simp [tids] at hc
    · simp [tids] at hc
  have hmid8 : ∀ mk0 mv0 mw0 bm, m = some bm →
      treeOf (dFuel s1) s1 (some bm) =
        some (.node bm .nil mk0 mv0 mw0 .nil) →
      treeOf (dFuel s1) (decref fuel (setRight s6 b ur) l) (some bm) =
        some (.node bm .nil mk0 mv0 mw0 .nil) := by
    intro mk0 mv0 mw0 bm hmm htbm
    have hbavoid := hbsing mk0 mv0 mw0 bm hmm
    have hcm3 : ∀ a, (some bm : Option Nat) = some a →
        1 ≤ ((R ++ l.toList ++ m.toList ++ r.toList) ++ [b]).count a := by
      intro a ha
      cases ha
      have h2 : List.count bm m.toList = 1 := by rw [hmm]; simp
      simp only [List.count_append]
      omega
    have hcm4 : ∀ a, (some bm : Option Nat) = some a →
        1 ≤ ((((R ++ l.toList ++ m.toList ++ r.toList) ++ [b]) ++
          ul.toList)).count a := by
      intro a ha
      cases ha
      have h2 : List.count bm m.toList = 1 := by rw [hmm]; simp
      simp only [List.count_append]
      omega
    have hcm6 : ∀ a, (some bm : Option Nat) = some a →
        1 ≤ ((((R ++ l.toList ++ m.toList ++ r.toList) ++ [b]) ++
          ur.toList)).count a := by
      intro a ha
      cases ha
      have h2 : List.count bm m.toList = 1 := by rw [hmm]; simp
      simp only [List.count_append]
      omega
    have hcm8 : ∀ a, (some bm : Option Nat) = some a →
        1 ≤ ((R ++ r.toList ++ [b]) ++ m.toList).count a := by
      intro a ha
      cases ha
      have h2 : List.count bm m.toList = 1 := by rw [hmm]; simp
      simp only [List.count_append]
      omega
    refine treeOf_count hinv8p hfr78 hcm8 ?_
    refine treeOf_offb hnne7 hpay7' hbavoid ?_
    refine treeOf_count hinv6 hfr56 hcm6 ?_
    refine treeOf_offb hnne5 hpay5' hbavoid ?_
    refine treeOf_count hinv4 hfr34 hcm4 ?_
    refine treeOf_offb hnne3 hpay3' hbavoid ?_
    exact treeOf_count hinv2 hfr12 hcm3 htbm
  have hdECm : m = none ∨ ∃ aa f t, m = some aa ∧
      treeOf f (decref fuel (setRight s6 b ur) l) (some aa) = some t ∧
      tdepth t ≤ fuel := by
    rcases hmid2 with ⟨hpmq, hmn⟩ | ⟨mk0, mv0, mw0, bm, hpmq, hmm, hbmf, htbm⟩
    · exact Or.inl hmn
    · refine Or.inr ⟨bm, dFuel s1, .node bm .nil mk0 mv0 mw0 .nil, hmm,
        hmid8 mk0 mv0 mw0 bm hmm htbm, ?_⟩
      simp only [tdepth]
      omega
  obtain ⟨hinv9, hfr89, hn9, hp9, hu89⟩ := decref_spec fuel hinv8p hdECm
  have hinv9p : Inv (decref fuel (decref fuel (setRight s6 b ur) l) m)
      ((R ++ [b]) ++ r.toList) P := by
    refine inv_perm hinv9 ?_ (fun q => rfl)
    intro x
    simp only [List.count_append]
    omega
  have htr29 : treeOf (dFuel s1)
      (decref fuel (decref fuel (setRight s6 b ur) l) m) r = some tr2 := by
    have hcr8 : ∀ a, r = some a →
        1 ≤ ((R ++ m.toList ++ r.toList ++ [b]) ++ l.toList).count a := by
      intro a ha
      have h2 : List.count a r.toList = 1 := by rw [ha]; simp
      simp only [List.count_append]
      omega
    have hcr9 : ∀ a, r = some a →
        1 ≤ ((R ++ r.toList ++ [b]) ++ m.toList).count a := by
      intro a ha
      have h2 : List.count a r.toList = 1 := by rw [ha]; simp
      simp only [List.count_append]
      omega
    have h8 : treeOf (dFuel s1) (decref fuel (setRight s6 b ur) l) r =
        some tr2 := by
      refine treeOf_frame hinv8p hfr78 (dFuel s1) r tr2 ?_ htr27
      rcases Option.eq_none_or_eq_some r with h0 | ⟨ra2, h0⟩
      · exact Or.inl h0
      · exact Or.inr ⟨ra2, h0, live_of_count hinv8p (by
          have h2 : List.count ra2 r.toList = 1 := by rw [h0]; simp
          simp only [List.count_append]
          omega)⟩
    refine treeOf_frame hinv9p hfr89 (dFuel s1) r tr2 ?_ h8
    rcases Option.eq_none_or_eq_some r with h0 | ⟨ra2, h0⟩
    · exact Or.inl h0
    · exact Or.inr ⟨ra2, h0, live_of_count hinv9p (by
        have h2 : List.count ra2 r.toList = 1 := by rw [h0]; simp
        simp only [List.count_append]
        omega)⟩
  have hdECr : r = none ∨ ∃ aa f t, r = some aa ∧
      treeOf f (decref fuel (decref fuel (setRight s6 b ur) l) m)
        (some aa) = some t ∧ tdepth t ≤ fuel := by
    rcases Option.eq_none_or_eq_some r with h0 | ⟨ra2, h0⟩
    · exact Or.inl h0
    · refine Or.inr ⟨ra2, dFuel s1, tr2, h0, ?_, by omega⟩
      have hres := htr29
      rw [h0] at hres
      exact hres
  obtain ⟨hinv10, hfr910, hn10, hp10, hu910⟩ := decref_spec fuel hinv9p hdECr
  injection h with hA hB
  subst hA
  subst hB
  -- assemble
  have hinvFinal : Inv (decref fuel (decref fuel (decref fuel
      (setRight s6 b ur) l) m) r) (R ++ (Option.toList (some b))) P := by
    refine inv_perm hinv10 ?_ (fun q => rfl)
    intro x
    simp only [List.count_append, Option.toList]
  have hFN27 : FrameN b s2c (setRight s6 b ur) :=
    frameN_trans hfrN3 (frameN_trans (frameN_of_frame hfr34 b)
      (frameN_trans hfrN5 (frameN_trans (frameN_of_frame hfr56 b) hfrN7
        (le_refl b)) (le_refl b)) (le_refl b)) (le_refl b)
  have hFr07 : Frame s (setRight s6 b ur) :=
    frame_of_frameN (frameN_trans
      (frameN_of_frame (frame_trans hfr1 hfr12) s.nodes.length) hFN27
      (by omega))
  have hFrFinal : Frame s (decref fuel (decref fuel (decref fuel
      (setRight s6 b ur) l) m) r) :=
    frame_trans hFr07 (frame_trans hfr78 (frame_trans hfr89 hfr910))
  have hlenFinal : s.nodes.length ≤ (decref fuel (decref fuel (decref fuel
      (setRight s6 b ur) l) m) r).nodes.length := by
    rw [hn10, hn9, hn8, hlen7]
    omega
  have hUnt : ∀ x, x < s.nodes.length → x ∉ tids tp → x ≠ qa →
      x ∉ tids tql → x ∉ tids tqr →
      (decref fuel (decref fuel (decref fuel (setRight s6 b ur) l) m)
        r).nodes[x]? = s.nodes[x]? := by
    intro x hxlt hxp hxqa hxql hxqr
    have hxb : x ≠ b := by omega
    have hxtl2 : x ∉ tids tl2 := by
      intro hc
      rcases horl2 x hc with h2 | h2
      · exact hxp h2
      · omega
    have hxtr2 : x ∉ tids tr2 := by
      intro hc
      rcases horr2 x hc with h2 | h2
      · exact hxp h2
      · omega
    have h910 : (decref fuel (decref fuel (decref fuel (setRight s6 b ur) l)
        m) r).nodes[x]? =
        (decref fuel (decref fuel (setRight s6 b ur) l) m).nodes[x]? := by
      rcases Option.eq_none_or_eq_some r with h0 | ⟨ra2, h0⟩
      · rw [h0, decref_none]
      · have hres := htr29
        rw [h0] at hres
        exact hu910 ra2 (dFuel s1) tr2 x h0 hres hxtr2
    have h89 : (decref fuel (decref fuel (setRight s6 b ur) l) m).nodes[x]? =
        (decref fuel (setRight s6 b ur) l).nodes[x]? := by
      rcases hmid2 with ⟨hpmq, hmn⟩ | ⟨mk0, mv0, mw0, bm, hpmq, hmm, hbmf, htbm⟩
      · rw [hmn, decref_none]
      · have hres := hmid8 mk0 mv0 mw0 bm hmm htbm
        have hxbm : x ∉ tids
            (ITree.node bm ITree.nil mk0 mv0 mw0 ITree.nil : ITree K V) := by
          intro hc
          simp only [tids, List.mem_cons, List.mem_append] at hc
          rcases hc with hc | hc | hc
          · omega
          · simp [tids] at hc
          · simp [tids] at hc
        exact hu89 bm (dFuel s1) _ x hmm hres hxbm
    have h78 : (decref fuel (setRight s6 b ur) l).nodes[x]? =
        (setRight s6 b ur).nodes[x]? := by
      rcases Option.eq_none_or_eq_some l with h0 | ⟨la2, h0⟩
      · rw [h0, decref_none]
      · have hres := htl27
        rw [h0] at hres
        exact hu78 la2 (dFuel s1) tl2 x h0 hres hxtl2
    rw [h910, h89, h78, hnne7 x hxb, hu56 x (by omega) hxqr hxtr2,
      hnne5 x hxb, hu34 x (by omega) hxql hxtl2, hnne3 x hxb, hnne2 x hxb,
      hu1 x hxlt hxp]
  -- the result tree
  have hb7' : (setRight s6 b ur).nodes[b]? =
      some (⟨ck, cpid, ndq.weight, 1, ul, ur, csrc⟩ : HNode K) := hb7
  have hrcb7 : (0:Int) <
      ((⟨ck, cpid, ndq.weight, 1, ul, ur, csrc⟩ : HNode K)).refCount := by
    norm_num
  have hbul : b ∉ tids tul := by
    intro hc
    rcases horul b hc with h2 | h2 | h2
    · exact hbql h2
    · exact hbtl2 h2
    · omega
  have hbur : b ∉ tids tur := by
    intro hc
    rcases horur b hc with h2 | h2 | h2
    · exact hbqr h2
    · exact hbtr2 h2
    · omega
  have htul5 : treeOf (dFuel s4) (setLeft s4 b ul) ul = some tul :=
    treeOf_offb hnne5 hpay5' hbul htul4
  have htul6 : treeOf (dFuel s4) s6 ul = some tul := by
    refine treeOf_live hinv6 hfr56 ?_ htul5
    intro a ha
    refine child_live hinv6 hb6 (by norm_num) (Or.inl ?_)
    exact ha
  have htul7 : treeOf (dFuel s4) (setRight s6 b ur) ul = some tul :=
    treeOf_offb hnne7 hpay7' hbul htul6
  have htur7 : treeOf (dFuel s6) (setRight s6 b ur) ur = some tur :=
    treeOf_offb hnne7 hpay7' hbur htur6
  obtain ⟨pl7, hpl7, hpl7rc⟩ := pay_live hinv7 hb7' hrcb7
  have hv7 : pl7.value = some cv := by
    have hc := (hFN27.2.1 cpid plc pl7 hplc hpl7 hpl7rc).1
    rw [hc, hplcv]
  have hTb0 := treeOf_node_build hb7' hpl7 hv7 htul7 htur7
  have hTb : treeOf (max (dFuel s4) (dFuel s6) + 1) (setRight s6 b ur)
      (some b) = some (.node b tul ck cv ndq.weight tur) := hTb0
  have hdle7 : tdepth (ITree.node b tul ck cv ndq.weight tur) ≤
      dFuel (setRight s6 b ur) := by
    have := treeOf_depth_le hTb
    rw [dFuel]
    omega
  have hT7 : treeOf (dFuel (setRight s6 b ur)) (setRight s6 b ur) (some b) =
      some (.node b tul ck cv ndq.weight tur) := treeOf_min hTb hdle7
  have hT8 : treeOf (dFuel (setRight s6 b ur))
      (decref fuel (setRight s6 b ur) l) (some b) =
      some (.node b tul ck cv ndq.weight tur) := by
    refine treeOf_count hinv8 hfr78 ?_ hT7
    intro a ha
    cases ha
    simp only [List.count_append, honeb]
    omega
  have hT9 : treeOf (dFuel (setRight s6 b ur))
      (decref fuel (decref fuel (setRight s6 b ur) l) m) (some b) =
      some (.node b tul ck cv ndq.weight tur) := by
    refine treeOf_count hinv9 hfr89 ?_ hT8
    intro a ha
    cases ha
    simp only [List.count_append, honeb]
    omega
  have hT10 : treeOf (dFuel (setRight s6 b ur))
      (decref fuel (decref fuel (decref fuel (setRight s6 b ur) l) m) r)
      (some b) = some (.node b tul ck cv ndq.weight tur) := by
    refine treeOf_count hinv10 hfr910 ?_ hT9
    intro a ha
    cases ha
    simp only [List.count_append, honeb]
    omega
  have hdle10 : tdepth (ITree.node b tul ck cv ndq.weight tur) ≤
      dFuel (decref fuel (decref fuel (decref fuel (setRight s6 b ur) l) m)
        r) := by
    have := treeOf_depth_le hT10
    rw [dFuel]
    omega
  have hTFinal := treeOf_min hT10 hdle10
  refine ⟨hinvFinal, hFrFinal, hlenFinal, hUnt,
    .node b tul ck cv ndq.weight tur, hTFinal, ?_, ?_⟩
  · simp only [erase]
    rw [herul, herur, herl2, herr2, hkv]
  · intro x hx
    simp only [tids, List.mem_cons, List.mem_append] at hx
    rcases hx with hx | hx | hx
    · subst hx
      right
      right
      right
      omega
    · rcases horul x hx with h2 | h2 | h2
      · right
        left
        exact h2
      · rcases horl2 x h2 with h3 | h3
        · left
          exact h3
        · right
          right
          right
          omega
      · right
        right
        right
        omega
    · rcases horur x hx with h2 | h2 | h2
      · right
        right
        left
        exact h2
      · rcases horr2 x h2 with h3 | h3
        · left
          exact h3
        · right
          right
          right
          omega
      · right
        right
        right
        omega

/-- The heap `union` against its functional shadow: the counting invariant
absorbs the returned reference, the state stays framed, nodes outside both
argument trees are untouched, and the result reifies to `PM.union`. -/
theorem union_spec (fuel : Nat) :
    ∀ (s s2 : Heap K V) (R P : List Nat) (fo so out : Option Nat)
      (ov : Bool) (g1 g2 : Nat) (tf ts : ITree K V),
      Inv s R P →
      (∀ a, fo = some a → Rooted s R a) →
      (∀ a, so = some a → Rooted s R a) →
      treeOf g1 s fo = some tf → treeOf g2 s so = some ts →
      tdepth tf + tdepth ts + 1 ≤ fuel →
      union fuel s fo so ov = (s2, out) →
      Inv s2 (R ++ out.toList) P ∧ Frame s s2 ∧
      s.nodes.length ≤ s2.nodes.length ∧
      (∀ x, x < s.nodes.length → x ∉ tids tf → x ∉ tids ts →
        s2.nodes[x]? = s.nodes[x]?) ∧
      (∃ tu, treeOf (dFuel s2) s2 out = some tu ∧
        erase tu = PM.union (erase tf) (erase ts) ov ∧
        (∀ x, x ∈ tids tu → x ∈ tids tf ∨ x ∈ tids ts ∨
          s.nodes.length ≤ x)) := by
  induction fuel with
  | zero =>
    intro s s2 R P fo so out ov g1 g2 tf ts hinv hrf hrs htf hts hd h
    omega
  | succ fuel ih =>
    intro s s2 R P fo so out ov g1 g2 tf ts hinv hrf hrs htf hts hd h
    cases fo with
    | none =>
      rw [union] at h
      injection h with hA hB
      subst hA
      subst hB
      rw [treeOf] at htf
      cases htf
      have hso : so = none ∨ ∃ a, so = some a ∧ isLive s a := by
        cases so with
        | none => exact Or.inl rfl
        | some sa => exact Or.inr ⟨sa, rfl, rooted_live hinv (hrs sa rfl)⟩
      obtain ⟨hinv2, hfr2, hobs2, hlen2, hpay2, hlog2, hlp2, hnn2⟩ :=
        incref_spec hinv hso
      refine ⟨hinv2, hfr2, by omega, ?_, ts, ?_, ?_,
        fun x hx => Or.inr (Or.inl hx)⟩
      · intro x hxlt hxf hxs
        rcases hso with hs0 | ⟨sa, hs0, -⟩
        · rw [hs0]
          rfl
        · refine hnn2 x ?_
          intro he
          rw [hs0] at he
          have he2 : sa = x := Option.some.inj he
          subst he2
          rw [hs0] at hts
          exact hxs (treeOf_head_mem hts)
      · have h1 : treeOf g2 (incref s so) so = some ts := by
          rw [treeOf_obsEq hobs2]
          exact hts
        refine treeOf_min h1 ?_
        rcases hso with hs0 | ⟨sa, hs0, -⟩
        · rw [hs0] at hts
          rw [treeOf] at hts
          cases hts
          rw [dFuel]
          simp only [tdepth]
          omega
        · have htsc := hts
          rw [hs0] at htsc
          have := treeOf_depth_le htsc
          rw [dFuel, hlen2]
          omega
      · simp only [erase]
        exact (pmUnion_nil_left (erase ts) ov).symm
    | some fa =>
      have hrfa : Rooted s R fa := hrf fa rfl
      have hflive : isLive s fa := rooted_live hinv hrfa
      obtain ⟨ndf, plf, vf, tfl, tfr, hndf, hplf, hvf, htfl, htfr, httf⟩ :=
        treeOf_node_inv (g1 - 1) (by
          cases g1 with
          | zero => rw [treeOf] at htf; exact absurd htf (by simp)
          | succ g1 => exact htf)
      have hrcf : 0 < ndf.refCount := by
        obtain ⟨nd2, hnd2, hp2⟩ := isLive_some hflive
        rw [hndf] at hnd2
        cases hnd2
        exact hp2
      have heraf : erase tf =
          .node (erase tfl) ndf.key vf ndf.weight (erase tfr) := by
        rw [httf]
        rfl
      cases so with
      | none =>
        rw [union] at h
        injection h with hA hB
        subst hA
        subst hB
        rw [treeOf] at hts
        cases hts
        obtain ⟨hinv2, hfr2, hobs2, hlen2, hpay2, hlog2, hlp2, hnn2⟩ :=
          incref_spec hinv (Or.inr ⟨fa, rfl, hflive⟩)
        refine ⟨hinv2, hfr2, by omega, ?_, tf, ?_, ?_,
          fun x hx => Or.inl hx⟩
        · intro x hxlt hxf hxs
          refine hnn2 x ?_
          intro he
          have he2 : fa = x := Option.some.inj he
          subst he2
          exact hxf (treeOf_head_mem htf)
        · have h1 : treeOf g1 (incref s (some fa)) (some fa) = some tf := by
            rw [treeOf_obsEq hobs2]
            exact htf
          refine treeOf_min h1 ?_
          have := treeOf_depth_le htf
          rw [dFuel, hlen2]
          omega
        · rw [heraf]
          simp only [erase]
          exact (pmUnion_nil_right (erase tfl) ndf.key vf ndf.weight
            (erase tfr) ov).symm
      | some sa =>
        have hrsa : Rooted s R sa := hrs sa rfl
        have hslive : isLive s sa := rooted_live hinv hrsa
        obtain ⟨nds, pls, vs, tsl, tsr, hnds, hpls, hvs, htsl, htsr, htts⟩ :=
          treeOf_node_inv (g2 - 1) (by
            cases g2 with
            | zero => rw [treeOf] at hts; exact absurd hts (by simp)
            | succ g2 => exact hts)
        have hrcs : 0 < nds.refCount := by
          obtain ⟨nd2, hnd2, hp2⟩ := isLive_some hslive
          rw [hnds] at hnd2
          cases hnd2
          exact hp2
        have heras : erase ts =
            .node (erase tsl) nds.key vs nds.weight (erase tsr) := by
          rw [htts]
          rfl
        have hdf' : tdepth tf = max (tdepth tfl) (tdepth tfr) + 1 := by
          rw [httf]
          simp only [tdepth]
        have hds' : tdepth ts = max (tdepth tsl) (tdepth tsr) + 1 := by
          rw [htts]
          simp only [tdepth]
        by_cases hw : ndf.weight < nds.weight
        · -- swapped: the second tree's root is heavier and is kept
          have hstep : union (fuel + 1) s (some fa) (some sa) ov =
              (match split fuel s (some fa) nds.key false with
               | (s1, l, m, r) =>
                 match (match !ov, m with
                        | true, some ma => shallowCloneWithRef s1 ma
                        | _, _ => shallowCloneWithRef s1 sa) with
                 | (s2c, b) =>
                   let s3 := setWeight s2c b nds.weight
                   match union fuel s3 nds.left l (!ov) with
                   | (s4, ul) =>
                     let s5 := setLeft s4 b ul
                     match union fuel s5 nds.right r (!ov) with
                     | (s6, ur) =>
                       let s7 := setRight s6 b ur
                       let s8 := decref fuel s7 l
                       let s9 := decref fuel s8 m
                       let s10 := decref fuel s9 r
                       (s10, some b)) := by
            simp only [union, hndf, hnds]
            rw [if_pos hw]
          rw [hstep] at h
          obtain ⟨hinvC, hfrC, hlenC, huntC, tu, htuC, herC, horC⟩ :=
            union_core fuel ih hinv hrfa hrsa htf hnds hrcs hpls hvs
              htsl htsr (by omega) (by omega) (by omega) h
          refine ⟨hinvC, hfrC, hlenC, ?_, tu, htuC, ?_, ?_⟩
          · intro x hxlt hxf hxs
            rw [htts] at hxs
            simp only [tids, List.mem_cons, List.mem_append] at hxs
            push_neg at hxs
            exact huntC x hxlt hxf hxs.1 hxs.2.1 hxs.2.2
          · rw [heraf, heras,
              pmUnion_swap (erase tfl) ndf.key vf ndf.weight (erase tfr)
                (erase tsl) nds.key vs nds.weight (erase tsr) ov hw,
              ← heraf]
            exact herC
          · intro x hx
            rcases horC x hx with h2 | h2 | h2 | h2
            · exact Or.inl h2
            · refine Or.inr (Or.inl ?_)
              rw [htts]
              simp only [tids, List.mem_cons, List.mem_append]
              exact Or.inr (Or.inl h2)
            · refine Or.inr (Or.inl ?_)
              rw [htts]
              simp only [tids, List.mem_cons, List.mem_append]
              exact Or.inr (Or.inr h2)
            · exact Or.inr (Or.inr h2)
        · -- kept: the first tree's root is at least as heavy
          have hstep : union (fuel + 1) s (some fa) (some sa) ov =
              (match split fuel s (some sa) ndf.key false with
               | (s1, l, m, r) =>
                 match (match ov, m with
                        | true, some ma => shallowCloneWithRef s1 ma
                        | _, _ => shallowCloneWithRef s1 fa) with
                 | (s2c, b) =>
                   let s3 := setWeight s2c b ndf.weight
                   match union fuel s3 ndf.left l ov with
                   | (s4, ul) =>
                     let s5 := setLeft s4 b ul
                     match union fuel s5 ndf.right r ov with
                     | (s6, ur) =>
                       let s7 := setRight s6 b ur
                       let s8 := decref fuel s7 l
                       let s9 := decref fuel s8 m
                       let s10 := decref fuel s9 r
                       (s10, some b)) := by
            simp only [union, hndf, hnds]
            rw [if_neg hw]
          rw [hstep] at h
          obtain ⟨hinvC, hfrC, hlenC, huntC, tu, htuC, herC, horC⟩ :=
            union_core fuel ih hinv hrsa hrfa hts hndf hrcf hplf hvf
              htfl htfr (by omega) (by omega) (by omega) h
          refine ⟨hinvC, hfrC, hlenC, ?_, tu, htuC, ?_, ?_⟩
          · intro x hxlt hxf hxs
            rw [httf] at hxf
            simp only [tids, List.mem_cons, List.mem_append] at hxf
            push_neg at hxf
            exact huntC x hxlt hxs hxf.1 hxf.2.1 hxf.2.2
          · rw [heraf, heras,
              pmUnion_keep (erase tfl) ndf.key vf ndf.weight (erase tfr)
                (erase tsl) nds.key vs nds.weight (erase tsr) ov hw,
              ← heras]
            exact herC
          · intro x hx
            rcases horC x hx with h2 | h2 | h2 | h2
            · exact Or.inr (Or.inl h2)
            · refine Or.inl ?_
              rw [httf]
              simp only [tids, List.mem_cons, List.mem_append]
              exact Or.inr (Or.inl h2)
            · refine Or.inl ?_
              rw [httf]
              simp only [tids, List.mem_cons, List.mem_append]
              exact Or.inr (Or.inr h2)
            · exact Or.inr (Or.inr h2)

/-- A derivable tree is no deeper than the node arena, whatever the root. -/
theorem treeOf_depth_le2 {f : Nat} {s : Heap K V} {r : Option Nat}
    {t : ITree K V} (h : treeOf f s r = some t) : tdepth t ≤ s.nodes.length := by
  cases r with
  | none =>
    rw [treeOf] at h
    cases h
    simp [tdepth]
  | some a => exact treeOf_depth_le h

/-- The descent loop of `Get` agrees with the functional lookup on the
reified tree. -/
theorem get_agree [Inhabited V] :
    ∀ (g : Nat) (s : Heap K V) (r : Option Nat) (t : ITree K V) (k : K),
      treeOf g s r = some t → get g s r k = PM.get (erase t) k := by
  intro g
  induction g with
  | zero =>
    intro s r t k h
    cases r with
    | none =>
      rw [treeOf] at h
      cases h
      rfl
    | some a =>
      rw [treeOf] at h
      exact absurd h (by simp)
  | succ g ihg =>
    intro s r t k h
    cases r with
    | none =>
      rw [treeOf] at h
      cases h
      rfl
    | some a =>
      obtain ⟨nd, pl, v, tl, tr, hnd, hpl, hv, htl, htr, htt⟩ :=
        treeOf_node_inv g h
      subst htt
      simp only [get, hnd, erase, PM.get]
      by_cases h1 : k < nd.key
      · rw [if_pos h1, if_pos h1]
        exact ihg s nd.left tl k htl
      · rw [if_neg h1, if_neg h1]
        by_cases h2 : nd.key < k
        · rw [if_pos h2, if_pos h2]
          exact ihg s nd.right tr k htr
        · rw [if_neg h2, if_neg h2]
          simp [hpl, hv]

/-- The traversal of `Range` agrees with the in-order list of the reified
tree. -/
theorem range_agree [Inhabited V] :
    ∀ (g : Nat) (s : Heap K V) (r : Option Nat) (t : ITree K V),
      treeOf g s r = some t → range g s r = PM.toList (erase t) := by
  intro g
  induction g with
  | zero =>
    intro s r t h
    cases r with
    | none =>
      rw [treeOf] at h
      cases h
      rfl
    | some a =>
      rw [treeOf] at h
      exact absurd h (by simp)
  | succ g ihg =>
    intro s r t h
    cases r with
    | none =>
      rw [treeOf] at h
      cases h
      rfl
    | some a =>
      obtain ⟨nd, pl, v, tl, tr, hnd, hpl, hv, htl, htr, htt⟩ :=
        treeOf_node_inv g h
      subst htt
      simp only [range, hnd, erase, PM.toList]
      rw [ihg s nd.left tl htl, ihg s nd.right tr htr]
      simp [hpl, hv]

/-- `Clone`: bumping the root's count adds one root reference to the
invariant and observably changes nothing. -/
theorem Clone_spec {s : Heap K V} {R P : List Nat} {root : Option Nat}
    (hinv : Inv s R P) (hr : ∀ a, root = some a → 1 ≤ R.count a) :
    Inv (Clone s root).1 (R ++ root.toList) P ∧ Frame s (Clone s root).1 ∧
    ObsEq s (Clone s root).1 ∧
    (Clone s root).1.nodes.length = s.nodes.length ∧
    (Clone s root).2 = root := by
  have hro : root = none ∨ ∃ a, root = some a ∧ isLive s a := by
    cases root with
    | none => exact Or.inl rfl
    | some a => exact Or.inr ⟨a, rfl, live_of_count hinv (hr a rfl)⟩
  obtain ⟨h1, h2, h3, h4, h5, h6, h7, h8⟩ := incref_spec hinv hro
  exact ⟨h1, h2, h3, h4, rfl⟩

/-- `Clear` (and `Destroy` through it): dropping the root reference restores
the invariant without it; the arenas keep their lengths. -/
theorem Clear_spec {s : Heap K V} {R P : List Nat} {root : Option Nat}
    (hinv : Inv s (R ++ root.toList) P) :
    Inv (Clear s root).1 R P ∧ Frame s (Clear s root).1 ∧
    (Clear s root).1.nodes.length = s.nodes.length ∧
    (Clear s root).1.payloads.length = s.payloads.length ∧
    (Clear s root).2 = none := by
  have hroot : root = none ∨ ∃ aa f t, root = some aa ∧
      treeOf f s (some aa) = some t ∧ tdepth t ≤ dFuel s := by
    cases root with
    | none => exact Or.inl rfl
    | some a =>
      have hlive : isLive s a := live_of_count hinv (by simp)
      obtain ⟨f, t, ht⟩ := hinv.liveTree a hlive
      have hd := treeOf_depth_le ht
      exact Or.inr ⟨a, f, t, rfl, ht, by rw [dFuel]; omega⟩
  obtain ⟨h1, h2, h3, h4, h5⟩ := decref_spec (dFuel s) hinv hroot
  exact ⟨h1, h2, h3, h4, rfl⟩

/-- A member occurs at least once. -/
theorem one_le_count_mem {l : List Nat} {x : Nat} (h : x ∈ l) :
    1 ≤ l.count x := List.count_pos_iff.mpr h

/-- `SetWithRelease` (`Set` delegates to it): the invariant swaps the old
root reference for the returned one, the heap stays framed, and the returned
root reifies to `PM.set` of the old tree. -/
theorem SetWithRelease_spec {s : Heap K V} {R P : List Nat}
    {root : Option Nat} {k : K} {v : V} {rel : Bool} {w : Nat}
    {s4 : Heap K V} {r2 : Option Nat} {f : Nat} {t : ITree K V}
    (hinv : Inv s (R ++ root.toList) P)
    (ht : treeOf f s root = some t)
    (h : SetWithRelease s root k v rel w = (s4, r2)) :
    Inv s4 (R ++ r2.toList) P ∧ Frame s s4 ∧
    s.nodes.length ≤ s4.nodes.length ∧
    (∃ t2, treeOf (dFuel s4) s4 r2 = some t2 ∧
      erase t2 = PM.set (erase t) k v w) := by
  rcases hnn : newNodeWithRef s k v rel w with ⟨s1, b⟩
  rw [SetWithRelease, hnn] at h
  dsimp only at h
  obtain ⟨hinv1, hfr1, hb, hlen1, hnb, hplen1, hlog1, hnne1, hpne1, hpb, htb⟩ :=
    newNodeWithRef_spec hinv hnn
  have hdt : tdepth t ≤ s.nodes.length := treeOf_depth_le2 ht
  have ht1 : treeOf f s1 root = some t := by
    refine treeOf_live hinv1 hfr1 ?_ ht
    intro a ha
    refine live_of_count hinv1 ?_
    subst ha
    exact one_le_count_mem (by simp)
  rcases hu : union (opFuel s1) s1 root (some b) true with ⟨s2, ul⟩
  rw [hu] at h
  dsimp only at h
  injection h with hA hB
  subst hA
  subst hB
  obtain ⟨hinv2, hfr2, hlen2, hunt2, tu, htu, heru, horu⟩ :=
    union_spec (opFuel s1) s1 s2 ((R ++ root.toList) ++ [b]) P root (some b)
      ul true f 1 t (.node b .nil k v w .nil) hinv1
      (by
        intro a ha
        refine rooted_of_mem hinv1 ?_
        subst ha
        exact one_le_count_mem (by simp))
      (by
        intro a ha
        refine rooted_of_mem hinv1 ?_
        cases ha
        exact one_le_count_mem (by simp))
      ht1 htb
      (by
        rw [opFuel, hlen1]
        simp only [tdepth]
        omega)
      hu
  have hdtu : tdepth tu ≤ s2.nodes.length := treeOf_depth_le2 htu
  -- drop the old root reference
  have hinv2p : Inv s2 (((R ++ [b]) ++ ul.toList) ++ root.toList) P := by
    refine inv_perm hinv2 ?_ (fun p => rfl)
    intro x
    simp only [List.count_append]
    omega
  have ht2 : treeOf f s2 root = some t := by
    refine treeOf_live hinv2 hfr2 ?_ ht1
    intro a ha
    refine live_of_count hinv2 ?_
    subst ha
    exact one_le_count_mem (by simp)
  have hroot3 : root = none ∨ ∃ aa g0 t0, root = some aa ∧
      treeOf g0 s2 (some aa) = some t0 ∧ tdepth t0 ≤ dFuel s2 := by
    cases root with
    | none => exact Or.inl rfl
    | some a =>
      refine Or.inr ⟨a, f, t, rfl, ht2, ?_⟩
      rw [dFuel]
      omega
  obtain ⟨hinv3, hfr3, hlen3, hplen3, hunt3⟩ :=
    decref_spec (dFuel s2) hinv2p hroot3
  -- drop the fresh singleton reference
  have hinv3p : Inv (decref (dFuel s2) s2 root)
      (((R ++ ul.toList) ++ [b])) P := by
    refine inv_perm hinv3 ?_ (fun p => rfl)
    intro x
    simp only [List.count_append]
    omega
  have htb2 : treeOf 1 s2 (some b) = some (.node b .nil k v w .nil) := by
    refine treeOf_live hinv2 hfr2 ?_ htb
    intro a ha
    refine live_of_count hinv2 ?_
    cases ha
    exact one_le_count_mem (by simp)
  have htb3 : treeOf 1 (decref (dFuel s2) s2 root) (some b) =
      some (.node b .nil k v w .nil) := by
    refine treeOf_live hinv3 hfr3 ?_ htb2
    intro a ha
    refine live_of_count hinv3 ?_
    cases ha
    exact one_le_count_mem (by simp)
  obtain ⟨hinv4, hfr4, hlen4, hplen4, hunt4⟩ :=
    decref_spec (dFuel (decref (dFuel s2) s2 root))
      (a := some b) hinv3p
      (Or.inr ⟨b, 1, .node b .nil k v w .nil, rfl, htb3, by
        rw [dFuel]
        simp only [tdepth]
        omega⟩)
  have hinv4p : Inv (decref (dFuel (decref (dFuel s2) s2 root))
      (decref (dFuel s2) s2 root) (some b)) (R ++ ul.toList) P := hinv4
  refine ⟨hinv4p, ?_, by omega, ?_⟩
  · exact frame_trans (frame_trans hfr1 hfr2) (frame_trans hfr3 hfr4)
  · -- the returned tree survives both decrefs
    have htu3 : treeOf (dFuel s2) (decref (dFuel s2) s2 root) ul = some tu := by
      refine treeOf_live hinv3 hfr3 ?_ htu
      intro a ha
      refine live_of_count hinv3 ?_
      subst ha
      exact one_le_count_mem (by simp)
    have htu4 : treeOf (dFuel s2) (decref (dFuel (decref (dFuel s2) s2 root))
        (decref (dFuel s2) s2 root) (some b)) ul = some tu := by
      refine treeOf_live hinv4 hfr4 ?_ htu3
      intro a ha
      refine live_of_count hinv4 ?_
      subst ha
      exact one_le_count_mem (by simp)
    refine ⟨tu, treeOf_min htu4 (by rw [dFuel]; omega), ?_⟩
    rw [heru, PM.set]
    rfl

/-- `SetAll`: union with the other map's root (borrowed, not consumed),
then drop only this map's old root reference. -/
theorem SetAll_spec {s : Heap K V} {R P : List Nat} {r1 r2 : Option Nat}
    {s2 : Heap K V} {r3 : Option Nat} {f g : Nat} {t1 t2 : ITree K V}
    (hinv : Inv s (R ++ r1.toList) P)
    (hr2 : ∀ a, r2 = some a → 1 ≤ (R ++ r1.toList).count a)
    (ht1 : treeOf f s r1 = some t1) (ht2 : treeOf g s r2 = some t2)
    (h : SetAll s r1 r2 = (s2, r3)) :
    Inv s2 (R ++ r3.toList) P ∧ Frame s s2 ∧
    s.nodes.length ≤ s2.nodes.length ∧
    (∃ t3, treeOf (dFuel s2) s2 r3 = some t3 ∧
      erase t3 = PM.setAll (erase t1) (erase t2)) := by
  rcases hu : union (opFuel s) s r1 r2 true with ⟨s1, r3'⟩
  rw [SetAll, hu] at h
  dsimp only at h
  injection h with hA hB
  subst hA
  subst hB
  have hd1 : tdepth t1 ≤ s.nodes.length := treeOf_depth_le2 ht1
  have hd2 : tdepth t2 ≤ s.nodes.length := treeOf_depth_le2 ht2
  obtain ⟨hinv1, hfr1, hlen1, hunt1, tu, htu, heru, horu⟩ :=
    union_spec (opFuel s) s s1 (R ++ r1.toList) P r1 r2 r3' true f g t1 t2
      hinv
      (by
        intro a ha
        refine rooted_of_mem hinv ?_
        subst ha
        exact one_le_count_mem (by simp))
      (fun a ha => rooted_of_mem hinv (hr2 a ha))
      ht1 ht2
      (by rw [opFuel]; omega)
      hu
  have hdtu : tdepth tu ≤ s1.nodes.length := treeOf_depth_le2 htu
  have hinv1p : Inv s1 ((R ++ r3'.toList) ++ r1.toList) P := by
    refine inv_perm hinv1 ?_ (fun p => rfl)
    intro x
    simp only [List.count_append]
    omega
  have ht1b : treeOf f s1 r1 = some t1 := by
    refine treeOf_live hinv1 hfr1 ?_ ht1
    intro a ha
    refine live_of_count hinv1 ?_
    subst ha
    exact one_le_count_mem (by simp)
  have hroot2 : r1 = none ∨ ∃ aa g0 t0, r1 = some aa ∧
      treeOf g0 s1 (some aa) = some t0 ∧ tdepth t0 ≤ dFuel s1 := by
    cases r1 with
    | none => exact Or.inl rfl
    | some a =>
      refine Or.inr ⟨a, f, t1, rfl, ht1b, ?_⟩
      rw [dFuel]
      omega
  obtain ⟨hinv2, hfr2, hlen2, hplen2, hunt2⟩ :=
    decref_spec (dFuel s1) hinv1p hroot2
  refine ⟨hinv2, frame_trans hfr1 hfr2, by omega, ?_⟩
  have htu2 : treeOf (dFuel s1) (decref (dFuel s1) s1 r1) r3' = some tu := by
    refine treeOf_live hinv2 hfr2 ?_ htu
    intro a ha
    refine live_of_count hinv2 ?_
    subst ha
    exact one_le_count_mem (by simp)
  refine ⟨tu, treeOf_min htu2 (by rw [dFuel]; omega), ?_⟩
  rw [heru, PM.setAll]

/-- `Delete`: a require-mid split, a silent return on a miss, otherwise a
merge of the outer parts followed by dropping the four consumed references.
The invariant swaps the old root reference for the returned one and the
result reifies to `PM.delete`; a miss leaves the heap literally unchanged. -/
theorem Delete_spec {s : Heap K V} {R P : List Nat} {root : Option Nat}
    {k : K} {s6 : Heap K V} {nr : Option Nat} {f : Nat} {t : ITree K V}
    (hinv : Inv s (R ++ root.toList) P)
    (ht : treeOf f s root = some t)
    (h : Delete s root k = (s6, nr)) :
    Inv s6 (R ++ nr.toList) P ∧ Frame s s6 ∧
    s.nodes.length ≤ s6.nodes.length ∧
    ((PM.split (erase t) k true).2.1 = none → s6 = s ∧ nr = root) ∧
    (∃ t2, treeOf (dFuel s6) s6 nr = some t2 ∧
      erase t2 = PM.delete (erase t) k) := by
  rcases hsp : split (dFuel s) s root k true with ⟨s1, l, m, r⟩
  rw [Delete, hsp] at h
  dsimp only at h
  have hdt : tdepth t ≤ s.nodes.length := treeOf_depth_le2 ht
  have hro : root = none ∨ ∃ a, root = some a ∧ isLive s a := by
    cases root with
    | none => exact Or.inl rfl
    | some a =>
      exact Or.inr ⟨a, rfl, live_of_count hinv (one_le_count_mem (by simp))⟩
  obtain ⟨hinvS, hfrS, hlenS, hlpS, huntS, tl2, tr2, htl2, htr2, herl2, herr2,
    horl2, horr2, hmidS⟩ :=
    split_spec (dFuel s) hinv hro ht (by rw [dFuel]; omega) hsp
  cases m with
  | none =>
    -- require-mid miss: the split itself already restored the state
    have hmiss := split_requireMid_miss (dFuel s) s root k (by rw [hsp])
    rw [hsp] at hmiss
    injection hmiss with hA hB
    injection hB with hB hC
    injection hC with hC hD
    subst hA
    subst hB
    subst hD
    injection h with hA hB
    subst hA
    subst hB
    have hpmm : (PM.split (erase t) k true).2.1 = none := by
      rcases hmidS with ⟨h1, h2⟩ | ⟨mk, mv, mw, b, h1, h2, h3, h4⟩
      · exact h1
      · exact absurd h2 (by simp)
    refine ⟨hinv, frame_refl _, le_refl _, fun h0 => ⟨rfl, rfl⟩,
      t, treeOf_min ht (by rw [dFuel]; omega), ?_⟩
    rw [PM.delete, hpmm]
  | some mb =>
    rcases hmidS with ⟨h1, h2⟩ | ⟨mk, mv, mw, b, hpmm, hmb, hblen, htmid⟩
    · exact absurd h2 (by simp)
    have hmbb : b = mb := by
      injection hmb with h0
      exact h0.symm
    subst hmbb
    rcases hmg : merge (opFuel s1) s1 l r with ⟨s2m, nr0⟩
    rw [hmg] at h
    dsimp only at h
    injection h with hA hB
    subst hA
    subst hB
    have hliveL : l = none ∨ ∃ a, l = some a ∧ isLive s1 a := by
      cases l with
      | none => exact Or.inl rfl
      | some a =>
        exact Or.inr ⟨a, rfl, live_of_count hinvS (one_le_count_mem (by simp))⟩
    have hliveR : r = none ∨ ∃ a, r = some a ∧ isLive s1 a := by
      cases r with
      | none => exact Or.inl rfl
      | some a =>
        exact Or.inr ⟨a, rfl, live_of_count hinvS (one_le_count_mem (by simp))⟩
    obtain ⟨hinvM, hfrM, hlenM, hlpM, huntM, tm, htm, herm, horm⟩ :=
      merge_spec (opFuel s1) hinvS hliveL hliveR htl2 htr2
        (by
          have d1 := treeOf_depth_le2 htl2
          have d2 := treeOf_depth_le2 htr2
          rw [opFuel]
          omega)
        hmg
    have hdtm : tdepth tm ≤ s2m.nodes.length := treeOf_depth_le2 htm
    -- decref l
    have hinvMp : Inv s2m
        ((((R ++ root.toList) ++ (some b).toList ++ r.toList ++ nr0.toList) ++
          l.toList)) P := by
      refine inv_perm hinvM ?_ (fun p => rfl)
      intro x
      simp only [List.count_append]
      omega
    have htl3 : treeOf (dFuel s1) s2m l = some tl2 := by
      refine treeOf_live hinvM hfrM ?_ htl2
      intro a ha
      refine live_of_count hinvM ?_
      subst ha
      exact one_le_count_mem (by simp)
    obtain ⟨hinv7, hfr7, hlen7, hplen7, hunt7⟩ :=
      decref_spec (dFuel s2m) hinvMp
        (by
          cases l with
          | none => exact Or.inl rfl
          | some a =>
            refine Or.inr ⟨a, dFuel s1, tl2, rfl, htl3, ?_⟩
            have := treeOf_depth_le2 htl2
            rw [dFuel]
            omega)
    -- decref m
    have hinv7p : Inv (decref (dFuel s2m) s2m l)
        ((((R ++ root.toList) ++ r.toList ++ nr0.toList) ++ (some b).toList)) P := by
      refine inv_perm hinv7 ?_ (fun p => rfl)
      intro x
      simp only [List.count_append]
      omega
    have htm2 : treeOf (dFuel s1) s2m (some b) =
        some (.node b .nil mk mv mw .nil) := by
      refine treeOf_live hinvM hfrM ?_ htmid
      intro a ha
      refine live_of_count hinvM ?_
      cases ha
      exact one_le_count_mem (by simp)
    have htm3 : treeOf (dFuel s1) (decref (dFuel s2m) s2m l) (some b) =
        some (.node b .nil mk mv mw .nil) := by
      refine treeOf_live hinv7 hfr7 ?_ htm2
      intro a ha
      refine live_of_count hinv7 ?_
      cases ha
      exact one_le_count_mem (by simp)
    obtain ⟨hinv8, hfr8, hlen8, hplen8, hunt8⟩ :=
      decref_spec (dFuel (decref (dFuel s2m) s2m l)) hinv7p
        (Or.inr ⟨b, dFuel s1, .node b .nil mk mv mw .nil, rfl, htm3, by
          rw [dFuel]
          simp only [tdepth]
          omega⟩)
    -- decref r
    have hinv8p : Inv (decref (dFuel (decref (dFuel s2m) s2m l))
        (decref (dFuel s2m) s2m l) (some b))
        ((((R ++ root.toList) ++ nr0.toList) ++ r.toList)) P := by
      refine inv_perm hinv8 ?_ (fun p => rfl)
      intro x
      simp only [List.count_append]
      omega
    have htr3 : treeOf (dFuel s1) s2m r = some tr2 := by
      refine treeOf_live hinvM hfrM ?_ htr2
      intro a ha
      refine live_of_count hinvM ?_
      subst ha
      exact one_le_count_mem (by simp)
    have htr4 : treeOf (dFuel s1) (decref (dFuel s2m) s2m l) r = some tr2 := by
      refine treeOf_live hinv7 hfr7 ?_ htr3
      intro a ha
      refine live_of_count hinv7 ?_
      subst ha
      exact one_le_count_mem (by simp)
    have htr5 : treeOf (dFuel s1) (decref (dFuel (decref (dFuel s2m) s2m l))
        (decref (dFuel s2m) s2m l) (some b)) r = some tr2 := by
      refine treeOf_live hinv8 hfr8 ?_ htr4
      intro a ha
      refine live_of_count hinv8 ?_
      subst ha
      exact one_le_count_mem (by simp)
    obtain ⟨hinv9, hfr9, hlen9, hplen9, hunt9⟩ :=
      decref_spec (dFuel (decref (dFuel (decref (dFuel s2m) s2m l))
        (decref (dFuel s2m) s2m l) (some b))) hinv8p
        (by
          cases r with
          | none => exact Or.inl rfl
          | some a =>
            refine Or.inr ⟨a, dFuel s1, tr2, rfl, htr5, ?_⟩
            have := treeOf_depth_le2 htr2
            rw [dFuel]
            omega)
    -- decref the old root
    have hinv9p : Inv (decref (dFuel (decref (dFuel (decref (dFuel s2m) s2m l))
        (decref (dFuel s2m) s2m l) (some b)))
        (decref (dFuel (decref (dFuel s2m) s2m l))
          (decref (dFuel s2m) s2m l) (some b)) r)
        (((R ++ nr0.toList) ++ root.toList)) P := by
      refine inv_perm hinv9 ?_ (fun p => rfl)
      intro x
      simp only [List.count_append]
      omega
    have ht2 : treeOf f s1 root = some t := by
      refine treeOf_live hinvS hfrS ?_ ht
      intro a ha
      refine live_of_count hinvS ?_
      subst ha
      exact one_le_count_mem (by simp)
    have ht3 : treeOf f s2m root = some t := by
      refine treeOf_live hinvM hfrM ?_ ht2
      intro a ha
      refine live_of_count hinvM ?_
      subst ha
      exact one_le_count_mem (by simp)
    have ht4 : treeOf f (decref (dFuel s2m) s2m l) root = some t := by
      refine treeOf_live hinv7 hfr7 ?_ ht3
      intro a ha
      refine live_of_count hinv7 ?_
      subst ha
      exact one_le_count_mem (by simp)
    have ht5 : treeOf f (decref (dFuel (decref (dFuel s2m) s2m l))
        (decref (dFuel s2m) s2m l) (some b)) root = some t := by
      refine treeOf_live hinv8 hfr8 ?_ ht4
      intro a ha
      refine live_of_count hinv8 ?_
      subst ha
      exact one_le_count_mem (by simp)
    have ht6 : treeOf f (decref (dFuel (decref (dFuel (decref (dFuel s2m) s2m l))
        (decref (dFuel s2m) s2m l) (some b)))
        (decref (dFuel (decref (dFuel s2m) s2m l))
          (decref (dFuel s2m) s2m l) (some b)) r) root = some t := by
      refine treeOf_live hinv9 hfr9 ?_ ht5
      intro a ha
      refine live_of_count hinv9 ?_
      subst ha
      exact one_le_count_mem (by simp)
    obtain ⟨hinv10, hfr10, hlen10, hplen10, hunt10⟩ :=
      decref_spec (dFuel (decref (dFuel (decref (dFuel (decref (dFuel s2m) s2m l))
        (decref (dFuel s2m) s2m l) (some b)))
        (decref (dFuel (decref (dFuel s2m) s2m l))
          (decref (dFuel s2m) s2m l) (some b)) r)) hinv9p
        (by
          cases root with
          | none => exact Or.inl rfl
          | some a =>
            refine Or.inr ⟨a, f, t, rfl, ht6, ?_⟩
            rw [dFuel]
            omega)
    refine ⟨hinv10, ?_, by omega, ?_, ?_⟩
    · exact frame_trans hfrS (frame_trans hfrM (frame_trans hfr7
        (frame_trans hfr8 (frame_trans hfr9 hfr10))))
    · intro h0
      rw [hpmm] at h0
      exact Option.noConfusion h0
    · -- the merged tree survives the four decrefs
      have htm4 : treeOf (dFuel s2m) (decref (dFuel s2m) s2m l) nr0 =
          some tm := by
        refine treeOf_live hinv7 hfr7 ?_ htm
        intro a ha
        refine live_of_count hinv7 ?_
        subst ha
        exact one_le_count_mem (by simp)
      have htm5 : treeOf (dFuel s2m) (decref (dFuel (decref (dFuel s2m) s2m l))
          (decref (dFuel s2m) s2m l) (some b)) nr0 = some tm := by
        refine treeOf_live hinv8 hfr8 ?_ htm4
        intro a ha
        refine live_of_count hinv8 ?_
        subst ha
        exact one_le_count_mem (by simp)
      have htm6 : treeOf (dFuel s2m)
          (decref (dFuel (decref (dFuel (decref (dFuel s2m) s2m l))
            (decref (dFuel s2m) s2m l) (some b)))
            (decref (dFuel (decref (dFuel s2m) s2m l))
              (decref (dFuel s2m) s2m l) (some b)) r) nr0 = some tm := by
        refine treeOf_live hinv9 hfr9 ?_ htm5
        intro a ha
        refine live_of_count hinv9 ?_
        subst ha
        exact one_le_count_mem (by simp)
      have htm7 : treeOf (dFuel s2m)
          (decref (dFuel (decref (dFuel (decref (dFuel (decref (dFuel s2m) s2m l))
            (decref (dFuel s2m) s2m l) (some b)))
            (decref (dFuel (decref (dFuel s2m) s2m l))
              (decref (dFuel s2m) s2m l) (some b)) r))
            (decref (dFuel (decref (dFuel (decref (dFuel s2m) s2m l))
              (decref (dFuel s2m) s2m l) (some b)))
              (decref (dFuel (decref (dFuel s2m) s2m l))
                (decref (dFuel s2m) s2m l) (some b)) r) root) nr0 = some tm := by
        refine treeOf_live hinv10 hfr10 ?_ htm6
        intro a ha
        refine live_of_count hinv10 ?_
        subst ha
        exact one_le_count_mem (by simp)
      refine ⟨tm, treeOf_min htm7 (by rw [dFuel]; omega), ?_⟩
      rw [herm, herl2, herr2, PM.delete]
      rw [hpmm]

/-- The multiset of root references the handles hold. -/
def roots (st : Sys K V) : List Nat := st.handles.filterMap id

theorem mem_filterMap_id {hs : List (Option Nat)} {a : Nat}
    (h : some a ∈ hs) : a ∈ hs.filterMap id :=
  List.mem_filterMap.mpr ⟨some a, h, rfl⟩

/-- Writing slot `i` moves the root multiset by the slot's old and new
content. -/
theorem count_filterMap_set : ∀ (hs : List (Option Nat)) (i : Nat)
    (o o2 : Option Nat) (x : Nat), hs[i]? = some o →
    ((hs.set i o2).filterMap id).count x + o.toList.count x =
      (hs.filterMap id).count x + o2.toList.count x := by
  intro hs
  induction hs with
  | nil =>
    intro i o o2 x h
    exact absurd h (by simp)
  | cons a hs ih =>
    intro i o o2 x h
    cases i with
    | zero =>
      have ha : a = o := by
        rw [List.getElem?_cons_zero] at h
        exact Option.some.inj h
      subst ha
      rw [List.set_cons_zero]
      cases a <;> cases o2 <;>
          simp only [List.filterMap_cons, id, Option.toList,
            List.count_cons, List.count_nil, List.count_append] <;>
        omega
    | succ i =>
      rw [List.getElem?_cons_succ] at h
      rw [List.set_cons_succ]
      have hrec := ih i o o2 x h
      cases a <;>
          simp only [List.filterMap_cons, id, List.count_cons] <;>
        omega

/-- The system invariant: the heap is consistent against the handles' root
references, and every handle hangs a reified treap satisfying the functional
BST and heap-order invariants. -/
def SysInv (st : Sys K V) : Prop :=
  Inv st.heap (roots st) [] ∧
  ∀ r : Nat, some r ∈ st.handles →
    ∃ t, treeOf (dFuel st.heap) st.heap (some r) = some t ∧
      PM.BST (erase t) ∧ PM.HeapW (erase t)

/-- The empty heap satisfies the invariant with no references at all. -/
theorem inv_empty : Inv (⟨[], [], []⟩ : Heap K V) [] [] := by
  refine ⟨?_, ?_, ?_, ?_, ?_, ?_, ?_, ?_⟩
  · intro a
    simp [nodeRC, demand, liveEdges]
  · intro p
    simp [payRC, pdemand, liveOwns]
  · intro a nd h
    exact absurd h (by simp)
  · intro p pl h
    exact absurd h (by simp)
  · intro p pl h
    exact absurd h (by simp)
  · intro p pl h
    exact absurd h (by simp)
  · intro e he
    exact absurd he (by simp)
  · intro a h
    rw [isLive, nodeRC] at h
    simp at h

theorem sysInv_init : SysInv (initSys : Sys K V) := by
  constructor
  · exact inv_empty
  · intro r hr
    exact absurd hr (by simp [initSys])

/-- A handle tree survives any framed, invariant-restoring step that keeps
its root counted. -/
theorem tree_keep {s s2 : Heap K V} {R2 P : List Nat} {r : Nat}
    {t : ITree K V} (hinv2 : Inv s2 R2 P) (hfr : Frame s s2)
    (hcnt : 1 ≤ R2.count r) (hlen : s.nodes.length ≤ s2.nodes.length)
    (ht : treeOf (dFuel s) s (some r) = some t) :
    treeOf (dFuel s2) s2 (some r) = some t := by
  have h1 : treeOf (dFuel s) s2 (some r) = some t := by
    refine treeOf_live hinv2 hfr ?_ ht
    intro a ha
    cases ha
    exact live_of_count hinv2 hcnt
  refine treeOf_mono h1 ?_
  rw [dFuel, dFuel]
  omega

/-- One operation: the system invariant is preserved, the heap moves by a
framed step, the node arena only grows, and every slot other than the
mutation target keeps its content. -/
theorem applyOp_spec {st st2 : Sys K V} {op : Op K V} (hsi : SysInv st)
    (h : applyOp st op = some st2) :
    SysInv st2 ∧ Frame st.heap st2.heap ∧
    st.heap.nodes.length ≤ st2.heap.nodes.length ∧
    (∀ j, mutTarget op ≠ some j → j < st.handles.length →
      st2.handles[j]? = st.handles[j]?) := by
  obtain ⟨hinv, htrees⟩ := hsi
  cases op with
  | newH =>
    simp only [applyOp] at h
    injection h with hst2
    subst hst2
    have hroots : roots (⟨st.heap, st.handles ++ [none]⟩ : Sys K V) =
        roots st := by
      simp [roots, List.filterMap_append]
    refine ⟨⟨?_, ?_⟩, frame_refl _, le_refl _, ?_⟩
    · rw [hroots]
      exact hinv
    · intro r hr
      simp only [List.mem_append, List.mem_singleton] at hr
      rcases hr with hr | hr
      · exact htrees r hr
      · exact absurd hr (by simp)
    · intro j hj hjlt
      exact List.getElem?_append_left hjlt
  | clone i =>
    cases hslot : st.handles[i]? with
    | none =>
      simp only [applyOp, hslot] at h
      exact Option.noConfusion h
    | some root0 =>
      simp only [applyOp, hslot] at h
      dsimp only [Clone] at h
      injection h with hst2
      subst hst2
      have hcnt : ∀ a, root0 = some a → 1 ≤ (roots st).count a := by
        intro a ha
        subst ha
        exact one_le_count_mem (mem_filterMap_id (List.getElem?_mem hslot))
      obtain ⟨hinv2, hfr2, hobs2, hlen2, hout⟩ := Clone_spec hinv hcnt
      have hlen2' : (incref st.heap root0).nodes.length =
          st.heap.nodes.length := hlen2
      have hobs2' : ObsEq st.heap (incref st.heap root0) := hobs2
      have hroots2 : roots
          (⟨incref st.heap root0, st.handles ++ [root0]⟩ : Sys K V) =
          roots st ++ root0.toList := by
        cases root0 <;> simp [roots, List.filterMap_append]
      refine ⟨⟨?_, ?_⟩, hfr2, le_of_eq hlen2'.symm, ?_⟩
      · rw [hroots2]
        exact hinv2
      · intro r hr
        have hrold : some r ∈ st.handles := by
          rcases List.mem_append.mp hr with h1 | h1
          · exact h1
          · rw [List.mem_singleton] at h1
            rw [← h1] at hslot
            exact List.getElem?_mem hslot
        obtain ⟨t0, ht0, hb0, hw0⟩ := htrees r hrold
        refine ⟨t0, ?_, hb0, hw0⟩
        have hdf : dFuel (incref st.heap root0) = dFuel st.heap := by
          rw [dFuel, dFuel, hlen2']
        show treeOf (dFuel (incref st.heap root0)) (incref st.heap root0)
          (some r) = some t0
        rw [hdf, treeOf_obsEq hobs2']
        exact ht0
      · intro j hj hjlt
        exact List.getElem?_append_left hjlt
  | clear i =>
    cases hslot : st.handles[i]? with
    | none =>
      simp only [applyOp, hslot] at h
      exact Option.noConfusion h
    | some root0 =>
      simp only [applyOp, hslot] at h
      dsimp only [Clear] at h
      injection h with hst2
      subst hst2
      have hcnteq : ∀ x,
          (((st.handles.set i none).filterMap id) ++ root0.toList).count x =
          (roots st).count x := by
        intro x
        have hc := count_filterMap_set st.handles i root0 none x hslot
        simp only [List.count_append, roots, Option.toList,
          List.count_nil] at hc ⊢
        omega
      have hinvp : Inv st.heap
          (((st.handles.set i none).filterMap id) ++ root0.toList) [] :=
        inv_perm hinv hcnteq (fun p => rfl)
      obtain ⟨hinv2, hfr2, hlen2, hplen2, -⟩ := Clear_spec hinvp
      refine ⟨⟨hinv2, ?_⟩, hfr2, le_of_eq hlen2.symm, ?_⟩
      · intro r hr
        rcases List.mem_or_eq_of_mem_set hr with hmem | heq
        · obtain ⟨t0, ht0, hb0, hw0⟩ := htrees r hmem
          refine ⟨t0, ?_, hb0, hw0⟩
          refine tree_keep hinv2 hfr2 ?_ (le_of_eq hlen2.symm) ht0
          exact one_le_count_mem (mem_filterMap_id hr)
        · exact absurd heq (by simp)
      · intro j hj hjlt
        simp only [mutTarget] at hj
        have hne : i ≠ j := fun he => hj (by rw [he])
        exact List.getElem?_set_ne hne
  | destroy i =>
    cases hslot : st.handles[i]? with
    | none =>
      simp only [applyOp, hslot] at h
      exact Option.noConfusion h
    | some root0 =>
      simp only [applyOp, hslot] at h
      dsimp only [Destroy, Clear] at h
      injection h with hst2
      subst hst2
      have hcnteq : ∀ x,
          (((st.handles.set i none).filterMap id) ++ root0.toList).count x =
          (roots st).count x := by
        intro x
        have hc := count_filterMap_set st.handles i root0 none x hslot
        simp only [List.count_append, roots, Option.toList,
          List.count_nil] at hc ⊢
        omega
      have hinvp : Inv st.heap
          (((st.handles.set i none).filterMap id) ++ root0.toList) [] :=
        inv_perm hinv hcnteq (fun p => rfl)
      obtain ⟨hinv2, hfr2, hlen2, hplen2, -⟩ := Clear_spec hinvp
      refine ⟨⟨hinv2, ?_⟩, hfr2, le_of_eq hlen2.symm, ?_⟩
      · intro r hr
        rcases List.mem_or_eq_of_mem_set hr with hmem | heq
        · obtain ⟨t0, ht0, hb0, hw0⟩ := htrees r hmem
          refine ⟨t0, ?_, hb0, hw0⟩
          refine tree_keep hinv2 hfr2 ?_ (le_of_eq hlen2.symm) ht0
          exact one_le_count_mem (mem_filterMap_id hr)
        · exact absurd heq (by simp)
      · intro j hj hjlt
        simp only [mutTarget] at hj
        have hne : i ≠ j := fun he => hj (by rw [he])
        exact List.getElem?_set_ne hne
  | set i k v rel w =>
    cases hslot : st.handles[i]? with
    | none =>
      simp only [applyOp, hslot] at h
      exact Option.noConfusion h
    | some root0 =>
      simp only [applyOp, hslot] at h
      rcases hsw : SetWithRelease st.heap root0 k v rel w with ⟨h2, r2⟩
      rw [hsw] at h
      dsimp only at h
      injection h with hst2
      subst hst2
      have hroot : ∃ t, treeOf (dFuel st.heap) st.heap root0 = some t ∧
          PM.BST (erase t) ∧ PM.HeapW (erase t) := by
        cases root0 with
        | none =>
          refine ⟨.nil, ?_, trivial, trivial⟩
          rw [treeOf]
        | some a => exact htrees a (List.getElem?_mem hslot)
      obtain ⟨t, ht, hbst, hhw⟩ := hroot
      have hcnteq : ∀ x,
          (((st.handles.set i none).filterMap id) ++ root0.toList).count x =
          (roots st).count x := by
        intro x
        have hc := count_filterMap_set st.handles i root0 none x hslot
        simp only [List.count_append, roots, Option.toList,
          List.count_nil] at hc ⊢
        omega
      have hinvp : Inv st.heap
          (((st.handles.set i none).filterMap id) ++ root0.toList) [] :=
        inv_perm hinv hcnteq (fun p => rfl)
      obtain ⟨hinv2, hfr2, hlen2, t2, ht2, her2⟩ :=
        SetWithRelease_spec hinvp ht hsw
      have hcntnew : ∀ x,
          (roots (⟨h2, st.handles.set i r2⟩ : Sys K V)).count x =
          (((st.handles.set i none).filterMap id) ++ r2.toList).count x := by
        intro x
        have hc1 := count_filterMap_set st.handles i root0 r2 x hslot
        have hc2 := count_filterMap_set st.handles i root0 none x hslot
        simp only [roots, List.count_append, Option.toList,
          List.count_nil] at hc1 hc2 ⊢
        omega
      have hinvR : Inv h2 (roots (⟨h2, st.handles.set i r2⟩ : Sys K V)) [] :=
        inv_perm hinv2 hcntnew (fun p => rfl)
      refine ⟨⟨hinvR, ?_⟩, hfr2, hlen2, ?_⟩
      · intro r hr
        rcases List.mem_or_eq_of_mem_set hr with hmem | heq
        · obtain ⟨t0, ht0, hb0, hw0⟩ := htrees r hmem
          refine ⟨t0, ?_, hb0, hw0⟩
          refine tree_keep hinvR hfr2 ?_ hlen2 ht0
          exact one_le_count_mem (mem_filterMap_id hr)
        · cases heq
          refine ⟨t2, ht2, ?_, ?_⟩
          · rw [her2, PM.set]
            exact PM.union_bst _ _ _ hbst (PM.bst_singleton k v w)
          · rw [her2, PM.set]
            exact PM.union_heapw _ _ _ hhw (PM.heapw_singleton k v w)
      · intro j hj hjlt
        simp only [mutTarget] at hj
        have hne : i ≠ j := fun he => hj (by rw [he])
        exact List.getElem?_set_ne hne
  | del i k =>
    cases hslot : st.handles[i]? with
    | none =>
      simp only [applyOp, hslot] at h
      exact Option.noConfusion h
    | some root0 =>
      simp only [applyOp, hslot] at h
      rcases hdl : Delete st.heap root0 k with ⟨h2, r2⟩
      rw [hdl] at h
      dsimp only at h
      injection h with hst2
      subst hst2
      have hroot : ∃ t, treeOf (dFuel st.heap) st.heap root0 = some t ∧
          PM.BST (erase t) ∧ PM.HeapW (erase t) := by
        cases root0 with
        | none =>
          refine ⟨.nil, ?_, trivial, trivial⟩
          rw [treeOf]
        | some a => exact htrees a (List.getElem?_mem hslot)
      obtain ⟨t, ht, hbst, hhw⟩ := hroot
      have hcnteq : ∀ x,
          (((st.handles.set i none).filterMap id) ++ root0.toList).count x =
          (roots st).count x := by
        intro x
        have hc := count_filterMap_set st.handles i root0 none x hslot
        simp only [List.count_append, roots, Option.toList,
          List.count_nil] at hc ⊢
        omega
      have hinvp : Inv st.heap
          (((st.handles.set i none).filterMap id) ++ root0.toList) [] :=
        inv_perm hinv hcnteq (fun p => rfl)
      obtain ⟨hinv2, hfr2, hlen2, hmiss, t2, ht2, her2⟩ :=
        Delete_spec hinvp ht hdl
      have hcntnew : ∀ x,
          (roots (⟨h2, st.handles.set i r2⟩ : Sys K V)).count x =
          (((st.handles.set i none).filterMap id) ++ r2.toList).count x := by
        intro x
        have hc1 := count_filterMap_set st.handles i root0 r2 x hslot
        have hc2 := count_filterMap_set st.handles i root0 none x hslot
        simp only [roots, List.count_append, Option.toList,
          List.count_nil] at hc1 hc2 ⊢
        omega
      have hinvR : Inv h2 (roots (⟨h2, st.handles.set i r2⟩ : Sys K V)) [] :=
        inv_perm hinv2 hcntnew (fun p => rfl)
      refine ⟨⟨hinvR, ?_⟩, hfr2, hlen2, ?_⟩
      · intro r hr
        rcases List.mem_or_eq_of_mem_set hr with hmem | heq
        · obtain ⟨t0, ht0, hb0, hw0⟩ := htrees r hmem
          refine ⟨t0, ?_, hb0, hw0⟩
          refine tree_keep hinvR hfr2 ?_ hlen2 ht0
          exact one_le_count_mem (mem_filterMap_id hr)
        · cases heq
          refine ⟨t2, ht2, ?_, ?_⟩
          · rw [her2]
            exact PM.bst_delete _ _ hbst
          · rw [her2]
            exact PM.heapw_delete _ _ hhw
      · intro j hj hjlt
        simp only [mutTarget] at hj
        have hne : i ≠ j := fun he => hj (by rw [he])
        exact List.getElem?_set_ne hne
  | setAll i j2 =>
    cases hslot : st.handles[i]? with
    | none =>
      cases hslot2 : st.handles[j2]? with
      | none =>
        simp only [applyOp, hslot, hslot2] at h
        exact Option.noConfusion h
      | some r2a =>
        simp only [applyOp, hslot, hslot2] at h
        exact Option.noConfusion h
    | some r1a =>
      cases hslot2 : st.handles[j2]? with
      | none =>
        simp only [applyOp, hslot, hslot2] at h
        exact Option.noConfusion h
      | some r2a =>
        simp only [applyOp, hslot, hslot2] at h
        rcases hsa : SetAll st.heap r1a r2a with ⟨h2, r3⟩
        rw [hsa] at h
        dsimp only at h
        injection h with hst2
        subst hst2
        have hroot1 : ∃ t, treeOf (dFuel st.heap) st.heap r1a = some t ∧
            PM.BST (erase t) ∧ PM.HeapW (erase t) := by
          cases r1a with
          | none =>
            refine ⟨.nil, ?_, trivial, trivial⟩
            rw [treeOf]
          | some a => exact htrees a (List.getElem?_mem hslot)
        have hroot2 : ∃ t, treeOf (dFuel st.heap) st.heap r2a = some t ∧
            PM.BST (erase t) ∧ PM.HeapW (erase t) := by
          cases r2a with
          | none =>
            refine ⟨.nil, ?_, trivial, trivial⟩
            rw [treeOf]
          | some a => exact htrees a (List.getElem?_mem hslot2)
        obtain ⟨t1, ht1, hb1, hw1⟩ := hroot1
        obtain ⟨t2a, ht2a, hb2, hw2⟩ := hroot2
        have hcnteq : ∀ x,
            (((st.handles.set i none).filterMap id) ++ r1a.toList).count x =
            (roots st).count x := by
          intro x
          have hc := count_filterMap_set st.handles i r1a none x hslot
          simp only [List.count_append, roots, Option.toList,
            List.count_nil] at hc ⊢
          omega
        have hinvp : Inv st.heap
            (((st.handles.set i none).filterMap id) ++ r1a.toList) [] :=
          inv_perm hinv hcnteq (fun p => rfl)
        have hr2c : ∀ a, r2a = some a →
            1 ≤ (((st.handles.set i none).filterMap id) ++
              r1a.toList).count a := by
          intro a ha
          subst ha
          rw [hcnteq]
          exact one_le_count_mem (mem_filterMap_id (List.getElem?_mem hslot2))
        obtain ⟨hinv2, hfr2, hlen2, t3, ht3, her3⟩ :=
          SetAll_spec hinvp hr2c ht1 ht2a hsa
        have hcntnew : ∀ x,
            (roots (⟨h2, st.handles.set i r3⟩ : Sys K V)).count x =
            (((st.handles.set i none).filterMap id) ++ r3.toList).count x := by
          intro x
          have hc1 := count_filterMap_set st.handles i r1a r3 x hslot
          have hc2 := count_filterMap_set st.handles i r1a none x hslot
          simp only [roots, List.count_append, Option.toList,
            List.count_nil] at hc1 hc2 ⊢
          omega
        have hinvR : Inv h2
            (roots (⟨h2, st.handles.set i r3⟩ : Sys K V)) [] :=
          inv_perm hinv2 hcntnew (fun p => rfl)
        refine ⟨⟨hinvR, ?_⟩, hfr2, hlen2, ?_⟩
        · intro r hr
          rcases List.mem_or_eq_of_mem_set hr with hmem | heq
          · obtain ⟨t0, ht0, hb0, hw0⟩ := htrees r hmem
            refine ⟨t0, ?_, hb0, hw0⟩
            refine tree_keep hinvR hfr2 ?_ hlen2 ht0
            exact one_le_count_mem (mem_filterMap_id hr)
          · cases heq
            refine ⟨t3, ht3, ?_, ?_⟩
            · rw [her3, PM.setAll]
              exact PM.union_bst _ _ _ hb1 hb2
            · rw [her3, PM.setAll]
              exact PM.union_heapw _ _ _ hw1 hw2
        · intro j hj hjlt
          simp only [mutTarget] at hj
          have hne : i ≠ j := fun he => hj (by rw [he])
          exact List.getElem?_set_ne hne

/-- Every reachable state satisfies the system invariant. -/
theorem runOps_inv : ∀ (ops : List (Op K V)) {st st2 : Sys K V},
    SysInv st → runOps st ops = some st2 → SysInv st2 := by
  intro ops
  induction ops with
  | nil =>
    intro st st2 hsi h
    rw [runOps] at h
    injection h with h0
    rw [← h0]
    exact hsi
  | cons op ops ih =>
    intro st st2 hsi h
    rw [runOps] at h
    cases hap : applyOp st op with
    | none =>
      rw [hap] at h
      exact Option.noConfusion h
    | some stm =>
      rw [hap] at h
      exact ih (applyOp_spec hsi hap).1 h

/-- Every handle slot hangs a well-formed tree (the empty handle hangs
`nil`). -/
theorem sysTree {st : Sys K V} (hsi : SysInv st) {i : Nat} {o : Option Nat}
    (hj : st.handles[i]? = some o) :
    ∃ t, treeOf (dFuel st.heap) st.heap o = some t ∧
      PM.BST (erase t) ∧ PM.HeapW (erase t) := by
  cases o with
  | none =>
    refine ⟨.nil, ?_, trivial, trivial⟩
    rw [treeOf]
  | some a => exact hsi.2 a (List.getElem?_mem hj)

/-- A slot an operation does not mutate keeps its root and its reified
tree. -/
theorem applyOp_keep {st st2 : Sys K V} {op : Op K V} {j : Nat}
    {o : Option Nat} (hsi : SysInv st) (h : applyOp st op = some st2)
    (hmt : mutTarget op ≠ some j) (hj : st.handles[j]? = some o) :
    st2.handles[j]? = some o ∧
    ∀ t, treeOf (dFuel st.heap) st.heap o = some t →
      treeOf (dFuel st2.heap) st2.heap o = some t := by
  obtain ⟨hsi2, hfr, hlen, hkeep⟩ := applyOp_spec hsi h
  have hj2 : st2.handles[j]? = some o := by
    rw [hkeep j hmt (getElem?_some_lt hj)]
    exact hj
  refine ⟨hj2, ?_⟩
  intro t ht
  cases o with
  | none =>
    rw [treeOf] at ht ⊢
    exact ht
  | some r =>
    refine tree_keep hsi2.1 hfr ?_ hlen ht
    exact one_le_count_mem (mem_filterMap_id (List.getElem?_mem hj2))

/-- A slot no operation of a run mutates keeps its root and its reified
tree across the whole run. -/
theorem runOps_keep : ∀ (ops : List (Op K V)) {st st2 : Sys K V} {j : Nat}
    {o : Option Nat}, SysInv st → runOps st ops = some st2 →
    (∀ op ∈ ops, mutTarget op ≠ some j) → st.handles[j]? = some o →
    st2.handles[j]? = some o ∧
    ∀ t, treeOf (dFuel st.heap) st.heap o = some t →
      treeOf (dFuel st2.heap) st2.heap o = some t := by
  intro ops
  induction ops with
  | nil =>
    intro st st2 j o hsi h hmt hj
    rw [runOps] at h
    injection h with h0
    rw [← h0]
    exact ⟨hj, fun t ht => ht⟩
  | cons op ops ih =>
    intro st st2 j o hsi h hmt hj
    rw [runOps] at h
    cases hap : applyOp st op with
    | none =>
      rw [hap] at h
      exact Option.noConfusion h
    | some stm =>
      rw [hap] at h
      obtain ⟨hj1, ht1⟩ := applyOp_keep hsi hap
        (hmt op (List.mem_cons_self op ops)) hj
      obtain ⟨hj2, ht2⟩ := ih (applyOp_spec hsi hap).1 h
        (fun op2 hop2 => hmt op2 (List.mem_cons_of_mem op hop2)) hj1
      exact ⟨hj2, fun t ht => ht2 t (ht1 t ht)⟩

/-- The `Range` sequence a handle slot yields, when the slot exists. -/
def rangeH [Inhabited V] (st : Sys K V) (i : Nat) : Option (List (K × V)) :=
  match st.handles[i]? with
  | none => none
  | some r => some (range (dFuel st.heap) st.heap r)

/-- `Range` through the reified tree. -/
theorem rangeH_eq [Inhabited V] {st : Sys K V} {i : Nat} {o : Option Nat}
    {t : ITree K V} (hj : st.handles[i]? = some o)
    (ht : treeOf (dFuel st.heap) st.heap o = some t) :
    rangeH st i = some (PM.toList (erase t)) := by
  rw [rangeH, hj]
  dsimp only
  rw [range_agree (dFuel st.heap) st.heap o t ht]

/-- The tree the `set` operation installs: `PM.set` of the slot's previous
tree. -/
theorem applyOp_set_content {st st2 : Sys K V} {i : Nat} {k : K} {v : V}
    {rel : Bool} {w : Nat} (hsi : SysInv st)
    (h : applyOp st (.set i k v rel w) = some st2) :
    ∃ o t r2 t2, st.handles[i]? = some o ∧
      treeOf (dFuel st.heap) st.heap o = some t ∧ PM.BST (erase t) ∧
      st2.handles[i]? = some r2 ∧
      treeOf (dFuel st2.heap) st2.heap r2 = some t2 ∧
      erase t2 = PM.set (erase t) k v w := by
  obtain ⟨hinv, htrees⟩ := hsi
  cases hslot : st.handles[i]? with
  | none =>
    simp only [applyOp, hslot] at h
    exact Option.noConfusion h
  | some root0 =>
    simp only [applyOp, hslot] at h
    rcases hsw : SetWithRelease st.heap root0 k v rel w with ⟨h2, r2⟩
    rw [hsw] at h
    dsimp only at h
    injection h with hst2
    subst hst2
    obtain ⟨t, ht, hbst, hhw⟩ := sysTree ⟨hinv, htrees⟩ hslot
    have hcnteq : ∀ x,
        (((st.handles.set i none).filterMap id) ++ root0.toList).count x =
        (roots st).count x := by
      intro x
      have hc := count_filterMap_set st.handles i root0 none x hslot
      simp only [List.count_append, roots, Option.toList,
        List.count_nil] at hc ⊢
      omega
    have hinvp : Inv st.heap
        (((st.handles.set i none).filterMap id) ++ root0.toList) [] :=
      inv_perm hinv hcnteq (fun p => rfl)
    obtain ⟨hinv2, hfr2, hlen2, t2, ht2, her2⟩ :=
      SetWithRelease_spec hinvp ht hsw
    have hslot2 : (st.handles.set i r2)[i]? = some r2 :=
      List.getElem?_set_self (getElem?_some_lt hslot)
    exact ⟨root0, t, r2, t2, rfl, ht, hbst, hslot2, ht2, her2⟩

/-- The tree the `del` operation installs: `PM.delete` of the slot's
previous tree; on an absent key the heap and the slot are returned
unchanged. -/
theorem applyOp_del_content {st st2 : Sys K V} {i : Nat} {k : K}
    (hsi : SysInv st) (h : applyOp st (.del i k) = some st2) :
    ∃ o t r2 t2, st.handles[i]? = some o ∧
      treeOf (dFuel st.heap) st.heap o = some t ∧ PM.BST (erase t) ∧
      st2.handles[i]? = some r2 ∧
      treeOf (dFuel st2.heap) st2.heap r2 = some t2 ∧
      erase t2 = PM.delete (erase t) k ∧
      ((PM.split (erase t) k true).2.1 = none →
        st2.heap = st.heap ∧ r2 = o) := by
  obtain ⟨hinv, htrees⟩ := hsi
  cases hslot : st.handles[i]? with
  | none =>
    simp only [applyOp, hslot] at h
    exact Option.noConfusion h
  | some root0 =>
    simp only [applyOp, hslot] at h
    rcases hdl : Delete st.heap root0 k with ⟨h2, r2⟩
    rw [hdl] at h
    dsimp only at h
    injection h with hst2
    subst hst2
    obtain ⟨t, ht, hbst, hhw⟩ := sysTree ⟨hinv, htrees⟩ hslot
    have hcnteq : ∀ x,
        (((st.handles.set i none).filterMap id) ++ root0.toList).count x =
        (roots st).count x := by
      intro x
      have hc := count_filterMap_set st.handles i root0 none x hslot
      simp only [List.count_append, roots, Option.toList,
        List.count_nil] at hc ⊢
      omega
    have hinvp : Inv st.heap
        (((st.handles.set i none).filterMap id) ++ root0.toList) [] :=
      inv_perm hinv hcnteq (fun p => rfl)
    obtain ⟨hinv2, hfr2, hlen2, hmiss, t2, ht2, her2⟩ :=
      Delete_spec hinvp ht hdl
    have hslot2 : (st.handles.set i r2)[i]? = some r2 :=
      List.getElem?_set_self (getElem?_some_lt hslot)
    refine ⟨root0, t, r2, t2, rfl, ht, hbst, hslot2, ht2, her2, ?_⟩
    intro h0
    obtain ⟨he1, he2⟩ := hmiss h0
    exact ⟨he1, he2⟩

/-- The tree the `setAll` operation installs at its first slot: the key-wise
union with the second slot's tree. -/
theorem applyOp_setAll_content {st st2 : Sys K V} {i j2 : Nat}
    (hsi : SysInv st) (h : applyOp st (.setAll i j2) = some st2) :
    ∃ o1 o2 t1 t2 r3 t3, st.handles[i]? = some o1 ∧
      st.handles[j2]? = some o2 ∧
      treeOf (dFuel st.heap) st.heap o1 = some t1 ∧ PM.BST (erase t1) ∧
      treeOf (dFuel st.heap) st.heap o2 = some t2 ∧ PM.BST (erase t2) ∧
      st2.handles[i]? = some r3 ∧
      treeOf (dFuel st2.heap) st2.heap r3 = some t3 ∧
      erase t3 = PM.setAll (erase t1) (erase t2) := by
  obtain ⟨hinv, htrees⟩ := hsi
  cases hslot : st.handles[i]? with
  | none =>
    cases hslot2 : st.handles[j2]? with
    | none =>
      simp only [applyOp, hslot, hslot2] at h
      exact Option.noConfusion h
    | some r2a =>
      simp only [applyOp, hslot, hslot2] at h
      exact Option.noConfusion h
  | some r1a =>
    cases hslot2 : st.handles[j2]? with
    | none =>
      simp only [applyOp, hslot, hslot2] at h
      exact Option.noConfusion h
    | some r2a =>
      simp only [applyOp, hslot, hslot2] at h
      rcases hsa : SetAll st.heap r1a r2a with ⟨h2, r3⟩
      rw [hsa] at h
      dsimp only at h
      injection h with hst2
      subst hst2
      obtain ⟨t1, ht1, hb1, hw1⟩ := sysTree ⟨hinv, htrees⟩ hslot
      obtain ⟨t2a, ht2a, hb2, hw2⟩ := sysTree ⟨hinv, htrees⟩ hslot2
      have hcnteq : ∀ x,
          (((st.handles.set i none).filterMap id) ++ r1a.toList).count x =
          (roots st).count x := by
        intro x
        have hc := count_filterMap_set st.handles i r1a none x hslot
        simp only [List.count_append, roots, Option.toList,
          List.count_nil] at hc ⊢
        omega
      have hinvp : Inv st.heap
          (((st.handles.set i none).filterMap id) ++ r1a.toList) [] :=
        inv_perm hinv hcnteq (fun p => rfl)
      have hr2c : ∀ a, r2a = some a →
          1 ≤ (((st.handles.set i none).filterMap id) ++
            r1a.toList).count a := by
        intro a ha
        subst ha
        rw [hcnteq]
        exact one_le_count_mem (mem_filterMap_id (List.getElem?_mem hslot2))
      obtain ⟨hinv2, hfr2, hlen2, t3, ht3, her3⟩ :=
        SetAll_spec hinvp hr2c ht1 ht2a hsa
      have hslot3 : (st.handles.set i r3)[i]? = some r3 :=
        List.getElem?_set_self (getElem?_some_lt hslot)
      exact ⟨r1a, r2a, t1, t2a, r3, t3, rfl, rfl, ht1, hb1, ht2a, hb2,
        hslot3, ht3, her3⟩

/-- C1: in every reachable state, the release log holds exactly one entry
for each payload that was created with a release callback and has died, and
none for any other payload (release-once); each entry carries the creation
key and value; and a payload with a log entry is owned by no node reachable
from any live handle, so the callback fired only after no handle or clone
observed the binding. -/
theorem C1_release_once (ops : List (Op K V)) (st2 : Sys K V)
    (h : runOps initSys ops = some st2) :
    (∀ (p : Nat) (pl : HPayload K V), st2.heap.payloads[p]? = some pl →
      (st2.heap.log.filter (fun e => e.1 = p)).length =
        (if pl.gHadRelease = true ∧ pl.refCount ≤ 0 then 1 else 0)) ∧
    (∀ e ∈ st2.heap.log, ∃ pl : HPayload K V,
      st2.heap.payloads[e.1]? = some pl ∧ e.2.1 = pl.key ∧
      e.2.2 = pl.gValue) ∧
    (∀ e ∈ st2.heap.log, ∀ r : Nat, some r ∈ st2.handles →
      ∀ (f : Nat) (t : ITree K V), treeOf f st2.heap (some r) = some t →
      ∀ x ∈ tids t, ∀ nd : HNode K, st2.heap.nodes[x]? = some nd →
        nd.pid ≠ e.1) := by
  obtain ⟨hinv, htrees⟩ := runOps_inv ops sysInv_init h
  refine ⟨hinv.logCount, hinv.logContent, ?_⟩
  intro e he r hr f t ht x hx nd hnd hpid
  obtain ⟨pl, hpl, hk, hv⟩ := hinv.logContent e he
  have hmem : e ∈ st2.heap.log.filter (fun q => q.1 = e.1) :=
    List.mem_filter.mpr ⟨he, by simp⟩
  have hlen1 : 0 < (st2.heap.log.filter (fun q => q.1 = e.1)).length :=
    List.length_pos.mpr (List.ne_nil_of_mem hmem)
  have hlc := hinv.logCount e.1 pl hpl
  have hdead : pl.refCount ≤ 0 := by
    by_cases hc : pl.gHadRelease = true ∧ pl.refCount ≤ 0
    · exact hc.2
    · rw [if_neg hc] at hlc
      omega
  have hpc := hinv.payCount e.1
  rw [payRC_eq hpl, pdemand] at hpc
  simp only [List.count_nil] at hpc
  have hrl : isLive st2.heap r :=
    live_of_count hinv (one_le_count_mem (mem_filterMap_id hr))
  have hxl : isLive st2.heap x := tree_live hinv t f r ht hrl x hx
  obtain ⟨nd2, hnd2, hrc2⟩ := isLive_some hxl
  rw [hnd] at hnd2
  cases hnd2
  have hlo := liveOwns_lb hnd hrc2
  rw [hpid] at hlo
  have hpos : (1 : Int) ≤ pl.refCount := by
    rw [hpc]
    exact_mod_cast (by omega : 1 ≤ 0 + liveOwns st2.heap e.1)
  omega

theorem C1_witness : ∃ st2 : Sys Nat Nat,
    runOps initSys [Op.newH, Op.set 0 1 10 true 5, Op.destroy 0] =
      some st2 ∧
    st2.heap.log = [(0, 1, 10)] ∧
    (∀ (p : Nat) (pl : HPayload Nat Nat), st2.heap.payloads[p]? = some pl →
      (st2.heap.log.filter (fun e => e.1 = p)).length =
        (if pl.gHadRelease = true ∧ pl.refCount ≤ 0 then 1 else 0)) := by
  rcases hrun : runOps (initSys : Sys Nat Nat)
      [Op.newH, Op.set 0 1 10 true 5, Op.destroy 0] with _ | st2
  · exact absurd hrun (by decide)
  refine ⟨st2, rfl, ?_, (C1_release_once _ st2 hrun).1⟩
  have hm : (runOps (initSys : Sys Nat Nat)
      [Op.newH, Op.set 0 1 10 true 5, Op.destroy 0]).map
        (fun s => s.heap.log) = some [(0, 1, 10)] := by decide
  rw [hrun] at hm
  simp only [Option.map] at hm
  exact Option.some.inj hm

/-- C2: `clone i` adds a fresh handle sharing `i`'s root; afterwards, any
run of operations none of which mutates slot `i` — in particular any
sequence of mutations addressed to the clone's slot — leaves slot `i`'s
root and `Range` sequence exactly as they were at the moment of the clone,
which in turn equals the pre-clone sequence. -/
theorem C2_clone_isolation [Inhabited V] (pre ops : List (Op K V))
    (st0 st1 st2 : Sys K V) (i : Nat) (o : Option Nat)
    (hpre : runOps initSys pre = some st0)
    (hslot : st0.handles[i]? = some o)
    (hclone : applyOp st0 (.clone i) = some st1)
    (hmut : ∀ op ∈ ops, mutTarget op ≠ some i)
    (hrun : runOps st1 ops = some st2) :
    st2.handles[i]? = some o ∧
    rangeH st2 i = rangeH st0 i ∧ rangeH st1 i = rangeH st0 i := by
  have hsi0 := runOps_inv pre sysInv_init hpre
  have hsi1 := (applyOp_spec hsi0 hclone).1
  obtain ⟨t, ht, hb, hw⟩ := sysTree hsi0 hslot
  obtain ⟨hj1, hk1⟩ := applyOp_keep hsi0 hclone (by simp [mutTarget]) hslot
  have ht1 := hk1 t ht
  obtain ⟨hj2, hk2⟩ := runOps_keep ops hsi1 hrun hmut hj1
  have ht2 := hk2 t ht1
  refine ⟨hj2, ?_, ?_⟩
  · rw [rangeH_eq hj2 ht2, rangeH_eq hslot ht]
  · rw [rangeH_eq hj1 ht1, rangeH_eq hslot ht]

theorem C2_witness : ∃ (st0 st1 st2 : Sys Nat Nat) (o : Option Nat),
    runOps initSys [Op.newH, Op.set 0 1 10 false 5] = some st0 ∧
    st0.handles[0]? = some o ∧
    applyOp st0 (Op.clone 0) = some st1 ∧
    runOps st1 [Op.set 1 2 20 false 3, Op.del 1 1] = some st2 ∧
    st2.handles[0]? = some o ∧
    rangeH st2 0 = rangeH st0 0 ∧ rangeH st1 0 = rangeH st0 0 := by
  rcases hrun : runOps (initSys : Sys Nat Nat)
      [Op.newH, Op.set 0 1 10 false 5] with _ | st0
  · exact absurd hrun (by decide)
  rcases hslot : st0.handles[0]? with _ | o
  · have hm : (runOps (initSys : Sys Nat Nat)
        [Op.newH, Op.set 0 1 10 false 5]).map
          (fun s => (s.handles[0]?).isSome) = some true := by decide
    rw [hrun] at hm
    simp only [Option.map] at hm
    rw [hslot] at hm
    exact absurd (Option.some.inj hm) (by decide)
  rcases hcl : applyOp st0 (Op.clone 0) with _ | st1
  · have hm : (runOps (initSys : Sys Nat Nat)
        [Op.newH, Op.set 0 1 10 false 5]).map
          (fun s => (applyOp s (Op.clone 0)).isSome) = some true := by decide
    rw [hrun] at hm
    simp only [Option.map] at hm
    rw [hcl] at hm
    exact absurd (Option.some.inj hm) (by decide)
  rcases hr2 : runOps st1 [Op.set 1 2 20 false 3, Op.del 1 1] with _ | st2
  · have hm : (runOps (initSys : Sys Nat Nat)
        [Op.newH, Op.set 0 1 10 false 5]).map
          (fun s => (match applyOp s (Op.clone 0) with
                     | none => none
                     | some s1 =>
                       runOps s1 [Op.set 1 2 20 false 3,
                         Op.del 1 1]).isSome) = some true := by decide
    rw [hrun] at hm
    simp only [Option.map] at hm
    rw [hcl] at hm
    dsimp only at hm
    rw [hr2] at hm
    exact absurd (Option.some.inj hm) (by decide)
  obtain ⟨h1, h2, h3⟩ := C2_clone_isolation [Op.newH, Op.set 0 1 10 false 5]
    [Op.set 1 2 20 false 3, Op.del 1 1] st0 st1 st2 0 o hrun hslot hcl
    (by decide) hr2
  exact ⟨st0, st1, st2, o, rfl, hslot, hcl, hr2, h1, h2, h3⟩

/-- C3: immediately after `set i k v rel w` — `Set`, or `SetWithRelease`
through which it delegates — `Get` on that handle returns `(v, true)`,
whatever the handle held before. -/
theorem C3_set_get [Inhabited V] (ops : List (Op K V)) (st st2 : Sys K V)
    (i : Nat) (k : K) (v : V) (rel : Bool) (w : Nat) (o : Option Nat)
    (hrun : runOps initSys ops = some st)
    (hset : applyOp st (.set i k v rel w) = some st2)
    (ho : st2.handles[i]? = some o) :
    (Get st2.heap o k).2 = (v, true) := by
  have hsi := runOps_inv ops sysInv_init hrun
  obtain ⟨o0, t, r2, t2, hslot, ht, hbst, hslot2, ht2, her2⟩ :=
    applyOp_set_content hsi hset
  have h3 : some o = some r2 := by
    rw [← ho]
    exact hslot2
  have ho2 : o = r2 := Option.some.inj h3
  subst ho2
  show get (dFuel st2.heap) st2.heap o k = (v, true)
  rw [get_agree (dFuel st2.heap) st2.heap o t2 k ht2, PM.get_eq_lookup,
    her2, PM.lookup_set (erase t) k v w hbst]

theorem C3_witness : ∃ (st2 : Sys Nat Nat) (o : Option Nat),
    applyOp (⟨⟨[], [], []⟩, [none]⟩ : Sys Nat Nat)
      (Op.set 0 1 10 false 5) = some st2 ∧
    st2.handles[0]? = some o ∧
    (Get st2.heap o 1).2 = (10, true) := by
  rcases hy : applyOp (⟨⟨[], [], []⟩, [none]⟩ : Sys Nat Nat)
      (Op.set 0 1 10 false 5) with _ | st2
  · exact absurd hy (by decide)
  rcases hz : st2.handles[0]? with _ | o
  · have hm : (applyOp (⟨⟨[], [], []⟩, [none]⟩ : Sys Nat Nat)
        (Op.set 0 1 10 false 5)).map
          (fun s => (s.handles[0]?).isSome) = some true := by decide
    rw [hy] at hm
    simp only [Option.map] at hm
    rw [hz] at hm
    exact absurd (Option.some.inj hm) (by decide)
  exact ⟨st2, o, rfl, hz,
    C3_set_get [Op.newH] ⟨⟨[], [], []⟩, [none]⟩ st2 0 1 10 false 5 o rfl
      hy hz⟩

/-- C4: on the same handle, `set k v1` followed by `set k v2` leaves `Get k`
returning `(v2, true)`; and in the concrete single-handle overwrite runs —
with the first binding installed with a release callback, for either weight
order — the release log ends as exactly the one entry `(0, 1, 10)`:
`release(k, v1)` fired exactly once, by the time the second `Set`
returned. -/
theorem C4_overwrite_release [Inhabited V] :
    (∀ (ops : List (Op K V)) (st st1 st2 : Sys K V) (i : Nat) (k : K)
      (v1 v2 : V) (b1 b2 : Bool) (w1 w2 : Nat) (o : Option Nat),
      runOps initSys ops = some st →
      applyOp st (.set i k v1 b1 w1) = some st1 →
      applyOp st1 (.set i k v2 b2 w2) = some st2 →
      st2.handles[i]? = some o →
      (Get st2.heap o k).2 = (v2, true)) ∧
    (∀ st2 : Sys Nat Nat, runOps initSys
        [Op.newH, Op.set 0 1 10 true 5, Op.set 0 1 20 false 3] = some st2 →
      st2.heap.log = [(0, 1, 10)]) ∧
    (∀ st2 : Sys Nat Nat, runOps initSys
        [Op.newH, Op.set 0 1 10 true 3, Op.set 0 1 20 false 5] = some st2 →
      st2.heap.log = [(0, 1, 10)]) := by
  refine ⟨?_, ?_, ?_⟩
  · intro ops st st1 st2 i k v1 v2 b1 b2 w1 w2 o hrun h1 h2 ho
    have hsi := runOps_inv ops sysInv_init hrun
    have hsi1 := (applyOp_spec hsi h1).1
    obtain ⟨o0, t, r2, t2, hslot, ht, hbst, hslot2, ht2, her2⟩ :=
      applyOp_set_content hsi1 h2
    have h3 : some o = some r2 := by
      rw [← ho]
      exact hslot2
    have ho2 : o = r2 := Option.some.inj h3
    subst ho2
    show get (dFuel st2.heap) st2.heap o k = (v2, true)
    rw [get_agree (dFuel st2.heap) st2.heap o t2 k ht2, PM.get_eq_lookup,
      her2, PM.lookup_set (erase t) k v2 w2 hbst]
  · intro st2 h
    have hm : (runOps (initSys : Sys Nat Nat)
        [Op.newH, Op.set 0 1 10 true 5, Op.set 0 1 20 false 3]).map
          (fun s => s.heap.log) = some [(0, 1, 10)] := by decide
    rw [h] at hm
    simp only [Option.map] at hm
    exact Option.some.inj hm
  · intro st2 h
    have hm : (runOps (initSys : Sys Nat Nat)
        [Op.newH, Op.set 0 1 10 true 3, Op.set 0 1 20 false 5]).map
          (fun s => s.heap.log) = some [(0, 1, 10)] := by decide
    rw [h] at hm
    simp only [Option.map] at hm
    exact Option.some.inj hm

/-- C5: `setAll i j` replaces slot `i`'s bindings by the key-wise union of
its old bindings with slot `j`'s — slot `j`'s value winning on every shared
key — while slot `j` keeps its root and yields exactly the same `Range`
sequence: the other map is borrowed, not consumed. -/
theorem C5_setall_union [Inhabited V] (ops : List (Op K V)) (st st2 : Sys K V)
    (i j2 : Nat) (o2 : Option Nat)
    (hrun : runOps initSys ops = some st)
    (hne : i ≠ j2)
    (hj : st.handles[j2]? = some o2)
    (hsa : applyOp st (.setAll i j2) = some st2) :
    (∃ o1 t1 t2 r3 t3, st.handles[i]? = some o1 ∧
      treeOf (dFuel st.heap) st.heap o1 = some t1 ∧
      treeOf (dFuel st.heap) st.heap o2 = some t2 ∧
      st2.handles[i]? = some r3 ∧
      treeOf (dFuel st2.heap) st2.heap r3 = some t3 ∧
      (∀ q : K, PM.lookup (erase t3) q =
        PM.pick (PM.lookup (erase t2) q) (PM.lookup (erase t1) q))) ∧
    st2.handles[j2]? = some o2 ∧ rangeH st2 j2 = rangeH st j2 := by
  have hsi := runOps_inv ops sysInv_init hrun
  obtain ⟨o1, o2x, t1, t2, r3, t3, hs1, hs2, ht1, hb1, ht2, hb2, hs3, ht3,
    her3⟩ := applyOp_setAll_content hsi hsa
  have h3 : some o2x = some o2 := by
    rw [← hs2]
    exact hj
  have ho2 : o2x = o2 := Option.some.inj h3
  subst ho2
  obtain ⟨hjkeep, hk⟩ := applyOp_keep hsi hsa
    (by
      show some i ≠ some j2
      intro hc
      exact hne (Option.some.inj hc)) hj
  obtain ⟨t2b, ht2b, -, -⟩ := sysTree hsi hj
  have ht2eq : t2b = t2 := by
    rw [ht2b] at ht2
    exact Option.some.inj ht2
  subst ht2eq
  refine ⟨⟨o1, t1, t2b, r3, t3, hs1, ht1, ht2, hs3, ht3, ?_⟩, hjkeep, ?_⟩
  · intro q
    rw [her3, PM.setAll,
      PM.union_lookup q (erase t1) (erase t2b) true hb1 hb2]
    rw [if_pos rfl]
  · rw [rangeH_eq hjkeep (hk t2b ht2b), rangeH_eq hj ht2b]

theorem C5_witness : ∃ (st st2 : Sys Nat Nat) (o2 : Option Nat),
    runOps initSys [Op.newH, Op.newH, Op.set 0 1 10 false 5,
      Op.set 1 2 20 false 3] = some st ∧
    st.handles[1]? = some o2 ∧
    applyOp st (Op.setAll 0 1) = some st2 ∧
    ((∃ o1 t1 t2 r3 t3, st.handles[0]? = some o1 ∧
      treeOf (dFuel st.heap) st.heap o1 = some t1 ∧
      treeOf (dFuel st.heap) st.heap o2 = some t2 ∧
      st2.handles[0]? = some r3 ∧
      treeOf (dFuel st2.heap) st2.heap r3 = some t3 ∧
      (∀ q : Nat, PM.lookup (erase t3) q =
        PM.pick (PM.lookup (erase t2) q) (PM.lookup (erase t1) q))) ∧
    st2.handles[1]? = some o2 ∧ rangeH st2 1 = rangeH st 1) := by
  rcases hrun : runOps (initSys : Sys Nat Nat) [Op.newH, Op.newH,
      Op.set 0 1 10 false 5, Op.set 1 2 20 false 3] with _ | st
  · exact absurd hrun (by decide)
  rcases hj : st.handles[1]? with _ | o2
  · have hm : (runOps (initSys : Sys Nat Nat) [Op.newH, Op.newH,
        Op.set 0 1 10 false 5, Op.set 1 2 20 false 3]).map
          (fun s => (s.handles[1]?).isSome) = some true := by decide
    rw [hrun] at hm
    simp only [Option.map] at hm
    rw [hj] at hm
    exact absurd (Option.some.inj hm) (by decide)
  rcases hsa : applyOp st (Op.setAll 0 1) with _ | st2
  · have hm : (runOps (initSys : Sys Nat Nat) [Op.newH, Op.newH,
        Op.set 0 1 10 false 5, Op.set 1 2 20 false 3]).map
          (fun s => (applyOp s (Op.setAll 0 1)).isSome) = some true := by
      decide
    rw [hrun] at hm
    simp only [Option.map] at hm
    rw [hsa] at hm
    exact absurd (Option.some.inj hm) (by decide)
  exact ⟨st, st2, o2, rfl, hj, hsa,
    C5_setall_union [Op.newH, Op.newH, Op.set 0 1 10 false 5,
      Op.set 1 2 20 false 3] st st2 0 1 o2 hrun (by decide) hj hsa⟩

/-- C6: after `del i k`, slot `i` hangs a tree in which `k` is absent while
every other key is unchanged; when `k` was already absent the operation is a
silent no-op returning the heap and the root literally unchanged; and in the
concrete run deleting the only binding of a key stored with a release
callback, the log ends as exactly the one entry `(0, 1, 10)`: the callback
fired exactly once. -/
theorem C6_delete_absent [Inhabited V] :
    (∀ (ops : List (Op K V)) (st st2 : Sys K V) (i : Nat) (k : K),
      runOps initSys ops = some st → applyOp st (.del i k) = some st2 →
      ∃ o t r2 t2, st.handles[i]? = some o ∧
        treeOf (dFuel st.heap) st.heap o = some t ∧
        st2.handles[i]? = some r2 ∧
        treeOf (dFuel st2.heap) st2.heap r2 = some t2 ∧
        PM.lookup (erase t2) k = none ∧
        (∀ q, q ≠ k → PM.lookup (erase t2) q = PM.lookup (erase t) q) ∧
        (PM.lookup (erase t) k = none → st2.heap = st.heap ∧ r2 = o)) ∧
    (∀ st2 : Sys Nat Nat,
      runOps initSys [Op.newH, Op.set 0 1 10 true 5, Op.del 0 1] =
        some st2 → st2.heap.log = [(0, 1, 10)]) := by
  constructor
  · intro ops st st2 i k hrun hdel
    have hsi := runOps_inv ops sysInv_init hrun
    obtain ⟨o, t, r2, t2, hs1, ht, hbst, hs2, ht2, her2, hmiss⟩ :=
      applyOp_del_content hsi hdel
    refine ⟨o, t, r2, t2, hs1, ht, hs2, ht2, ?_, ?_, ?_⟩
    · rw [her2]
      exact PM.lookup_delete_self (erase t) k hbst
    · intro q hq
      rw [her2]
      exact PM.lookup_delete_other (erase t) k q hbst hq
    · intro habs
      refine hmiss ?_
      rw [PM.split_true_none (erase t) k habs]
  · intro st2 h
    have hm : (runOps (initSys : Sys Nat Nat)
        [Op.newH, Op.set 0 1 10 true 5, Op.del 0 1]).map
          (fun s => s.heap.log) = some [(0, 1, 10)] := by decide
    rw [h] at hm
    simp only [Option.map] at hm
    exact Option.some.inj hm

/-- C7: after every sequence of operations from the empty world, every
non-empty handle hangs a reified tree on which the treap invariant holds:
the key order is a binary search tree and every node's weight dominates its
children's (so it holds at every node reachable from a live handle's
root). -/
theorem C7_treap_invariant (ops : List (Op K V)) (st2 : Sys K V)
    (h : runOps initSys ops = some st2) :
    ∀ r : Nat, some r ∈ st2.handles →
      ∃ t, treeOf (dFuel st2.heap) st2.heap (some r) = some t ∧
        PM.BST (erase t) ∧ PM.HeapW (erase t) :=
  (runOps_inv ops sysInv_init h).2

theorem C7_witness : ∃ st2 : Sys Nat Nat,
    runOps initSys [Op.newH, Op.newH, Op.set 0 1 10 false 5,
      Op.set 0 2 20 false 3, Op.setAll 1 0] = some st2 ∧
    ∀ r : Nat, some r ∈ st2.handles →
      ∃ t, treeOf (dFuel st2.heap) st2.heap (some r) = some t ∧
        PM.BST (erase t) ∧ PM.HeapW (erase t) := by
  rcases hrun : runOps (initSys : Sys Nat Nat) [Op.newH, Op.newH,
      Op.set 0 1 10 false 5, Op.set 0 2 20 false 3, Op.setAll 1 0]
    with _ | st2
  · exact absurd hrun (by decide)
  exact ⟨st2, rfl, C7_treap_invariant _ st2 hrun⟩

/-- C8 counterexample: in the reachable state after
`newH; newH; set 0 1 10 _ 5; set 1 1 20 _ 3; setAll 0 1`, the live node 3
was produced by `shallowCloneWithRef` from node 2 (recorded in `gSrc`), yet
carries weight 5 while node 2 carries weight 3: `union` overwrites the
clone's weight with the primary root's weight (`result.weight =
first.weight`, pmap.go:242), so a shallow clone does not keep the weight of
the node it was cloned from. -/
theorem C8_counterexample :
    ∃ st2 : Sys Nat Nat,
      runOps initSys [Op.newH, Op.newH, Op.set 0 1 10 false 5,
        Op.set 1 1 20 false 3, Op.setAll 0 1] = some st2 ∧
      ∃ ndb nda : HNode Nat, st2.heap.nodes[3]? = some ndb ∧
        ndb.gSrc = some 2 ∧ st2.heap.nodes[2]? = some nda ∧
        isLive st2.heap 3 ∧ ndb.weight = 5 ∧ nda.weight = 3 := by
  refine ⟨⟨⟨[⟨1, 0, 5, 0, none, none, none⟩, ⟨1, 1, 3, 1, none, none, none⟩,
      ⟨1, 1, 3, 0, none, none, some 1⟩, ⟨1, 1, 5, 1, none, none, some 2⟩],
      [⟨0, none, false, 1, 10, false⟩, ⟨2, some 20, false, 1, 20, false⟩],
      []⟩, [some 3, some 1]⟩, by decide,
    ⟨1, 1, 5, 1, none, none, some 2⟩, ⟨1, 1, 3, 0, none, none, some 1⟩,
    by decide, rfl, by decide, ?_, rfl, rfl⟩
  rw [isLive]
  decide

/-- C8 amended: weight immutability holds for every node that exists before
an operation — no operation ever changes an allocated node's weight — but
the copy clause must be weakened: a shallow clone taken inside `union` has
its weight overwritten with the primary root's weight before the operation
returns, so clones do not in general carry their source node's weight
(see the counterexample). -/
theorem C8_weight_amended {st st2 : Sys K V} {op : Op K V} (hsi : SysInv st)
    (h : applyOp st op = some st2) :
    ∀ (a : Nat) (nd : HNode K), st.heap.nodes[a]? = some nd →
      ∃ nd2, st2.heap.nodes[a]? = some nd2 ∧ nd2.weight = nd.weight := by
  obtain ⟨-, hfr, -, -⟩ := applyOp_spec hsi h
  intro a nd hnd
  obtain ⟨nd2, hnd2, hs⟩ := hfr.1 a nd hnd
  exact ⟨nd2, hnd2, hs.2.2.1⟩

theorem C8_witness : ∃ (st st2 : Sys Nat Nat),
    runOps initSys [Op.newH, Op.set 0 1 10 false 5] = some st ∧
    applyOp st (Op.del 0 1) = some st2 ∧
    ∀ (a : Nat) (nd : HNode Nat), st.heap.nodes[a]? = some nd →
      ∃ nd2, st2.heap.nodes[a]? = some nd2 ∧ nd2.weight = nd.weight := by
  rcases hrun : runOps (initSys : Sys Nat Nat)
      [Op.newH, Op.set 0 1 10 false 5] with _ | st
  · exact absurd hrun (by decide)
  rcases hap : applyOp st (Op.del 0 1) with _ | st2
  · have hm : (runOps (initSys : Sys Nat Nat)
        [Op.newH, Op.set 0 1 10 false 5]).map
          (fun s => (applyOp s (Op.del 0 1)).isSome) = some true := by decide
    rw [hrun] at hm
    simp only [Option.map] at hm
    rw [hap] at hm
    exact absurd (Option.some.inj hm) (by decide)
  exact ⟨st, st2, rfl, hap,
    C8_weight_amended (runOps_inv _ sysInv_init hrun) hap⟩

/-- C9: a `requireMid` split that reports no mid returns the heap exactly as
it was handed in — no node count, payload count, allocation or log entry
moved — together with three empty references: the short-circuit path leaks
no reference. -/
theorem C9_requireMid_no_leak (fuel : Nat) (s : Heap K V) (n : Option Nat)
    (key : K) (hm : (split fuel s n key true).2.2.1 = none) :
    (split fuel s n key true).1 = s ∧
    (split fuel s n key true).2.1 = none ∧
    (split fuel s n key true).2.2.2 = none := by
  have h := split_requireMid_miss fuel s n key hm
  rw [h]
  exact ⟨rfl, rfl, rfl⟩

theorem C9_witness :
    (split 2 (⟨[⟨1, 0, 5, 1, none, none, none⟩],
        [⟨1, some 10, false, 1, 10, false⟩], []⟩ : Heap Nat Nat)
      (some 0) 2 true).1 =
      ⟨[⟨1, 0, 5, 1, none, none, none⟩],
        [⟨1, some 10, false, 1, 10, false⟩], []⟩ ∧
    (split 2 (⟨[⟨1, 0, 5, 1, none, none, none⟩],
        [⟨1, some 10, false, 1, 10, false⟩], []⟩ : Heap Nat Nat)
      (some 0) 2 true).2.1 = none ∧
    (split 2 (⟨[⟨1, 0, 5, 1, none, none, none⟩],
        [⟨1, some 10, false, 1, 10, false⟩], []⟩ : Heap Nat Nat)
      (some 0) 2 true).2.2.2 = none :=
  C9_requireMid_no_leak 2 _ (some 0) 2 (by decide)

/-- C10: on a handle of any reachable state in which `k` is not bound — the
tree lookup misses, as on a freshly created empty handle — `Get` returns
the zero value of `V` together with `false`, and hands the heap back
untouched: no count and no structure moved. -/
theorem C10_get_absent [Inhabited V] (ops : List (Op K V)) (st : Sys K V)
    (i : Nat) (o : Option Nat) (k : K) (t : ITree K V)
    (hrun : runOps initSys ops = some st)
    (hslot : st.handles[i]? = some o)
    (ht : treeOf (dFuel st.heap) st.heap o = some t)
    (habs : PM.lookup (erase t) k = none) :
    Get st.heap o k = (st.heap, default, false) := by
  rw [Get, get_agree (dFuel st.heap) st.heap o t k ht, PM.get_eq_lookup,
    habs]

theorem C10_witness :
    Get (⟨[], [], []⟩ : Heap Nat Nat) none 7 = (⟨[], [], []⟩, 0, false) :=
  C10_get_absent [Op.newH] ⟨⟨[], [], []⟩, [none]⟩ 0 none 7 .nil rfl rfl rfl
    rfl

end HM
